import Mathlib

/-!
# Partitioned-memory process scheduler simulator

A shallow embedding of `interrupts_101311131_101311339.hpp` and of the three
engines `..._EP.cpp`, `..._EP_RR.cpp` and `..._RR.cpp`.

* `unsigned int` values are natural numbers below `2 ^ 32`; every arithmetic
  operation of the source that can wrap is reduced modulo `2 ^ 32`, either
  with an explicit `% 2 ^ 32` or through `u32_dec` and `u32_sub`.
* `int` values are integers; the conversions between the two that the source
  performs implicitly are `toInt` and `toUnsigned`.
* The global array `memory_paritions` and the local variables of
  `run_simulation` are threaded through explicitly.
* The text that `print_exec_status` appends to `execution_status` is kept as
  the structured row it is printed from (`Event`).
-/

namespace Sim

/-! ## Machine integers -/

/-- Conversion `unsigned int -> int` (two's complement). -/
def toInt (n : Nat) : Int :=
  if n < 2 ^ 31 then (n : Int) else (n : Int) - ((2 ^ 32 : Nat) : Int)

/-- Conversion `int -> unsigned int` (reduction modulo `2 ^ 32`). -/
def toUnsigned (i : Int) : Nat :=
  (i % ((2 ^ 32 : Nat) : Int)).toNat

/-- `x--` on an `unsigned int`: `(x + 2 ^ 32 - 1) % 2 ^ 32`, written by cases
(see `u32_dec_eq`). -/
def u32_dec (x : Nat) : Nat :=
  if x = 0 then 2 ^ 32 - 1 else x - 1

/-- `a - b` on two `unsigned int`: `(a + 2 ^ 32 - b) % 2 ^ 32`, written by
cases (see `u32_sub_eq`). -/
def u32_sub (a b : Nat) : Nat :=
  if b ≤ a then a - b else 2 ^ 32 - (b - a)

/-! ## Data model (`interrupts_101311131_101311339.hpp`, lines 22-68) -/

inductive states where
  | NEW
  | READY
  | RUNNING
  | WAITING
  | TERMINATED
  | NOT_ASSIGNED
  deriving DecidableEq, Repr

structure memory_partition where
  partition_number : Nat
  size : Nat
  occupied : Int
  deriving DecidableEq, Repr

/-- The global table, in its initial state (all partitions free). -/
def memory_paritions : List memory_partition :=
  [ ⟨1, 40, -1⟩, ⟨2, 25, -1⟩, ⟨3, 15, -1⟩, ⟨4, 10, -1⟩, ⟨5, 8, -1⟩, ⟨6, 2, -1⟩ ]

structure PCB where
  PID : Int
  size : Nat
  arrival_time : Nat
  start_time : Int
  processing_time : Nat
  remaining_time : Nat
  partition_number : Int
  state : states
  io_freq : Nat
  io_duration : Nat
  deriving DecidableEq, Repr

/-! ## The allocator (`assign_memory`, `free_memory`) -/

/-- The loop `for (int i = 5; i >= 0; i--)` of `assign_memory`; the argument
`i + 1` stands for the loop variable having the value `i`, and `0` for the
loop having run out. -/
def assign_memory_loop (mem : List memory_partition) (program : PCB) :
    Nat → Bool × List memory_partition × PCB
  | 0 => (false, mem, program)
  | i + 1 =>
    match mem[i]? with
    | some part =>
      if toInt program.size ≤ toInt part.size ∧ part.occupied = -1 then
        (true, mem.set i { part with occupied := program.PID },
          { program with partition_number := toInt part.partition_number })
      else assign_memory_loop mem program i
    | none => assign_memory_loop mem program i

/-- `bool assign_memory(PCB &program)`: the returned flag, the table and the
process after the call. -/
def assign_memory (mem : List memory_partition) (program : PCB) :
    Bool × List memory_partition × PCB :=
  assign_memory_loop mem program 6

/-- The loop `for (int i = 5; i >= 0; i--)` of `free_memory`. -/
def free_memory_loop (mem : List memory_partition) (program : PCB) :
    Nat → Bool × List memory_partition × PCB
  | 0 => (false, mem, program)
  | i + 1 =>
    match mem[i]? with
    | some part =>
      if program.PID = part.occupied then
        (true, mem.set i { part with occupied := -1 },
          { program with partition_number := -1 })
      else free_memory_loop mem program i
    | none => free_memory_loop mem program i

/-- `bool free_memory(PCB &program)`. -/
def free_memory (mem : List memory_partition) (program : PCB) :
    Bool × List memory_partition × PCB :=
  free_memory_loop mem program 6

/-- A state of the six-partition table: the capacities and the partition
numbers are those of `memory_paritions`, the occupants are arbitrary. -/
def table_ok (mem : List memory_partition) : Prop :=
  mem.map (fun p => p.size) = [40, 25, 15, 10, 8, 2] ∧
  mem.map (fun p => p.partition_number) = [1, 2, 3, 4, 5, 6]


/-- The admission test of `assign_memory` on one partition:
`size_to_fit <= available_size && memory_paritions[i].occupied == -1`. -/
def fits (program : PCB) (part : memory_partition) : Prop :=
  toInt program.size ≤ toInt part.size ∧ part.occupied = -1

/-! ## Helpers of the engines (`interrupts_101311131_101311339.hpp`) -/

/-- One row of the transition log: the arguments of `print_exec_status`. -/
structure Event where
  time : Nat
  PID : Int
  old_state : states
  new_state : states
  deriving DecidableEq, Repr

/-- `sync_queue`: every entry with the PID of `_process` is overwritten. -/
def sync_queue (process_queue : List PCB) (_process : PCB) : List PCB :=
  process_queue.map (fun process => if process.PID = _process.PID then _process else process)

/-- `all_process_terminated`. -/
def all_process_terminated (processes : List PCB) : Bool :=
  processes.all (fun process => decide (process.state = states.TERMINATED))

/-- `idle_CPU`: every field of the running slot is overwritten. -/
def idle_CPU : PCB :=
  { PID := -1, size := 0, arrival_time := 0, start_time := 0, processing_time := 0,
    remaining_time := 0, partition_number := 0, state := states.NOT_ASSIGNED,
    io_freq := 0, io_duration := 0 }

/-- The variables of `run_simulation` together with the global partition
table.  `time_slice_counter` exists in the EP_RR and RR engines only; the EP
engine never touches it.  `memory_status` holds one snapshot of the table per
call of `get_memory_status`. -/
structure SimState where
  list_processes : List PCB
  ready_queue : List PCB
  wait_queue : List PCB
  job_list : List PCB
  mem : List memory_partition
  current_time : Nat
  time_slice_counter : Nat
  running : PCB
  execution_status : List Event
  memory_status : List (Nat × List memory_partition)
  deriving DecidableEq, Repr

/-- The state on entry to the `while` loop, all partitions free. -/
def init (list_processes : List PCB) : SimState :=
  { list_processes := list_processes, ready_queue := [], wait_queue := [], job_list := [],
    mem := memory_paritions, current_time := 0, time_slice_counter := 0,
    running := idle_CPU, execution_status := [], memory_status := [] }

/-! ### The single assignments to a process record

Each of the following is one group of assignments of the source to the fields
of one `PCB`. -/

/-- `p.state = READY; p.start_time = -1;` (the wait-queue sweep). -/
def wake (p : PCB) : PCB :=
  { p with state := states.READY, start_time := -1 }

/-- `running.remaining_time--;` -/
def work (r : PCB) : PCB :=
  { r with remaining_time := u32_dec r.remaining_time }

/-- `running.state = WAITING; running.start_time = current_time + 1;` at the
time `t`. -/
def to_wait (t : Nat) (r : PCB) : PCB :=
  { r with state := states.WAITING, start_time := toInt ((t + 1) % 2 ^ 32) }

/-- `running.remaining_time = 0; running.state = TERMINATED;`
(`terminate_process`). -/
def terminated (r : PCB) : PCB :=
  { r with remaining_time := 0, state := states.TERMINATED }

/-- `running.start_time = current_time; running.state = RUNNING;` at the time
`t` (`run_process`, and the dispatch of `..._RR.cpp`). -/
def to_run (t : Nat) (p : PCB) : PCB :=
  { p with start_time := toInt t, state := states.RUNNING }

/-- `running.state = READY;` (the preemptions). -/
def to_ready (r : PCB) : PCB :=
  { r with state := states.READY }

/-- The I/O test `running.io_freq > 0 && (time_spent % running.io_freq == 0)`
with `int time_spent = running.processing_time - running.remaining_time`; the
remainder is taken in `unsigned int`. -/
def io_due (r : PCB) : Bool :=
  decide (r.io_freq > 0 ∧
    toUnsigned (toInt (u32_sub r.processing_time r.remaining_time)) % r.io_freq = 0)

/-- The test `current_time - it->start_time >= it->io_duration`, in
`unsigned int` arithmetic. -/
def io_done (current_time : Nat) (p : PCB) : Bool :=
  decide (u32_sub current_time (toUnsigned p.start_time) ≥ p.io_duration)

/-! ### Helpers on the state -/

/-- `terminate_process(running, job_queue)`. -/
def terminate_process (s : SimState) : SimState :=
  { s with
    running := (free_memory s.mem (terminated s.running)).2.2,
    mem := (free_memory s.mem (terminated s.running)).2.1,
    job_list := sync_queue s.job_list (free_memory s.mem (terminated s.running)).2.2 }

/-- `run_process(running, job_queue, ready_queue, current_time)`.  The
callers test `!ready_queue.empty()` first, so the `none` branch is never
taken. -/
def run_process (s : SimState) : SimState :=
  match s.ready_queue.getLast? with
  | none => s
  | some p =>
    { s with running := to_run s.current_time p,
             ready_queue := s.ready_queue.dropLast,
             job_list := sync_queue s.job_list (to_run s.current_time p) }

/-! ## The parts of a tick that the three engines share verbatim -/

/-- The wait-queue sweep; the list argument is the part of `wait_queue` the
iterator has not visited yet, `s.wait_queue` the part it has kept. -/
def manage_wait_queue_loop (s : SimState) : List PCB → SimState
  | [] => s
  | p :: rest =>
    if io_done s.current_time p = true then
      manage_wait_queue_loop
        { s with ready_queue := s.ready_queue ++ [wake p],
                 job_list := sync_queue s.job_list (wake p),
                 execution_status := s.execution_status ++
                   [Event.mk s.current_time (wake p).PID states.WAITING states.READY] } rest
    else
      manage_wait_queue_loop { s with wait_queue := s.wait_queue ++ [p] } rest

def manage_wait_queue (s : SimState) : SimState :=
  manage_wait_queue_loop { s with wait_queue := [] } s.wait_queue

/-- The admission sweep over `list_processes`; the list argument is the part
the iterator has not visited yet, `s.list_processes` the part it has kept. -/
def admission_loop (s : SimState) : List PCB → SimState
  | [] => s
  | p :: rest =>
    if p.arrival_time = s.current_time then
      if (assign_memory s.mem p).1 = true then
        admission_loop
          { s with mem := (assign_memory s.mem p).2.1,
                   ready_queue := s.ready_queue ++ [to_ready (assign_memory s.mem p).2.2],
                   job_list := s.job_list ++ [to_ready (assign_memory s.mem p).2.2],
                   execution_status := s.execution_status ++
                     [Event.mk s.current_time (to_ready (assign_memory s.mem p).2.2).PID
                       states.NEW states.READY],
                   memory_status := s.memory_status ++
                     [(s.current_time, (assign_memory s.mem p).2.1)] } rest
      else
        admission_loop
          { s with list_processes := s.list_processes ++
                     [{ p with arrival_time := (p.arrival_time + 1) % 2 ^ 32 }] } rest
    else
      admission_loop { s with list_processes := s.list_processes ++ [p] } rest

def admission (s : SimState) : SimState :=
  admission_loop { s with list_processes := [] } s.list_processes

/-- Lines 84-111 of `..._EP.cpp`, the body of `if (running.state == RUNNING)`
after `remaining_time--`: termination (`terminate_process`, the log row, the
second `free_memory`, `idle_CPU`) or I/O. -/
def finish_or_wait (s : SimState) : SimState :=
  if s.running.remaining_time = 0 then
    { terminate_process s with
      execution_status := (terminate_process s).execution_status ++
        [Event.mk ((s.current_time + 1) % 2 ^ 32) (terminate_process s).running.PID
          states.RUNNING states.TERMINATED],
      mem := (free_memory (terminate_process s).mem (terminate_process s).running).2.1,
      running := idle_CPU }
  else if io_due s.running = true then
    { s with
      running := idle_CPU,
      wait_queue := s.wait_queue ++ [to_wait s.current_time s.running],
      job_list := sync_queue s.job_list (to_wait s.current_time s.running),
      execution_status := s.execution_status ++
        [Event.mk ((s.current_time + 1) % 2 ^ 32) s.running.PID
          states.RUNNING states.WAITING] }
  else s

/-- The loop condition `!all_process_terminated(job_list) || !list_processes.empty()`. -/
def loop_cond (s : SimState) : Bool :=
  !all_process_terminated s.job_list || !s.list_processes.isEmpty

/-- The `while` loop run for at most `n` iterations of the body `tick`. -/
def run_loop (tick : SimState → SimState) : Nat → SimState → SimState
  | 0, s => s
  | n + 1, s => if loop_cond s = true then run_loop tick n (tick s) else s

/-! ## The non-preemptive priority engine (`..._EP.cpp`) -/

/-- Insertion of `x` into a list sorted by the comparator `a.PID > b.PID`. -/
def sortByPriority_insert (x : PCB) : List PCB → List PCB
  | [] => [x]
  | y :: ys => if y.PID > x.PID then y :: sortByPriority_insert x ys else x :: y :: ys

/-- `sortByPriority`: `std::sort` with the comparator `a.PID > b.PID`, that
is, descending PID.  `std::sort` leaves the relative order of entries with
equal PIDs unspecified; this model puts them in one particular order. -/
def sortByPriority (ready_queue : List PCB) : List PCB :=
  ready_queue.foldr sortByPriority_insert []

/-- Lines 72-79 of `..._EP.cpp`: dispatch. -/
def dispatch_EP (s : SimState) : SimState :=
  if s.running.state = states.NOT_ASSIGNED ∨ s.running.state = states.TERMINATED ∨
      s.running.state = states.WAITING then
    if s.ready_queue ≠ [] then
      { run_process { s with ready_queue := sortByPriority s.ready_queue } with
        execution_status := s.execution_status ++
          [Event.mk s.current_time
            (run_process { s with ready_queue := sortByPriority s.ready_queue }).running.PID
            states.READY states.RUNNING] }
    else s
  else s

/-- Lines 80-112 of `..._EP.cpp`: one unit of work, then termination or I/O. -/
def execute_EP (s : SimState) : SimState :=
  if s.running.state = states.RUNNING then
    finish_or_wait { s with running := work s.running }
  else s

/-- One iteration of the `while` loop of `..._EP.cpp`. -/
def tick_EP (s : SimState) : SimState :=
  { execute_EP (dispatch_EP (admission (manage_wait_queue s))) with
    current_time := (s.current_time + 1) % 2 ^ 32 }

/-! ## The quantum engines (`..._EP_RR.cpp`, `..._RR.cpp`) -/

/-- `TIME_QUANTUM`. -/
def TIME_QUANTUM : Nat := 100

/-- Lines 122-145 of `..._EP_RR.cpp` and 94-115 of `..._RR.cpp`: as
`finish_or_wait`, with `time_slice_counter = 0` at the end of both
branches. -/
def finish_or_wait_RR (s : SimState) : SimState :=
  if s.running.remaining_time = 0 then
    { terminate_process s with
      execution_status := (terminate_process s).execution_status ++
        [Event.mk ((s.current_time + 1) % 2 ^ 32) (terminate_process s).running.PID
          states.RUNNING states.TERMINATED],
      mem := (free_memory (terminate_process s).mem (terminate_process s).running).2.1,
      running := idle_CPU,
      time_slice_counter := 0 }
  else if io_due s.running = true then
    { s with
      running := idle_CPU,
      wait_queue := s.wait_queue ++ [to_wait s.current_time s.running],
      job_list := sync_queue s.job_list (to_wait s.current_time s.running),
      execution_status := s.execution_status ++
        [Event.mk ((s.current_time + 1) % 2 ^ 32) s.running.PID
          states.RUNNING states.WAITING],
      time_slice_counter := 0 }
  else s

/-- Lines 116-146 of `..._EP_RR.cpp` and 90-116 of `..._RR.cpp`: one unit of
work with `time_slice_counter++`, then termination or I/O. -/
def execute_RR (s : SimState) : SimState :=
  if s.running.state = states.RUNNING then
    finish_or_wait_RR { s with
      running := work s.running,
      time_slice_counter := (s.time_slice_counter + 1) % 2 ^ 32 }
  else s

/-- Lines 73-78 of `..._EP_RR.cpp`: priority sorting. -/
def sort_EP_RR (s : SimState) : SimState :=
  if s.ready_queue ≠ [] then { s with ready_queue := sortByPriority s.ready_queue } else s

/-- The value of `preempt` in lines 82-92 of `..._EP_RR.cpp`: the quantum has
expired, or the back of the ready queue has a lower PID than `running`. -/
def preempt_cond_EP_RR (s : SimState) : Bool :=
  decide (s.time_slice_counter ≥ TIME_QUANTUM) ||
  (match s.ready_queue.getLast? with
   | some b => decide (b.PID < s.running.PID)
   | none => false)

/-- Lines 80-103 of `..._EP_RR.cpp`: the preemption check. -/
def preempt_EP_RR (s : SimState) : SimState :=
  if s.running.state = states.RUNNING then
    if preempt_cond_EP_RR s = true then
      { s with ready_queue := sortByPriority (s.ready_queue ++ [to_ready s.running]),
               job_list := sync_queue s.job_list (to_ready s.running),
               execution_status := s.execution_status ++
                 [Event.mk s.current_time s.running.PID states.RUNNING states.READY],
               running := idle_CPU,
               time_slice_counter := 0 }
    else s
  else s

/-- Lines 105-114 of `..._EP_RR.cpp`: dispatch. -/
def dispatch_EP_RR (s : SimState) : SimState :=
  if s.running.state = states.NOT_ASSIGNED ∨ s.running.state = states.TERMINATED ∨
      s.running.state = states.WAITING ∨ s.running.state = states.READY then
    if s.ready_queue ≠ [] then
      { run_process s with
        time_slice_counter := 0,
        execution_status := s.execution_status ++
          [Event.mk s.current_time (run_process s).running.PID
            states.READY states.RUNNING] }
    else s
  else s

/-- One iteration of the `while` loop of `..._EP_RR.cpp`. -/
def tick_EP_RR (s : SimState) : SimState :=
  { execute_RR (dispatch_EP_RR (preempt_EP_RR (sort_EP_RR
      (admission (manage_wait_queue s))))) with
    current_time := (s.current_time + 1) % 2 ^ 32 }

/-- Lines 63-73 of `..._RR.cpp`: quantum expiry. -/
def preempt_RR (s : SimState) : SimState :=
  if s.running.state = states.RUNNING then
    if s.time_slice_counter ≥ TIME_QUANTUM then
      { s with ready_queue := s.ready_queue ++ [to_ready s.running],
               job_list := sync_queue s.job_list (to_ready s.running),
               execution_status := s.execution_status ++
                 [Event.mk s.current_time s.running.PID states.RUNNING states.READY],
               running := idle_CPU,
               time_slice_counter := 0 }
    else s
  else s

/-- Lines 75-88 of `..._RR.cpp`: dispatch from the front of the queue. -/
def dispatch_RR (s : SimState) : SimState :=
  if (s.running.state = states.NOT_ASSIGNED ∨ s.running.state = states.TERMINATED ∨
      s.running.state = states.WAITING ∨ s.running.state = states.READY) ∧
      s.ready_queue ≠ [] then
    match s.ready_queue with
    | [] => s
    | next_proc :: rest =>
      { s with ready_queue := rest,
               running := to_run s.current_time next_proc,
               job_list := sync_queue s.job_list (to_run s.current_time next_proc),
               time_slice_counter := 0,
               execution_status := s.execution_status ++
                 [Event.mk s.current_time next_proc.PID states.READY states.RUNNING] }
  else s

/-- One iteration of the `while` loop of `..._RR.cpp`. -/
def tick_RR (s : SimState) : SimState :=
  { execute_RR (dispatch_RR (preempt_RR (admission (manage_wait_queue s)))) with
    current_time := (s.current_time + 1) % 2 ^ 32 }

/-! ## Inputs -/

/-- `add_process`; the arguments are the numbers `std::stoi` returns for
`tokens[0]` to `tokens[5]`. -/
def add_process (t0 t1 t2 t3 t4 t5 : Int) : PCB :=
  { PID := t0, size := toUnsigned t1, arrival_time := toUnsigned t2, start_time := -1,
    processing_time := toUnsigned t3, remaining_time := toUnsigned t3,
    partition_number := -1, state := states.NOT_ASSIGNED,
    io_freq := toUnsigned t4, io_duration := toUnsigned t5 }

/-- The fields `add_process` fills in without reading a token, and the two
it fills from the same token. -/
def fresh (p : PCB) : Prop :=
  p.remaining_time = p.processing_time ∧ p.start_time = -1 ∧
  p.partition_number = -1 ∧ p.state = states.NOT_ASSIGNED

/-- The `unsigned int` fields of a process hold `unsigned int` values and the
`int` fields `int` values. -/
def PCB.typed (p : PCB) : Prop :=
  p.size < 2 ^ 32 ∧ p.arrival_time < 2 ^ 32 ∧ p.processing_time < 2 ^ 32 ∧
  p.remaining_time < 2 ^ 32 ∧ p.io_freq < 2 ^ 32 ∧ p.io_duration < 2 ^ 32 ∧
  -2 ^ 31 ≤ p.PID ∧ p.PID < 2 ^ 31 ∧ -2 ^ 31 ≤ p.start_time ∧ p.start_time < 2 ^ 31

/-! ## Auxiliary definitions used in the statements and proofs below -/

/-- Three admitted processes, ids 3, 1 and 2, in partitions 5, 4 and 6. -/
def sample_p3 : PCB :=
  { add_process 3 5 0 4 0 0 with state := states.READY, partition_number := 5 }

def sample_p1 : PCB :=
  { add_process 1 9 0 4 0 0 with state := states.READY, partition_number := 4 }

def sample_p2 : PCB :=
  { add_process 2 1 0 4 0 0 with state := states.READY, partition_number := 6 }

/-- A state with a vacant running slot and the processes 3, 1 and 2 ready, in
this order. -/
def sample_ready_state : SimState :=
  { init [] with
    ready_queue := [sample_p3, sample_p1, sample_p2],
    job_list := [sample_p3, sample_p1, sample_p2],
    mem := [⟨1, 40, -1⟩, ⟨2, 25, -1⟩, ⟨3, 15, -1⟩, ⟨4, 10, 1⟩, ⟨5, 8, 3⟩, ⟨6, 2, 2⟩] }

/-- The admission sweep as a function of the time, the table and the list it
visits: the admitted processes in order, each with the table right after its
admission, the processes kept, and the table at the end. -/
def admission_result (t : Nat) :
    List memory_partition → List PCB →
      List (PCB × List memory_partition) × List PCB × List memory_partition
  | mem, [] => ([], [], mem)
  | mem, p :: rest =>
    if p.arrival_time = t then
      if (assign_memory mem p).1 = true then
        (((to_ready (assign_memory mem p).2.2, (assign_memory mem p).2.1)
            :: (admission_result t (assign_memory mem p).2.1 rest).1),
          (admission_result t (assign_memory mem p).2.1 rest).2.1,
          (admission_result t (assign_memory mem p).2.1 rest).2.2)
      else
        ((admission_result t mem rest).1,
          { p with arrival_time := (p.arrival_time + 1) % 2 ^ 32 }
            :: (admission_result t mem rest).2.1,
          (admission_result t mem rest).2.2)
    else
      ((admission_result t mem rest).1, p :: (admission_result t mem rest).2.1,
        (admission_result t mem rest).2.2)

/-- The state after the termination branch of the execution step of
`..._EP.cpp`: `terminate_process`, the log row, the second `free_memory` and
`idle_CPU`, written out. -/
def after_termination (s : SimState) : SimState :=
  { s with
    running := idle_CPU,
    mem := (free_memory (free_memory s.mem (terminated (work s.running))).2.1
              (free_memory s.mem (terminated (work s.running))).2.2).2.1,
    job_list := sync_queue s.job_list (free_memory s.mem (terminated (work s.running))).2.2,
    execution_status := s.execution_status ++
      [Event.mk ((s.current_time + 1) % 2 ^ 32)
        (free_memory s.mem (terminated (work s.running))).2.2.PID
        states.RUNNING states.TERMINATED] }

/-- The state after the I/O branch of the execution step of `..._EP.cpp`,
written out. -/
def after_wait (s : SimState) : SimState :=
  { s with
    running := idle_CPU,
    wait_queue := s.wait_queue ++ [to_wait s.current_time (work s.running)],
    job_list := sync_queue s.job_list (to_wait s.current_time (work s.running)),
    execution_status := s.execution_status ++
      [Event.mk ((s.current_time + 1) % 2 ^ 32) (work s.running).PID
        states.RUNNING states.WAITING] }

/-- A property of process records that none of the assignments of the engines
destroys. -/
def Stable (Q : PCB → Prop) : Prop :=
  Q idle_CPU ∧
  ∀ p, Q p →
    Q (wake p) ∧ (∀ t, Q (to_run t p)) ∧ Q (to_ready p) ∧ (∀ t, Q (to_wait t p)) ∧
    Q (terminated p) ∧ Q (work p) ∧ ∀ n : Int, Q { p with partition_number := n }

/-- Every record of an admitted process (ready queue, wait queue, job list,
running slot) has the property `Q`. -/
def AllQ (Q : PCB → Prop) (s : SimState) : Prop :=
  (∀ q ∈ s.ready_queue, Q q) ∧ (∀ q ∈ s.wait_queue, Q q) ∧ (∀ q ∈ s.job_list, Q q) ∧
  Q s.running

/-- The invariant behind the unsatisfiable request: the table has its six
capacities, a request of size 50 is still in the incoming list, and no
admitted record has size 50. -/
def Inv50 (s : SimState) : Prop :=
  table_ok s.mem ∧ (∃ p ∈ s.list_processes, p.size = 50) ∧ AllQ (fun q => q.size ≠ 50) s

/-- The quantum bound on a transition log: whenever a row READY -> RUNNING of
a process is followed by a later row of the same process, with no row of that
process in between, the two time columns differ by at most 100, as
`unsigned int` and as integers. -/
def quantum_bounded (log : List Event) : Prop :=
  ∀ (i j : Nat) (d x : Event), log[i]? = some d →
    d.old_state = states.READY → d.new_state = states.RUNNING →
    i < j → log[j]? = some x → x.PID = d.PID →
    (∀ k y, i < k → k < j → log[k]? = some y → y.PID ≠ d.PID) →
    u32_sub x.time d.time ≤ 100 ∧ (x.time : Int) - (d.time : Int) ≤ 100

/-- Every row READY -> RUNNING of the log that no later row of the same
process follows has the property `P`. -/
def open_dispatches (log : List Event) (P : Event → Prop) : Prop :=
  ∀ (i : Nat) (d : Event), log[i]? = some d →
    d.old_state = states.READY → d.new_state = states.RUNNING →
    (∀ k y, i < k → log[k]? = some y → y.PID ≠ d.PID) → P d

/-- The invariant of the quantum engines at the head of the loop: the counter
is at most 100, the log is quantum-bounded, and a dispatch that is still open
is the one of the running process, `time_slice_counter` ticks ago. -/
def QInv (s : SimState) : Prop :=
  s.time_slice_counter ≤ 100 ∧ s.current_time < 2 ^ 32 ∧
  (∀ e ∈ s.execution_status, e.time < 2 ^ 32) ∧
  quantum_bounded s.execution_status ∧
  open_dispatches s.execution_status (fun d =>
    s.running.state = states.RUNNING ∧ s.running.PID = d.PID ∧ d.time < 2 ^ 32 ∧
    u32_sub s.current_time d.time = s.time_slice_counter)

/-- The record of the only process `P` of an input once it is admitted from
the free table. -/
def admitted_rec (P : PCB) : PCB :=
  to_ready (assign_memory memory_paritions P).2.2

/-- The state of a run on the single process `P` before its arrival, at the
time `k`. -/
def single_waiting (P : PCB) (k : Nat) : SimState :=
  { init [P] with current_time := k }

/-- The state of a run on the single process `P` right after its admission. -/
def single_ready (P : PCB) : SimState :=
  { list_processes := [], ready_queue := [admitted_rec P], wait_queue := [],
    job_list := [admitted_rec P],
    mem := (assign_memory memory_paritions P).2.1,
    current_time := P.arrival_time,
    time_slice_counter := 0,
    running := idle_CPU,
    execution_status :=
      [Event.mk P.arrival_time (admitted_rec P).PID states.NEW states.READY],
    memory_status := [(P.arrival_time, (assign_memory memory_paritions P).2.1)] }

/-- The state of a run on the single process `P` while it is running: `j`
units of work done, the counter at `c`. -/
def single_running (P : PCB) (j c : Nat) : SimState :=
  { list_processes := [], ready_queue := [], wait_queue := [],
    job_list := [to_run P.arrival_time (admitted_rec P)],
    mem := (assign_memory memory_paritions P).2.1,
    current_time := (P.arrival_time + j) % 2 ^ 32,
    time_slice_counter := c,
    running := { to_run P.arrival_time (admitted_rec P) with
                 remaining_time := P.processing_time - j },
    execution_status :=
      [Event.mk P.arrival_time (admitted_rec P).PID states.NEW states.READY,
       Event.mk P.arrival_time (admitted_rec P).PID states.READY states.RUNNING],
    memory_status := [(P.arrival_time, (assign_memory memory_paritions P).2.1)] }

/-- The state of a run on the single process `P` after its termination. -/
def single_done (P : PCB) : SimState :=
  { after_termination (single_running P (P.processing_time - 1) 0) with
    time_slice_counter := 0,
    current_time := (P.arrival_time + P.processing_time) % 2 ^ 32 }

/-- The single-process inputs of the scenario: requested size at most 40, no
I/O, between 1 and 100 units of work, `remaining_time` as `add_process` sets
it, and an arrival time that is an `unsigned int`. -/
def single_input (P : PCB) : Prop :=
  P.size ≤ 40 ∧ P.io_freq = 0 ∧ 1 ≤ P.processing_time ∧ P.processing_time ≤ 100 ∧
  P.remaining_time = P.processing_time ∧ P.arrival_time < 2 ^ 32

/-! ### Progress -/

/-- The fields of a record that only the execution step changes: the state,
the start time, the partition number and the arrival time are blanked. -/
def core (p : PCB) : PCB :=
  { p with state := states.NOT_ASSIGNED, start_time := 0, partition_number := 0,
           arrival_time := 0 }

/-- The running slot as a list: the process in it, if there is one. -/
def on_cpu (s : SimState) : List PCB :=
  if s.running.state = states.RUNNING then [s.running] else []

/-- The admitted processes that have not terminated. -/
def live (s : SimState) : List PCB :=
  s.ready_queue ++ s.wait_queue ++ on_cpu s

/-- All processes that have not terminated, admitted or not. -/
def pool (s : SimState) : List PCB :=
  s.list_processes ++ live s

/-- What the progress argument needs of one unfinished process: a
non-negative id, work left to do, a size that the largest partition can hold
and an I/O duration that is an `unsigned int`. -/
def Good (p : PCB) : Prop :=
  0 ≤ p.PID ∧ 1 ≤ p.remaining_time ∧ p.size ≤ 40 ∧ p.io_duration < 2 ^ 32

/-- A list of unfinished processes with pairwise distinct ids. -/
def PoolOK (l : List PCB) : Prop :=
  (l.map (fun p => p.PID)).Nodup ∧ ∀ p ∈ l, Good p

/-- Every occupied partition is held by one of the processes `ids`, and no
two partitions are held by the same process. -/
def mem_owned (mem : List memory_partition) (ids : List Int) : Prop :=
  ∀ (i : Nat) (part : memory_partition), mem[i]? = some part → part.occupied ≠ -1 →
    part.occupied ∈ ids ∧
    ∀ (j : Nat) (q : memory_partition), mem[j]? = some q → q.occupied = part.occupied → j = i

/-- The loop invariant of the progress argument, for the input ids `ids`. -/
def LInv (ids : List Int) (s : SimState) : Prop :=
  s.current_time < 2 ^ 32 ∧ table_ok s.mem ∧ PoolOK (pool s) ∧
  (∀ p ∈ s.list_processes, p.arrival_time < 2 ^ 32) ∧
  mem_owned s.mem ((live s).map (fun p => p.PID)) ∧
  (s.running.state = states.RUNNING ∨ s.running.state = states.NOT_ASSIGNED) ∧
  (∀ q ∈ s.job_list, q.state = states.TERMINATED ∨ q.PID ∈ (live s).map (fun p => p.PID)) ∧
  (∀ x ∈ ids, x ∈ s.list_processes.map (fun p => p.PID) ∨
    x ∈ s.job_list.map (fun p => p.PID))

/-- The work that is left: the sum of the remaining times of the unfinished
processes. -/
def work_left (s : SimState) : Nat :=
  ((pool s).map (fun p => p.remaining_time)).sum

/-- The ticks that can pass without any work being done: for every process
not yet admitted the distance from the clock to its arrival time, for every
process in the wait queue what is left of its I/O. -/
def idle_left (s : SimState) : Nat :=
  (s.list_processes.map (fun p => u32_sub p.arrival_time s.current_time)).sum +
  (s.wait_queue.map
    (fun p => p.io_duration - u32_sub s.current_time (toUnsigned p.start_time))).sum

/-- A step that only moves processes between the ready queue and the running
slot. -/
def Resched (s s2 : SimState) : Prop :=
  s2.list_processes = s.list_processes ∧ s2.wait_queue = s.wait_queue ∧ s2.mem = s.mem ∧
  s2.current_time = s.current_time ∧
  ((s2.ready_queue ++ on_cpu s2).map core).Perm ((s.ready_queue ++ on_cpu s).map core) ∧
  (s2.job_list = s.job_list ∨
    ∃ r ∈ s2.ready_queue ++ on_cpu s2, s2.job_list = sync_queue s.job_list r) ∧
  (s2.running.state = states.RUNNING ∨ s2.running.state = states.NOT_ASSIGNED)

/-- The scheduling part of a tick of `..._EP_RR.cpp`. -/
def sched_EP_RR (s : SimState) : SimState :=
  dispatch_EP_RR (preempt_EP_RR (sort_EP_RR s))

/-- The scheduling part of a tick of `..._RR.cpp`. -/
def sched_RR (s : SimState) : SimState :=
  dispatch_RR (preempt_RR s)

/-- One tick assembled from its parts. -/
def tick_of (sched exec : SimState → SimState) (s : SimState) : SimState :=
  { exec (sched (admission (manage_wait_queue s))) with
    current_time := (s.current_time + 1) % 2 ^ 32 }

/-- The inputs of the progress claim: unique non-negative ids, processing
time above 0, requested size between 1 and 40; the arrival time and the I/O
duration are `unsigned int` values and `remaining_time` is as `add_process`
sets it. -/
def progress_input (l : List PCB) : Prop :=
  (l.map (fun p => p.PID)).Nodup ∧
  ∀ p ∈ l, 0 ≤ p.PID ∧ 0 < p.processing_time ∧ 1 ≤ p.size ∧ p.size ≤ 40 ∧
    p.remaining_time = p.processing_time ∧ p.arrival_time < 2 ^ 32 ∧ p.io_duration < 2 ^ 32

/-- The loop with the body `tick` ends on the input `l`, with every process
of `l` admitted and TERMINATED in the job list. -/
def all_terminate (tick : SimState → SimState) (l : List PCB) : Prop :=
  ∃ n : Nat, loop_cond (run_loop tick n (init l)) = false ∧
    (run_loop tick n (init l)).list_processes = [] ∧
    ∀ p ∈ l, ∃ q ∈ (run_loop tick n (init l)).job_list,
      q.PID = p.PID ∧ q.state = states.TERMINATED

/-- What the progress argument needs of the scheduling part of a tick: it
keeps the invariant and the work that is left, it leaves the incoming list and
the wait queue alone, and it leaves the processor idle only if nothing is
ready or running. -/
def Sched_ok (sched : SimState → SimState) : Prop :=
  ∀ (ids : List Int) (s : SimState), LInv ids s →
    LInv ids (sched s) ∧ work_left (sched s) = work_left s ∧
    (sched s).list_processes = s.list_processes ∧ (sched s).wait_queue = s.wait_queue ∧
    ((sched s).running.state ≠ states.RUNNING →
      s.ready_queue = [] ∧ s.running.state ≠ states.RUNNING)

/-- What the progress argument needs of the execution step: it keeps the
invariant, does one unit of work if a process is running and nothing
otherwise. -/
def Exec_ok (exec : SimState → SimState) : Prop :=
  ∀ (ids : List Int) (s : SimState), LInv ids s →
    LInv ids (exec s) ∧
    (s.running.state = states.RUNNING → work_left (exec s) + 1 = work_left s) ∧
    (s.running.state ≠ states.RUNNING → exec s = s)

/-! ### Sample inputs -/

/-- An incoming list whose second process asks for more than any partition
holds. -/
def sample_incoming : List PCB :=
  [add_process 1 10 0 5 0 0, add_process 2 50 0 5 0 0, add_process 3 10 0 5 0 0]

/-- The input line `1, 50, -1, 5, 0, 0`: the arrival time is stored as
`4294967295`, the size fits no partition. -/
def late_big : PCB := add_process 1 50 (-1) 5 0 0

/-- A state with process 2 running and the processes 3 and 1 ready. -/
def sample_running_state : SimState :=
  { sample_ready_state with
    ready_queue := [sample_p3, sample_p1],
    running := { sample_p2 with state := states.RUNNING } }

/-- The call `free_memory(running)` that follows `terminate_process(running,
job_list)` in the termination branch of the three engines (line 90 of
`..._EP.cpp`), on the state `s` right after `running.remaining_time--`: the
flag it returns, which the engines drop, and the table and the record after
the call. -/
def second_free (s : SimState) : Bool × List memory_partition × PCB :=
  free_memory (terminate_process { s with running := work s.running }).mem
    (terminate_process { s with running := work s.running }).running

/-! ### The rows one tick appends to the transition log -/

/-- The transition log is time-ordered: the tick values, in the order in
which the rows were appended, are non-decreasing. -/
def time_ordered (log : List Event) : Prop :=
  log.Pairwise (fun a b => a.time ≤ b.time)

/-- One of the four kinds READY -> RUNNING, RUNNING -> WAITING,
RUNNING -> TERMINATED, RUNNING -> READY. -/
def four_kinds (e : Event) : Bool :=
  decide ((e.old_state = states.READY ∧ e.new_state = states.RUNNING) ∨
    (e.old_state = states.RUNNING ∧ e.new_state = states.WAITING) ∨
    (e.old_state = states.RUNNING ∧ e.new_state = states.TERMINATED) ∨
    (e.old_state = states.RUNNING ∧ e.new_state = states.READY))

/-- For every process and every tick value, the log has at most one row
READY -> RUNNING of that process with that tick, and at most one row of that
process with that tick that leaves RUNNING (to WAITING, TERMINATED or
READY). -/
def one_per_tick (log : List Event) : Prop :=
  ∀ (x : Int) (t : Nat),
    log.countP (fun e => decide (e.PID = x ∧ e.time = t ∧
      e.old_state = states.READY ∧ e.new_state = states.RUNNING)) ≤ 1 ∧
    log.countP (fun e => decide (e.PID = x ∧ e.time = t ∧ e.old_state = states.RUNNING ∧
      (e.new_state = states.WAITING ∨ e.new_state = states.TERMINATED ∨
        e.new_state = states.READY))) ≤ 1

/-- For every tick value the log has at most one row that leaves READY and at
most one row that leaves RUNNING. -/
def ticks_ok (log : List Event) : Prop :=
  ∀ t : Nat,
    log.countP (fun e => decide (e.time = t ∧ e.old_state = states.READY)) ≤ 1 ∧
    log.countP (fun e => decide (e.time = t ∧ e.old_state = states.RUNNING)) ≤ 1

/-- The rows of one tick: the rows of the two sweeps, at most one preemption
row (only if a process was running at the head of the loop), at most one
dispatch row, all with the current tick, and at most one row of the execution
step, with the next tick, after which the running slot is vacant. -/
def Tick_log (s s2 : SimState) : Prop :=
  ∃ (sweep pre dis ex : List Event),
    s2.execution_status = s.execution_status ++ sweep ++ pre ++ dis ++ ex ∧
    s2.current_time = (s.current_time + 1) % 2 ^ 32 ∧
    (∀ e ∈ sweep, e.time = s.current_time ∧ e.new_state = states.READY ∧
      (e.old_state = states.WAITING ∨ e.old_state = states.NEW)) ∧
    (pre = [] ∨ (s.running.state = states.RUNNING ∧
      ∃ x, pre = [Event.mk s.current_time x states.RUNNING states.READY])) ∧
    (dis = [] ∨ ∃ x, dis = [Event.mk s.current_time x states.READY states.RUNNING]) ∧
    (ex = [] ∨ (s2.running.state ≠ states.RUNNING ∧
      ∃ x st, (st = states.WAITING ∨ st = states.TERMINATED) ∧
        ex = [Event.mk ((s.current_time + 1) % 2 ^ 32) x states.RUNNING st]))

/-- The rows of the scheduling part of a tick. -/
def Sched_log (sched : SimState → SimState) : Prop :=
  ∀ s : SimState, ∃ (pre dis : List Event),
    (sched s).execution_status = s.execution_status ++ pre ++ dis ∧
    (sched s).current_time = s.current_time ∧
    (pre = [] ∨ (s.running.state = states.RUNNING ∧
      ∃ x, pre = [Event.mk s.current_time x states.RUNNING states.READY])) ∧
    (dis = [] ∨ ∃ x, dis = [Event.mk s.current_time x states.READY states.RUNNING])

/-- The rows of the execution step of a tick. -/
def Exec_log (exec : SimState → SimState) : Prop :=
  ∀ s : SimState, ∃ ex : List Event,
    (exec s).execution_status = s.execution_status ++ ex ∧
    (ex = [] ∨ ((exec s).running.state ≠ states.RUNNING ∧
      ∃ x st, (st = states.WAITING ∨ st = states.TERMINATED) ∧
        ex = [Event.mk ((s.current_time + 1) % 2 ^ 32) x states.RUNNING st]))

/-- The invariant behind the ordering of the log, for a clock that has not
wrapped: no row is ahead of the clock, the log is time-ordered and has at most
one row of each kind per tick, and a row that carries the current tick comes
from the execution step of the tick before, which vacated the running slot. -/
def LogInv (s : SimState) : Prop :=
  (∀ e ∈ s.execution_status, e.time ≤ s.current_time) ∧
  time_ordered s.execution_status ∧ ticks_ok s.execution_status ∧
  (∀ e ∈ s.execution_status, e.time = s.current_time →
    e.old_state = states.RUNNING ∧ s.running.state ≠ states.RUNNING)

/-- The input line `1, 10, -1, 1, 0, 0`: one unit of work, arrival at tick
`4294967295`. -/
def late_one : PCB := add_process 1 10 (-1) 1 0 0

/-- The input line `1, 10, 0, 3, 1, 0`: an I/O of duration 0 after every unit
of work. -/
def io_every_tick : PCB := add_process 1 10 0 3 1 0

/-! ### The atomic steps of a tick

Every tick of each engine is a sequence of the following steps (see
`Steps_tick_EP`, `Steps_tick_EP_RR`, `Steps_tick_RR`); the invariants of the
runs are proved step by step. -/

/-- One atomic step of an engine.  `pg` is what is known whenever the
preemption check fires; with `q = true` (the round-robin engine) a dispatch
resets the time-slice counter and a unit of work that does not end the burst
finds the counter below the quantum and increments it.  A step of the
execution part ends the tick: it advances the clock, and it is taken only
when the wait-queue sweep has left no finished I/O behind. -/
inductive Step (pg : SimState → Prop) (q : Bool) : SimState → SimState → Prop
  | woken (s : SimState) (a b : List PCB) (p : PCB)
      (h : s.wait_queue = a ++ p :: b) (hd : io_done s.current_time p = true) :
      Step pg q s
        { s with wait_queue := a ++ b,
                 ready_queue := s.ready_queue ++ [wake p],
                 job_list := sync_queue s.job_list (wake p),
                 execution_status := s.execution_status ++
                   [Event.mk s.current_time (wake p).PID states.WAITING states.READY] }
  | arrived (s : SimState) (a b : List PCB) (p : PCB)
      (h : s.list_processes = a ++ p :: b) (ha : p.arrival_time = s.current_time)
      (hok : (assign_memory s.mem p).1 = true) :
      Step pg q s
        { s with list_processes := a ++ b,
                 mem := (assign_memory s.mem p).2.1,
                 ready_queue := s.ready_queue ++ [to_ready (assign_memory s.mem p).2.2],
                 job_list := s.job_list ++ [to_ready (assign_memory s.mem p).2.2],
                 execution_status := s.execution_status ++
                   [Event.mk s.current_time (to_ready (assign_memory s.mem p).2.2).PID
                     states.NEW states.READY],
                 memory_status := s.memory_status ++
                   [(s.current_time, (assign_memory s.mem p).2.1)] }
  | deferred (s : SimState) (a b : List PCB) (p : PCB)
      (h : s.list_processes = a ++ p :: b) (ha : p.arrival_time = s.current_time)
      (hno : (assign_memory s.mem p).1 = false) :
      Step pg q s
        { s with list_processes :=
                   a ++ { p with arrival_time := (p.arrival_time + 1) % 2 ^ 32 } :: b }
  | reordered (s : SimState) (r : List PCB) (hr : r.Perm s.ready_queue) :
      Step pg q s { s with ready_queue := r }
  | preempted (s : SimState) (hr : s.running.state = states.RUNNING) (hg : pg s) :
      Step pg q s
        { s with ready_queue := s.ready_queue ++ [to_ready s.running],
                 job_list := sync_queue s.job_list (to_ready s.running),
                 execution_status := s.execution_status ++
                   [Event.mk s.current_time s.running.PID states.RUNNING states.READY],
                 running := idle_CPU,
                 time_slice_counter := 0 }
  | dispatched (s : SimState) (a b : List PCB) (p : PCB) (c : Nat)
      (h : s.ready_queue = a ++ p :: b) (hv : s.running.state ≠ states.RUNNING)
      (hc : q = true → c = 0) :
      Step pg q s
        { s with ready_queue := a ++ b,
                 running := to_run s.current_time p,
                 job_list := sync_queue s.job_list (to_run s.current_time p),
                 time_slice_counter := c,
                 execution_status := s.execution_status ++
                   [Event.mk s.current_time p.PID states.READY states.RUNNING] }
  | finished (s : SimState) (c : Nat) (hr : s.running.state = states.RUNNING)
      (h0 : (work s.running).remaining_time = 0)
      (hw : ∀ p ∈ s.wait_queue, io_done s.current_time p = false) :
      Step pg q s
        { after_termination s with
          time_slice_counter := c, current_time := (s.current_time + 1) % 2 ^ 32 }
  | blocked (s : SimState) (c : Nat) (hr : s.running.state = states.RUNNING)
      (h0 : (work s.running).remaining_time ≠ 0) (hio : io_due (work s.running) = true)
      (hw : ∀ p ∈ s.wait_queue, io_done s.current_time p = false) :
      Step pg q s
        { after_wait s with
          time_slice_counter := c, current_time := (s.current_time + 1) % 2 ^ 32 }
  | worked (s : SimState) (c : Nat) (hr : s.running.state = states.RUNNING)
      (h0 : (work s.running).remaining_time ≠ 0) (hio : io_due (work s.running) = false)
      (hw : ∀ p ∈ s.wait_queue, io_done s.current_time p = false)
      (hc : q = true → s.time_slice_counter < 100 ∧ c = s.time_slice_counter + 1) :
      Step pg q s
        { s with running := work s.running,
                 time_slice_counter := c, current_time := (s.current_time + 1) % 2 ^ 32 }
  | idled (s : SimState) (hr : s.running.state ≠ states.RUNNING)
      (hw : ∀ p ∈ s.wait_queue, io_done s.current_time p = false) :
      Step pg q s { s with current_time := (s.current_time + 1) % 2 ^ 32 }

/-- A sequence of atomic steps. -/
def Steps (pg : SimState → Prop) (q : Bool) (s s2 : SimState) : Prop :=
  Relation.ReflTransGen (Step pg q) s s2

/-- The preemption check of each engine: EP has none, EP_RR checks
`preempt_cond_EP_RR`, RR checks the quantum. -/
def pg_EP (_ : SimState) : Prop := False

def pg_EP_RR (s : SimState) : Prop := preempt_cond_EP_RR s = true

def pg_RR (s : SimState) : Prop := s.time_slice_counter ≥ TIME_QUANTUM

/-! ### Invariants of the runs, proved over the atomic steps -/

/-- The clock is an `unsigned int` and the unfinished processes have pairwise
distinct ids. -/
def Base (s : SimState) : Prop :=
  s.current_time < 2 ^ 32 ∧ ((pool s).map (fun p => p.PID)).Nodup

/-! ### The lifecycle of one process, read off the transition log -/

/-- The rows of the process `x` in a transition log, in the order in which
they were appended. -/
def rows_of (x : Int) (log : List Event) : List Event :=
  log.filter (fun e => decide (e.PID = x))

/-- One of the transitions of the lifecycle: NEW -> READY, READY -> RUNNING,
RUNNING -> WAITING, WAITING -> READY, RUNNING -> TERMINATED and, in the
engines that preempt (`pre = true`), RUNNING -> READY. -/
def valid_kind (pre : Bool) (e : Event) : Bool :=
  decide ((e.old_state = states.NEW ∧ e.new_state = states.READY) ∨
    (e.old_state = states.READY ∧ e.new_state = states.RUNNING) ∨
    (e.old_state = states.RUNNING ∧ e.new_state = states.WAITING) ∨
    (e.old_state = states.WAITING ∧ e.new_state = states.READY) ∨
    (e.old_state = states.RUNNING ∧ e.new_state = states.TERMINATED) ∨
    (pre = true ∧ e.old_state = states.RUNNING ∧ e.new_state = states.READY))

/-- One step of the lifecycle state machine: from the state `c` the row `e`
is accepted if it leaves `c` by one of the transitions. -/
def lifecycle_step (pre : Bool) (st : Option states) (e : Event) : Option states :=
  match st with
  | some c => if e.old_state = c ∧ valid_kind pre e = true then some e.new_state else none
  | none => none

/-- The state machine run over the rows of one process, from NEW: the state
reached, or `none` if a row is not accepted. -/
def lifecycle_run (pre : Bool) (rows : List Event) : Option states :=
  rows.foldl (lifecycle_step pre) (some states.NEW)

/-- The rows of one process follow the lifecycle: the first is NEW -> READY,
every later row leaves the state the row before it entered, every row is one
of the transitions, and a row that enters TERMINATED is the last one. -/
def follows_lifecycle (pre : Bool) (rows : List Event) : Prop :=
  (∀ e, rows.head? = some e → e.old_state = states.NEW ∧ e.new_state = states.READY) ∧
  rows.Chain' (fun a b => b.old_state = a.new_state) ∧
  (∀ e ∈ rows, valid_kind pre e = true) ∧
  (∀ (i : Nat) (e : Event), rows[i]? = some e → e.new_state = states.TERMINATED →
    i + 1 = rows.length)

/-- The id of a record with the state of the place the record is in. -/
def tag (st : states) (p : PCB) : Int × states := (p.PID, st)

/-- Where the unfinished processes are: the id of every process of the
incoming list, the ready queue, the wait queue and the running slot, with the
state that goes with the place. -/
def tagged (s : SimState) : List (Int × states) :=
  s.list_processes.map (tag states.NEW) ++
  (s.ready_queue.map (tag states.READY) ++
  (s.wait_queue.map (tag states.WAITING) ++
  (on_cpu s).map (tag states.RUNNING)))

/-- The log agrees with the queues: the unfinished processes have distinct
ids, the rows of each of them lead from NEW to the state of the place it is
in, a process that is nowhere has terminated or has no row, the rows of every
job-list entry lead to the state recorded in the entry, and every admitted
process has a job-list entry. -/
def Life (pre : Bool) (s : SimState) : Prop :=
  ((tagged s).map (fun a => a.1)).Nodup ∧
  (∀ x st, (x, st) ∈ tagged s →
    lifecycle_run pre (rows_of x s.execution_status) = some st) ∧
  (∀ x, x ∉ (tagged s).map (fun a => a.1) →
    lifecycle_run pre (rows_of x s.execution_status) = some states.TERMINATED ∨
    rows_of x s.execution_status = []) ∧
  (∀ q ∈ s.job_list,
    lifecycle_run pre (rows_of q.PID s.execution_status) = some q.state ∧
    q.state ≠ states.NEW) ∧
  (∀ x st, (x, st) ∈ tagged s → st ≠ states.NEW → x ∈ s.job_list.map (fun p => p.PID))

/-- A property of process records that none of the assignments of the engines
to the record of an unfinished process destroys. -/
def Keeps (Q : PCB → Prop) : Prop :=
  ∀ p, Q p →
    Q (wake p) ∧ (∀ t, Q (to_run t p)) ∧ Q (to_ready p) ∧ (∀ t, Q (to_wait t p)) ∧
    Q (work p) ∧ (∀ n : Int, Q { p with partition_number := n }) ∧
    ∀ n : Nat, Q { p with arrival_time := n }

/-- The record `p` carries the id, the requested size, the total processing
time, the I/O frequency and the I/O duration of a process of the input `l`. -/
def same_spec (l : List PCB) (p : PCB) : Prop :=
  ∃ p0 ∈ l, p0.PID = p.PID ∧ p0.size = p.size ∧ p0.processing_time = p.processing_time ∧
    p0.io_freq = p.io_freq ∧ p0.io_duration = p.io_duration

/-- The memory invariant for the input `l`: the table has its six capacities,
every occupied partition is held by an admitted, unfinished process and no
process holds two partitions, and every admitted, unfinished process holds a
partition at least as large as the size requested on its input line. -/
def MInv (l : List PCB) (s : SimState) : Prop :=
  table_ok s.mem ∧ mem_owned s.mem ((live s).map (fun p => p.PID)) ∧
  ∀ x ∈ (live s).map (fun p => p.PID), ∃ (i : Nat) (part : memory_partition),
    s.mem[i]? = some part ∧ part.occupied = x ∧ ∀ p0 ∈ l, p0.PID = x → p0.size ≤ part.size

/-- The partitions of the processes in a state: every process in the ready
queue, the wait queue or the running slot is the occupant of exactly one
partition, whose capacity is at least its requested size; a process of the
incoming list and a process that is TERMINATED in the job list is the occupant
of no partition. -/
def partitions_ok (s : SimState) : Prop :=
  (∀ p ∈ live s, ∃ (i : Nat) (part : memory_partition),
    s.mem[i]? = some part ∧ part.occupied = p.PID ∧ p.size ≤ part.size ∧
    ∀ (j : Nat) (q : memory_partition), s.mem[j]? = some q → q.occupied = p.PID → j = i) ∧
  (∀ p ∈ s.list_processes, ∀ part ∈ s.mem, part.occupied ≠ p.PID) ∧
  (∀ p ∈ s.job_list, p.state = states.TERMINATED → ∀ part ∈ s.mem, part.occupied ≠ p.PID)

/-- The invariant behind the partitions of the processes, for the input `l`:
distinct ids, every unfinished record carries the data of its input line and
a non-negative id, the ids of the job list are ids of the input, the memory
invariant, and the agreement of the log with the queues. -/
def PInv (l : List PCB) (s : SimState) : Prop :=
  Base s ∧ (∀ p ∈ pool s, same_spec l p ∧ 0 ≤ p.PID) ∧
  (∀ x ∈ s.job_list.map (fun p => p.PID), x ∈ l.map (fun p => p.PID)) ∧
  MInv l s ∧ Life true s

/-- The input line `1, -2147483648, 0, 5, 0, 0`: the requested size is stored
as `2147483648`. -/
def huge_request : PCB := add_process 1 (-2147483648) 0 5 0 0

/-! ### Preemption in the round-robin engine -/

/-- In the rows of one process, every row RUNNING -> READY comes right after
a row READY -> RUNNING (the most recent dispatch of the process), logged 100
ticks earlier; the difference of the two tick values is taken in
`unsigned int`. -/
def preempted_at_quantum (rows : List Event) : Prop :=
  ∀ (i : Nat) (b : Event), rows[i]? = some b →
    b.old_state = states.RUNNING → b.new_state = states.READY →
    ∃ a, 0 < i ∧ rows[i - 1]? = some a ∧
      a.old_state = states.READY ∧ a.new_state = states.RUNNING ∧
      u32_sub b.time a.time = 100

/-- The invariant of the round-robin engine behind the preemption rows: the
rows of every process have the property above, and while a process is running
the last row of that process is its dispatch, logged `time_slice_counter`
ticks ago, with the counter at most 100. -/
def RRInv (s : SimState) : Prop :=
  Base s ∧ (∀ x, preempted_at_quantum (rows_of x s.execution_status)) ∧
  (s.running.state = states.RUNNING →
    s.time_slice_counter ≤ 100 ∧
    ∃ (rows : List Event) (τ : Nat),
      rows_of s.running.PID s.execution_status =
        rows ++ [Event.mk τ s.running.PID states.READY states.RUNNING] ∧
      τ < 2 ^ 32 ∧ u32_sub s.current_time τ = s.time_slice_counter)

/-- Two processes with 250 and 150 units of work and no I/O, both arriving at
tick 0. -/
def two_bursts : List PCB := [add_process 1 10 0 250 0 0, add_process 2 10 0 150 0 0]

/-! ### The duration of an I/O -/

/-- In the rows of one process, a row RUNNING -> WAITING with the tick `t`
that is followed by a row WAITING -> READY is followed by it at the tick
`(t + d) % 2 ^ 32`. -/
def wait_timed (d : Nat) (rows : List Event) : Prop :=
  ∀ (i : Nat) (a b : Event), rows[i]? = some a → rows[i + 1]? = some b →
    a.old_state = states.RUNNING → a.new_state = states.WAITING →
    b.old_state = states.WAITING → b.new_state = states.READY →
    b.time = (a.time + d) % 2 ^ 32

/-- In the rows of one process, the row that follows a row RUNNING -> WAITING
with the tick `t` is WAITING -> READY with the tick `(t + d) % 2 ^ 32`. -/
def wait_lasts (d : Nat) (rows : List Event) : Prop :=
  ∀ (i : Nat) (a b : Event), rows[i]? = some a → rows[i + 1]? = some b →
    a.old_state = states.RUNNING → a.new_state = states.WAITING →
    b.old_state = states.WAITING ∧ b.new_state = states.READY ∧
    b.time = (a.time + d) % 2 ^ 32

/-- Every row RUNNING -> WAITING has a next row. -/
def waits_end (rows : List Event) : Prop :=
  ∀ (i : Nat) (a : Event), rows[i]? = some a →
    a.old_state = states.RUNNING → a.new_state = states.WAITING → i + 1 < rows.length

/-- The record `p` of the wait queue at the time `t`: the last row of the
process in the log is RUNNING -> WAITING with the tick `p.start_time`, and not
more than `p.io_duration` ticks have passed since. -/
def waiting_since (t : Nat) (log : List Event) (p : PCB) : Prop :=
  u32_sub t (toUnsigned p.start_time) ≤ p.io_duration ∧
  ∃ rows, rows_of p.PID log =
    rows ++ [Event.mk (toUnsigned p.start_time) p.PID states.RUNNING states.WAITING]

/-- The invariant behind the duration of an I/O, for the input `l`. -/
def WInv (l : List PCB) (s : SimState) : Prop :=
  Base s ∧ (∀ p ∈ pool s, same_spec l p) ∧
  (∀ p0 ∈ l, wait_timed p0.io_duration (rows_of p0.PID s.execution_status)) ∧
  (∀ p ∈ s.wait_queue, waiting_since s.current_time s.execution_status p)

/-- The I/O round trip of the process `x` with the I/O duration `d` in the
state `s`: in the log, the row after a row RUNNING -> WAITING of `x` with the
tick `t` is WAITING -> READY with the tick `(t + d) % 2 ^ 32`; and once the
loop has ended every row RUNNING -> WAITING of `x` has such a next row. -/
def io_round_trip (d : Nat) (x : Int) (s : SimState) : Prop :=
  wait_lasts d (rows_of x s.execution_status) ∧
  (loop_cond s = false → waits_end (rows_of x s.execution_status))

/-- The input line `1, 10, 0, 3, 1, 2147483647`: three units of work, an I/O
of 2147483647 ticks after each of the first two. -/
def long_io : PCB := add_process 1 10 0 3 1 2147483647

/-- The state `s` after `k` iterations in which nothing happens: only the
clock has advanced. -/
def advance (k : Nat) (s : SimState) : SimState :=
  { s with current_time := (s.current_time + k) % 2 ^ 32 }

/-- The EP run on `long_io` after the first iteration: process 1 has done one
unit of work and waits since tick 1. -/
def long_io_A : SimState := run_loop tick_EP 1 (init [long_io])

/-- The EP run on `long_io` at tick 2147483648, when the first I/O ends. -/
def long_io_B : SimState := advance 2147483647 long_io_A

/-- The EP run on `long_io` after the iteration of tick 2147483648: process 1
has done its second unit of work and waits since tick 2147483649. -/
def long_io_C : SimState := run_loop tick_EP 1 long_io_B

/-- The EP run on `long_io` when the second I/O ends: the clock has wrapped
to 0. -/
def long_io_D : SimState := advance 2147483647 long_io_C

/-- The EP run on `long_io` after its last iteration. -/
def long_io_E : SimState := run_loop tick_EP 1 long_io_D

/-! ### The number of I/O waits of a process -/

/-- The number of rows RUNNING -> WAITING of the process `x` in a log. -/
def wait_count (x : Int) (log : List Event) : Nat :=
  log.countP (fun e => decide (e.PID = x ∧ e.old_state = states.RUNNING ∧
    e.new_state = states.WAITING))

/-- A function of a record that reads none of the fields the engines assign
outside the execution step (state, start time, partition number, arrival
time). -/
def Keyed {α : Type} (f : PCB → α) : Prop :=
  ∀ p, f (wake p) = f p ∧ (∀ t, f (to_run t p) = f p) ∧ f (to_ready p) = f p ∧
    (∀ t, f (to_wait t p) = f p) ∧ (∀ n : Int, f { p with partition_number := n } = f p) ∧
    ∀ n : Nat, f { p with arrival_time := n } = f p

/-- The id, the total processing time, the remaining time and the I/O
frequency of a record. -/
def key (p : PCB) : Int × Nat × Nat × Nat :=
  (p.PID, p.processing_time, p.remaining_time, p.io_freq)

/-- The log has counted the waits of an unfinished process with the key `k`:
with `T` the total and `r` the remaining time, `1 <= r <= T`, and the number
of rows RUNNING -> WAITING is `(T - r) / f`. -/
def counted (log : List Event) (k : Int × Nat × Nat × Nat) : Prop :=
  1 ≤ k.2.2.1 ∧ k.2.2.1 ≤ k.2.1 ∧ k.2.1 < 2 ^ 32 ∧
  wait_count k.1 log = (k.2.1 - k.2.2.1) / k.2.2.2

/-- The invariant behind the number of waits, for the input `l`: the waits of
every unfinished process are counted, and a process of the input that is not
among the unfinished ones (it has terminated) has `(T - 1) / f` rows
RUNNING -> WAITING. -/
def NInv (l : List PCB) (s : SimState) : Prop :=
  Base s ∧ (∀ p ∈ pool s, same_spec l p) ∧
  (∀ k ∈ (pool s).map key, counted s.execution_status k) ∧
  (∀ p0 ∈ l, p0.PID ∉ (pool s).map (fun p => p.PID) →
    wait_count p0.PID s.execution_status = (p0.processing_time - 1) / p0.io_freq)

/-- The inputs of the claim on the number of waits: pairwise distinct ids,
and for every process a processing time above 0 that is an `unsigned int`,
with `remaining_time` as `add_process` sets it. -/
def counting_input (l : List PCB) : Prop :=
  (l.map (fun p => p.PID)).Nodup ∧
  ∀ p ∈ l, 1 ≤ p.processing_time ∧ p.processing_time < 2 ^ 32 ∧
    p.remaining_time = p.processing_time

/-- The input line `1, 10, 0, 10, 5, 1`: ten units of work, an I/O of one tick
after every fifth. -/
def ten_by_five : PCB := add_process 1 10 0 10 5 1

/-- Every I/O of the process `x` with the I/O duration `d` completes: a row
RUNNING -> WAITING of `x` with the tick `t` that the log holds after some
number of iterations is, after some number of iterations, followed as the next
row of `x` by WAITING -> READY with the tick `(t + d) % 2 ^ 32`. -/
def io_completes (tick : SimState → SimState) (l : List PCB) (d : Nat) (x : Int) : Prop :=
  ∀ (n i : Nat) (a : Event),
    (rows_of x (run_loop tick n (init l)).execution_status)[i]? = some a →
    a.old_state = states.RUNNING → a.new_state = states.WAITING →
    ∃ (m : Nat) (b : Event),
      (rows_of x (run_loop tick m (init l)).execution_status)[i]? = some a ∧
      (rows_of x (run_loop tick m (init l)).execution_status)[i + 1]? = some b ∧
      b.old_state = states.WAITING ∧ b.new_state = states.READY ∧
      b.time = (a.time + d) % 2 ^ 32

/-! ### Arrival times and admission -/

/-- No process of the incoming list is overdue: every arrival time is at
least the current tick. -/
def not_overdue (s : SimState) : Prop :=
  ∀ p ∈ s.list_processes, s.current_time ≤ p.arrival_time

/-- Every row NEW -> READY of the log belongs to a process of the input `l`
and carries a tick that is at least the arrival time of every process of `l`
with that id. -/
def admitted_on_time (l : List PCB) (log : List Event) : Prop :=
  ∀ e ∈ log, e.old_state = states.NEW → e.new_state = states.READY →
    (∃ p0 ∈ l, p0.PID = e.PID) ∧ ∀ p0 ∈ l, p0.PID = e.PID → p0.arrival_time ≤ e.time

/-- The invariant behind the admissions, for a clock that has not wrapped:
every record of the incoming list carries an arrival time that is at least the
arrival time of its input line, and every row that leaves NEW carries a tick
that is at least the arrival time of the input line of its process. -/
def OInv (l : List PCB) (s : SimState) : Prop :=
  (∀ p ∈ s.list_processes, ∃ p0 ∈ l, p0.PID = p.PID ∧ p0.arrival_time ≤ p.arrival_time) ∧
  (∀ e ∈ s.execution_status, e.old_state = states.NEW →
    ∃ p0 ∈ l, p0.PID = e.PID ∧ p0.arrival_time ≤ e.time)

/-- The scheduling part and the execution step leave the incoming list
alone. -/
def Keeps_list (sched exec : SimState → SimState) : Prop :=
  ∀ s : SimState, (exec (sched s)).list_processes = s.list_processes

/-- The statement `proc_it->arrival_time++` applied `k` times. -/
def postpone (k : Nat) (p : PCB) : PCB :=
  { p with arrival_time := (p.arrival_time + k) % 2 ^ 32 }

/-- The state `s` after `k` iterations in which nothing happens but the
deferral of the incoming processes: the clock and the arrival times have
advanced by `k`. -/
def deferred_by (k : Nat) (s : SimState) : SimState :=
  { s with current_time := (s.current_time + k) % 2 ^ 32,
           list_processes := s.list_processes.map (postpone k) }

/-- The input lines `1, 40, 0, 3, 1, 2147483647` and `2, 40, 2, 1, 0, 0`: both
processes need the largest partition, and the first keeps it during two I/Os
of 2147483647 ticks. -/
def held_up : List PCB := [add_process 1 40 0 3 1 2147483647, add_process 2 40 2 1 0 0]

/-- The EP run on `held_up` at tick 2: process 1 waits since tick 1, process 2
arrives. -/
def held_up_A : SimState := run_loop tick_EP 2 (init held_up)

/-- The EP run on `held_up` at tick 2147483648, when the first I/O ends. -/
def held_up_B : SimState := deferred_by 2147483646 held_up_A

/-- The EP run on `held_up` at tick 2147483649: process 1 waits again. -/
def held_up_C : SimState := run_loop tick_EP 1 held_up_B

/-- The EP run on `held_up` when the second I/O ends: the clock and the
arrival time of process 2 have wrapped to 0. -/
def held_up_D : SimState := deferred_by 2147483647 held_up_C

/-- The EP run on `held_up` after its last two iterations. -/
def held_up_E : SimState := run_loop tick_EP 2 held_up_D

/-! ### The time a process spends running -/

/-- The length of the running interval that the row `a` opens and the next
row `b` of the same process closes: if `a` is a row READY -> RUNNING, the tick
of `b` minus the tick of `a`, taken in `unsigned int`; no interval
otherwise. -/
def run_gap (a b : Event) : Nat :=
  if a.old_state = states.READY ∧ a.new_state = states.RUNNING then u32_sub b.time a.time
  else 0

/-- The sum of `run_gap` over the rows after `a`, each with the row before
it. -/
def run_time_from (a : Event) : List Event → Nat
  | [] => 0
  | b :: rest => run_gap a b + run_time_from b rest

/-- The total length of the running intervals in the rows of one process: for
every row READY -> RUNNING with the tick `s` that has a next row, with the
tick `e`, the difference `e - s` in `unsigned int`, summed. -/
def run_time : List Event → Nat
  | [] => 0
  | a :: rest => run_time_from a rest

/-- As `run_gap`, with the difference of the two ticks taken in the
integers. -/
def run_gap_int (a b : Event) : Int :=
  if a.old_state = states.READY ∧ a.new_state = states.RUNNING then
    (b.time : Int) - (a.time : Int)
  else 0

/-- The sum of `run_gap_int` over the rows after `a`, each with the row before
it. -/
def run_time_int_from (a : Event) : List Event → Int
  | [] => 0
  | b :: rest => run_gap_int a b + run_time_int_from b rest

/-- As `run_time`, with every difference `e - s` taken in the integers. -/
def run_time_int : List Event → Int
  | [] => 0
  | a :: rest => run_time_int_from a rest

/-- The rows of the process `x` with the total processing time `T` and the
remaining time `r` while it is not running: no running interval is open (a
further row would add nothing to the sum), and the intervals so far and the
remaining time make up `T`. -/
def time_booked (log : List Event) (x : Int) (T r : Nat) : Prop :=
  1 ≤ r ∧ T < 2 ^ 32 ∧
  (∀ e, run_time (rows_of x log ++ [e]) = run_time (rows_of x log)) ∧
  run_time (rows_of x log) + r = T

/-- The rows of the process `x` while it is running, at the time `t`: the last
row is its dispatch, at the tick `τ`, and the closed intervals, the
`t - τ` ticks of the open one and the remaining time make up `T`. -/
def time_running (t : Nat) (log : List Event) (x : Int) (T r : Nat) : Prop :=
  T < 2 ^ 32 ∧
  ∃ (rows : List Event) (τ : Nat),
    rows_of x log = rows ++ [Event.mk τ x states.READY states.RUNNING] ∧ τ < 2 ^ 32 ∧
    run_time (rows_of x log) + u32_sub t τ + r = T

/-- The invariant behind the running time, for the input `l`: the running
time of every unfinished process is booked as above, and the running
intervals of a process of the input that is not among the unfinished ones (it
has terminated) add up to its total processing time. -/
def TInv (l : List PCB) (s : SimState) : Prop :=
  Base s ∧ (∀ p ∈ pool s, same_spec l p) ∧
  (∀ p ∈ s.list_processes ++ (s.ready_queue ++ s.wait_queue),
    time_booked s.execution_status p.PID p.processing_time p.remaining_time) ∧
  (s.running.state = states.RUNNING → 1 ≤ s.running.remaining_time ∧
    time_running s.current_time s.execution_status s.running.PID
      s.running.processing_time s.running.remaining_time) ∧
  (∀ p0 ∈ l, p0.PID ∉ (pool s).map (fun p => p.PID) →
    run_time (rows_of p0.PID s.execution_status) = p0.processing_time)

/-- The running intervals of the process `p` in the log of `s` add up to its
total processing time, if the log has a row of `p` that enters TERMINATED. -/
def running_time_adds_up (p : PCB) (s : SimState) : Prop :=
  ∀ e ∈ s.execution_status, e.PID = p.PID → e.new_state = states.TERMINATED →
    run_time (rows_of p.PID s.execution_status) = p.processing_time

/-- With the differences taken in the integers, the running intervals of `p`
add up to its total processing time, and the tick of a row of `p` that enters
TERMINATED is at least the arrival time plus the processing time. -/
def finishes_after_its_time (p : PCB) (s : SimState) : Prop :=
  ∀ e ∈ s.execution_status, e.PID = p.PID → e.new_state = states.TERMINATED →
    run_time_int (rows_of p.PID s.execution_status) = (p.processing_time : Int) ∧
    p.arrival_time + p.processing_time ≤ e.time

/-! ### The quantum in the integers, and a preemption after the clock has wrapped -/

/-- As `preempted_at_quantum`, with the tick of the row RUNNING -> READY given
in the integers: it is the tick of the dispatch row plus 100. -/
def preempted_after_quantum (rows : List Event) : Prop :=
  ∀ (i : Nat) (b : Event), rows[i]? = some b →
    b.old_state = states.RUNNING → b.new_state = states.READY →
    ∃ a, 0 < i ∧ rows[i - 1]? = some a ∧
      a.old_state = states.READY ∧ a.new_state = states.RUNNING ∧
      b.time = a.time + 100

/-- The input lines `1, 40, 0, 3, 1, 2147483621` and `2, 40, 2, 150, 0, 0`:
both processes need the largest partition; the first keeps it during two I/Os
of 2147483621 ticks, the second has 150 units of work and no I/O. -/
def late_quantum : List PCB :=
  [add_process 1 40 0 3 1 2147483621, add_process 2 40 2 150 0 0]

/-- The RR run on `late_quantum` at tick 2: process 1 waits since tick 1,
process 2 arrives. -/
def late_quantum_A : SimState := run_loop tick_RR 2 (init late_quantum)

/-- The RR run on `late_quantum` at tick 2147483622, when the first I/O
ends. -/
def late_quantum_B : SimState := deferred_by 2147483620 late_quantum_A

/-- The RR run on `late_quantum` at tick 2147483623: process 1 waits again. -/
def late_quantum_C : SimState := run_loop tick_RR 1 late_quantum_B

/-- The RR run on `late_quantum` at tick 4294967244, when the second I/O
ends. -/
def late_quantum_D : SimState := deferred_by 2147483621 late_quantum_C

/-- The RR run on `late_quantum` after 102 more iterations: process 1 has
terminated, process 2 has run for a quantum and has been preempted. -/
def late_quantum_E : SimState := run_loop tick_RR 102 late_quantum_D

/-! ### Admissions matched with the processes of the input -/

/-- The rows NEW -> READY of a log, in the order in which they were
appended. -/
def admission_rows (log : List Event) : List Event :=
  log.filter (fun e => decide (e.old_state = states.NEW ∧ e.new_state = states.READY))

/-- Every row NEW -> READY of the log belongs to a process of the input `l`
of its own (`ps` lists these processes in the order of the rows, and is a part
of `l` up to the order), with the id of the row and an arrival time that is at
most the tick of the row. -/
def admitted_after_arrival (l : List PCB) (log : List Event) : Prop :=
  ∃ ps : List PCB, List.Subperm ps l ∧
    List.Forall₂ (fun p0 e => p0.PID = e.PID ∧ p0.arrival_time ≤ e.time)
      ps (admission_rows log)

/-- The invariant behind `admitted_after_arrival`: the processes of the input
`l` are, up to the order, those of the rows NEW -> READY followed by those of
the records of the incoming list, whose arrival times have not been moved
back. -/
def AInv (l : List PCB) (s : SimState) : Prop :=
  ∃ ps qs : List PCB, (ps ++ qs).Perm l ∧
    List.Forall₂ (fun p0 e => p0.PID = e.PID ∧ p0.arrival_time ≤ e.time)
      ps (admission_rows s.execution_status) ∧
    List.Forall₂ (fun p0 p => p0.PID = p.PID ∧ p0.arrival_time ≤ p.arrival_time)
      qs s.list_processes

/-! ### The order of the dispatches of the round-robin engine -/

/-- The test `running.state == NOT_ASSIGNED || running.state == TERMINATED ||
running.state == WAITING || running.state == READY` of the dispatch step. -/
def vacant (s : SimState) : Prop :=
  s.running.state = states.NOT_ASSIGNED ∨ s.running.state = states.TERMINATED ∨
    s.running.state = states.WAITING ∨ s.running.state = states.READY

/-- The state at the dispatch step of the iteration of `..._RR.cpp` that
starts in `s`: after the two sweeps and the quantum check. -/
def at_dispatch_RR (s : SimState) : SimState :=
  preempt_RR (admission (manage_wait_queue s))

/-- The loop runs the iteration that starts in `x`, and in it the dispatch
step finds the running slot vacant and `A` at the front of the ready queue,
`rest` behind it: it takes `A` from the queue, moves it to the running slot
and logs its row READY -> RUNNING; after the iteration the ready queue is
`rest`. -/
def dispatches_front (x : SimState) (A : PCB) (rest : List PCB) : Prop :=
  loop_cond x = true ∧ vacant (at_dispatch_RR x) ∧
  (at_dispatch_RR x).ready_queue = A :: rest ∧
  dispatch_RR (at_dispatch_RR x) =
    { at_dispatch_RR x with
      running := to_run (at_dispatch_RR x).current_time A,
      ready_queue := rest,
      job_list := sync_queue (at_dispatch_RR x).job_list
        (to_run (at_dispatch_RR x).current_time A),
      time_slice_counter := 0,
      execution_status := (at_dispatch_RR x).execution_status ++
        [Event.mk (at_dispatch_RR x).current_time A.PID states.READY states.RUNNING] } ∧
  (at_dispatch_RR x).current_time = x.current_time ∧
  (tick_RR x).ready_queue = rest

/-- After `i` iterations from `s` the record `A` is in the ready queue, behind
an end piece of `l1` and in front of `rest`, which is followed by the records
inserted since. -/
def queued (s : SimState) (l1 : List PCB) (A : PCB) (rest : List PCB) (i : Nat) : Prop :=
  ∃ l0 l1' added : List PCB, l1 = l0 ++ l1' ∧
    (run_loop tick_RR i s).ready_queue = l1' ++ A :: (rest ++ added)

/-- After `k` iterations from `s`, either `A` has been in the ready queue all
the time, in front of `rest`, or an earlier iteration `j` has dispatched `A`
from the front of the queue, with `rest` behind it, and `A` was queued in
front of `rest` until then. -/
def fifo_kept (s : SimState) (l1 : List PCB) (A : PCB) (rest : List PCB) (k : Nat) : Prop :=
  (∀ i, i ≤ k → queued s l1 A rest i) ∨
  ∃ j added, j < k ∧ (∀ i, i ≤ j → queued s l1 A rest i) ∧
    dispatches_front (run_loop tick_RR j s) A (rest ++ added)

/-- From `s` on, `A` is dispatched in some iteration `j` and `B` in a later
iteration `j2`, each from the front of the ready queue; until `j` both are
queued, `A` in front of `l2`, `B` and `l3`, and from then until `j2` the
record `B` is queued in front of `l3`. -/
def dispatched_in_order (s : SimState) (l1 : List PCB) (A : PCB) (l2 : List PCB) (B : PCB)
    (l3 : List PCB) : Prop :=
  ∃ (j j2 : Nat) (added added2 : List PCB), j < j2 ∧
    (∀ i, i ≤ j → queued s l1 A (l2 ++ B :: l3) i) ∧
    dispatches_front (run_loop tick_RR j s) A ((l2 ++ B :: l3) ++ added) ∧
    (∀ i, j < i → i ≤ j2 → queued s l2 B l3 i) ∧
    dispatches_front (run_loop tick_RR j2 s) B (l3 ++ added2)

/-- The loop runs the iteration number `i` from `s`, and at its dispatch step
the record `A` is in the ready queue, behind an end piece of `l1` and in front
of `rest`, which is followed by the records inserted since. -/
def queued_at (s : SimState) (l1 : List PCB) (A : PCB) (rest : List PCB) (i : Nat) : Prop :=
  loop_cond (run_loop tick_RR i s) = true ∧
  ∃ l0 l1' added : List PCB, l1 = l0 ++ l1' ∧
    (at_dispatch_RR (run_loop tick_RR i s)).ready_queue = l1' ++ A :: (rest ++ added)

/-- As `dispatched_in_order`, with the ready queue read at the dispatch step
of the iterations, after the insertions of the iteration. -/
def dispatched_in_order_at (s : SimState) (l1 : List PCB) (A : PCB) (l2 : List PCB)
    (B : PCB) (l3 : List PCB) : Prop :=
  ∃ (j j2 : Nat) (added added2 : List PCB), j < j2 ∧
    (∀ i, i ≤ j → queued_at s l1 A (l2 ++ B :: l3) i) ∧
    dispatches_front (run_loop tick_RR j s) A ((l2 ++ B :: l3) ++ added) ∧
    (∀ i, j < i → i ≤ j2 → queued_at s l2 B l3 i) ∧
    dispatches_front (run_loop tick_RR j2 s) B (l3 ++ added2)

/-- The running slot holds a running process or is idle. -/
def Slot (s : SimState) : Prop :=
  s.running.state = states.RUNNING ∨ s.running.state = states.NOT_ASSIGNED

/-- The number of iterations after which the running slot is vacant at the
dispatch step at the latest. -/
def slot_left (s : SimState) : Nat :=
  if s.running.state = states.RUNNING then 101 - s.time_slice_counter else 0

/-- Three input lines with the id 1: `1, 10, 0, 1, 0, 0`, `1, 8, 0, 5, 0, 0`
and `1, 2, 0, 5, 0, 0`. -/
def same_id : List PCB :=
  [add_process 1 10 0 1 0 0, add_process 1 8 0 5 0 0, add_process 1 2 0 5 0 0]

/-! ## Machine integers: basic facts -/

theorem toInt_small {n : Nat} (h : n < 2 ^ 31) : toInt n = (n : Int) := by
  unfold toInt; rw [if_pos h]

theorem toUnsigned_toInt {n : Nat} (h : n < 2 ^ 32) : toUnsigned (toInt n) = n := by
  unfold toInt toUnsigned
  split
  · omega
  · omega

theorem u32_dec_eq (x : Nat) (h : x < 2 ^ 32) : u32_dec x = (x + 2 ^ 32 - 1) % 2 ^ 32 := by
  unfold u32_dec
  split <;> omega

theorem u32_sub_eq (a b : Nat) (ha : a < 2 ^ 32) (hb : b < 2 ^ 32) :
    u32_sub a b = (a + 2 ^ 32 - b) % 2 ^ 32 := by
  unfold u32_sub
  split <;> omega

/-! ## The allocator -/

theorem table_ok_cases {mem : List memory_partition} (h : table_ok mem) :
    ∃ o1 o2 o3 o4 o5 o6 : Int, mem =
      [⟨1, 40, o1⟩, ⟨2, 25, o2⟩, ⟨3, 15, o3⟩, ⟨4, 10, o4⟩, ⟨5, 8, o5⟩, ⟨6, 2, o6⟩] := by
  obtain ⟨hs, hn⟩ := h
  match mem, hs, hn with
  | [], hs, _ => simp at hs
  | [_], hs, _ => simp at hs
  | [_, _], hs, _ => simp at hs
  | [_, _, _], hs, _ => simp at hs
  | [_, _, _, _], hs, _ => simp at hs
  | [_, _, _, _, _], hs, _ => simp at hs
  | _ :: _ :: _ :: _ :: _ :: _ :: _ :: _, hs, _ => simp at hs
  | [a, b, c, d, e, f], hs, hn =>
    simp only [List.map_cons, List.map_nil, List.cons.injEq, and_true] at hs hn
    obtain ⟨a1, a2, a3⟩ := a
    obtain ⟨b1, b2, b3⟩ := b
    obtain ⟨c1, c2, c3⟩ := c
    obtain ⟨d1, d2, d3⟩ := d
    obtain ⟨e1, e2, e3⟩ := e
    obtain ⟨f1, f2, f3⟩ := f
    simp only at hs hn
    obtain ⟨rfl, rfl, rfl, rfl, rfl, rfl⟩ := hs
    obtain ⟨rfl, rfl, rfl, rfl, rfl, rfl⟩ := hn
    exact ⟨a3, b3, c3, d3, e3, f3, rfl⟩

theorem table_ok_length {mem : List memory_partition} (h : table_ok mem) : mem.length = 6 := by
  obtain ⟨o1, o2, o3, o4, o5, o6, rfl⟩ := table_ok_cases h
  rfl

/-- In a six-partition table the capacities fall as the index grows, no
capacity exceeds 40 and partition `i` carries the number `i + 1`. -/
theorem table_ok_get {mem : List memory_partition} (h : table_ok mem) {i : Nat}
    {p : memory_partition} (hi : mem[i]? = some p) :
    p.size ≤ 40 ∧ 2 ≤ p.size ∧ p.partition_number = i + 1 ∧
    ∀ j q, mem[j]? = some q → j ≤ i → p.size ≤ q.size := by
  obtain ⟨o1, o2, o3, o4, o5, o6, rfl⟩ := table_ok_cases h
  have hi6 : i < 6 := by
    have := List.getElem?_eq_some.1 hi
    obtain ⟨hl, -⟩ := this
    simpa using hl
  have key : ∀ j q, ([⟨1, 40, o1⟩, ⟨2, 25, o2⟩, ⟨3, 15, o3⟩, ⟨4, 10, o4⟩, ⟨5, 8, o5⟩,
      ⟨6, 2, o6⟩] : List memory_partition)[j]? = some q → j < 6 := by
    intro j q hj
    obtain ⟨hl, -⟩ := List.getElem?_eq_some.1 hj
    simpa using hl
  interval_cases i <;> simp at hi <;> subst hi <;> refine ⟨by simp, by simp, by simp, ?_⟩ <;>
    intro j q hj hji <;> interval_cases j <;> simp at hj <;> subst hj <;> simp

theorem assign_memory_loop_true (mem : List memory_partition) (program : PCB) (k : Nat)
    (h : (assign_memory_loop mem program k).1 = true) :
    ∃ i part, i < k ∧ mem[i]? = some part ∧ fits program part ∧
      (∀ j q, i < j → j < k → mem[j]? = some q → ¬ fits program q) ∧
      assign_memory_loop mem program k =
        (true, mem.set i { part with occupied := program.PID },
          { program with partition_number := toInt part.partition_number }) := by
  induction k with
  | zero => simp [assign_memory_loop] at h
  | succ k ih =>
    unfold assign_memory_loop at h ⊢
    cases hk : mem[k]? with
    | none =>
      simp only [hk] at h ⊢
      obtain ⟨i, part, hik, hi, hf, hmax, heq⟩ := ih h
      refine ⟨i, part, by omega, hi, hf, ?_, heq⟩
      intro j q hij hjk hj
      by_cases hjk2 : j = k
      · subst hjk2; rw [hk] at hj; cases hj
      · exact hmax j q hij (by omega) hj
    | some part =>
      simp only [hk] at h ⊢
      by_cases hf : toInt program.size ≤ toInt part.size ∧ part.occupied = -1
      · rw [if_pos hf]
        exact ⟨k, part, by omega, hk, hf, fun j q h1 h2 => by omega, rfl⟩
      · rw [if_neg hf] at h ⊢
        obtain ⟨i, p2, hik, hi, hf2, hmax, heq⟩ := ih h
        refine ⟨i, p2, by omega, hi, hf2, ?_, heq⟩
        intro j q hij hjk hj
        by_cases hjk2 : j = k
        · subst hjk2; rw [hk] at hj; cases hj; exact hf
        · exact hmax j q hij (by omega) hj

theorem assign_memory_loop_false (mem : List memory_partition) (program : PCB) (k : Nat)
    (h : (assign_memory_loop mem program k).1 = false) :
    (∀ j q, j < k → mem[j]? = some q → ¬ fits program q) ∧
      assign_memory_loop mem program k = (false, mem, program) := by
  induction k with
  | zero => simp [assign_memory_loop]
  | succ k ih =>
    unfold assign_memory_loop at h ⊢
    cases hk : mem[k]? with
    | none =>
      simp only [hk] at h ⊢
      obtain ⟨hno, heq⟩ := ih h
      refine ⟨?_, heq⟩
      intro j q hjk hj
      by_cases hjk2 : j = k
      · subst hjk2; rw [hk] at hj; cases hj
      · exact hno j q (by omega) hj
    | some part =>
      simp only [hk] at h ⊢
      by_cases hf : toInt program.size ≤ toInt part.size ∧ part.occupied = -1
      · rw [if_pos hf] at h; simp at h
      · rw [if_neg hf] at h ⊢
        obtain ⟨hno, heq⟩ := ih h
        refine ⟨?_, heq⟩
        intro j q hjk hj
        by_cases hjk2 : j = k
        · subst hjk2; rw [hk] at hj; cases hj; exact hf
        · exact hno j q (by omega) hj

/-- For a request below `2 ^ 31` and a partition of the six-partition table the
test of `assign_memory` is the comparison of the two sizes. -/
theorem fits_iff {mem : List memory_partition} (hm : table_ok mem) {program : PCB}
    (hs : program.size < 2 ^ 31) {i : Nat} {part : memory_partition}
    (hi : mem[i]? = some part) :
    fits program part ↔ part.occupied = -1 ∧ program.size ≤ part.size := by
  have h40 := (table_ok_get hm hi).1
  unfold fits
  rw [toInt_small hs, toInt_small (by omega)]
  constructor
  · rintro ⟨h1, h2⟩; exact ⟨h2, by exact_mod_cast h1⟩
  · rintro ⟨h1, h2⟩; exact ⟨by exact_mod_cast h2, h1⟩

/-- C1 (as amended): for every state of the six-partition table and every
process whose requested size `s` is below `2 ^ 31`, `assign_memory` returns
true if and only if some partition is free and has capacity at least `s`; when
it returns true, the partition it marks with the process id is a free
partition of minimum capacity among the free ones of capacity at least `s`,
and the partition field of the process is that partition's number. -/
theorem assign_memory_best_fit (mem : List memory_partition) (program : PCB)
    (hm : table_ok mem) (hs : program.size < 2 ^ 31) :
    ((assign_memory mem program).1 = true ↔
      ∃ part ∈ mem, part.occupied = -1 ∧ program.size ≤ part.size) ∧
    ((assign_memory mem program).1 = true →
      ∃ (i : Nat) (part : memory_partition), mem[i]? = some part ∧ part.occupied = -1 ∧ program.size ≤ part.size ∧
        (∀ q ∈ mem, q.occupied = -1 → program.size ≤ q.size → part.size ≤ q.size) ∧
        (assign_memory mem program).2.1 = mem.set i { part with occupied := program.PID } ∧
        (assign_memory mem program).2.2.partition_number = (part.partition_number : Int)) := by
  have hlen := table_ok_length hm
  have best : (assign_memory mem program).1 = true →
      ∃ (i : Nat) (part : memory_partition), mem[i]? = some part ∧ part.occupied = -1 ∧ program.size ≤ part.size ∧
        (∀ q ∈ mem, q.occupied = -1 → program.size ≤ q.size → part.size ≤ q.size) ∧
        (assign_memory mem program).2.1 = mem.set i { part with occupied := program.PID } ∧
        (assign_memory mem program).2.2.partition_number = (part.partition_number : Int) := by
    intro h
    obtain ⟨i, part, hik, hi, hf, hmax, heq⟩ := assign_memory_loop_true mem program 6 h
    have hfi := (fits_iff hm hs hi).1 hf
    refine ⟨i, part, hi, hfi.1, hfi.2, ?_, ?_, ?_⟩
    · intro q hq hfree hsz
      obtain ⟨j, hj⟩ := List.getElem?_of_mem hq
      have hj6 : j < 6 := by
        obtain ⟨hl, -⟩ := List.getElem?_eq_some.1 hj
        omega
      have hji : j ≤ i := by
        by_contra hc
        exact hmax j q (by omega) hj6 hj ((fits_iff hm hs hj).2 ⟨hfree, hsz⟩)
      exact (table_ok_get hm hi).2.2.2 j q hj hji
    · unfold assign_memory; rw [heq]
    · unfold assign_memory; rw [heq]
      have hn := (table_ok_get hm hi).2.2.1
      show toInt part.partition_number = _
      rw [toInt_small (by omega)]
  refine ⟨⟨fun h => ?_, fun h => ?_⟩, best⟩
  · obtain ⟨i, part, hi, h1, h2, -⟩ := best h
    exact ⟨part, List.getElem?_mem hi, h1, h2⟩
  · obtain ⟨part, hp, h1, h2⟩ := h
    by_contra hc
    have hc2 : (assign_memory_loop mem program 6).1 = false := by
      simpa [assign_memory] using hc
    obtain ⟨hno, -⟩ := assign_memory_loop_false mem program 6 hc2
    obtain ⟨j, hj⟩ := List.getElem?_of_mem hp
    have hj6 : j < 6 := by
      obtain ⟨hl, -⟩ := List.getElem?_eq_some.1 hj
      omega
    exact hno j part hj6 hj ((fits_iff hm hs hj).2 ⟨h1, h2⟩)

/-- Witness of `assign_memory_best_fit`: a request of size 9 on the free table. -/
theorem assign_memory_best_fit_witness :
    ((assign_memory memory_paritions
        ⟨1, 9, 0, -1, 5, 5, -1, states.NOT_ASSIGNED, 0, 0⟩).1 = true ↔
      ∃ part ∈ memory_paritions, part.occupied = -1 ∧ 9 ≤ part.size) ∧
    ((assign_memory memory_paritions
        ⟨1, 9, 0, -1, 5, 5, -1, states.NOT_ASSIGNED, 0, 0⟩).1 = true →
      ∃ (i : Nat) (part : memory_partition), memory_paritions[i]? = some part ∧ part.occupied = -1 ∧ 9 ≤ part.size ∧
        (∀ q ∈ memory_paritions, q.occupied = -1 → 9 ≤ q.size → part.size ≤ q.size) ∧
        (assign_memory memory_paritions
          ⟨1, 9, 0, -1, 5, 5, -1, states.NOT_ASSIGNED, 0, 0⟩).2.1 =
            memory_paritions.set i { part with occupied := 1 } ∧
        (assign_memory memory_paritions
          ⟨1, 9, 0, -1, 5, 5, -1, states.NOT_ASSIGNED, 0, 0⟩).2.2.partition_number =
            (part.partition_number : Int)) :=
  assign_memory_best_fit memory_paritions ⟨1, 9, 0, -1, 5, 5, -1, states.NOT_ASSIGNED, 0, 0⟩
    ⟨rfl, rfl⟩ (by decide)

/-- C1, counterexample: on the free table a request of size `2 ^ 31` is
granted (partition 6, capacity 2) although no partition has that capacity:
`int size_to_fit = program.size` is negative. -/
theorem assign_memory_size_wraps :
    table_ok memory_paritions ∧
    assign_memory memory_paritions
        ⟨1, 2147483648, 0, -1, 5, 5, -1, states.NOT_ASSIGNED, 0, 0⟩ =
      (true,
       [⟨1, 40, -1⟩, ⟨2, 25, -1⟩, ⟨3, 15, -1⟩, ⟨4, 10, -1⟩, ⟨5, 8, -1⟩, ⟨6, 2, 1⟩],
       ⟨1, 2147483648, 0, -1, 5, 5, 6, states.NOT_ASSIGNED, 0, 0⟩) ∧
    ¬ ∃ part ∈ memory_paritions, part.occupied = -1 ∧ 2147483648 ≤ part.size := by
  refine ⟨⟨rfl, rfl⟩, by decide, ?_⟩
  simp [memory_paritions]

theorem free_memory_loop_true (mem : List memory_partition) (program : PCB) (k : Nat)
    (h : (free_memory_loop mem program k).1 = true) :
    ∃ i part, i < k ∧ mem[i]? = some part ∧ part.occupied = program.PID ∧
      (∀ j q, i < j → j < k → mem[j]? = some q → q.occupied ≠ program.PID) ∧
      free_memory_loop mem program k =
        (true, mem.set i { part with occupied := -1 },
          { program with partition_number := -1 }) := by
  induction k with
  | zero => simp [free_memory_loop] at h
  | succ k ih =>
    unfold free_memory_loop at h ⊢
    cases hk : mem[k]? with
    | none =>
      simp only [hk] at h ⊢
      obtain ⟨i, part, hik, hi, hf, hmax, heq⟩ := ih h
      refine ⟨i, part, by omega, hi, hf, ?_, heq⟩
      intro j q hij hjk hj
      by_cases hjk2 : j = k
      · subst hjk2; rw [hk] at hj; cases hj
      · exact hmax j q hij (by omega) hj
    | some part =>
      simp only [hk] at h ⊢
      by_cases hf : program.PID = part.occupied
      · rw [if_pos hf]
        exact ⟨k, part, by omega, hk, hf.symm, fun j q h1 h2 => by omega, rfl⟩
      · rw [if_neg hf] at h ⊢
        obtain ⟨i, p2, hik, hi, hf2, hmax, heq⟩ := ih h
        refine ⟨i, p2, by omega, hi, hf2, ?_, heq⟩
        intro j q hij hjk hj
        by_cases hjk2 : j = k
        · subst hjk2; rw [hk] at hj; cases hj; exact fun hq => hf hq.symm
        · exact hmax j q hij (by omega) hj

theorem free_memory_loop_false (mem : List memory_partition) (program : PCB) (k : Nat)
    (h : (free_memory_loop mem program k).1 = false) :
    (∀ j q, j < k → mem[j]? = some q → q.occupied ≠ program.PID) ∧
      free_memory_loop mem program k = (false, mem, program) := by
  induction k with
  | zero => simp [free_memory_loop]
  | succ k ih =>
    unfold free_memory_loop at h ⊢
    cases hk : mem[k]? with
    | none =>
      simp only [hk] at h ⊢
      obtain ⟨hno, heq⟩ := ih h
      refine ⟨?_, heq⟩
      intro j q hjk hj
      by_cases hjk2 : j = k
      · subst hjk2; rw [hk] at hj; cases hj
      · exact hno j q (by omega) hj
    | some part =>
      simp only [hk] at h ⊢
      by_cases hf : program.PID = part.occupied
      · rw [if_pos hf] at h; simp at h
      · rw [if_neg hf] at h ⊢
        obtain ⟨hno, heq⟩ := ih h
        refine ⟨?_, heq⟩
        intro j q hjk hj
        by_cases hjk2 : j = k
        · subst hjk2; rw [hk] at hj; cases hj; exact fun hq => hf hq.symm
        · exact hno j q (by omega) hj

/-- Writing the occupant of entry `i` leaves every other entry, every
capacity and every partition number as they were. -/
theorem set_occupied_frame (mem : List memory_partition) (i : Nat) (part : memory_partition)
    (o : Int) (hi : mem[i]? = some part) :
    (mem.set i { part with occupied := o })[i]? = some { part with occupied := o } ∧
    (∀ j, j ≠ i → (mem.set i { part with occupied := o })[j]? = mem[j]?) ∧
    (mem.set i { part with occupied := o }).map (fun p => p.size) =
      mem.map (fun p => p.size) ∧
    (mem.set i { part with occupied := o }).map (fun p => p.partition_number) =
      mem.map (fun p => p.partition_number) := by
  obtain ⟨hl, hget⟩ := List.getElem?_eq_some.1 hi
  refine ⟨?_, ?_, ?_, ?_⟩
  · simp [List.getElem?_set, hl]
  · intro j hj
    simp [List.getElem?_set, Ne.symm hj]
  · apply List.ext_getElem?
    intro j
    by_cases hj : j = i
    · subst hj; simp [List.getElem?_set, hl, hget]
    · simp [List.getElem?_set, Ne.symm hj]
  · apply List.ext_getElem?
    intro j
    by_cases hj : j = i
    · subst hj; simp [List.getElem?_set, hl, hget]
    · simp [List.getElem?_set, Ne.symm hj]

/-- C2 (as amended): `assign_memory` changes nothing else.  When it returns
false the table and the process are unchanged.  When it returns true, one free
entry is written with the process id, every other entry is unchanged, no
capacity or partition number changes, and the partition number is the only
process field written; the written entry differs from what it was, so that
exactly one occupant changes, when the process id is not `-1`. -/
theorem assign_memory_frame (mem : List memory_partition) (program : PCB) :
    ((assign_memory mem program).1 = false →
      (assign_memory mem program).2.1 = mem ∧ (assign_memory mem program).2.2 = program) ∧
    ((assign_memory mem program).1 = true →
      ∃ (i : Nat) (part : memory_partition), mem[i]? = some part ∧ part.occupied = -1 ∧
        (assign_memory mem program).2.1[i]? = some { part with occupied := program.PID } ∧
        (∀ j, j ≠ i → (assign_memory mem program).2.1[j]? = mem[j]?) ∧
        (program.PID ≠ -1 →
          ∀ j, (assign_memory mem program).2.1[j]? ≠ mem[j]? ↔ j = i) ∧
        (assign_memory mem program).2.1.map (fun p => p.size) = mem.map (fun p => p.size) ∧
        (assign_memory mem program).2.1.map (fun p => p.partition_number) =
          mem.map (fun p => p.partition_number) ∧
        (assign_memory mem program).2.2 =
          { program with
            partition_number := (assign_memory mem program).2.2.partition_number }) := by
  constructor
  · intro h
    obtain ⟨-, heq⟩ := assign_memory_loop_false mem program 6 h
    unfold assign_memory; rw [heq]; exact ⟨rfl, rfl⟩
  · intro h
    obtain ⟨i, part, -, hi, hf, -, heq⟩ := assign_memory_loop_true mem program 6 h
    obtain ⟨f1, f2, f3, f4⟩ := set_occupied_frame mem i part program.PID hi
    unfold assign_memory; rw [heq]
    refine ⟨i, part, hi, hf.2, f1, f2, ?_, f3, f4, rfl⟩
    intro hpid j
    constructor
    · intro hne
      by_contra hji
      exact hne (f2 j hji)
    · rintro rfl
      show (mem.set j { part with occupied := program.PID })[j]? ≠ mem[j]?
      rw [f1, hi]
      intro hc
      have : program.PID = part.occupied := by
        have := Option.some.inj hc
        exact congrArg memory_partition.occupied this
      exact hpid (this.trans hf.2)

/-- Witness of `assign_memory_frame`: process 1 of size 9 on the free table. -/
theorem assign_memory_frame_witness :
    (assign_memory memory_paritions
        ⟨1, 9, 0, -1, 5, 5, -1, states.NOT_ASSIGNED, 0, 0⟩).1 = true ∧
    ∃ (i : Nat) (part : memory_partition), memory_paritions[i]? = some part ∧ part.occupied = -1 ∧
      (assign_memory memory_paritions
        ⟨1, 9, 0, -1, 5, 5, -1, states.NOT_ASSIGNED, 0, 0⟩).2.1[i]? =
          some { part with occupied := 1 } ∧
      (∀ j, j ≠ i → (assign_memory memory_paritions
        ⟨1, 9, 0, -1, 5, 5, -1, states.NOT_ASSIGNED, 0, 0⟩).2.1[j]? = memory_paritions[j]?) :=
  ⟨by decide,
    let ⟨i, part, h1, h2, h3, h4, _⟩ :=
      (assign_memory_frame memory_paritions
        ⟨1, 9, 0, -1, 5, 5, -1, states.NOT_ASSIGNED, 0, 0⟩).2 (by decide)
    ⟨i, part, h1, h2, h3, h4⟩⟩

/-- C2, counterexample: for a process whose id is `-1` the call returns true
and no occupant changes: the table is exactly what it was. -/
theorem assign_memory_id_minus_one :
    (assign_memory memory_paritions
        ⟨-1, 9, 0, -1, 5, 5, -1, states.NOT_ASSIGNED, 0, 0⟩).1 = true ∧
    (assign_memory memory_paritions
        ⟨-1, 9, 0, -1, 5, 5, -1, states.NOT_ASSIGNED, 0, 0⟩).2.1 = memory_paritions := by
  decide

/-- C3: for every six-entry partition table and every process with a
non-negative id: if some partition's occupant is the process id,
`free_memory` returns true, marks one such (occupied) partition free, sets the
partition field of the process to `-1` and leaves the other partitions and
the other fields unchanged; if no partition's occupant is the process id, it
returns false and leaves the table and the process unchanged. -/
theorem free_memory_spec (mem : List memory_partition) (program : PCB)
    (hlen : mem.length = 6) (hid : 0 ≤ program.PID) :
    ((∃ part ∈ mem, part.occupied = program.PID) →
      (free_memory mem program).1 = true ∧
      ∃ (i : Nat) (part : memory_partition), mem[i]? = some part ∧ part.occupied = program.PID ∧ part.occupied ≠ -1 ∧
        (free_memory mem program).2.1[i]? = some { part with occupied := -1 } ∧
        (∀ j, j ≠ i → (free_memory mem program).2.1[j]? = mem[j]?) ∧
        (free_memory mem program).2.1.map (fun p => p.size) = mem.map (fun p => p.size) ∧
        (free_memory mem program).2.1.map (fun p => p.partition_number) =
          mem.map (fun p => p.partition_number) ∧
        (free_memory mem program).2.2 = { program with partition_number := -1 }) ∧
    ((¬ ∃ part ∈ mem, part.occupied = program.PID) →
      free_memory mem program = (false, mem, program)) := by
  constructor
  · rintro ⟨part, hp, hocc⟩
    have htrue : (free_memory_loop mem program 6).1 = true := by
      by_contra hc
      have hc2 : (free_memory_loop mem program 6).1 = false := by simpa using hc
      obtain ⟨hno, -⟩ := free_memory_loop_false mem program 6 hc2
      obtain ⟨j, hj⟩ := List.getElem?_of_mem hp
      have hj6 : j < 6 := by
        obtain ⟨hl, -⟩ := List.getElem?_eq_some.1 hj
        omega
      exact hno j part hj6 hj hocc
    obtain ⟨i, p2, -, hi, hf, -, heq⟩ := free_memory_loop_true mem program 6 htrue
    obtain ⟨f1, f2, f3, f4⟩ := set_occupied_frame mem i p2 (-1) hi
    unfold free_memory
    refine ⟨htrue, ?_⟩
    rw [heq]
    exact ⟨i, p2, hi, hf, by omega, f1, f2, f3, f4, rfl⟩
  · intro hnone
    have hfalse : (free_memory_loop mem program 6).1 = false := by
      by_contra hc
      have hc2 : (free_memory_loop mem program 6).1 = true := by simpa using hc
      obtain ⟨i, p2, -, hi, hf, -, -⟩ := free_memory_loop_true mem program 6 hc2
      exact hnone ⟨p2, List.getElem?_mem hi, hf⟩
    exact (free_memory_loop_false mem program 6 hfalse).2

/-- Witness of `free_memory_spec`: process 3 holds partition 4. -/
theorem free_memory_spec_witness :
    (free_memory
        [⟨1, 40, -1⟩, ⟨2, 25, -1⟩, ⟨3, 15, -1⟩, ⟨4, 10, 3⟩, ⟨5, 8, -1⟩, ⟨6, 2, -1⟩]
        ⟨3, 9, 0, -1, 5, 5, 4, states.READY, 0, 0⟩).1 = true ∧
    (free_memory memory_paritions ⟨3, 9, 0, -1, 5, 5, 4, states.READY, 0, 0⟩) =
      (false, memory_paritions, ⟨3, 9, 0, -1, 5, 5, 4, states.READY, 0, 0⟩) :=
  ⟨((free_memory_spec
        [⟨1, 40, -1⟩, ⟨2, 25, -1⟩, ⟨3, 15, -1⟩, ⟨4, 10, 3⟩, ⟨5, 8, -1⟩, ⟨6, 2, -1⟩]
        ⟨3, 9, 0, -1, 5, 5, 4, states.READY, 0, 0⟩ rfl (by decide)).1
      ⟨⟨4, 10, 3⟩, by simp, rfl⟩).1,
   (free_memory_spec memory_paritions ⟨3, 9, 0, -1, 5, 5, 4, states.READY, 0, 0⟩ rfl
      (by decide)).2 (by simp [memory_paritions])⟩

/-! ## Scenario: two processes under the non-preemptive priority engine -/

/-- C4 (as amended): under the EP engine, started with all partitions free,
the input `{id=1,size=5,arrival=0,processing=10,io_freq=0}`,
`{id=2,size=5,arrival=0,processing=3,io_freq=0}` (I/O durations 0, which the
scenario leaves out) makes the loop end after 13 ticks with a log in which
process 1, the lower id, is dispatched first at tick 0 and terminates at tick
10, and process 2 is then dispatched at tick 10 and terminates at tick 13. -/
theorem EP_two_process_scenario :
    loop_cond (run_loop tick_EP 12
      (init [add_process 1 5 0 10 0 0, add_process 2 5 0 3 0 0])) = true ∧
    loop_cond (run_loop tick_EP 13
      (init [add_process 1 5 0 10 0 0, add_process 2 5 0 3 0 0])) = false ∧
    (run_loop tick_EP 13
      (init [add_process 1 5 0 10 0 0, add_process 2 5 0 3 0 0])).execution_status =
      [ Event.mk 0 1 states.NEW states.READY,
        Event.mk 0 2 states.NEW states.READY,
        Event.mk 0 1 states.READY states.RUNNING,
        Event.mk 10 1 states.RUNNING states.TERMINATED,
        Event.mk 10 2 states.READY states.RUNNING,
        Event.mk 13 2 states.RUNNING states.TERMINATED ] := by
  decide

/-- C4, counterexample: the finished run dispatches process 1 at tick 0;
process 2 is neither dispatched at tick 0 nor terminated at tick 3, and
process 1 is neither dispatched at tick 3 nor terminated at tick 13. -/
theorem EP_two_process_order :
    loop_cond (run_loop tick_EP 13
      (init [add_process 1 5 0 10 0 0, add_process 2 5 0 3 0 0])) = false ∧
    Event.mk 0 1 states.READY states.RUNNING ∈ (run_loop tick_EP 13
      (init [add_process 1 5 0 10 0 0, add_process 2 5 0 3 0 0])).execution_status ∧
    Event.mk 0 2 states.READY states.RUNNING ∉ (run_loop tick_EP 13
      (init [add_process 1 5 0 10 0 0, add_process 2 5 0 3 0 0])).execution_status ∧
    Event.mk 3 2 states.RUNNING states.TERMINATED ∉ (run_loop tick_EP 13
      (init [add_process 1 5 0 10 0 0, add_process 2 5 0 3 0 0])).execution_status ∧
    Event.mk 3 1 states.READY states.RUNNING ∉ (run_loop tick_EP 13
      (init [add_process 1 5 0 10 0 0, add_process 2 5 0 3 0 0])).execution_status ∧
    Event.mk 13 1 states.RUNNING states.TERMINATED ∉ (run_loop tick_EP 13
      (init [add_process 1 5 0 10 0 0, add_process 2 5 0 3 0 0])).execution_status := by
  decide

/-! ## `sortByPriority` -/

theorem sortByPriority_insert_perm (x : PCB) (l : List PCB) :
    (sortByPriority_insert x l).Perm (x :: l) := by
  induction l with
  | nil => exact List.Perm.refl _
  | cons y ys ih =>
    unfold sortByPriority_insert
    split
    · exact (List.Perm.cons y ih).trans (List.Perm.swap x y ys)
    · exact List.Perm.refl _

theorem sortByPriority_perm (l : List PCB) : (sortByPriority l).Perm l := by
  induction l with
  | nil => exact List.Perm.refl _
  | cons x xs ih =>
    show (sortByPriority_insert x (sortByPriority xs)).Perm (x :: xs)
    exact (sortByPriority_insert_perm x _).trans (List.Perm.cons x ih)

theorem sortByPriority_insert_sorted (x : PCB) (l : List PCB)
    (h : l.Pairwise (fun a b => b.PID ≤ a.PID)) :
    (sortByPriority_insert x l).Pairwise (fun a b => b.PID ≤ a.PID) := by
  induction l with
  | nil => simp [sortByPriority_insert]
  | cons y ys ih =>
    unfold sortByPriority_insert
    rw [List.pairwise_cons] at h
    split
    · rename_i hyx
      rw [List.pairwise_cons]
      refine ⟨?_, ih h.2⟩
      intro z hz
      rcases List.mem_cons.1 ((List.Perm.mem_iff (sortByPriority_insert_perm x ys)).1 hz)
        with rfl | hz2
      · omega
      · exact h.1 z hz2
    · rename_i hyx
      rw [List.pairwise_cons]
      refine ⟨?_, List.pairwise_cons.2 h⟩
      intro z hz
      rcases List.mem_cons.1 hz with rfl | hz2
      · omega
      · have := h.1 z hz2
        omega

/-- `sortByPriority` leaves the queue in descending PID order. -/
theorem sortByPriority_sorted (l : List PCB) :
    (sortByPriority l).Pairwise (fun a b => b.PID ≤ a.PID) := by
  induction l with
  | nil => simp [sortByPriority]
  | cons x xs ih => exact sortByPriority_insert_sorted x _ ih

/-- The back of a queue in descending PID order has the smallest PID. -/
theorem getLast_le_of_sorted (l : List PCB) (p : PCB)
    (h : l.Pairwise (fun a b => b.PID ≤ a.PID)) (hp : l.getLast? = some p) :
    ∀ q ∈ l, p.PID ≤ q.PID := by
  obtain ⟨ys, rfl⟩ := List.getLast?_eq_some_iff.1 hp
  rw [List.pairwise_append] at h
  intro q hq
  rcases List.mem_append.1 hq with hq1 | hq1
  · exact h.2.2 q hq1 p (by simp)
  · simp at hq1
    subst hq1
    exact le_refl _

/-! ## The steps of a tick, case by case -/

/-- What `run_process` does to a queue whose back is `p`. -/
theorem run_process_spec (s : SimState) (p : PCB) (rest : List PCB)
    (hp : s.ready_queue = rest ++ [p]) :
    run_process s =
      { s with running := to_run s.current_time p,
               ready_queue := rest,
               job_list := sync_queue s.job_list (to_run s.current_time p) } := by
  unfold run_process
  have h1 : s.ready_queue.getLast? = some p := by rw [hp]; simp
  have h2 : s.ready_queue.dropLast = rest := by rw [hp]; simp
  rw [h1, h2]

theorem exists_back {α : Type} (l : List α) (h : l ≠ []) : ∃ rest p, l = rest ++ [p] := by
  cases hl : l.getLast? with
  | none => exact absurd (List.getLast?_eq_none_iff.1 hl) h
  | some p =>
    obtain ⟨ys, hys⟩ := List.getLast?_eq_some_iff.1 hl
    exact ⟨ys, p, hys⟩

theorem sortByPriority_ne_nil (l : List PCB) (h : l ≠ []) : sortByPriority l ≠ [] := by
  intro hc
  have := (sortByPriority_perm l).length_eq
  rw [hc] at this
  exact h (List.length_eq_zero.1 this.symm)

theorem dispatch_EP_cases (s : SimState) :
    dispatch_EP s = s ∨
    ∃ p rest,
      (s.running.state = states.NOT_ASSIGNED ∨ s.running.state = states.TERMINATED ∨
        s.running.state = states.WAITING) ∧
      sortByPriority s.ready_queue = rest ++ [p] ∧
      dispatch_EP s =
        { s with running := to_run s.current_time p,
                 ready_queue := rest,
                 job_list := sync_queue s.job_list (to_run s.current_time p),
                 execution_status := s.execution_status ++
                   [Event.mk s.current_time p.PID states.READY states.RUNNING] } := by
  unfold dispatch_EP
  split_ifs with h1 h2
  · right
    obtain ⟨rest, p, hp⟩ := exists_back _ (sortByPriority_ne_nil _ h2)
    refine ⟨p, rest, h1, hp, ?_⟩
    rw [run_process_spec { s with ready_queue := sortByPriority s.ready_queue } p rest hp]
    rfl
  · exact Or.inl rfl
  · exact Or.inl rfl

theorem dispatch_EP_RR_cases (s : SimState) :
    dispatch_EP_RR s = s ∨
    ∃ p rest,
      (s.running.state = states.NOT_ASSIGNED ∨ s.running.state = states.TERMINATED ∨
        s.running.state = states.WAITING ∨ s.running.state = states.READY) ∧
      s.ready_queue = rest ++ [p] ∧
      dispatch_EP_RR s =
        { s with running := to_run s.current_time p,
                 ready_queue := rest,
                 job_list := sync_queue s.job_list (to_run s.current_time p),
                 time_slice_counter := 0,
                 execution_status := s.execution_status ++
                   [Event.mk s.current_time p.PID states.READY states.RUNNING] } := by
  unfold dispatch_EP_RR
  split_ifs with h1 h2
  · right
    obtain ⟨rest, p, hp⟩ := exists_back _ h2
    refine ⟨p, rest, h1, hp, ?_⟩
    rw [run_process_spec s p rest hp]
    rfl
  · exact Or.inl rfl
  · exact Or.inl rfl

theorem dispatch_RR_cases (s : SimState) :
    dispatch_RR s = s ∨
    ∃ p rest,
      (s.running.state = states.NOT_ASSIGNED ∨ s.running.state = states.TERMINATED ∨
        s.running.state = states.WAITING ∨ s.running.state = states.READY) ∧
      s.ready_queue = p :: rest ∧
      dispatch_RR s =
        { s with running := to_run s.current_time p,
                 ready_queue := rest,
                 job_list := sync_queue s.job_list (to_run s.current_time p),
                 time_slice_counter := 0,
                 execution_status := s.execution_status ++
                   [Event.mk s.current_time p.PID states.READY states.RUNNING] } := by
  unfold dispatch_RR
  split_ifs with h
  · cases hq : s.ready_queue with
    | nil => exact absurd hq h.2
    | cons p rest => exact Or.inr ⟨p, rest, h.1, rfl, rfl⟩
  · exact Or.inl rfl

theorem sort_EP_RR_eq (s : SimState) :
    sort_EP_RR s = { s with ready_queue := sortByPriority s.ready_queue } := by
  unfold sort_EP_RR
  split_ifs with h
  · rfl
  · have : s.ready_queue = [] := by simpa using h
    cases s
    simp only at this
    subst this
    rfl

theorem preempt_EP_RR_cases (s : SimState) :
    preempt_EP_RR s = s ∨
    (s.running.state = states.RUNNING ∧ preempt_cond_EP_RR s = true ∧
      preempt_EP_RR s =
        { s with ready_queue := sortByPriority (s.ready_queue ++ [to_ready s.running]),
                 job_list := sync_queue s.job_list (to_ready s.running),
                 execution_status := s.execution_status ++
                   [Event.mk s.current_time s.running.PID states.RUNNING states.READY],
                 running := idle_CPU,
                 time_slice_counter := 0 }) := by
  unfold preempt_EP_RR
  split_ifs with h1 h2
  · exact Or.inr ⟨h1, h2, rfl⟩
  · exact Or.inl rfl
  · exact Or.inl rfl

theorem preempt_RR_cases (s : SimState) :
    preempt_RR s = s ∨
    (s.running.state = states.RUNNING ∧ s.time_slice_counter ≥ TIME_QUANTUM ∧
      preempt_RR s =
        { s with ready_queue := s.ready_queue ++ [to_ready s.running],
                 job_list := sync_queue s.job_list (to_ready s.running),
                 execution_status := s.execution_status ++
                   [Event.mk s.current_time s.running.PID states.RUNNING states.READY],
                 running := idle_CPU,
                 time_slice_counter := 0 }) := by
  unfold preempt_RR
  split_ifs with h1 h2
  · exact Or.inr ⟨h1, h2, rfl⟩
  · exact Or.inl rfl
  · exact Or.inl rfl

/-- After the sort and the preemption check of `..._EP_RR.cpp` the ready queue
is in descending PID order. -/
theorem preempt_EP_RR_sorted (s : SimState) :
    (preempt_EP_RR (sort_EP_RR s)).ready_queue.Pairwise (fun a b => b.PID ≤ a.PID) := by
  rcases preempt_EP_RR_cases (sort_EP_RR s) with h | ⟨-, -, h⟩
  · rw [h, sort_EP_RR_eq]; exact sortByPriority_sorted _
  · rw [h]; exact sortByPriority_sorted _

theorem preempt_EP_RR_time (s : SimState) :
    (preempt_EP_RR s).current_time = s.current_time := by
  rcases preempt_EP_RR_cases s with h | ⟨-, -, h⟩ <;> rw [h]

/-- C8: in the two priority engines, whenever the dispatch step runs with the
running slot vacant and the ready queue non-empty, the process it moves to
RUNNING (and logs as READY -> RUNNING) is taken out of the ready queue and has
the smallest id among all processes in the ready queue at that point; with
unique ids every other ready process has a strictly larger id.  For EP the
step is lines 72-79; for EP_RR it is the dispatch of lines 105-114 on the
queue left by the sort and the preemption check of lines 73-103. -/
theorem priority_dispatch_lowest_id (s : SimState) :
    ((s.running.state = states.NOT_ASSIGNED ∨ s.running.state = states.TERMINATED ∨
        s.running.state = states.WAITING) →
      s.ready_queue ≠ [] →
      ∃ p ∈ s.ready_queue,
        (dispatch_EP s).running = to_run s.current_time p ∧
        (dispatch_EP s).execution_status = s.execution_status ++
          [Event.mk s.current_time p.PID states.READY states.RUNNING] ∧
        (p :: (dispatch_EP s).ready_queue).Perm s.ready_queue ∧
        (∀ q ∈ s.ready_queue, p.PID ≤ q.PID) ∧
        ((s.ready_queue.map (fun q => q.PID)).Nodup →
          ∀ q ∈ (dispatch_EP s).ready_queue, p.PID < q.PID)) ∧
    (((preempt_EP_RR (sort_EP_RR s)).running.state = states.NOT_ASSIGNED ∨
        (preempt_EP_RR (sort_EP_RR s)).running.state = states.TERMINATED ∨
        (preempt_EP_RR (sort_EP_RR s)).running.state = states.WAITING ∨
        (preempt_EP_RR (sort_EP_RR s)).running.state = states.READY) →
      (preempt_EP_RR (sort_EP_RR s)).ready_queue ≠ [] →
      ∃ p ∈ (preempt_EP_RR (sort_EP_RR s)).ready_queue,
        (dispatch_EP_RR (preempt_EP_RR (sort_EP_RR s))).running = to_run s.current_time p ∧
        (dispatch_EP_RR (preempt_EP_RR (sort_EP_RR s))).execution_status =
          (preempt_EP_RR (sort_EP_RR s)).execution_status ++
            [Event.mk s.current_time p.PID states.READY states.RUNNING] ∧
        (p :: (dispatch_EP_RR (preempt_EP_RR (sort_EP_RR s))).ready_queue).Perm
          (preempt_EP_RR (sort_EP_RR s)).ready_queue ∧
        (∀ q ∈ (preempt_EP_RR (sort_EP_RR s)).ready_queue, p.PID ≤ q.PID) ∧
        (((preempt_EP_RR (sort_EP_RR s)).ready_queue.map (fun q => q.PID)).Nodup →
          ∀ q ∈ (dispatch_EP_RR (preempt_EP_RR (sort_EP_RR s))).ready_queue,
            p.PID < q.PID)) := by
  have strict : ∀ (l rest : List PCB) (p : PCB), (p :: rest).Perm l →
      (∀ q ∈ l, p.PID ≤ q.PID) → (l.map (fun q => q.PID)).Nodup →
      ∀ q ∈ rest, p.PID < q.PID := by
    intro l rest p hperm hmin hnd q hq
    have hnd2 : ((p :: rest).map (fun q => q.PID)).Nodup :=
      (List.Perm.nodup_iff (List.Perm.map _ hperm)).2 hnd
    rw [List.map_cons, List.nodup_cons] at hnd2
    have hle := hmin q (hperm.subset (List.mem_cons_of_mem _ hq))
    have hne : p.PID ≠ q.PID := by
      intro he
      exact hnd2.1 (by rw [he]; exact List.mem_map_of_mem _ hq)
    omega
  constructor
  · intro hvac hne
    rcases dispatch_EP_cases s with hd | ⟨p, rest, -, hsort, hd⟩
    · exfalso
      have h2 : (dispatch_EP s).running.state = states.RUNNING := by
        unfold dispatch_EP
        rw [if_pos hvac, if_pos hne]
        obtain ⟨rest, p, hp⟩ := exists_back _ (sortByPriority_ne_nil _ hne)
        rw [run_process_spec { s with ready_queue := sortByPriority s.ready_queue } p rest hp]
        rfl
      rw [hd] at h2
      rcases hvac with h | h | h <;> rw [h] at h2 <;> cases h2
    · have hperm : (p :: rest).Perm s.ready_queue := by
        have h1 : (p :: rest).Perm (rest ++ [p]) := (List.perm_append_singleton _ _).symm
        rw [← hsort] at h1
        exact h1.trans (sortByPriority_perm _)
      have hmin : ∀ q ∈ s.ready_queue, p.PID ≤ q.PID := fun q hq =>
        getLast_le_of_sorted _ p (sortByPriority_sorted _) (by rw [hsort]; simp) q
          ((sortByPriority_perm s.ready_queue).symm.subset hq)
      rw [hd]
      exact ⟨p, hperm.subset (List.mem_cons_self _ _), rfl, rfl, hperm, hmin,
        strict _ _ p hperm hmin⟩
  · intro hvac hne
    have hsorted := preempt_EP_RR_sorted s
    have htime : (preempt_EP_RR (sort_EP_RR s)).current_time = s.current_time := by
      rw [preempt_EP_RR_time, sort_EP_RR_eq]
    generalize preempt_EP_RR (sort_EP_RR s) = s1 at hvac hne hsorted htime ⊢
    rcases dispatch_EP_RR_cases s1 with hd | ⟨p, rest, -, hq, hd⟩
    · exfalso
      have h2 : (dispatch_EP_RR s1).running.state = states.RUNNING := by
        unfold dispatch_EP_RR
        rw [if_pos hvac, if_pos hne]
        obtain ⟨rest, p, hp⟩ := exists_back _ hne
        rw [run_process_spec s1 p rest hp]
        rfl
      rw [hd] at h2
      rcases hvac with h | h | h | h <;> rw [h] at h2 <;> cases h2
    · have hperm : (p :: rest).Perm s1.ready_queue := by
        rw [hq]; exact (List.perm_append_singleton _ _).symm
      have hmin : ∀ q ∈ s1.ready_queue, p.PID ≤ q.PID :=
        getLast_le_of_sorted _ p hsorted (by rw [hq]; simp)
      rw [hd]
      refine ⟨p, hperm.subset (List.mem_cons_self _ _), ?_, ?_, hperm, hmin,
        strict _ _ p hperm hmin⟩
      · show to_run s1.current_time p = _
        rw [htime]
      · show _ ++ [Event.mk s1.current_time _ _ _] = _
        rw [htime]

/-- Witness of `priority_dispatch_lowest_id`: a vacant running slot and the
ready queue 3, 1, 2. -/
theorem priority_dispatch_lowest_id_witness :
    (∃ p ∈ sample_ready_state.ready_queue,
      (dispatch_EP sample_ready_state).running =
        to_run sample_ready_state.current_time p ∧
      ∀ q ∈ sample_ready_state.ready_queue, p.PID ≤ q.PID) ∧
    (∃ p ∈ (preempt_EP_RR (sort_EP_RR sample_ready_state)).ready_queue,
      (dispatch_EP_RR (preempt_EP_RR (sort_EP_RR sample_ready_state))).running =
        to_run sample_ready_state.current_time p ∧
      ∀ q ∈ (preempt_EP_RR (sort_EP_RR sample_ready_state)).ready_queue, p.PID ≤ q.PID) := by
  constructor
  · obtain ⟨p, hp, h1, -, -, h4, -⟩ :=
      (priority_dispatch_lowest_id sample_ready_state).1 (by decide) (by decide)
    exact ⟨p, hp, h1, h4⟩
  · obtain ⟨p, hp, h1, -, -, h4, -⟩ :=
      (priority_dispatch_lowest_id sample_ready_state).2 (by decide) (by decide)
    exact ⟨p, hp, h1, h4⟩

/-! ## The two sweeps in closed form -/

theorem manage_wait_queue_loop_eq (s : SimState) (l : List PCB) :
    manage_wait_queue_loop s l =
      { s with
        wait_queue := s.wait_queue ++ l.filter (fun p => !io_done s.current_time p),
        ready_queue := s.ready_queue ++ (l.filter (fun p => io_done s.current_time p)).map wake,
        job_list := ((l.filter (fun p => io_done s.current_time p)).map wake).foldl
          sync_queue s.job_list,
        execution_status := s.execution_status ++
          (l.filter (fun p => io_done s.current_time p)).map
            (fun p => Event.mk s.current_time (wake p).PID states.WAITING states.READY) } := by
  induction l generalizing s with
  | nil => simp [manage_wait_queue_loop]
  | cons p rest ih =>
    unfold manage_wait_queue_loop
    by_cases h : io_done s.current_time p = true
    · rw [if_pos h, ih]
      simp [h, wake, List.append_assoc]
    · rw [if_neg h, ih]
      simp [h, List.append_assoc]

theorem manage_wait_queue_eq (s : SimState) :
    manage_wait_queue s =
      { s with
        wait_queue := s.wait_queue.filter (fun p => !io_done s.current_time p),
        ready_queue := s.ready_queue ++
          (s.wait_queue.filter (fun p => io_done s.current_time p)).map wake,
        job_list := ((s.wait_queue.filter (fun p => io_done s.current_time p)).map wake).foldl
          sync_queue s.job_list,
        execution_status := s.execution_status ++
          (s.wait_queue.filter (fun p => io_done s.current_time p)).map
            (fun p => Event.mk s.current_time (wake p).PID states.WAITING states.READY) } := by
  unfold manage_wait_queue
  rw [manage_wait_queue_loop_eq]
  simp

theorem admission_loop_eq (s : SimState) (l : List PCB) :
    admission_loop s l =
      { s with
        mem := (admission_result s.current_time s.mem l).2.2,
        list_processes := s.list_processes ++ (admission_result s.current_time s.mem l).2.1,
        ready_queue := s.ready_queue ++
          (admission_result s.current_time s.mem l).1.map (fun x => x.1),
        job_list := s.job_list ++
          (admission_result s.current_time s.mem l).1.map (fun x => x.1),
        execution_status := s.execution_status ++
          (admission_result s.current_time s.mem l).1.map
            (fun x => Event.mk s.current_time x.1.PID states.NEW states.READY),
        memory_status := s.memory_status ++
          (admission_result s.current_time s.mem l).1.map
            (fun x => (s.current_time, x.2)) } := by
  induction l generalizing s with
  | nil => simp [admission_loop, admission_result]
  | cons p rest ih =>
    unfold admission_loop admission_result
    by_cases h1 : p.arrival_time = s.current_time
    · by_cases h2 : (assign_memory s.mem p).1 = true
      · rw [if_pos h1, if_pos h2, if_pos h1, if_pos h2, ih]
        simp [List.append_assoc]
      · rw [if_pos h1, if_neg h2, if_pos h1, if_neg h2, ih]
        simp [List.append_assoc]
    · rw [if_neg h1, if_neg h1, ih]
      simp [List.append_assoc]

theorem admission_eq (s : SimState) :
    admission s =
      { s with
        mem := (admission_result s.current_time s.mem s.list_processes).2.2,
        list_processes := (admission_result s.current_time s.mem s.list_processes).2.1,
        ready_queue := s.ready_queue ++
          (admission_result s.current_time s.mem s.list_processes).1.map (fun x => x.1),
        job_list := s.job_list ++
          (admission_result s.current_time s.mem s.list_processes).1.map (fun x => x.1),
        execution_status := s.execution_status ++
          (admission_result s.current_time s.mem s.list_processes).1.map
            (fun x => Event.mk s.current_time x.1.PID states.NEW states.READY),
        memory_status := s.memory_status ++
          (admission_result s.current_time s.mem s.list_processes).1.map
            (fun x => (s.current_time, x.2)) } := by
  unfold admission
  rw [admission_loop_eq]
  simp

/-! ## The loop -/

/-- Unfolding the loop at its last iteration. -/
theorem run_loop_succ (tick : SimState → SimState) (k : Nat) (s : SimState) :
    run_loop tick (k + 1) s =
      if loop_cond (run_loop tick k s) = true then tick (run_loop tick k s)
      else run_loop tick k s := by
  induction k generalizing s with
  | zero =>
    by_cases h : loop_cond s = true <;> simp [run_loop, h]
  | succ k ih =>
    by_cases h : loop_cond s = true
    · have e1 : run_loop tick (k + 1 + 1) s = run_loop tick (k + 1) (tick s) := by
        conv_lhs => unfold run_loop
        rw [if_pos h]
      have e2 : run_loop tick (k + 1) s = run_loop tick k (tick s) := by
        conv_lhs => unfold run_loop
        rw [if_pos h]
      rw [e1, e2, ih]
    · have e1 : ∀ n, run_loop tick n s = s := by
        intro n
        cases n with
        | zero => rfl
        | succ n => unfold run_loop; rw [if_neg h]
      rw [e1, e1, if_neg h]

/-! ## The round-robin ready queue -/

theorem finish_or_wait_RR_ready (s : SimState) :
    (finish_or_wait_RR s).ready_queue = s.ready_queue := by
  unfold finish_or_wait_RR
  split_ifs <;> rfl

theorem execute_RR_ready (s : SimState) : (execute_RR s).ready_queue = s.ready_queue := by
  unfold execute_RR
  split_ifs
  · rw [finish_or_wait_RR_ready]
  · rfl

/-- The part of a tick of `..._RR.cpp` that comes before the dispatch only
appends to the ready queue. -/
theorem RR_before_dispatch_ready (s : SimState) :
    ∃ added, (preempt_RR (admission (manage_wait_queue s))).ready_queue =
      s.ready_queue ++ added := by
  have h1 : ∃ a1, (manage_wait_queue s).ready_queue = s.ready_queue ++ a1 := by
    rw [manage_wait_queue_eq]; exact ⟨_, rfl⟩
  have h2 : ∃ a2, (admission (manage_wait_queue s)).ready_queue =
      (manage_wait_queue s).ready_queue ++ a2 := by
    rw [admission_eq]; exact ⟨_, rfl⟩
  obtain ⟨a1, h1⟩ := h1
  obtain ⟨a2, h2⟩ := h2
  rcases preempt_RR_cases (admission (manage_wait_queue s)) with h3 | ⟨-, -, h3⟩
  · exact ⟨a1 ++ a2, by rw [h3, h2, h1, List.append_assoc]⟩
  · refine ⟨a1 ++ (a2 ++ [to_ready (admission (manage_wait_queue s)).running]), ?_⟩
    rw [h3]
    show (admission (manage_wait_queue s)).ready_queue ++ _ = _
    rw [h2, h1, List.append_assoc, List.append_assoc]

theorem RR_before_dispatch_time (s : SimState) :
    (preempt_RR (admission (manage_wait_queue s))).current_time = s.current_time := by
  rcases preempt_RR_cases (admission (manage_wait_queue s)) with h3 | ⟨-, -, h3⟩ <;>
    rw [h3, admission_eq, manage_wait_queue_eq]

theorem tick_RR_ready (s : SimState) :
    (tick_RR s).ready_queue =
      (dispatch_RR (preempt_RR (admission (manage_wait_queue s)))).ready_queue := by
  show (execute_RR _).ready_queue = _
  exact execute_RR_ready _

/-! ## The allocator inside the engines -/

theorem assign_memory_snd (mem : List memory_partition) (p : PCB) :
    (assign_memory mem p).2.2 =
      { p with partition_number := (assign_memory mem p).2.2.partition_number } := by
  cases h : (assign_memory mem p).1 with
  | false =>
    obtain ⟨-, heq⟩ := assign_memory_loop_false mem p 6 h
    unfold assign_memory
    rw [heq]
  | true =>
    obtain ⟨i, part, -, -, -, -, heq⟩ := assign_memory_loop_true mem p 6 h
    unfold assign_memory
    rw [heq]

theorem free_memory_snd (mem : List memory_partition) (p : PCB) :
    (free_memory mem p).2.2 =
      { p with partition_number := (free_memory mem p).2.2.partition_number } := by
  cases h : (free_memory_loop mem p 6).1 with
  | false =>
    unfold free_memory
    rw [(free_memory_loop_false mem p 6 h).2]
  | true =>
    obtain ⟨i, part, -, -, -, -, heq⟩ := free_memory_loop_true mem p 6 h
    unfold free_memory
    rw [heq]

theorem table_ok_set (mem : List memory_partition) (i : Nat) (part : memory_partition)
    (o : Int) (hi : mem[i]? = some part) (h : table_ok mem) :
    table_ok (mem.set i { part with occupied := o }) := by
  obtain ⟨-, -, f3, f4⟩ := set_occupied_frame mem i part o hi
  exact ⟨f3.trans h.1, f4.trans h.2⟩

theorem assign_memory_table_ok (mem : List memory_partition) (p : PCB) (h : table_ok mem) :
    table_ok (assign_memory mem p).2.1 := by
  cases hb : (assign_memory mem p).1 with
  | false =>
    obtain ⟨-, heq⟩ := assign_memory_loop_false mem p 6 hb
    unfold assign_memory
    rw [heq]
    exact h
  | true =>
    obtain ⟨i, part, -, hi, -, -, heq⟩ := assign_memory_loop_true mem p 6 hb
    unfold assign_memory
    rw [heq]
    exact table_ok_set mem i part _ hi h

theorem free_memory_table_ok (mem : List memory_partition) (p : PCB) (h : table_ok mem) :
    table_ok (free_memory mem p).2.1 := by
  cases hb : (free_memory_loop mem p 6).1 with
  | false =>
    unfold free_memory
    rw [(free_memory_loop_false mem p 6 hb).2]; exact h
  | true =>
    obtain ⟨i, part, -, hi, -, -, heq⟩ := free_memory_loop_true mem p 6 hb
    unfold free_memory
    rw [heq]
    exact table_ok_set mem i part _ hi h

/-- A granted request fits the largest partition: as an `int` it is at most 40. -/
theorem assign_memory_true_le (mem : List memory_partition) (p : PCB) (h : table_ok mem)
    (hb : (assign_memory mem p).1 = true) : toInt p.size ≤ 40 := by
  obtain ⟨i, part, -, hi, hf, -, -⟩ := assign_memory_loop_true mem p 6 hb
  have h40 := (table_ok_get h hi).1
  have := hf.1
  rw [toInt_small (n := part.size) (by omega)] at this
  omega

/-! ## The execution step, case by case -/

theorem terminated_work (r : PCB) : terminated (work r) = terminated r := by
  unfold terminated work
  rfl

theorem execute_EP_cases (s : SimState) :
    (s.running.state ≠ states.RUNNING ∧ execute_EP s = s) ∨
    (s.running.state = states.RUNNING ∧ (work s.running).remaining_time = 0 ∧
      execute_EP s = after_termination s) ∨
    (s.running.state = states.RUNNING ∧ (work s.running).remaining_time ≠ 0 ∧
      io_due (work s.running) = true ∧ execute_EP s = after_wait s) ∨
    (s.running.state = states.RUNNING ∧ (work s.running).remaining_time ≠ 0 ∧
      io_due (work s.running) = false ∧ execute_EP s = { s with running := work s.running }) := by
  unfold execute_EP finish_or_wait
  by_cases h1 : s.running.state = states.RUNNING
  · rw [if_pos h1]
    by_cases h2 : (work s.running).remaining_time = 0
    · rw [if_pos h2]
      exact Or.inr (Or.inl ⟨h1, h2, rfl⟩)
    · rw [if_neg h2]
      by_cases h3 : io_due (work s.running) = true
      · rw [if_pos h3]
        exact Or.inr (Or.inr (Or.inl ⟨h1, h2, h3, rfl⟩))
      · rw [if_neg h3]
        exact Or.inr (Or.inr (Or.inr ⟨h1, h2, by simpa using h3, rfl⟩))
  · rw [if_neg h1]
    exact Or.inl ⟨h1, rfl⟩

theorem execute_RR_cases (s : SimState) :
    (s.running.state ≠ states.RUNNING ∧ execute_RR s = s) ∨
    (s.running.state = states.RUNNING ∧ (work s.running).remaining_time = 0 ∧
      execute_RR s = { after_termination s with time_slice_counter := 0 }) ∨
    (s.running.state = states.RUNNING ∧ (work s.running).remaining_time ≠ 0 ∧
      io_due (work s.running) = true ∧
      execute_RR s = { after_wait s with time_slice_counter := 0 }) ∨
    (s.running.state = states.RUNNING ∧ (work s.running).remaining_time ≠ 0 ∧
      io_due (work s.running) = false ∧
      execute_RR s = { s with running := work s.running,
                              time_slice_counter := (s.time_slice_counter + 1) % 2 ^ 32 }) := by
  unfold execute_RR finish_or_wait_RR
  by_cases h1 : s.running.state = states.RUNNING
  · rw [if_pos h1]
    by_cases h2 : (work s.running).remaining_time = 0
    · rw [if_pos h2]
      exact Or.inr (Or.inl ⟨h1, h2, rfl⟩)
    · rw [if_neg h2]
      by_cases h3 : io_due (work s.running) = true
      · rw [if_pos h3]
        exact Or.inr (Or.inr (Or.inl ⟨h1, h2, h3, rfl⟩))
      · rw [if_neg h3]
        exact Or.inr (Or.inr (Or.inr ⟨h1, h2, by simpa using h3, rfl⟩))
  · rw [if_neg h1]
    exact Or.inl ⟨h1, rfl⟩

/-! ## `sync_queue` -/

theorem mem_sync_queue {l : List PCB} {p q : PCB} (h : q ∈ sync_queue l p) : q ∈ l ∨ q = p := by
  unfold sync_queue at h
  obtain ⟨x, hx, hq⟩ := List.mem_map.1 h
  by_cases hc : x.PID = p.PID
  · rw [if_pos hc] at hq; exact Or.inr hq.symm
  · rw [if_neg hc] at hq; exact Or.inl (hq ▸ hx)

theorem mem_foldl_sync_queue {xs l : List PCB} {q : PCB}
    (h : q ∈ xs.foldl sync_queue l) : q ∈ l ∨ q ∈ xs := by
  induction xs generalizing l with
  | nil => exact Or.inl h
  | cons x xs ih =>
    rcases ih h with h1 | h1
    · rcases mem_sync_queue h1 with h2 | h2
      · exact Or.inl h2
      · exact Or.inr (h2 ▸ List.mem_cons_self _ _)
    · exact Or.inr (List.mem_cons_of_mem _ h1)

theorem sync_queue_map_PID (l : List PCB) (p : PCB) :
    (sync_queue l p).map (fun q => q.PID) = l.map (fun q => q.PID) := by
  unfold sync_queue
  rw [List.map_map]
  apply List.map_congr_left
  intro x _
  show (if x.PID = p.PID then p else x).PID = x.PID
  split_ifs with h
  · exact h.symm
  · rfl

theorem foldl_sync_queue_map_PID (xs l : List PCB) :
    (xs.foldl sync_queue l).map (fun q => q.PID) = l.map (fun q => q.PID) := by
  induction xs generalizing l with
  | nil => rfl
  | cons x xs ih => exact (ih _).trans (sync_queue_map_PID l x)

/-! ## Properties of the admitted records that every step keeps -/

theorem AllQ_sync {Q : PCB → Prop} {l : List PCB} {p : PCB} (hl : ∀ q ∈ l, Q q) (hp : Q p) :
    ∀ q ∈ sync_queue l p, Q q := by
  intro q hq
  rcases mem_sync_queue hq with h | h
  · exact hl q h
  · exact h ▸ hp

theorem AllQ_manage_wait_queue {Q : PCB → Prop} (hQ : Stable Q) (s : SimState)
    (h : AllQ Q s) : AllQ Q (manage_wait_queue s) := by
  obtain ⟨h1, h2, h3, h4⟩ := h
  rw [manage_wait_queue_eq]
  refine ⟨?_, ?_, ?_, h4⟩
  · intro q hq
    rcases List.mem_append.1 hq with hq | hq
    · exact h1 q hq
    · obtain ⟨x, hx, rfl⟩ := List.mem_map.1 hq
      exact (hQ.2 x (h2 x (List.mem_filter.1 hx).1)).1
  · intro q hq
    exact h2 q (List.mem_filter.1 hq).1
  · intro q hq
    rcases mem_foldl_sync_queue hq with hq | hq
    · exact h3 q hq
    · obtain ⟨x, hx, rfl⟩ := List.mem_map.1 hq
      exact (hQ.2 x (h2 x (List.mem_filter.1 hx).1)).1

theorem AllQ_admission {Q : PCB → Prop} (s : SimState) (h : AllQ Q s)
    (hadm : ∀ x ∈ (admission_result s.current_time s.mem s.list_processes).1, Q x.1) :
    AllQ Q (admission s) := by
  obtain ⟨h1, h2, h3, h4⟩ := h
  rw [admission_eq]
  refine ⟨?_, h2, ?_, h4⟩
  · intro q hq
    rcases List.mem_append.1 hq with hq | hq
    · exact h1 q hq
    · obtain ⟨x, hx, rfl⟩ := List.mem_map.1 hq
      exact hadm x hx
  · intro q hq
    rcases List.mem_append.1 hq with hq | hq
    · exact h3 q hq
    · obtain ⟨x, hx, rfl⟩ := List.mem_map.1 hq
      exact hadm x hx

theorem AllQ_sort_EP_RR {Q : PCB → Prop} (s : SimState) (h : AllQ Q s) :
    AllQ Q (sort_EP_RR s) := by
  obtain ⟨h1, h2, h3, h4⟩ := h
  rw [sort_EP_RR_eq]
  exact ⟨fun q hq => h1 q ((sortByPriority_perm _).subset hq), h2, h3, h4⟩

theorem AllQ_dispatch_EP {Q : PCB → Prop} (hQ : Stable Q) (s : SimState) (h : AllQ Q s) :
    AllQ Q (dispatch_EP s) := by
  rcases dispatch_EP_cases s with hd | ⟨p, rest, -, hsort, hd⟩
  · rw [hd]; exact h
  · obtain ⟨h1, h2, h3, h4⟩ := h
    have hmem : ∀ q ∈ rest ++ [p], Q q := fun q hq =>
      h1 q ((sortByPriority_perm _).subset (hsort ▸ hq))
    have hp : Q (to_run s.current_time p) := (hQ.2 p (hmem p (by simp))).2.1 _
    rw [hd]
    exact ⟨fun q hq => hmem q (List.mem_append_left _ hq), h2, AllQ_sync h3 hp, hp⟩

theorem AllQ_dispatch_EP_RR {Q : PCB → Prop} (hQ : Stable Q) (s : SimState) (h : AllQ Q s) :
    AllQ Q (dispatch_EP_RR s) := by
  rcases dispatch_EP_RR_cases s with hd | ⟨p, rest, -, hq, hd⟩
  · rw [hd]; exact h
  · obtain ⟨h1, h2, h3, h4⟩ := h
    have hmem : ∀ q ∈ rest ++ [p], Q q := fun q hq' => h1 q (hq ▸ hq')
    have hp : Q (to_run s.current_time p) := (hQ.2 p (hmem p (by simp))).2.1 _
    rw [hd]
    exact ⟨fun q hq => hmem q (List.mem_append_left _ hq), h2, AllQ_sync h3 hp, hp⟩

theorem AllQ_dispatch_RR {Q : PCB → Prop} (hQ : Stable Q) (s : SimState) (h : AllQ Q s) :
    AllQ Q (dispatch_RR s) := by
  rcases dispatch_RR_cases s with hd | ⟨p, rest, -, hq, hd⟩
  · rw [hd]; exact h
  · obtain ⟨h1, h2, h3, h4⟩ := h
    have hmem : ∀ q ∈ p :: rest, Q q := fun q hq' => h1 q (hq ▸ hq')
    have hp : Q (to_run s.current_time p) := (hQ.2 p (hmem p (by simp))).2.1 _
    rw [hd]
    exact ⟨fun q hq => hmem q (List.mem_cons_of_mem _ hq), h2, AllQ_sync h3 hp, hp⟩

theorem AllQ_preempt_EP_RR {Q : PCB → Prop} (hQ : Stable Q) (s : SimState) (h : AllQ Q s) :
    AllQ Q (preempt_EP_RR s) := by
  rcases preempt_EP_RR_cases s with hd | ⟨-, -, hd⟩
  · rw [hd]; exact h
  · obtain ⟨h1, h2, h3, h4⟩ := h
    have hr : Q (to_ready s.running) := (hQ.2 _ h4).2.2.1
    rw [hd]
    refine ⟨?_, h2, AllQ_sync h3 hr, hQ.1⟩
    intro q hq
    rcases List.mem_append.1 ((sortByPriority_perm _).subset hq) with hq | hq
    · exact h1 q hq
    · simp at hq; exact hq ▸ hr

theorem AllQ_preempt_RR {Q : PCB → Prop} (hQ : Stable Q) (s : SimState) (h : AllQ Q s) :
    AllQ Q (preempt_RR s) := by
  rcases preempt_RR_cases s with hd | ⟨-, -, hd⟩
  · rw [hd]; exact h
  · obtain ⟨h1, h2, h3, h4⟩ := h
    have hr : Q (to_ready s.running) := (hQ.2 _ h4).2.2.1
    rw [hd]
    refine ⟨?_, h2, AllQ_sync h3 hr, hQ.1⟩
    intro q hq
    rcases List.mem_append.1 hq with hq | hq
    · exact h1 q hq
    · simp at hq; exact hq ▸ hr

theorem AllQ_after_termination {Q : PCB → Prop} (hQ : Stable Q) (s : SimState) (h : AllQ Q s) :
    AllQ Q (after_termination s) := by
  obtain ⟨h1, h2, h3, h4⟩ := h
  have hr : Q (free_memory s.mem (terminated (work s.running))).2.2 := by
    rw [free_memory_snd]
    exact (hQ.2 _ (hQ.2 _ (hQ.2 _ h4).2.2.2.2.2.1).2.2.2.2.1).2.2.2.2.2.2 _
  exact ⟨h1, h2, AllQ_sync h3 hr, hQ.1⟩

theorem AllQ_after_wait {Q : PCB → Prop} (hQ : Stable Q) (s : SimState) (h : AllQ Q s) :
    AllQ Q (after_wait s) := by
  obtain ⟨h1, h2, h3, h4⟩ := h
  have hr : Q (to_wait s.current_time (work s.running)) :=
    (hQ.2 _ (hQ.2 _ h4).2.2.2.2.2.1).2.2.2.1 _
  refine ⟨h1, ?_, AllQ_sync h3 hr, hQ.1⟩
  intro q hq
  rcases List.mem_append.1 hq with hq | hq
  · exact h2 q hq
  · simp at hq; exact hq ▸ hr

theorem AllQ_execute_EP {Q : PCB → Prop} (hQ : Stable Q) (s : SimState) (h : AllQ Q s) :
    AllQ Q (execute_EP s) := by
  rcases execute_EP_cases s with ⟨-, hd⟩ | ⟨-, -, hd⟩ | ⟨-, -, -, hd⟩ | ⟨-, -, -, hd⟩ <;> rw [hd]
  · exact h
  · exact AllQ_after_termination hQ s h
  · exact AllQ_after_wait hQ s h
  · exact ⟨h.1, h.2.1, h.2.2.1, (hQ.2 _ h.2.2.2).2.2.2.2.2.1⟩

theorem AllQ_execute_RR {Q : PCB → Prop} (hQ : Stable Q) (s : SimState) (h : AllQ Q s) :
    AllQ Q (execute_RR s) := by
  rcases execute_RR_cases s with ⟨-, hd⟩ | ⟨-, -, hd⟩ | ⟨-, -, -, hd⟩ | ⟨-, -, -, hd⟩ <;> rw [hd]
  · exact h
  · exact AllQ_after_termination hQ s h
  · exact AllQ_after_wait hQ s h
  · exact ⟨h.1, h.2.1, h.2.2.1, (hQ.2 _ h.2.2.2).2.2.2.2.2.1⟩

/-! ## A request that no partition can hold -/

theorem stable_size_ne_50 : Stable (fun q => q.size ≠ 50) := by
  refine ⟨by decide, ?_⟩
  intro p hp
  refine ⟨?_, fun _ => ?_, ?_, fun _ => ?_, ?_, ?_, fun _ => ?_⟩
  · unfold wake; exact hp
  · unfold to_run; exact hp
  · unfold to_ready; exact hp
  · unfold to_wait; exact hp
  · unfold terminated; exact hp
  · unfold work; exact hp
  · exact hp

theorem admission_result_table_ok (t : Nat) (mem : List memory_partition) (l : List PCB)
    (h : table_ok mem) :
    table_ok (admission_result t mem l).2.2 ∧
    ∀ x ∈ (admission_result t mem l).1, table_ok x.2 ∧ toInt x.1.size ≤ 40 := by
  induction l generalizing mem with
  | nil => exact ⟨h, by simp [admission_result]⟩
  | cons p rest ih =>
    unfold admission_result
    split_ifs with h1 h2
    · have hok := assign_memory_table_ok mem p h
      obtain ⟨i1, i2⟩ := ih _ hok
      refine ⟨i1, ?_⟩
      intro x hx
      rcases List.mem_cons.1 hx with rfl | hx
      · refine ⟨hok, ?_⟩
        show toInt (to_ready (assign_memory mem p).2.2).size ≤ 40
        rw [assign_memory_snd]
        exact assign_memory_true_le mem p h h2
      · exact i2 x hx
    · exact ih _ h
    · exact ih _ h

theorem admission_result_keeps_50 (t : Nat) (mem : List memory_partition) (l : List PCB)
    (h : table_ok mem) (h50 : ∃ p ∈ l, p.size = 50) :
    ∃ p ∈ (admission_result t mem l).2.1, p.size = 50 := by
  induction l generalizing mem with
  | nil => simp at h50
  | cons p rest ih =>
    obtain ⟨q, hq, hq50⟩ := h50
    unfold admission_result
    split_ifs with h1 h2
    · have hle := assign_memory_true_le mem p h h2
      rcases List.mem_cons.1 hq with rfl | hq
      · exfalso
        rw [hq50, toInt_small (by norm_num)] at hle
        omega
      · exact ih _ (assign_memory_table_ok mem p h) ⟨q, hq, hq50⟩
    · rcases List.mem_cons.1 hq with rfl | hq
      · exact ⟨_, List.mem_cons_self _ _, hq50⟩
      · obtain ⟨r, hr, hr50⟩ := ih _ h ⟨q, hq, hq50⟩
        exact ⟨r, List.mem_cons_of_mem _ hr, hr50⟩
    · rcases List.mem_cons.1 hq with rfl | hq
      · exact ⟨_, List.mem_cons_self _ _, hq50⟩
      · obtain ⟨r, hr, hr50⟩ := ih _ h ⟨q, hq, hq50⟩
        exact ⟨r, List.mem_cons_of_mem _ hr, hr50⟩

/-- The steps other than the admission sweep leave the incoming list alone and
keep the capacities of the table. -/
theorem execute_EP_list_mem (s : SimState) :
    (execute_EP s).list_processes = s.list_processes ∧
    (table_ok s.mem → table_ok (execute_EP s).mem) := by
  rcases execute_EP_cases s with ⟨-, hd⟩ | ⟨-, -, hd⟩ | ⟨-, -, -, hd⟩ | ⟨-, -, -, hd⟩ <;> rw [hd]
  · exact ⟨rfl, id⟩
  · exact ⟨rfl, fun h => free_memory_table_ok _ _ (free_memory_table_ok _ _ h)⟩
  · exact ⟨rfl, id⟩
  · exact ⟨rfl, id⟩

theorem execute_RR_list_mem (s : SimState) :
    (execute_RR s).list_processes = s.list_processes ∧
    (table_ok s.mem → table_ok (execute_RR s).mem) := by
  rcases execute_RR_cases s with ⟨-, hd⟩ | ⟨-, -, hd⟩ | ⟨-, -, -, hd⟩ | ⟨-, -, -, hd⟩ <;> rw [hd]
  · exact ⟨rfl, id⟩
  · exact ⟨rfl, fun h => free_memory_table_ok _ _ (free_memory_table_ok _ _ h)⟩
  · exact ⟨rfl, id⟩
  · exact ⟨rfl, id⟩

theorem dispatch_EP_list_mem (s : SimState) :
    (dispatch_EP s).list_processes = s.list_processes ∧ (dispatch_EP s).mem = s.mem ∧
    (dispatch_EP s).current_time = s.current_time := by
  rcases dispatch_EP_cases s with hd | ⟨p, rest, -, -, hd⟩ <;> rw [hd] <;> exact ⟨rfl, rfl, rfl⟩

theorem dispatch_EP_RR_list_mem (s : SimState) :
    (dispatch_EP_RR s).list_processes = s.list_processes ∧ (dispatch_EP_RR s).mem = s.mem ∧
    (dispatch_EP_RR s).current_time = s.current_time := by
  rcases dispatch_EP_RR_cases s with hd | ⟨p, rest, -, -, hd⟩ <;> rw [hd] <;>
    exact ⟨rfl, rfl, rfl⟩

theorem dispatch_RR_list_mem (s : SimState) :
    (dispatch_RR s).list_processes = s.list_processes ∧ (dispatch_RR s).mem = s.mem ∧
    (dispatch_RR s).current_time = s.current_time := by
  rcases dispatch_RR_cases s with hd | ⟨p, rest, -, -, hd⟩ <;> rw [hd] <;> exact ⟨rfl, rfl, rfl⟩

theorem preempt_EP_RR_list_mem (s : SimState) :
    (preempt_EP_RR s).list_processes = s.list_processes ∧ (preempt_EP_RR s).mem = s.mem ∧
    (preempt_EP_RR s).current_time = s.current_time := by
  rcases preempt_EP_RR_cases s with hd | ⟨-, -, hd⟩ <;> rw [hd] <;> exact ⟨rfl, rfl, rfl⟩

theorem preempt_RR_list_mem (s : SimState) :
    (preempt_RR s).list_processes = s.list_processes ∧ (preempt_RR s).mem = s.mem ∧
    (preempt_RR s).current_time = s.current_time := by
  rcases preempt_RR_cases s with hd | ⟨-, -, hd⟩ <;> rw [hd] <;> exact ⟨rfl, rfl, rfl⟩

theorem Inv50_sweeps (s : SimState) (h : Inv50 s) : Inv50 (admission (manage_wait_queue s)) := by
  obtain ⟨h1, h2, h3⟩ := h
  have hw := AllQ_manage_wait_queue stable_size_ne_50 s h3
  have e1 : (manage_wait_queue s).mem = s.mem := by rw [manage_wait_queue_eq]
  have e2 : (manage_wait_queue s).list_processes = s.list_processes := by
    rw [manage_wait_queue_eq]
  have hok : table_ok (manage_wait_queue s).mem := e1 ▸ h1
  have h50 : ∃ p ∈ (manage_wait_queue s).list_processes, p.size = 50 := e2 ▸ h2
  have hr := admission_result_table_ok (manage_wait_queue s).current_time _
    (manage_wait_queue s).list_processes hok
  have hk := admission_result_keeps_50 (manage_wait_queue s).current_time _ _ hok h50
  refine ⟨?_, ?_, ?_⟩
  · rw [admission_eq]; exact hr.1
  · rw [admission_eq]; exact hk
  · apply AllQ_admission _ hw
    intro x hx hc
    have := (hr.2 x hx).2
    rw [hc, toInt_small (by norm_num)] at this
    omega

theorem Inv50_time (s : SimState) (t : Nat) (h : Inv50 s) :
    Inv50 { s with current_time := t } := h

theorem Inv50_of_eq (s s' : SimState) (h : Inv50 s) (hl : s'.list_processes = s.list_processes)
    (hm : table_ok s.mem → table_ok s'.mem) (ha : AllQ (fun q => q.size ≠ 50) s') :
    Inv50 s' :=
  ⟨hm h.1, hl ▸ h.2.1, ha⟩

theorem Inv50_tick_EP (s : SimState) (h : Inv50 s) : Inv50 (tick_EP s) := by
  have h2 := Inv50_sweeps s h
  have h3 : Inv50 (dispatch_EP (admission (manage_wait_queue s))) :=
    Inv50_of_eq _ _ h2 (dispatch_EP_list_mem _).1
      (fun hm => by rw [(dispatch_EP_list_mem _).2.1]; exact hm)
      (AllQ_dispatch_EP stable_size_ne_50 _ h2.2.2)
  have h4 : Inv50 (execute_EP (dispatch_EP (admission (manage_wait_queue s)))) :=
    Inv50_of_eq _ _ h3 (execute_EP_list_mem _).1 (execute_EP_list_mem _).2
      (AllQ_execute_EP stable_size_ne_50 _ h3.2.2)
  exact Inv50_time _ _ h4

theorem Inv50_tick_EP_RR (s : SimState) (h : Inv50 s) : Inv50 (tick_EP_RR s) := by
  have h2 := Inv50_sweeps s h
  have h2a : Inv50 (sort_EP_RR (admission (manage_wait_queue s))) :=
    Inv50_of_eq _ _ h2 (by rw [sort_EP_RR_eq]) (fun hm => by rw [sort_EP_RR_eq]; exact hm)
      (AllQ_sort_EP_RR _ h2.2.2)
  have h2b : Inv50 (preempt_EP_RR (sort_EP_RR (admission (manage_wait_queue s)))) :=
    Inv50_of_eq _ _ h2a (preempt_EP_RR_list_mem _).1
      (fun hm => by rw [(preempt_EP_RR_list_mem _).2.1]; exact hm)
      (AllQ_preempt_EP_RR stable_size_ne_50 _ h2a.2.2)
  have h3 : Inv50 (dispatch_EP_RR (preempt_EP_RR (sort_EP_RR
      (admission (manage_wait_queue s))))) :=
    Inv50_of_eq _ _ h2b (dispatch_EP_RR_list_mem _).1
      (fun hm => by rw [(dispatch_EP_RR_list_mem _).2.1]; exact hm)
      (AllQ_dispatch_EP_RR stable_size_ne_50 _ h2b.2.2)
  have h4 : Inv50 (execute_RR (dispatch_EP_RR (preempt_EP_RR (sort_EP_RR
      (admission (manage_wait_queue s)))))) :=
    Inv50_of_eq _ _ h3 (execute_RR_list_mem _).1 (execute_RR_list_mem _).2
      (AllQ_execute_RR stable_size_ne_50 _ h3.2.2)
  exact Inv50_time _ _ h4

theorem Inv50_tick_RR (s : SimState) (h : Inv50 s) : Inv50 (tick_RR s) := by
  have h2 := Inv50_sweeps s h
  have h2b : Inv50 (preempt_RR (admission (manage_wait_queue s))) :=
    Inv50_of_eq _ _ h2 (preempt_RR_list_mem _).1
      (fun hm => by rw [(preempt_RR_list_mem _).2.1]; exact hm)
      (AllQ_preempt_RR stable_size_ne_50 _ h2.2.2)
  have h3 : Inv50 (dispatch_RR (preempt_RR (admission (manage_wait_queue s)))) :=
    Inv50_of_eq _ _ h2b (dispatch_RR_list_mem _).1
      (fun hm => by rw [(dispatch_RR_list_mem _).2.1]; exact hm)
      (AllQ_dispatch_RR stable_size_ne_50 _ h2b.2.2)
  have h4 : Inv50 (execute_RR (dispatch_RR (preempt_RR (admission (manage_wait_queue s))))) :=
    Inv50_of_eq _ _ h3 (execute_RR_list_mem _).1 (execute_RR_list_mem _).2
      (AllQ_execute_RR stable_size_ne_50 _ h3.2.2)
  exact Inv50_time _ _ h4

theorem Inv50_init (l : List PCB) (h : ∃ p ∈ l, p.size = 50) : Inv50 (init l) :=
  ⟨⟨rfl, rfl⟩, h, by simp [init], by simp [init], by simp [init],
    (by decide : idle_CPU.size ≠ 50)⟩

theorem Inv50_loop_cond (s : SimState) (h : Inv50 s) : loop_cond s = true := by
  obtain ⟨-, ⟨p, hp, -⟩, -⟩ := h
  unfold loop_cond
  cases hl : s.list_processes with
  | nil => rw [hl] at hp; cases hp
  | cons x xs => simp

/-- While the invariant holds the loop runs: after `n` iterations the
invariant still holds and the clock has advanced `n` times. -/
theorem Inv50_run_loop (tick : SimState → SimState) (htick : ∀ s, Inv50 s → Inv50 (tick s))
    (htime : ∀ s, (tick s).current_time = (s.current_time + 1) % 2 ^ 32)
    (s : SimState) (h : Inv50 s) (n : Nat) :
    Inv50 (run_loop tick n s) ∧
    (run_loop tick n s).current_time = (s.current_time + n) % 2 ^ 32 ∨
    s.current_time ≥ 2 ^ 32 := by
  by_cases hs : s.current_time ≥ 2 ^ 32
  · exact Or.inr hs
  left
  induction n with
  | zero =>
    refine ⟨h, ?_⟩
    show s.current_time = (s.current_time + 0) % 2 ^ 32
    rw [Nat.add_zero, Nat.mod_eq_of_lt (by omega)]
  | succ n ih =>
    rw [run_loop_succ, if_pos (Inv50_loop_cond _ ih.1)]
    refine ⟨htick _ ih.1, ?_⟩
    rw [htime, ih.2]
    omega

theorem tick_EP_time (s : SimState) :
    (tick_EP s).current_time = (s.current_time + 1) % 2 ^ 32 := rfl

theorem tick_EP_RR_time (s : SimState) :
    (tick_EP_RR s).current_time = (s.current_time + 1) % 2 ^ 32 := rfl

theorem tick_RR_time (s : SimState) :
    (tick_RR s).current_time = (s.current_time + 1) % 2 ^ 32 := rfl

/-- From a state with the invariant the loop never stops. -/
theorem Inv50_forever (tick : SimState → SimState) (htick : ∀ s, Inv50 s → Inv50 (tick s))
    (htime : ∀ s, (tick s).current_time = (s.current_time + 1) % 2 ^ 32)
    (l : List PCB) (h : ∃ p ∈ l, p.size = 50) (n : Nat) :
    loop_cond (run_loop tick n (init l)) = true ∧
    (run_loop tick n (init l)).current_time = n % 2 ^ 32 ∧
    (∃ p ∈ (run_loop tick n (init l)).list_processes, p.size = 50) ∧
    (∀ q ∈ (run_loop tick n (init l)).job_list, q.size ≠ 50) := by
  rcases Inv50_run_loop tick htick htime (init l) (Inv50_init l h) n with ⟨h1, h2⟩ | h1
  · refine ⟨Inv50_loop_cond _ h1, ?_, h1.2.1, h1.2.2.2.2.1⟩
    rw [h2]
    show (0 + n) % 2 ^ 32 = _
    rw [Nat.zero_add]
  · exact absurd h1 (by show ¬ (0 ≥ 2 ^ 32); norm_num)

/-- C5 (as amended): in each of the three engines, started with all
partitions free, for every input that contains a process requesting size 50,
whatever else it contains: after any number `n` of iterations the loop
condition still holds (the loop has run `n` times and does not terminate), a
request of size 50 is still in the incoming list, and no record of size 50 is
in the job list (the size-50 process is never admitted). -/
theorem unsatisfiable_request_never_admitted (l : List PCB) (h : ∃ p ∈ l, p.size = 50)
    (n : Nat) :
    (loop_cond (run_loop tick_EP n (init l)) = true ∧
      (run_loop tick_EP n (init l)).current_time = n % 2 ^ 32 ∧
      (∃ p ∈ (run_loop tick_EP n (init l)).list_processes, p.size = 50) ∧
      (∀ q ∈ (run_loop tick_EP n (init l)).job_list, q.size ≠ 50)) ∧
    (loop_cond (run_loop tick_EP_RR n (init l)) = true ∧
      (run_loop tick_EP_RR n (init l)).current_time = n % 2 ^ 32 ∧
      (∃ p ∈ (run_loop tick_EP_RR n (init l)).list_processes, p.size = 50) ∧
      (∀ q ∈ (run_loop tick_EP_RR n (init l)).job_list, q.size ≠ 50)) ∧
    (loop_cond (run_loop tick_RR n (init l)) = true ∧
      (run_loop tick_RR n (init l)).current_time = n % 2 ^ 32 ∧
      (∃ p ∈ (run_loop tick_RR n (init l)).list_processes, p.size = 50) ∧
      (∀ q ∈ (run_loop tick_RR n (init l)).job_list, q.size ≠ 50)) :=
  ⟨Inv50_forever tick_EP Inv50_tick_EP tick_EP_time l h n,
   Inv50_forever tick_EP_RR Inv50_tick_EP_RR tick_EP_RR_time l h n,
   Inv50_forever tick_RR Inv50_tick_RR tick_RR_time l h n⟩

/-- Witness of `unsatisfiable_request_never_admitted`: a process of size 50
next to an admissible one, after 1000 iterations of the EP loop. -/
theorem unsatisfiable_request_never_admitted_witness :
    loop_cond (run_loop tick_EP 1000
      (init [add_process 1 50 0 5 0 0, add_process 2 10 0 3 0 0])) = true :=
  (unsatisfiable_request_never_admitted [add_process 1 50 0 5 0 0, add_process 2 10 0 3 0 0]
    ⟨add_process 1 50 0 5 0 0, by simp, by decide⟩ 1000).1.1

/-- C5, counterexample: with the input `{id=1,size=50}`, `{id=2,size=10}` the
loop of the EP engine has not terminated after any number of iterations,
although process 2 is terminated from tick 3 on. -/
theorem size_50_loop_never_ends :
    (∀ n, loop_cond (run_loop tick_EP n
      (init [add_process 1 50 0 5 0 0, add_process 2 10 0 3 0 0])) = true) ∧
    all_process_terminated (run_loop tick_EP 3
      (init [add_process 1 50 0 5 0 0, add_process 2 10 0 3 0 0])).job_list = true ∧
    (run_loop tick_EP 3
      (init [add_process 1 50 0 5 0 0, add_process 2 10 0 3 0 0])).job_list.map
        (fun q => q.PID) = [2] := by
  refine ⟨fun n => ?_, by decide, by decide⟩
  exact (Inv50_forever tick_EP Inv50_tick_EP tick_EP_time _
    ⟨add_process 1 50 0 5 0 0, by simp, by decide⟩ n).1

/-! ## The quantum bound -/

theorem u32_sub_le_int (a b : Nat) (h : u32_sub a b ≤ 100) :
    (a : Int) - (b : Int) ≤ 100 := by
  unfold u32_sub at h
  split at h <;> omega

theorem quantum_bounded_append (log : List Event) (x : Event) (P : Event → Prop)
    (h1 : quantum_bounded log) (h2 : open_dispatches log P)
    (hP : ∀ d, P d → d.PID = x.PID → u32_sub x.time d.time ≤ 100) :
    quantum_bounded (log ++ [x]) := by
  intro i j d y hi ho hn hij hj hpid hbetween
  have hjl : j < (log ++ [x]).length := (List.getElem?_eq_some.1 hj).1
  rw [List.length_append, List.length_singleton] at hjl
  have hi' : log[i]? = some d := by
    rw [List.getElem?_append_left (by omega)] at hi; exact hi
  by_cases hjlast : j < log.length
  · have hj' : log[j]? = some y := by
      rw [List.getElem?_append_left hjlast] at hj; exact hj
    refine h1 i j d y hi' ho hn hij hj' hpid ?_
    intro k z hik hkj hk
    exact hbetween k z hik hkj (by rw [List.getElem?_append_left (by omega)]; exact hk)
  · have hje : j = log.length := by omega
    subst hje
    have hy : y = x := by
      rw [List.getElem?_append_right (le_refl _)] at hj
      simpa using hj.symm
    subst hy
    have hopen : P d := by
      refine h2 i d hi' ho hn ?_
      intro k z hik hk
      have hkl : k < log.length := (List.getElem?_eq_some.1 hk).1
      exact hbetween k z hik hkl (by rw [List.getElem?_append_left hkl]; exact hk)
    have hb := hP d hopen hpid.symm
    exact ⟨hb, u32_sub_le_int _ _ hb⟩

theorem open_dispatches_append (log : List Event) (x : Event) (P P' : Event → Prop)
    (h2 : open_dispatches log P)
    (hx : x.old_state = states.READY → x.new_state = states.RUNNING → P' x)
    (hP : ∀ d, P d → d.PID ≠ x.PID → P' d) :
    open_dispatches (log ++ [x]) P' := by
  intro i d hi ho hn hlater
  have hil : i < (log ++ [x]).length := (List.getElem?_eq_some.1 hi).1
  rw [List.length_append, List.length_singleton] at hil
  by_cases hlast : i < log.length
  · have hi' : log[i]? = some d := by
      rw [List.getElem?_append_left hlast] at hi; exact hi
    have hne : d.PID ≠ x.PID := by
      intro he
      refine hlater log.length x hlast ?_ he.symm
      rw [List.getElem?_append_right (le_refl _)]
      simp
    refine hP d (h2 i d hi' ho hn ?_) hne
    intro k z hik hk
    have hkl : k < log.length := (List.getElem?_eq_some.1 hk).1
    exact hlater k z hik (by rw [List.getElem?_append_left hkl]; exact hk)
  · have hie : i = log.length := by omega
    subst hie
    have hd : d = x := by
      rw [List.getElem?_append_right (le_refl _)] at hi
      simpa using hi.symm
    subst hd
    exact hx ho hn

theorem open_dispatches_mono (log : List Event) (P P' : Event → Prop)
    (h2 : open_dispatches log P) (hP : ∀ d, P d → P' d) : open_dispatches log P' :=
  fun i d hi ho hn hl => hP d (h2 i d hi ho hn hl)

/-- Rows that are no dispatch and carry the current time can be appended as
long as every open dispatch is at most 100 ticks old. -/
theorem quantum_append_rows (t : Nat) (ht : t < 2 ^ 32) (P : Event → Prop)
    (hP : ∀ d, P d → u32_sub t d.time ≤ 100) (xs : List Event)
    (hxs : ∀ x ∈ xs, x.time = t ∧ x.new_state ≠ states.RUNNING) (log : List Event)
    (h0 : ∀ e ∈ log, e.time < 2 ^ 32)
    (h1 : quantum_bounded log) (h2 : open_dispatches log P) :
    (∀ e ∈ log ++ xs, e.time < 2 ^ 32) ∧ quantum_bounded (log ++ xs) ∧
    open_dispatches (log ++ xs) P := by
  induction xs generalizing log with
  | nil => simpa using ⟨h0, h1, h2⟩
  | cons x xs ih =>
    have hx := hxs x (List.mem_cons_self _ _)
    have e : log ++ x :: xs = (log ++ [x]) ++ xs := by simp
    rw [e]
    apply ih (fun y hy => hxs y (List.mem_cons_of_mem _ hy))
    · intro e he
      rcases List.mem_append.1 he with he | he
      · exact h0 e he
      · simp at he; subst he; rw [hx.1]; exact ht
    · exact quantum_bounded_append log x P h1 h2
        (fun d hd _ => by rw [hx.1]; exact hP d hd)
    · exact open_dispatches_append log x P P h2 (fun _ hn => absurd hn hx.2)
        (fun d hd _ => hd)

theorem u32_sub_self (t : Nat) : u32_sub t t = 0 := by
  unfold u32_sub
  simp

theorem u32_sub_succ (t b c : Nat) (ht : t < 2 ^ 32) (hb : b < 2 ^ 32) (hc : c < 100)
    (h : u32_sub t b = c) : u32_sub ((t + 1) % 2 ^ 32) b = c + 1 := by
  unfold u32_sub at h ⊢
  split at h <;> split <;> omega

theorem QInv_manage_wait_queue (s : SimState) (h : QInv s) : QInv (manage_wait_queue s) := by
  obtain ⟨h1, h2, h3, h4, h5⟩ := h
  have key := quantum_append_rows s.current_time h2 _
    (fun d (hd : s.running.state = states.RUNNING ∧ s.running.PID = d.PID ∧ d.time < 2 ^ 32 ∧
      u32_sub s.current_time d.time = s.time_slice_counter) => by rw [hd.2.2.2]; exact h1)
    ((s.wait_queue.filter (fun p => io_done s.current_time p)).map
      (fun p => Event.mk s.current_time (wake p).PID states.WAITING states.READY))
    (by
      intro x hx
      obtain ⟨p, -, rfl⟩ := List.mem_map.1 hx
      exact ⟨rfl, fun hc => by cases hc⟩)
    s.execution_status h3 h4 h5
  rw [manage_wait_queue_eq]
  exact ⟨h1, h2, key.1, key.2.1, key.2.2⟩

theorem QInv_admission (s : SimState) (h : QInv s) : QInv (admission s) := by
  obtain ⟨h1, h2, h3, h4, h5⟩ := h
  have key := quantum_append_rows s.current_time h2 _
    (fun d (hd : s.running.state = states.RUNNING ∧ s.running.PID = d.PID ∧ d.time < 2 ^ 32 ∧
      u32_sub s.current_time d.time = s.time_slice_counter) => by rw [hd.2.2.2]; exact h1)
    ((admission_result s.current_time s.mem s.list_processes).1.map
      (fun x => Event.mk s.current_time x.1.PID states.NEW states.READY))
    (by
      intro x hx
      obtain ⟨p, -, rfl⟩ := List.mem_map.1 hx
      exact ⟨rfl, fun hc => by cases hc⟩)
    s.execution_status h3 h4 h5
  rw [admission_eq]
  exact ⟨h1, h2, key.1, key.2.1, key.2.2⟩

/-- The effect of a preemption on the invariant, whatever it does to the ready
queue and the job list. -/
theorem QInv_preempted (s s' : SimState) (h : QInv s)
    (hlog : s'.execution_status = s.execution_status ++
      [Event.mk s.current_time s.running.PID states.RUNNING states.READY])
    (hrun : s'.running = idle_CPU) (hc : s'.time_slice_counter = 0)
    (ht : s'.current_time = s.current_time) :
    QInv s' ∧ (s'.running.state = states.RUNNING → s'.time_slice_counter < 100) := by
  obtain ⟨h1, h2, h3, h4, h5⟩ := h
  refine ⟨⟨by rw [hc]; omega, by rw [ht]; exact h2, ?_, ?_, ?_⟩, ?_⟩
  · rw [hlog]
    intro e he
    rcases List.mem_append.1 he with he | he
    · exact h3 e he
    · simp at he; subst he; exact h2
  · rw [hlog]
    exact quantum_bounded_append _ _ _ h4 h5 (fun d hd _ => by
      show u32_sub s.current_time d.time ≤ 100
      rw [hd.2.2.2]; exact h1)
  · rw [hlog]
    refine open_dispatches_append _ _ _ _ h5 (fun _ hn => by cases hn) ?_
    intro d hd hne
    exact absurd hd.2.1.symm hne
  · intro hr
    rw [hrun] at hr
    cases hr

/-- The effect of a dispatch on the invariant. -/
theorem QInv_dispatched (s s' : SimState) (p : PCB) (h : QInv s)
    (hidle : s.running.state ≠ states.RUNNING)
    (hlog : s'.execution_status = s.execution_status ++
      [Event.mk s.current_time p.PID states.READY states.RUNNING])
    (hrun : s'.running = to_run s.current_time p) (hc : s'.time_slice_counter = 0)
    (ht : s'.current_time = s.current_time) :
    QInv s' ∧ (s'.running.state = states.RUNNING → s'.time_slice_counter < 100) := by
  obtain ⟨h1, h2, h3, h4, h5⟩ := h
  refine ⟨⟨by rw [hc]; omega, by rw [ht]; exact h2, ?_, ?_, ?_⟩, ?_⟩
  · rw [hlog]
    intro e he
    rcases List.mem_append.1 he with he | he
    · exact h3 e he
    · simp at he; subst he; exact h2
  · rw [hlog]
    exact quantum_bounded_append _ _ _ h4 h5 (fun d hd _ => absurd hd.1 hidle)
  · rw [hlog]
    refine open_dispatches_append _ _ _ _ h5 (fun _ _ => ?_) (fun d hd _ => absurd hd.1 hidle)
    rw [hrun, hc, ht]
    exact ⟨rfl, rfl, h2, u32_sub_self _⟩
  · intro _
    rw [hc]; omega

theorem QInv_preempt_RR (s : SimState) (h : QInv s) :
    QInv (preempt_RR s) ∧
    ((preempt_RR s).running.state = states.RUNNING → (preempt_RR s).time_slice_counter < 100) := by
  rcases preempt_RR_cases s with hd | ⟨-, -, hd⟩
  · rw [hd]
    refine ⟨h, fun hr => ?_⟩
    by_contra hc
    have h100 : s.time_slice_counter ≥ TIME_QUANTUM := by unfold TIME_QUANTUM; omega
    have : preempt_RR s ≠ s := by
      unfold preempt_RR
      rw [if_pos hr, if_pos h100]
      intro he
      have := congrArg (fun x => x.running.state) he
      simp only [idle_CPU] at this
      rw [hr] at this
      cases this
    exact this hd
  · exact QInv_preempted s _ h (by rw [hd]) (by rw [hd]) (by rw [hd]) (by rw [hd])

theorem QInv_preempt_EP_RR (s : SimState) (h : QInv s) :
    QInv (preempt_EP_RR s) ∧
    ((preempt_EP_RR s).running.state = states.RUNNING →
      (preempt_EP_RR s).time_slice_counter < 100) := by
  rcases preempt_EP_RR_cases s with hd | ⟨-, -, hd⟩
  · rw [hd]
    refine ⟨h, fun hr => ?_⟩
    by_contra hc
    have h100 : preempt_cond_EP_RR s = true := by
      unfold preempt_cond_EP_RR TIME_QUANTUM
      have : s.time_slice_counter ≥ 100 := by omega
      simp [this]
    have : preempt_EP_RR s ≠ s := by
      unfold preempt_EP_RR
      rw [if_pos hr, if_pos h100]
      intro he
      have := congrArg (fun x => x.running.state) he
      simp only [idle_CPU] at this
      rw [hr] at this
      cases this
    exact this hd
  · exact QInv_preempted s _ h (by rw [hd]) (by rw [hd]) (by rw [hd]) (by rw [hd])

theorem QInv_dispatch_RR (s : SimState)
    (h : QInv s ∧ (s.running.state = states.RUNNING → s.time_slice_counter < 100)) :
    QInv (dispatch_RR s) ∧
    ((dispatch_RR s).running.state = states.RUNNING → (dispatch_RR s).time_slice_counter < 100) := by
  rcases dispatch_RR_cases s with hd | ⟨p, rest, hvac, -, hd⟩
  · rw [hd]; exact h
  · refine QInv_dispatched s _ p h.1 ?_ (by rw [hd]) (by rw [hd]) (by rw [hd]) (by rw [hd])
    rcases hvac with hv | hv | hv | hv <;> rw [hv] <;> decide

theorem QInv_dispatch_EP_RR (s : SimState)
    (h : QInv s ∧ (s.running.state = states.RUNNING → s.time_slice_counter < 100)) :
    QInv (dispatch_EP_RR s) ∧
    ((dispatch_EP_RR s).running.state = states.RUNNING →
      (dispatch_EP_RR s).time_slice_counter < 100) := by
  rcases dispatch_EP_RR_cases s with hd | ⟨p, rest, hvac, -, hd⟩
  · rw [hd]; exact h
  · refine QInv_dispatched s _ p h.1 ?_ (by rw [hd]) (by rw [hd]) (by rw [hd]) (by rw [hd])
    rcases hvac with hv | hv | hv | hv <;> rw [hv] <;> decide

theorem free_memory_PID (mem : List memory_partition) (p : PCB) :
    (free_memory mem p).2.2.PID = p.PID := by
  rw [free_memory_snd]

theorem QInv_execute_RR (s : SimState)
    (h : QInv s ∧ (s.running.state = states.RUNNING → s.time_slice_counter < 100)) :
    QInv { execute_RR s with current_time := (s.current_time + 1) % 2 ^ 32 } := by
  obtain ⟨⟨h1, h2, h3, h4, h5⟩, h6⟩ := h
  have ht' : (s.current_time + 1) % 2 ^ 32 < 2 ^ 32 := Nat.mod_lt _ (by norm_num)
  have exit_case : ∀ (pid : Int), pid = s.running.PID → s.running.state = states.RUNNING →
      (∀ e ∈ s.execution_status ++
        [Event.mk ((s.current_time + 1) % 2 ^ 32) pid states.RUNNING states.READY],
        e.time < 2 ^ 32) ∧
      ∀ (ns : states), ns ≠ states.RUNNING →
      quantum_bounded (s.execution_status ++
        [Event.mk ((s.current_time + 1) % 2 ^ 32) pid states.RUNNING ns]) ∧
      open_dispatches (s.execution_status ++
        [Event.mk ((s.current_time + 1) % 2 ^ 32) pid states.RUNNING ns]) (fun d =>
          idle_CPU.state = states.RUNNING ∧ idle_CPU.PID = d.PID ∧ d.time < 2 ^ 32 ∧
          u32_sub ((s.current_time + 1) % 2 ^ 32) d.time = 0) := by
    intro pid hpid hr
    constructor
    · intro e he
      rcases List.mem_append.1 he with he | he
      · exact h3 e he
      · simp at he; subst he; exact ht'
    · intro ns hns
      constructor
      · refine quantum_bounded_append _ _ _ h4 h5 (fun d hd _ => ?_)
        show u32_sub ((s.current_time + 1) % 2 ^ 32) d.time ≤ 100
        rw [u32_sub_succ _ _ _ h2 hd.2.2.1 (h6 hr) hd.2.2.2]
        have := h6 hr
        omega
      · refine open_dispatches_append _ _ _ _ h5 (fun _ hn => absurd hn hns) ?_
        intro d hd hne
        exact absurd (hpid ▸ hd.2.1.symm) hne
  have times_exit : ∀ (pid : Int) (ns : states),
      (∀ e ∈ s.execution_status ++
        [Event.mk ((s.current_time + 1) % 2 ^ 32) pid states.RUNNING ns], e.time < 2 ^ 32) := by
    intro pid ns e he
    rcases List.mem_append.1 he with he | he
    · exact h3 e he
    · simp at he; subst he; exact ht'
  rcases execute_RR_cases s with ⟨hr, hd⟩ | ⟨hr, -, hd⟩ | ⟨hr, -, -, hd⟩ | ⟨hr, -, -, hd⟩ <;>
    rw [hd]
  · exact ⟨h1, ht', h3, h4, open_dispatches_mono _ _ _ h5 (fun d hd => absurd hd.1 hr)⟩
  · have hp := free_memory_PID s.mem (terminated (work s.running))
    obtain ⟨-, e2⟩ := exit_case _ hp hr
    obtain ⟨e3, e4⟩ := e2 states.TERMINATED (by decide)
    exact ⟨Nat.zero_le _, ht', times_exit _ _, e3, e4⟩
  · obtain ⟨-, e2⟩ := exit_case (work s.running).PID rfl hr
    obtain ⟨e3, e4⟩ := e2 states.WAITING (by decide)
    exact ⟨Nat.zero_le _, ht', times_exit _ _, e3, e4⟩
  · have hc := h6 hr
    have hc2 : (s.time_slice_counter + 1) % 2 ^ 32 = s.time_slice_counter + 1 :=
      Nat.mod_eq_of_lt (by omega)
    refine ⟨?_, ht', h3, h4, open_dispatches_mono _ _ _ h5 (fun d hd => ?_)⟩
    · show (s.time_slice_counter + 1) % 2 ^ 32 ≤ 100
      rw [hc2]; omega
    · refine ⟨hd.1, hd.2.1, hd.2.2.1, ?_⟩
      show u32_sub ((s.current_time + 1) % 2 ^ 32) d.time = (s.time_slice_counter + 1) % 2 ^ 32
      rw [hc2]
      exact u32_sub_succ _ _ _ h2 hd.2.2.1 hc hd.2.2.2

theorem QInv_tick_RR (s : SimState) (h : QInv s) : QInv (tick_RR s) := by
  have h1 := QInv_dispatch_RR _ (QInv_preempt_RR _ (QInv_admission _ (QInv_manage_wait_queue s h)))
  have ht : (dispatch_RR (preempt_RR (admission (manage_wait_queue s)))).current_time =
      s.current_time := by
    rw [(dispatch_RR_list_mem _).2.2, (preempt_RR_list_mem _).2.2, admission_eq,
      manage_wait_queue_eq]
  have h2 := QInv_execute_RR _ h1
  rw [ht] at h2
  exact h2

theorem QInv_tick_EP_RR (s : SimState) (h : QInv s) : QInv (tick_EP_RR s) := by
  have h0 : QInv (sort_EP_RR (admission (manage_wait_queue s))) := by
    rw [sort_EP_RR_eq]
    exact QInv_admission _ (QInv_manage_wait_queue s h)
  have h1 := QInv_dispatch_EP_RR _ (QInv_preempt_EP_RR _ h0)
  have ht : (dispatch_EP_RR (preempt_EP_RR (sort_EP_RR
      (admission (manage_wait_queue s))))).current_time = s.current_time := by
    rw [(dispatch_EP_RR_list_mem _).2.2, (preempt_EP_RR_list_mem _).2.2, sort_EP_RR_eq,
      admission_eq, manage_wait_queue_eq]
  have h2 := QInv_execute_RR _ h1
  rw [ht] at h2
  exact h2

theorem QInv_init (l : List PCB) : QInv (init l) := by
  refine ⟨Nat.zero_le _, by show 0 < 2 ^ 32; norm_num, ?_, ?_, ?_⟩
  · intro e he; simp [init] at he
  · intro i j d x hi; simp [init] at hi
  · intro i d hi; simp [init] at hi

theorem QInv_run_loop (tick : SimState → SimState) (htick : ∀ s, QInv s → QInv (tick s))
    (s : SimState) (h : QInv s) (n : Nat) : QInv (run_loop tick n s) := by
  induction n with
  | zero => exact h
  | succ n ih =>
    rw [run_loop_succ]
    split_ifs
    · exact htick _ ih
    · exact ih

/-- C10: in the two quantum engines, for every input and after any number of
iterations of the loop, the time-slice counter is at most 100, and in the
transition log every row READY -> RUNNING of a process, logged at tick `s`, is
followed at the next row of that process, logged at tick `e`, by at most 100
ticks: `e - s <= 100`, as a difference of `unsigned int` and of integers. -/
theorem quantum_bound (l : List PCB) (n : Nat) :
    ((run_loop tick_EP_RR n (init l)).time_slice_counter ≤ 100 ∧
      quantum_bounded (run_loop tick_EP_RR n (init l)).execution_status) ∧
    ((run_loop tick_RR n (init l)).time_slice_counter ≤ 100 ∧
      quantum_bounded (run_loop tick_RR n (init l)).execution_status) :=
  ⟨⟨(QInv_run_loop tick_EP_RR QInv_tick_EP_RR _ (QInv_init l) n).1,
    (QInv_run_loop tick_EP_RR QInv_tick_EP_RR _ (QInv_init l) n).2.2.2.1⟩,
   ⟨(QInv_run_loop tick_RR QInv_tick_RR _ (QInv_init l) n).1,
    (QInv_run_loop tick_RR QInv_tick_RR _ (QInv_init l) n).2.2.2.1⟩⟩

/-! ## No-op and single-step forms of the steps -/

theorem manage_wait_queue_of_nil (s : SimState) (h : s.wait_queue = []) :
    manage_wait_queue s = s := by
  rw [manage_wait_queue_eq]
  cases s
  simp only at h
  subst h
  simp

theorem admission_of_nil (s : SimState) (h : s.list_processes = []) : admission s = s := by
  rw [admission_eq]
  cases s
  simp only at h
  subst h
  simp [admission_result]

theorem admission_single_skip (s : SimState) (P : PCB) (h : s.list_processes = [P])
    (hne : P.arrival_time ≠ s.current_time) : admission s = s := by
  rw [admission_eq]
  cases s
  simp only at h hne
  subst h
  simp [admission_result, hne]

theorem admission_single_ok (s : SimState) (P : PCB) (h : s.list_processes = [P])
    (he : P.arrival_time = s.current_time) (hok : (assign_memory s.mem P).1 = true) :
    admission s =
      { s with
        mem := (assign_memory s.mem P).2.1,
        list_processes := [],
        ready_queue := s.ready_queue ++ [to_ready (assign_memory s.mem P).2.2],
        job_list := s.job_list ++ [to_ready (assign_memory s.mem P).2.2],
        execution_status := s.execution_status ++
          [Event.mk s.current_time (to_ready (assign_memory s.mem P).2.2).PID
            states.NEW states.READY],
        memory_status := s.memory_status ++ [(s.current_time, (assign_memory s.mem P).2.1)] } := by
  rw [admission_eq]
  cases s
  simp only at h he hok
  subst h
  simp [admission_result, he, hok]

theorem dispatch_EP_of_empty (s : SimState) (h : s.ready_queue = []) : dispatch_EP s = s := by
  unfold dispatch_EP
  split_ifs with h1 h2
  · exact absurd h h2
  · rfl
  · rfl

theorem dispatch_EP_of_running (s : SimState) (h : s.running.state = states.RUNNING) :
    dispatch_EP s = s := by
  unfold dispatch_EP
  rw [if_neg]
  rw [h]
  decide

theorem dispatch_EP_RR_of_empty (s : SimState) (h : s.ready_queue = []) :
    dispatch_EP_RR s = s := by
  unfold dispatch_EP_RR
  split_ifs with h1 h2
  · exact absurd h h2
  · rfl
  · rfl

theorem dispatch_EP_RR_of_running (s : SimState) (h : s.running.state = states.RUNNING) :
    dispatch_EP_RR s = s := by
  unfold dispatch_EP_RR
  rw [if_neg]
  rw [h]
  decide

theorem dispatch_RR_of_empty (s : SimState) (h : s.ready_queue = []) : dispatch_RR s = s := by
  unfold dispatch_RR
  rw [if_neg]
  intro hc
  exact hc.2 h

theorem dispatch_RR_of_running (s : SimState) (h : s.running.state = states.RUNNING) :
    dispatch_RR s = s := by
  unfold dispatch_RR
  rw [if_neg]
  rw [h]
  intro hc
  revert hc
  simp

theorem preempt_RR_of_not_running (s : SimState) (h : s.running.state ≠ states.RUNNING) :
    preempt_RR s = s := by
  unfold preempt_RR
  rw [if_neg h]

theorem preempt_RR_of_lt (s : SimState) (h : s.time_slice_counter < 100) :
    preempt_RR s = s := by
  unfold preempt_RR TIME_QUANTUM
  split_ifs with h1 h2
  · omega
  · rfl
  · rfl

theorem preempt_EP_RR_of_not_running (s : SimState) (h : s.running.state ≠ states.RUNNING) :
    preempt_EP_RR s = s := by
  unfold preempt_EP_RR
  rw [if_neg h]

theorem preempt_EP_RR_of_lt (s : SimState) (h : s.time_slice_counter < 100)
    (hq : s.ready_queue = []) : preempt_EP_RR s = s := by
  have hc : preempt_cond_EP_RR s = false := by
    unfold preempt_cond_EP_RR TIME_QUANTUM
    rw [hq]
    simp
    omega
  unfold preempt_EP_RR
  split_ifs with h1 h2
  · rw [hc] at h2; cases h2
  · rfl
  · rfl

theorem sort_EP_RR_of_short (s : SimState) (h : s.ready_queue.length ≤ 1) :
    sort_EP_RR s = s := by
  rw [sort_EP_RR_eq]
  cases s with
  | mk l r w j m t c run log ms =>
    simp only at h
    match r, h with
    | [], _ => rfl
    | [x], _ => rfl

theorem execute_EP_of_not_running (s : SimState) (h : s.running.state ≠ states.RUNNING) :
    execute_EP s = s := by
  unfold execute_EP
  rw [if_neg h]

theorem execute_RR_of_not_running (s : SimState) (h : s.running.state ≠ states.RUNNING) :
    execute_RR s = s := by
  unfold execute_RR
  rw [if_neg h]

/-! ## A single process without I/O -/

theorem assign_memory_free_table (P : PCB) (h : P.size ≤ 40) :
    (assign_memory memory_paritions P).1 = true := by
  cases hb : (assign_memory memory_paritions P).1 with
  | true => rfl
  | false =>
    obtain ⟨hno, -⟩ := assign_memory_loop_false memory_paritions P 6 hb
    have hm : table_ok memory_paritions := ⟨rfl, rfl⟩
    have h0 : memory_paritions[0]? = some ⟨1, 40, -1⟩ := rfl
    exact absurd ((fits_iff hm (by omega) h0).2 ⟨rfl, h⟩) (hno 0 _ (by omega) h0)

theorem assign_memory_PID (mem : List memory_partition) (p : PCB) :
    (assign_memory mem p).2.2.PID = p.PID := by
  rw [assign_memory_snd]

theorem admitted_rec_PID (P : PCB) : (admitted_rec P).PID = P.PID := by
  unfold admitted_rec to_ready
  exact assign_memory_PID _ _

theorem loop_cond_single_waiting (P : PCB) (k : Nat) :
    loop_cond (single_waiting P k) = true := by
  simp [loop_cond, single_waiting, init]

theorem loop_cond_single_running (P : PCB) (j c : Nat) :
    loop_cond (single_running P j c) = true := by
  simp [loop_cond, single_running, all_process_terminated, to_run]

theorem single_done_job_list (P : PCB) :
    (single_done P).job_list =
      [(free_memory (assign_memory memory_paritions P).2.1
        (terminated (work (single_running P (P.processing_time - 1) 0).running))).2.2] := by
  show sync_queue [to_run P.arrival_time (admitted_rec P)] _ = _
  unfold sync_queue
  rw [List.map_cons, List.map_nil, if_pos]
  · rfl
  · rw [free_memory_PID]
    rfl

theorem loop_cond_single_done (P : PCB) : loop_cond (single_done P) = false := by
  have h1 : (single_done P).list_processes = [] := rfl
  unfold loop_cond all_process_terminated
  rw [h1, single_done_job_list]
  have h2 : (free_memory (assign_memory memory_paritions P).2.1
      (terminated (work (single_running P (P.processing_time - 1) 0).running))).2.2.state =
      states.TERMINATED := by
    rw [free_memory_snd]
    rfl
  simp [h2]

theorem single_done_log (P : PCB) (hp : 1 ≤ P.processing_time) :
    (single_done P).execution_status =
      [Event.mk P.arrival_time P.PID states.NEW states.READY,
       Event.mk P.arrival_time P.PID states.READY states.RUNNING,
       Event.mk ((P.arrival_time + P.processing_time) % 2 ^ 32) P.PID
         states.RUNNING states.TERMINATED] := by
  have h1 : (single_done P).execution_status =
      [Event.mk P.arrival_time (admitted_rec P).PID states.NEW states.READY,
       Event.mk P.arrival_time (admitted_rec P).PID states.READY states.RUNNING] ++
      [Event.mk (((P.arrival_time + (P.processing_time - 1)) % 2 ^ 32 + 1) % 2 ^ 32)
        (free_memory (assign_memory memory_paritions P).2.1
          (terminated (work (single_running P (P.processing_time - 1) 0).running))).2.2.PID
        states.RUNNING states.TERMINATED] := rfl
  have h2 : ((P.arrival_time + (P.processing_time - 1)) % 2 ^ 32 + 1) % 2 ^ 32 =
      (P.arrival_time + P.processing_time) % 2 ^ 32 := by omega
  have h3 : (free_memory (assign_memory memory_paritions P).2.1
      (terminated (work (single_running P (P.processing_time - 1) 0).running))).2.2.PID =
      P.PID := by
    rw [free_memory_PID]
    show (admitted_rec P).PID = P.PID
    exact admitted_rec_PID P
  rw [h1, h2, h3, admitted_rec_PID]
  rfl

/-- The run on a single process, for any loop body that behaves on the three
kinds of states as the engines do. -/
theorem single_run (tick : SimState → SimState) (P : PCB) (cnt : Nat → Nat)
    (hin : single_input P)
    (hA : ∀ k, k ≠ P.arrival_time →
      tick (single_waiting P k) = single_waiting P ((k + 1) % 2 ^ 32))
    (hB0 : tick (single_waiting P P.arrival_time) =
      if P.processing_time = 1 then single_done P else single_running P 1 (cnt 1))
    (hB : ∀ j, 1 ≤ j → j < P.processing_time →
      tick (single_running P j (cnt j)) =
        if j + 1 = P.processing_time then single_done P
        else single_running P (j + 1) (cnt (j + 1))) :
    run_loop tick (P.arrival_time + P.processing_time) (init [P]) = single_done P ∧
    ∀ k, k < P.arrival_time + P.processing_time →
      loop_cond (run_loop tick k (init [P])) = true := by
  obtain ⟨-, -, hp1, -, -, ha⟩ := hin
  have h1 : ∀ k, k ≤ P.arrival_time → run_loop tick k (init [P]) = single_waiting P k := by
    intro k
    induction k with
    | zero => intro _; rfl
    | succ k ih =>
      intro hk
      rw [run_loop_succ, ih (by omega), if_pos (loop_cond_single_waiting P k),
        hA k (by omega), Nat.mod_eq_of_lt (by omega)]
  have h2 : ∀ j, 1 ≤ j → j < P.processing_time →
      run_loop tick (P.arrival_time + j) (init [P]) = single_running P j (cnt j) := by
    intro j
    induction j with
    | zero => intro h; omega
    | succ j ih =>
      intro _ hj
      show run_loop tick (P.arrival_time + j + 1) (init [P]) = _
      rw [run_loop_succ]
      by_cases hj0 : j = 0
      · subst hj0
        rw [Nat.add_zero, h1 _ (le_refl _), if_pos (loop_cond_single_waiting P _), hB0,
          if_neg (by omega)]
      · rw [ih (by omega) (by omega), if_pos (loop_cond_single_running P _ _),
          hB j (by omega) (by omega), if_neg (by omega)]
  constructor
  · have e : P.arrival_time + P.processing_time = P.arrival_time + (P.processing_time - 1) + 1 := by
      omega
    rw [e, run_loop_succ]
    by_cases hp : P.processing_time = 1
    · rw [hp, Nat.sub_self, Nat.add_zero, h1 _ (le_refl _),
        if_pos (loop_cond_single_waiting P _), hB0, if_pos hp]
    · rw [h2 _ (by omega) (by omega), if_pos (loop_cond_single_running P _ _),
        hB _ (by omega) (by omega), if_pos (by omega)]
  · intro k hk
    by_cases hka : k ≤ P.arrival_time
    · rw [h1 k hka]; exact loop_cond_single_waiting P k
    · have e : k = P.arrival_time + (k - P.arrival_time) := by omega
      rw [e, h2 _ (by omega) (by omega)]
      exact loop_cond_single_running P _ _

theorem single_waiting_skip (P : PCB) (k : Nat) (hk : k ≠ P.arrival_time) :
    admission (manage_wait_queue (single_waiting P k)) = single_waiting P k := by
  rw [manage_wait_queue_of_nil _ rfl]
  exact admission_single_skip _ P rfl (fun h => hk h.symm)

theorem io_due_of_no_io (r : PCB) (h : r.io_freq = 0) : io_due r = false := by
  unfold io_due
  rw [h]
  simp

theorem u32_dec_pos (x : Nat) (h : 0 < x) : u32_dec x = x - 1 := by
  unfold u32_dec
  rw [if_neg (by omega)]

/-- The state right after the admission of the single process, at its arrival
time. -/
theorem single_admitted (P : PCB) (hin : single_input P) :
    admission (manage_wait_queue (single_waiting P P.arrival_time)) = single_ready P := by
  rw [manage_wait_queue_of_nil _ rfl]
  rw [admission_single_ok _ P rfl rfl (assign_memory_free_table P hin.1)]
  rfl

theorem dispatch_EP_fires (s : SimState)
    (hvac : s.running.state = states.NOT_ASSIGNED ∨ s.running.state = states.TERMINATED ∨
      s.running.state = states.WAITING) (p : PCB) (rest : List PCB)
    (hq : sortByPriority s.ready_queue = rest ++ [p]) :
    dispatch_EP s =
      { s with running := to_run s.current_time p,
               ready_queue := rest,
               job_list := sync_queue s.job_list (to_run s.current_time p),
               execution_status := s.execution_status ++
                 [Event.mk s.current_time p.PID states.READY states.RUNNING] } := by
  have hne : s.ready_queue ≠ [] := by
    intro hc
    rw [hc] at hq
    have := congrArg List.length hq
    simp [sortByPriority] at this
  unfold dispatch_EP
  rw [if_pos hvac, if_pos hne,
    run_process_spec { s with ready_queue := sortByPriority s.ready_queue } p rest hq]
  rfl

theorem dispatch_EP_RR_fires (s : SimState)
    (hvac : s.running.state = states.NOT_ASSIGNED ∨ s.running.state = states.TERMINATED ∨
      s.running.state = states.WAITING ∨ s.running.state = states.READY)
    (p : PCB) (rest : List PCB) (hq : s.ready_queue = rest ++ [p]) :
    dispatch_EP_RR s =
      { s with running := to_run s.current_time p,
               ready_queue := rest,
               job_list := sync_queue s.job_list (to_run s.current_time p),
               time_slice_counter := 0,
               execution_status := s.execution_status ++
                 [Event.mk s.current_time p.PID states.READY states.RUNNING] } := by
  have hne : s.ready_queue ≠ [] := by
    intro hc
    rw [hc] at hq
    have := congrArg List.length hq
    simp at this
  unfold dispatch_EP_RR
  rw [if_pos hvac, if_pos hne, run_process_spec s p rest hq]
  rfl

theorem dispatch_RR_fires (s : SimState)
    (hvac : s.running.state = states.NOT_ASSIGNED ∨ s.running.state = states.TERMINATED ∨
      s.running.state = states.WAITING ∨ s.running.state = states.READY)
    (p : PCB) (rest : List PCB) (hq : s.ready_queue = p :: rest) :
    dispatch_RR s =
      { s with running := to_run s.current_time p,
               ready_queue := rest,
               job_list := sync_queue s.job_list (to_run s.current_time p),
               time_slice_counter := 0,
               execution_status := s.execution_status ++
                 [Event.mk s.current_time p.PID states.READY states.RUNNING] } := by
  unfold dispatch_RR
  rw [if_pos ⟨hvac, by rw [hq]; simp⟩]
  cases s with
  | mk l r w j m t c run log ms =>
    simp only at hq
    subst hq
    rfl

theorem sync_queue_single (q r : PCB) (h : q.PID = r.PID) : sync_queue [q] r = [r] := by
  unfold sync_queue
  rw [List.map_cons, List.map_nil, if_pos h]

theorem single_running_zero (P : PCB) (hin : single_input P) (s : SimState)
    (h1 : s.list_processes = []) (h2 : s.ready_queue = []) (h3 : s.wait_queue = [])
    (h4 : s.job_list = [to_run P.arrival_time (admitted_rec P)])
    (h5 : s.mem = (assign_memory memory_paritions P).2.1)
    (h6 : s.current_time = P.arrival_time) (h7 : s.time_slice_counter = 0)
    (h8 : s.running = to_run P.arrival_time (admitted_rec P))
    (h9 : s.execution_status =
      [Event.mk P.arrival_time (admitted_rec P).PID states.NEW states.READY,
       Event.mk P.arrival_time (admitted_rec P).PID states.READY states.RUNNING])
    (h10 : s.memory_status = [(P.arrival_time, (assign_memory memory_paritions P).2.1)]) :
    s = single_running P 0 0 := by
  obtain ⟨-, -, -, -, hrem, ha⟩ := hin
  have hr : (to_run P.arrival_time (admitted_rec P)).remaining_time = P.processing_time := by
    show (assign_memory memory_paritions P).2.2.remaining_time = _
    rw [assign_memory_snd]
    exact hrem
  cases s
  simp only at h1 h2 h3 h4 h5 h6 h7 h8 h9 h10
  subst h1 h2 h3 h4 h5 h6 h7 h8 h9 h10
  unfold single_running
  rw [Nat.add_zero, Nat.mod_eq_of_lt ha, Nat.sub_zero, ← hr]

theorem single_dispatched_EP (P : PCB) (hin : single_input P) :
    dispatch_EP (admission (manage_wait_queue (single_waiting P P.arrival_time))) =
      single_running P 0 0 := by
  rw [single_admitted P hin,
    dispatch_EP_fires (single_ready P) (Or.inl rfl) (admitted_rec P) [] rfl]
  exact single_running_zero P hin _ rfl rfl rfl (sync_queue_single _ _ rfl) rfl rfl rfl rfl
    rfl rfl

theorem single_dispatched_EP_RR (P : PCB) (hin : single_input P) :
    dispatch_EP_RR (preempt_EP_RR (sort_EP_RR
      (admission (manage_wait_queue (single_waiting P P.arrival_time))))) =
      single_running P 0 0 := by
  rw [single_admitted P hin, sort_EP_RR_of_short _ (le_refl 1),
    preempt_EP_RR_of_not_running _ (fun h => by cases h),
    dispatch_EP_RR_fires (single_ready P) (Or.inl rfl) (admitted_rec P) [] rfl]
  exact single_running_zero P hin _ rfl rfl rfl (sync_queue_single _ _ rfl) rfl rfl rfl rfl
    rfl rfl

theorem single_dispatched_RR (P : PCB) (hin : single_input P) :
    dispatch_RR (preempt_RR
      (admission (manage_wait_queue (single_waiting P P.arrival_time)))) =
      single_running P 0 0 := by
  rw [single_admitted P hin, preempt_RR_of_not_running _ (fun h => by cases h),
    dispatch_RR_fires (single_ready P) (Or.inl rfl) (admitted_rec P) [] rfl]
  exact single_running_zero P hin _ rfl rfl rfl (sync_queue_single _ _ rfl) rfl rfl rfl rfl
    rfl rfl

theorem single_running_state (P : PCB) (j c : Nat) :
    (single_running P j c).running.state = states.RUNNING := rfl

theorem single_running_pre_EP (P : PCB) (j c : Nat) :
    dispatch_EP (admission (manage_wait_queue (single_running P j c))) =
      single_running P j c := by
  rw [manage_wait_queue_of_nil _ rfl, admission_of_nil _ rfl, dispatch_EP_of_running _ rfl]

theorem single_running_pre_RR (P : PCB) (j c : Nat) (hc : c < 100) :
    dispatch_RR (preempt_RR (admission (manage_wait_queue (single_running P j c)))) =
      single_running P j c := by
  rw [manage_wait_queue_of_nil _ rfl, admission_of_nil _ rfl, preempt_RR_of_lt _ hc,
    dispatch_RR_of_running _ rfl]

theorem single_running_pre_EP_RR (P : PCB) (j c : Nat) (hc : c < 100) :
    dispatch_EP_RR (preempt_EP_RR (sort_EP_RR
      (admission (manage_wait_queue (single_running P j c))))) = single_running P j c := by
  rw [manage_wait_queue_of_nil _ rfl, admission_of_nil _ rfl,
    sort_EP_RR_of_short (single_running P j c) (Nat.zero_le 1),
    preempt_EP_RR_of_lt _ hc rfl,
    dispatch_EP_RR_of_running _ rfl]

theorem single_work_remaining (P : PCB) (j c : Nat) (hj : j < P.processing_time) :
    (work (single_running P j c).running).remaining_time = P.processing_time - (j + 1) := by
  show u32_dec (P.processing_time - j) = _
  rw [u32_dec_pos _ (by omega)]
  omega

theorem single_work_io (P : PCB) (j c : Nat) (hin : single_input P) :
    io_due (work (single_running P j c).running) = false := by
  apply io_due_of_no_io
  show (assign_memory memory_paritions P).2.2.io_freq = 0
  rw [assign_memory_snd]
  exact hin.2.1

/-- One unit of work of the single process that is not the last one. -/
theorem single_running_work (P : PCB) (j c c' : Nat) (hj : j + 1 < P.processing_time) :
    ({ single_running P j c with
        running := work (single_running P j c).running,
        time_slice_counter := c',
        current_time := ((single_running P j c).current_time + 1) % 2 ^ 32 } : SimState) =
      single_running P (j + 1) c' := by
  have h1 : u32_dec (P.processing_time - j) = P.processing_time - (j + 1) := by
    rw [u32_dec_pos _ (by omega)]; omega
  have h2 : ((P.arrival_time + j) % 2 ^ 32 + 1) % 2 ^ 32 =
      (P.arrival_time + (j + 1)) % 2 ^ 32 := by omega
  unfold single_running work
  simp only [h1, h2]

/-- The last unit of work of the single process. -/
theorem single_running_last (P : PCB) (c : Nat) (hp : 1 ≤ P.processing_time) :
    ({ after_termination (single_running P (P.processing_time - 1) c) with
        time_slice_counter := 0,
        current_time :=
          ((single_running P (P.processing_time - 1) c).current_time + 1) % 2 ^ 32 } :
        SimState) = single_done P := by
  have h2 : ((P.arrival_time + (P.processing_time - 1)) % 2 ^ 32 + 1) % 2 ^ 32 =
      (P.arrival_time + P.processing_time) % 2 ^ 32 := by omega
  unfold single_done after_termination single_running
  simp only [h2]

theorem tick_EP_single_running (P : PCB) (j : Nat) (hin : single_input P)
    (hj : j < P.processing_time) :
    ({ execute_EP (single_running P j 0) with
        current_time := ((single_running P j 0).current_time + 1) % 2 ^ 32 } : SimState) =
      if j + 1 = P.processing_time then single_done P else single_running P (j + 1) 0 := by
  rcases execute_EP_cases (single_running P j 0) with
    ⟨hr, -⟩ | ⟨-, h0, hd⟩ | ⟨-, -, hio, -⟩ | ⟨-, h0, -, hd⟩
  · exact absurd (single_running_state P j 0) hr
  · rw [single_work_remaining P j 0 hj] at h0
    have hje : j = P.processing_time - 1 := by omega
    rw [if_pos (by omega), hd]
    subst hje
    exact single_running_last P 0 hin.2.2.1
  · rw [single_work_io P j 0 hin] at hio
    cases hio
  · rw [single_work_remaining P j 0 hj] at h0
    rw [if_neg (by omega), hd]
    exact single_running_work P j 0 0 (by omega)

theorem tick_RR_single_running (P : PCB) (j c : Nat) (hin : single_input P)
    (hj : j < P.processing_time) (hc : c < 100) :
    ({ execute_RR (single_running P j c) with
        current_time := ((single_running P j c).current_time + 1) % 2 ^ 32 } : SimState) =
      if j + 1 = P.processing_time then single_done P else single_running P (j + 1) (c + 1) := by
  rcases execute_RR_cases (single_running P j c) with
    ⟨hr, -⟩ | ⟨-, h0, hd⟩ | ⟨-, -, hio, -⟩ | ⟨-, h0, -, hd⟩
  · exact absurd (single_running_state P j c) hr
  · rw [single_work_remaining P j c hj] at h0
    have hje : j = P.processing_time - 1 := by omega
    rw [if_pos (by omega), hd]
    subst hje
    exact single_running_last P c hin.2.2.1
  · rw [single_work_io P j c hin] at hio
    cases hio
  · rw [single_work_remaining P j c hj] at h0
    rw [if_neg (by omega), hd]
    have hc2 : (c + 1) % 2 ^ 32 = c + 1 := Nat.mod_eq_of_lt (by omega)
    have := single_running_work P j c (c + 1) (by omega)
    rw [← this]
    show _ = _
    simp only [single_running, hc2]

theorem single_run_EP (P : PCB) (hin : single_input P) :
    run_loop tick_EP (P.arrival_time + P.processing_time) (init [P]) = single_done P ∧
    ∀ k, k < P.arrival_time + P.processing_time →
      loop_cond (run_loop tick_EP k (init [P])) = true := by
  have ha := hin.2.2.2.2.2
  refine single_run tick_EP P (fun _ => 0) hin ?_ ?_ ?_
  · intro k hk
    unfold tick_EP
    rw [single_waiting_skip P k hk, dispatch_EP_of_empty _ rfl,
      execute_EP_of_not_running _ (fun h => by cases h)]
    rfl
  · unfold tick_EP
    rw [single_dispatched_EP P hin]
    have ht : ((single_running P 0 0).current_time + 1) % 2 ^ 32 =
        ((single_waiting P P.arrival_time).current_time + 1) % 2 ^ 32 := by
      show ((P.arrival_time + 0) % 2 ^ 32 + 1) % 2 ^ 32 = (P.arrival_time + 1) % 2 ^ 32
      omega
    rw [← ht, tick_EP_single_running P 0 hin (by have := hin.2.2.1; omega)]
    by_cases hp : P.processing_time = 1
    · rw [if_pos hp, if_pos (by omega)]
    · rw [if_neg hp, if_neg (by omega)]
  · intro j _ hj
    unfold tick_EP
    rw [single_running_pre_EP]
    exact tick_EP_single_running P j hin hj

theorem single_run_RR (P : PCB) (hin : single_input P) :
    run_loop tick_RR (P.arrival_time + P.processing_time) (init [P]) = single_done P ∧
    ∀ k, k < P.arrival_time + P.processing_time →
      loop_cond (run_loop tick_RR k (init [P])) = true := by
  have ha := hin.2.2.2.2.2
  have hp100 := hin.2.2.2.1
  refine single_run tick_RR P (fun j => j) hin ?_ ?_ ?_
  · intro k hk
    unfold tick_RR
    rw [single_waiting_skip P k hk, preempt_RR_of_not_running _ (fun h => by cases h),
      dispatch_RR_of_empty _ rfl, execute_RR_of_not_running _ (fun h => by cases h)]
    rfl
  · unfold tick_RR
    rw [single_dispatched_RR P hin]
    have ht : ((single_running P 0 0).current_time + 1) % 2 ^ 32 =
        ((single_waiting P P.arrival_time).current_time + 1) % 2 ^ 32 := by
      show ((P.arrival_time + 0) % 2 ^ 32 + 1) % 2 ^ 32 = (P.arrival_time + 1) % 2 ^ 32
      omega
    rw [← ht, tick_RR_single_running P 0 0 hin (by have := hin.2.2.1; omega) (by omega)]
    by_cases hp : P.processing_time = 1
    · rw [if_pos hp, if_pos (by omega)]
    · rw [if_neg hp, if_neg (by omega)]
  · intro j _ hj
    unfold tick_RR
    rw [single_running_pre_RR P j j (by omega)]
    exact tick_RR_single_running P j j hin hj (by omega)

theorem single_run_EP_RR (P : PCB) (hin : single_input P) :
    run_loop tick_EP_RR (P.arrival_time + P.processing_time) (init [P]) = single_done P ∧
    ∀ k, k < P.arrival_time + P.processing_time →
      loop_cond (run_loop tick_EP_RR k (init [P])) = true := by
  have ha := hin.2.2.2.2.2
  have hp100 := hin.2.2.2.1
  refine single_run tick_EP_RR P (fun j => j) hin ?_ ?_ ?_
  · intro k hk
    unfold tick_EP_RR
    rw [single_waiting_skip P k hk, sort_EP_RR_of_short (single_waiting P k) (Nat.zero_le 1),
      preempt_EP_RR_of_not_running _ (fun h => by cases h),
      dispatch_EP_RR_of_empty _ rfl, execute_RR_of_not_running _ (fun h => by cases h)]
    rfl
  · unfold tick_EP_RR
    rw [single_dispatched_EP_RR P hin]
    have ht : ((single_running P 0 0).current_time + 1) % 2 ^ 32 =
        ((single_waiting P P.arrival_time).current_time + 1) % 2 ^ 32 := by
      show ((P.arrival_time + 0) % 2 ^ 32 + 1) % 2 ^ 32 = (P.arrival_time + 1) % 2 ^ 32
      omega
    rw [← ht, tick_RR_single_running P 0 0 hin (by have := hin.2.2.1; omega) (by omega)]
    by_cases hp : P.processing_time = 1
    · rw [if_pos hp, if_pos (by omega)]
    · rw [if_neg hp, if_neg (by omega)]
  · intro j _ hj
    unfold tick_EP_RR
    rw [single_running_pre_EP_RR P j j (by omega)]
    exact tick_RR_single_running P j j hin hj (by omega)

/-- C7 (as amended): for each of the three engines, started with all
partitions free, and every input that consists of a single process with
arrival time `a`, requested size at most 40, `io_freq = 0` and processing time
`p` with `1 <= p <= 100`: the loop runs `a + p` times and the transition log is
exactly `[(a, NEW -> READY), (a, READY -> RUNNING),
((a + p) mod 2 ^ 32, RUNNING -> TERMINATED)]`, without any WAITING row. -/
theorem single_process_log (P : PCB) (hin : single_input P) :
    (loop_cond (run_loop tick_EP (P.arrival_time + P.processing_time) (init [P])) = false ∧
      (∀ k, k < P.arrival_time + P.processing_time →
        loop_cond (run_loop tick_EP k (init [P])) = true) ∧
      (run_loop tick_EP (P.arrival_time + P.processing_time) (init [P])).execution_status =
        [Event.mk P.arrival_time P.PID states.NEW states.READY,
         Event.mk P.arrival_time P.PID states.READY states.RUNNING,
         Event.mk ((P.arrival_time + P.processing_time) % 2 ^ 32) P.PID
           states.RUNNING states.TERMINATED]) ∧
    (loop_cond (run_loop tick_EP_RR (P.arrival_time + P.processing_time) (init [P])) = false ∧
      (∀ k, k < P.arrival_time + P.processing_time →
        loop_cond (run_loop tick_EP_RR k (init [P])) = true) ∧
      (run_loop tick_EP_RR (P.arrival_time + P.processing_time) (init [P])).execution_status =
        [Event.mk P.arrival_time P.PID states.NEW states.READY,
         Event.mk P.arrival_time P.PID states.READY states.RUNNING,
         Event.mk ((P.arrival_time + P.processing_time) % 2 ^ 32) P.PID
           states.RUNNING states.TERMINATED]) ∧
    (loop_cond (run_loop tick_RR (P.arrival_time + P.processing_time) (init [P])) = false ∧
      (∀ k, k < P.arrival_time + P.processing_time →
        loop_cond (run_loop tick_RR k (init [P])) = true) ∧
      (run_loop tick_RR (P.arrival_time + P.processing_time) (init [P])).execution_status =
        [Event.mk P.arrival_time P.PID states.NEW states.READY,
         Event.mk P.arrival_time P.PID states.READY states.RUNNING,
         Event.mk ((P.arrival_time + P.processing_time) % 2 ^ 32) P.PID
           states.RUNNING states.TERMINATED]) := by
  obtain ⟨e1, e2⟩ := single_run_EP P hin
  obtain ⟨f1, f2⟩ := single_run_EP_RR P hin
  obtain ⟨g1, g2⟩ := single_run_RR P hin
  rw [e1, f1, g1]
  exact ⟨⟨loop_cond_single_done P, e2, single_done_log P hin.2.2.1⟩,
    ⟨loop_cond_single_done P, f2, single_done_log P hin.2.2.1⟩,
    ⟨loop_cond_single_done P, g2, single_done_log P hin.2.2.1⟩⟩

theorem single_input_scenario : single_input (add_process 1 10 0 5 0 0) := by
  unfold single_input
  decide

/-- Witness of `single_process_log`: `{id=1,size=10,arrival=0,processing=5,
io_freq=0,io_duration=0}` under the EP engine is admitted at tick 0,
dispatched at tick 0 and terminates at tick 5. -/
theorem single_process_log_witness :
    loop_cond (run_loop tick_EP 5 (init [add_process 1 10 0 5 0 0])) = false ∧
    (run_loop tick_EP 5 (init [add_process 1 10 0 5 0 0])).execution_status =
      [Event.mk 0 1 states.NEW states.READY,
       Event.mk 0 1 states.READY states.RUNNING,
       Event.mk 5 1 states.RUNNING states.TERMINATED] :=
  ⟨(single_process_log (add_process 1 10 0 5 0 0) single_input_scenario).1.1,
   (single_process_log (add_process 1 10 0 5 0 0) single_input_scenario).1.2.2⟩

/-- C7, counterexample: a single process that arrives at tick `2 ^ 32 - 1`
(the input line `1, 10, -1, 1, 0, 0`, whose arrival `stoi` reads as `-1` and
the `unsigned int` field stores as `4294967295`) with one unit of work is logged as terminated at tick 0, not at tick
`a + p = 2 ^ 32`: `current_time + 1` wraps. -/
theorem single_process_log_wraps :
    add_process 1 10 (-1) 1 0 0 =
      ⟨1, 10, 4294967295, -1, 1, 1, -1, states.NOT_ASSIGNED, 0, 0⟩ ∧
    single_input ⟨1, 10, 4294967295, -1, 1, 1, -1, states.NOT_ASSIGNED, 0, 0⟩ ∧
    (run_loop tick_EP (4294967295 + 1)
      (init [⟨1, 10, 4294967295, -1, 1, 1, -1, states.NOT_ASSIGNED, 0, 0⟩])).execution_status =
      [Event.mk 4294967295 1 states.NEW states.READY,
       Event.mk 4294967295 1 states.READY states.RUNNING,
       Event.mk 0 1 states.RUNNING states.TERMINATED] ∧
    (run_loop tick_EP (4294967295 + 1)
      (init [⟨1, 10, 4294967295, -1, 1, 1, -1, states.NOT_ASSIGNED, 0, 0⟩])).execution_status ≠
      [Event.mk 4294967295 1 states.NEW states.READY,
       Event.mk 4294967295 1 states.READY states.RUNNING,
       Event.mk (4294967295 + 1) 1 states.RUNNING states.TERMINATED] := by
  refine ⟨by decide, ?_⟩
  have hin : single_input ⟨1, 10, 4294967295, -1, 1, 1, -1, states.NOT_ASSIGNED, 0, 0⟩ := by
    unfold single_input
    decide
  have h := (single_run_EP _ hin).1
  have hl := single_done_log _ hin.2.2.1
  refine ⟨hin, ?_, ?_⟩
  · rw [h, hl]
    rfl
  · rw [h, hl]
    decide

/-! ## Progress -/

theorem core_wake (p : PCB) : core (wake p) = core p := rfl

theorem core_to_run (t : Nat) (p : PCB) : core (to_run t p) = core p := rfl

theorem core_to_ready (p : PCB) : core (to_ready p) = core p := rfl

theorem core_to_wait (t : Nat) (p : PCB) : core (to_wait t p) = core p := rfl

theorem core_partition (p : PCB) (n : Int) :
    core { p with partition_number := n } = core p := rfl

theorem core_arrival (p : PCB) (a : Nat) : core { p with arrival_time := a } = core p := rfl

theorem map_core_PID (l : List PCB) :
    (l.map core).map (fun p => p.PID) = l.map (fun p => p.PID) := by
  rw [List.map_map]
  rfl

theorem map_core_remaining (l : List PCB) :
    (l.map core).map (fun p => p.remaining_time) = l.map (fun p => p.remaining_time) := by
  rw [List.map_map]
  rfl

theorem PoolOK_core (l : List PCB) : PoolOK (l.map core) ↔ PoolOK l := by
  unfold PoolOK
  rw [map_core_PID]
  constructor
  · rintro ⟨h1, h2⟩
    exact ⟨h1, fun p hp => h2 (core p) (List.mem_map_of_mem core hp)⟩
  · rintro ⟨h1, h2⟩
    refine ⟨h1, fun q hq => ?_⟩
    obtain ⟨p, hp, rfl⟩ := List.mem_map.1 hq
    exact h2 p hp

theorem PoolOK_perm {l l2 : List PCB} (h : l.Perm l2) (hl : PoolOK l) : PoolOK l2 :=
  ⟨(List.Perm.nodup_iff (h.map _)).1 hl.1, fun p hp => hl.2 p (h.mem_iff.2 hp)⟩

theorem PoolOK_of_core_perm {l l2 : List PCB} (h : (l2.map core).Perm (l.map core))
    (hl : PoolOK l) : PoolOK l2 :=
  (PoolOK_core l2).1 (PoolOK_perm h.symm ((PoolOK_core l).2 hl))

theorem sum_remaining_of_core_perm {l l2 : List PCB} (h : (l2.map core).Perm (l.map core)) :
    (l2.map (fun p => p.remaining_time)).sum = (l.map (fun p => p.remaining_time)).sum := by
  rw [← map_core_remaining l2, ← map_core_remaining l]
  exact (h.map _).sum_eq

theorem map_PID_of_core_perm {l l2 : List PCB} (h : (l2.map core).Perm (l.map core)) :
    (l2.map (fun p => p.PID)).Perm (l.map (fun p => p.PID)) := by
  rw [← map_core_PID l2, ← map_core_PID l]
  exact h.map _

theorem mem_owned_mono {mem : List memory_partition} {ids ids2 : List Int}
    (h : mem_owned mem ids) (hsub : ∀ x ∈ ids, x ∈ ids2) : mem_owned mem ids2 :=
  fun i part hi ho => ⟨hsub _ (h i part hi ho).1, (h i part hi ho).2⟩

theorem perm_middle {α : Type} (a b c a2 c2 : List α) (h : (a ++ c).Perm (a2 ++ c2)) :
    (a ++ b ++ c).Perm (a2 ++ b ++ c2) := by
  rw [← Multiset.coe_eq_coe] at h ⊢
  simp only [← Multiset.coe_add] at h ⊢
  rw [add_right_comm, h, add_right_comm]

theorem Resched_live {s s2 : SimState} (h : Resched s s2) :
    ((live s2).map core).Perm ((live s).map core) := by
  obtain ⟨-, h2, -, -, h5, -, -⟩ := h
  unfold live
  rw [h2]
  simp only [List.map_append] at h5 ⊢
  exact perm_middle _ _ _ _ _ h5

theorem Resched_pool {s s2 : SimState} (h : Resched s s2) :
    ((pool s2).map core).Perm ((pool s).map core) := by
  have hl := Resched_live h
  unfold pool
  rw [h.1]
  simp only [List.map_append] at hl ⊢
  exact List.Perm.append_left _ hl

theorem Resched_work_left {s s2 : SimState} (h : Resched s s2) :
    work_left s2 = work_left s :=
  sum_remaining_of_core_perm (Resched_pool h)

theorem LInv_resched {ids : List Int} {s s2 : SimState} (hinv : LInv ids s)
    (h : Resched s s2) : LInv ids s2 := by
  have hlive := map_PID_of_core_perm (Resched_live h)
  have hpool := Resched_pool h
  obtain ⟨hA, hB, hC, hE, hF, -, hH, hI⟩ := hinv
  obtain ⟨h1, h2, h3, h4, h5, h6, h7⟩ := h
  refine ⟨h4 ▸ hA, h3 ▸ hB, PoolOK_of_core_perm hpool hC, h1 ▸ hE, ?_, h7, ?_, ?_⟩
  · rw [h3]
    exact mem_owned_mono hF (fun x hx => hlive.mem_iff.2 hx)
  · intro q hq
    have old : q ∈ s.job_list → q.state = states.TERMINATED ∨
        q.PID ∈ (live s2).map (fun p => p.PID) := by
      intro hq2
      rcases hH q hq2 with ht | hl
      · exact Or.inl ht
      · exact Or.inr (hlive.mem_iff.2 hl)
    rcases h6 with h6 | ⟨r, hr, h6⟩
    · rw [h6] at hq
      exact old hq
    · rw [h6] at hq
      rcases mem_sync_queue hq with hq2 | rfl
      · exact old hq2
      · right
        refine List.mem_map_of_mem (fun p : PCB => p.PID) ?_
        unfold live
        rcases List.mem_append.1 hr with hr | hr
        · exact List.mem_append_left _ (List.mem_append_left _ hr)
        · exact List.mem_append_right _ hr
  · intro x hx
    have hj : s2.job_list.map (fun p => p.PID) = s.job_list.map (fun p => p.PID) := by
      rcases h6 with h6 | ⟨r, -, h6⟩
      · rw [h6]
      · rw [h6, sync_queue_map_PID]
    rw [h1, hj]
    exact hI x hx

theorem on_cpu_of_running (s : SimState) (h : s.running.state = states.RUNNING) :
    on_cpu s = [s.running] := by
  unfold on_cpu
  rw [if_pos h]

theorem on_cpu_of_not_running (s : SimState) (h : s.running.state ≠ states.RUNNING) :
    on_cpu s = [] := by
  unfold on_cpu
  rw [if_neg h]

theorem Resched_refl (s : SimState)
    (hG : s.running.state = states.RUNNING ∨ s.running.state = states.NOT_ASSIGNED) :
    Resched s s :=
  ⟨rfl, rfl, rfl, rfl, List.Perm.refl _, Or.inl rfl, hG⟩

theorem Resched_dispatched (s : SimState) (p : PCB) (rest : List PCB) (c : Nat)
    (log : List Event) (hperm : (rest ++ [p]).Perm s.ready_queue)
    (hrun : s.running.state ≠ states.RUNNING) :
    Resched s { s with running := to_run s.current_time p,
                       ready_queue := rest,
                       job_list := sync_queue s.job_list (to_run s.current_time p),
                       time_slice_counter := c,
                       execution_status := log } := by
  refine ⟨rfl, rfl, rfl, rfl, ?_, Or.inr ⟨to_run s.current_time p, ?_, rfl⟩, Or.inl rfl⟩
  · rw [on_cpu_of_not_running s hrun, on_cpu_of_running _ rfl, List.append_nil]
    show ((rest ++ [to_run s.current_time p]).map core).Perm (s.ready_queue.map core)
    rw [List.map_append, List.map_singleton, core_to_run, ← List.map_singleton,
      ← List.map_append]
    exact hperm.map core
  · rw [on_cpu_of_running _ rfl]
    exact List.mem_append_right _ (List.mem_singleton_self _)

theorem Resched_preempted (s : SimState) (ready2 : List PCB) (log : List Event)
    (hperm : ready2.Perm (s.ready_queue ++ [to_ready s.running]))
    (hrun : s.running.state = states.RUNNING) :
    Resched s { s with ready_queue := ready2,
                       job_list := sync_queue s.job_list (to_ready s.running),
                       execution_status := log,
                       running := idle_CPU,
                       time_slice_counter := 0 } := by
  refine ⟨rfl, rfl, rfl, rfl, ?_, Or.inr ⟨to_ready s.running, ?_, rfl⟩, Or.inr rfl⟩
  · rw [on_cpu_of_running s hrun, on_cpu_of_not_running _ (fun h => by cases h),
      List.append_nil]
    show (ready2.map core).Perm ((s.ready_queue ++ [s.running]).map core)
    have := hperm.map core
    rw [List.map_append, List.map_singleton, core_to_ready, ← List.map_singleton,
      ← List.map_append] at this
    exact this
  · rw [on_cpu_of_not_running _ (fun h => by cases h), List.append_nil]
    exact hperm.mem_iff.2 (List.mem_append_right _ (List.mem_singleton_self _))

theorem Resched_sort (s : SimState)
    (hG : s.running.state = states.RUNNING ∨ s.running.state = states.NOT_ASSIGNED) :
    Resched s (sort_EP_RR s) := by
  rw [sort_EP_RR_eq]
  refine ⟨rfl, rfl, rfl, rfl, ?_, Or.inl rfl, hG⟩
  exact ((sortByPriority_perm s.ready_queue).append_right _).map core

theorem not_running_vacant {s : SimState}
    (hG : s.running.state = states.RUNNING ∨ s.running.state = states.NOT_ASSIGNED)
    (h : s.running.state ≠ states.RUNNING) : s.running.state = states.NOT_ASSIGNED :=
  hG.resolve_left h

theorem dispatch_EP_resched (s : SimState)
    (hG : s.running.state = states.RUNNING ∨ s.running.state = states.NOT_ASSIGNED) :
    Resched s (dispatch_EP s) ∧
    ((dispatch_EP s).running.state ≠ states.RUNNING →
      s.ready_queue = [] ∧ s.running.state ≠ states.RUNNING) := by
  by_cases hr : s.running.state = states.RUNNING
  · rw [dispatch_EP_of_running s hr]
    exact ⟨Resched_refl s hG, fun h => absurd hr h⟩
  · by_cases he : s.ready_queue = []
    · rw [dispatch_EP_of_empty s he]
      exact ⟨Resched_refl s hG, fun _ => ⟨he, hr⟩⟩
    · obtain ⟨rest, p, hq⟩ := exists_back _ (sortByPriority_ne_nil _ he)
      rw [dispatch_EP_fires s (Or.inl (not_running_vacant hG hr)) p rest hq]
      refine ⟨Resched_dispatched s p rest s.time_slice_counter _ ?_ hr,
        fun h => absurd rfl h⟩
      rw [← hq]
      exact sortByPriority_perm _

theorem dispatch_EP_RR_resched (s : SimState)
    (hG : s.running.state = states.RUNNING ∨ s.running.state = states.NOT_ASSIGNED) :
    Resched s (dispatch_EP_RR s) ∧
    ((dispatch_EP_RR s).running.state ≠ states.RUNNING →
      s.ready_queue = [] ∧ s.running.state ≠ states.RUNNING) := by
  by_cases hr : s.running.state = states.RUNNING
  · rw [dispatch_EP_RR_of_running s hr]
    exact ⟨Resched_refl s hG, fun h => absurd hr h⟩
  · by_cases he : s.ready_queue = []
    · rw [dispatch_EP_RR_of_empty s he]
      exact ⟨Resched_refl s hG, fun _ => ⟨he, hr⟩⟩
    · obtain ⟨rest, p, hq⟩ := exists_back _ he
      rw [dispatch_EP_RR_fires s (Or.inl (not_running_vacant hG hr)) p rest hq]
      refine ⟨Resched_dispatched s p rest 0 _ ?_ hr, fun h => absurd rfl h⟩
      rw [← hq]

theorem dispatch_RR_resched (s : SimState)
    (hG : s.running.state = states.RUNNING ∨ s.running.state = states.NOT_ASSIGNED) :
    Resched s (dispatch_RR s) ∧
    ((dispatch_RR s).running.state ≠ states.RUNNING →
      s.ready_queue = [] ∧ s.running.state ≠ states.RUNNING) := by
  by_cases hr : s.running.state = states.RUNNING
  · rw [dispatch_RR_of_running s hr]
    exact ⟨Resched_refl s hG, fun h => absurd hr h⟩
  · cases hq : s.ready_queue with
    | nil =>
      rw [dispatch_RR_of_empty s hq]
      exact ⟨Resched_refl s hG, fun _ => ⟨rfl, hr⟩⟩
    | cons p rest =>
      rw [dispatch_RR_fires s (Or.inl (not_running_vacant hG hr)) p rest hq]
      refine ⟨Resched_dispatched s p rest 0 _ ?_ hr, fun h => absurd rfl h⟩
      rw [hq]
      exact List.perm_append_singleton p rest

theorem preempt_RR_resched (s : SimState)
    (hG : s.running.state = states.RUNNING ∨ s.running.state = states.NOT_ASSIGNED) :
    Resched s (preempt_RR s) ∧
    (s.ready_queue ≠ [] ∨ s.running.state = states.RUNNING →
      (preempt_RR s).ready_queue ≠ [] ∨ (preempt_RR s).running.state = states.RUNNING) := by
  rcases preempt_RR_cases s with h | ⟨hr, -, h⟩
  · rw [h]
    exact ⟨Resched_refl s hG, id⟩
  · rw [h]
    refine ⟨Resched_preempted s _ _ (List.Perm.refl _) hr, fun _ => Or.inl ?_⟩
    show s.ready_queue ++ [to_ready s.running] ≠ []
    simp

theorem preempt_EP_RR_resched (s : SimState)
    (hG : s.running.state = states.RUNNING ∨ s.running.state = states.NOT_ASSIGNED) :
    Resched s (preempt_EP_RR s) ∧
    (s.ready_queue ≠ [] ∨ s.running.state = states.RUNNING →
      (preempt_EP_RR s).ready_queue ≠ [] ∨
        (preempt_EP_RR s).running.state = states.RUNNING) := by
  rcases preempt_EP_RR_cases s with h | ⟨hr, -, h⟩
  · rw [h]
    exact ⟨Resched_refl s hG, id⟩
  · rw [h]
    refine ⟨Resched_preempted s _ _ (sortByPriority_perm _) hr, fun _ => Or.inl ?_⟩
    show sortByPriority (s.ready_queue ++ [to_ready s.running]) ≠ []
    exact sortByPriority_ne_nil _ (by simp)

theorem pool_perm_of_live {s s2 : SimState} (h1 : s2.list_processes = s.list_processes)
    (hl : ((live s2).map core).Perm ((live s).map core)) :
    ((pool s2).map core).Perm ((pool s).map core) := by
  unfold pool
  rw [h1]
  simp only [List.map_append] at hl ⊢
  exact List.Perm.append_left _ hl

/-- A step that moves processes between the ready queue, the wait queue and
the running slot, and syncs the job list with records of live processes,
keeps the invariant. -/
theorem LInv_moved {ids : List Int} {s s2 : SimState} (hinv : LInv ids s)
    (h1 : s2.list_processes = s.list_processes) (h3 : s2.mem = s.mem)
    (h4 : s2.current_time = s.current_time)
    (hl : ((live s2).map core).Perm ((live s).map core))
    (hG : s2.running.state = states.RUNNING ∨ s2.running.state = states.NOT_ASSIGNED)
    (hj : ∀ q ∈ s2.job_list, q ∈ s.job_list ∨ q ∈ live s2)
    (hp : s2.job_list.map (fun p => p.PID) = s.job_list.map (fun p => p.PID)) :
    LInv ids s2 ∧ work_left s2 = work_left s := by
  have hlive := map_PID_of_core_perm hl
  have hpool := pool_perm_of_live h1 hl
  obtain ⟨hA, hB, hC, hE, hF, -, hH, hI⟩ := hinv
  refine ⟨⟨h4 ▸ hA, h3 ▸ hB, PoolOK_of_core_perm hpool hC, h1 ▸ hE, ?_, hG, ?_, ?_⟩,
    sum_remaining_of_core_perm hpool⟩
  · rw [h3]
    exact mem_owned_mono hF (fun x hx => hlive.mem_iff.2 hx)
  · intro q hq
    rcases hj q hq with hq2 | hq2
    · rcases hH q hq2 with ht | hl
      · exact Or.inl ht
      · exact Or.inr (hlive.mem_iff.2 hl)
    · exact Or.inr (List.mem_map_of_mem (fun p : PCB => p.PID) hq2)
  · intro x hx
    rw [h1, hp]
    exact hI x hx

theorem map_wake_core (l : List PCB) : (l.map wake).map core = l.map core := by
  rw [List.map_map]
  rfl

theorem perm_wake {α : Type} (r f n w c : List α) (h : (f ++ n).Perm w) :
    (r ++ f ++ n ++ c).Perm (r ++ w ++ c) := by
  rw [← Multiset.coe_eq_coe] at h ⊢
  simp only [← Multiset.coe_add] at h ⊢
  rw [← h]
  abel

theorem LInv_manage_wait_queue {ids : List Int} {s : SimState} (hinv : LInv ids s) :
    LInv ids (manage_wait_queue s) ∧ work_left (manage_wait_queue s) = work_left s := by
  rw [manage_wait_queue_eq]
  refine LInv_moved hinv rfl rfl rfl ?_ hinv.2.2.2.2.2.1 ?_ ?_
  · show ((s.ready_queue ++ (s.wait_queue.filter (fun p => io_done s.current_time p)).map wake
        ++ s.wait_queue.filter (fun p => !io_done s.current_time p) ++ on_cpu s).map core).Perm
      ((s.ready_queue ++ s.wait_queue ++ on_cpu s).map core)
    simp only [List.map_append, map_wake_core]
    refine perm_wake _ _ _ _ _ ?_
    rw [← List.map_append]
    exact (List.filter_append_perm _ _).map core
  · intro q hq
    rcases mem_foldl_sync_queue hq with h | h
    · exact Or.inl h
    · right
      show q ∈ s.ready_queue ++
        (s.wait_queue.filter (fun p => io_done s.current_time p)).map wake
        ++ s.wait_queue.filter (fun p => !io_done s.current_time p) ++ on_cpu s
      exact List.mem_append_left _ (List.mem_append_left _ (List.mem_append_right _ h))
  · exact foldl_sync_queue_map_PID _ _

/-! ### The admission sweep -/

theorem admission_result_perm (t : Nat) (mem : List memory_partition) (l : List PCB) :
    ((admission_result t mem l).2.1.map core ++
      ((admission_result t mem l).1.map (fun x => x.1)).map core).Perm (l.map core) := by
  induction l generalizing mem with
  | nil => simp [admission_result]
  | cons p rest ih =>
    unfold admission_result
    split_ifs with h1 h2
    · have hc : core (to_ready (assign_memory mem p).2.2) = core p := by
        rw [core_to_ready, assign_memory_snd, core_partition]
      simp only [List.map_cons]
      rw [hc]
      exact List.perm_middle.trans (List.Perm.cons _ (ih _))
    · simp only [List.map_cons, List.cons_append]
      rw [core_arrival]
      exact List.Perm.cons _ (ih _)
    · simp only [List.map_cons, List.cons_append]
      exact List.Perm.cons _ (ih _)

theorem admission_result_arrival (t : Nat) (mem : List memory_partition) (l : List PCB)
    (h : ∀ p ∈ l, p.arrival_time < 2 ^ 32) :
    ∀ p ∈ (admission_result t mem l).2.1, p.arrival_time < 2 ^ 32 := by
  induction l generalizing mem with
  | nil => simp [admission_result]
  | cons p rest ih =>
    have hrest : ∀ q ∈ rest, q.arrival_time < 2 ^ 32 :=
      fun q hq => h q (List.mem_cons_of_mem _ hq)
    unfold admission_result
    split_ifs with h1 h2
    · exact ih _ hrest
    · intro q hq
      rcases List.mem_cons.1 hq with rfl | hq
      · exact Nat.mod_lt _ (by norm_num)
      · exact ih _ hrest q hq
    · intro q hq
      rcases List.mem_cons.1 hq with rfl | hq
      · exact h _ (List.mem_cons_self _ _)
      · exact ih _ hrest q hq

theorem assign_memory_owned (mem : List memory_partition) (ids : List Int) (p : PCB)
    (hown : mem_owned mem ids) (hp : p.PID ∉ ids) (hb : (assign_memory mem p).1 = true) :
    mem_owned (assign_memory mem p).2.1 (ids ++ [p.PID]) := by
  obtain ⟨i, part, -, hi, hf, -, heq⟩ := assign_memory_loop_true mem p 6 hb
  obtain ⟨f1, f2, -, -⟩ := set_occupied_frame mem i part p.PID hi
  unfold assign_memory
  rw [heq]
  intro k e hk ho
  change (mem.set i { part with occupied := p.PID })[k]? = some e at hk
  by_cases hki : k = i
  · subst hki
    rw [f1] at hk
    have he : e.occupied = p.PID := by
      rw [← Option.some.inj hk]
    refine ⟨by rw [he]; exact List.mem_append_right _ (List.mem_singleton_self _), ?_⟩
    intro j q hj hq
    change (mem.set k { part with occupied := p.PID })[j]? = some q at hj
    by_contra hjk
    rw [f2 j hjk] at hj
    have hq1 : q.occupied ≠ -1 := by rw [hq]; exact ho
    have := (hown j q hj hq1).1
    rw [hq, he] at this
    exact hp this
  · rw [f2 k hki] at hk
    obtain ⟨o1, o2⟩ := hown k e hk ho
    refine ⟨List.mem_append_left _ o1, ?_⟩
    intro j q hj hq
    change (mem.set i { part with occupied := p.PID })[j]? = some q at hj
    by_cases hji : j = i
    · subst hji
      rw [f1] at hj
      have hq2 : q.occupied = p.PID := by
        rw [← Option.some.inj hj]
      rw [hq2] at hq
      rw [← hq] at o1
      exact absurd o1 hp
    · rw [f2 j hji] at hj
      exact o2 j q hj hq

theorem admission_result_owned (t : Nat) (mem : List memory_partition) (l : List PCB)
    (ids : List Int) (hown : mem_owned mem ids) (hnd : (l.map (fun p => p.PID)).Nodup)
    (hdis : ∀ p ∈ l, p.PID ∉ ids) :
    mem_owned (admission_result t mem l).2.2
      (ids ++ (admission_result t mem l).1.map (fun x => x.1.PID)) := by
  induction l generalizing mem ids with
  | nil => simpa [admission_result] using hown
  | cons p rest ih =>
    have hnd2 : (rest.map (fun p => p.PID)).Nodup := (List.nodup_cons.1 hnd).2
    have hp : p.PID ∉ rest.map (fun p => p.PID) := (List.nodup_cons.1 hnd).1
    have hdis2 : ∀ q ∈ rest, q.PID ∉ ids := fun q hq => hdis q (List.mem_cons_of_mem _ hq)
    unfold admission_result
    split_ifs with h1 h2
    · have h := ih (assign_memory mem p).2.1 (ids ++ [p.PID])
        (assign_memory_owned mem ids p hown (hdis p (List.mem_cons_self _ _)) h2) hnd2 (by
          intro q hq hc
          rcases List.mem_append.1 hc with hc | hc
          · exact hdis2 q hq hc
          · rw [List.mem_singleton] at hc
            exact hp (hc ▸ List.mem_map_of_mem (fun p : PCB => p.PID) hq))
      refine mem_owned_mono h ?_
      intro x hx
      have hpid : (to_ready (assign_memory mem p).2.2).PID = p.PID := assign_memory_PID mem p
      simp only [List.map_cons, List.mem_append, List.mem_cons, hpid]
      simp only [List.mem_append, List.mem_singleton] at hx
      tauto
    · exact ih mem ids hown hnd2 hdis2
    · exact ih mem ids hown hnd2 hdis2

theorem admission_result_fires (t : Nat) (mem : List memory_partition) (p : PCB)
    (rest : List PCB) (h1 : p.arrival_time = t) (h2 : (assign_memory mem p).1 = true) :
    (admission_result t mem (p :: rest)).1 ≠ [] := by
  unfold admission_result
  rw [if_pos h1, if_pos h2]
  exact List.cons_ne_nil _ _

theorem gap_succ (a t : Nat) (ha : a < 2 ^ 32) (ht : t < 2 ^ 32) (hne : a ≠ t) :
    u32_sub a ((t + 1) % 2 ^ 32) + 1 = u32_sub a t := by
  unfold u32_sub
  split <;> split <;> omega

theorem gap_bumped (a t : Nat) (h : a = t) :
    u32_sub ((a + 1) % 2 ^ 32) ((t + 1) % 2 ^ 32) = u32_sub a t := by
  subst h
  rw [u32_sub_self, u32_sub_self]

/-- A sweep that admits nothing brings every arrival time that is still ahead
one tick closer. -/
theorem admission_result_idle (t : Nat) (mem : List memory_partition) (l : List PCB)
    (ht : t < 2 ^ 32) (hl : ∀ p ∈ l, p.arrival_time < 2 ^ 32)
    (hA : (admission_result t mem l).1 = []) :
    (((admission_result t mem l).2.1.map
        (fun p => u32_sub p.arrival_time ((t + 1) % 2 ^ 32))).sum ≤
      (l.map (fun p => u32_sub p.arrival_time t)).sum) ∧
    ((∃ p ∈ l, p.arrival_time ≠ t) →
      ((admission_result t mem l).2.1.map
        (fun p => u32_sub p.arrival_time ((t + 1) % 2 ^ 32))).sum <
      (l.map (fun p => u32_sub p.arrival_time t)).sum) := by
  induction l generalizing mem with
  | nil => simp [admission_result]
  | cons p rest ih =>
    have hrest : ∀ q ∈ rest, q.arrival_time < 2 ^ 32 :=
      fun q hq => hl q (List.mem_cons_of_mem _ hq)
    have hp := hl p (List.mem_cons_self _ _)
    unfold admission_result at hA ⊢
    split_ifs at hA ⊢ with h1 h2
    · obtain ⟨i1, i2⟩ := ih mem hrest hA
      simp only [List.map_cons, List.sum_cons]
      rw [gap_bumped p.arrival_time t h1]
      refine ⟨by omega, ?_⟩
      rintro ⟨q, hq, hne⟩
      rcases List.mem_cons.1 hq with rfl | hq
      · exact absurd h1 hne
      · have := i2 ⟨q, hq, hne⟩
        omega
    · obtain ⟨i1, -⟩ := ih mem hrest hA
      simp only [List.map_cons, List.sum_cons]
      have := gap_succ p.arrival_time t hp ht h1
      exact ⟨by omega, fun _ => by omega⟩

theorem perm_admitted {α : Type} (k a l r w c : List α) (h : (k ++ a).Perm l) :
    (k ++ (r ++ a ++ w ++ c)).Perm (l ++ (r ++ w ++ c)) := by
  rw [← Multiset.coe_eq_coe] at h ⊢
  simp only [← Multiset.coe_add] at h ⊢
  rw [← h]
  abel

theorem LInv_admission {ids : List Int} {s : SimState} (hinv : LInv ids s) :
    LInv ids (admission s) ∧ work_left (admission s) = work_left s := by
  obtain ⟨hA, hB, hC, hE, hF, hG, hH, hI⟩ := hinv
  have hperm := admission_result_perm s.current_time s.mem s.list_processes
  have hpool : ((pool (admission s)).map core).Perm ((pool s).map core) := by
    rw [admission_eq]
    show (((admission_result s.current_time s.mem s.list_processes).2.1 ++
        (s.ready_queue ++
          (admission_result s.current_time s.mem s.list_processes).1.map (fun x => x.1) ++
          s.wait_queue ++ on_cpu s)).map core).Perm
      ((s.list_processes ++ (s.ready_queue ++ s.wait_queue ++ on_cpu s)).map core)
    simp only [List.map_append]
    exact perm_admitted _ _ _ _ _ _ hperm
  have hnd : ((s.list_processes ++ live s).map (fun p => p.PID)).Nodup := hC.1
  rw [List.map_append] at hnd
  have hown := admission_result_owned s.current_time s.mem s.list_processes
    ((live s).map (fun p => p.PID)) hF (List.nodup_append.1 hnd).1 (by
      intro p hp hc
      exact (List.nodup_append.1 hnd).2.2 (List.mem_map_of_mem (fun p : PCB => p.PID) hp) hc)
  refine ⟨?_, sum_remaining_of_core_perm hpool⟩
  refine ⟨?_, ?_, PoolOK_of_core_perm hpool hC, ?_, ?_, ?_, ?_, ?_⟩
  · rw [admission_eq]
    exact hA
  · rw [admission_eq]
    exact (admission_result_table_ok _ _ _ hB).1
  · rw [admission_eq]
    exact admission_result_arrival _ _ _ hE
  · rw [admission_eq]
    refine mem_owned_mono hown ?_
    intro x hx
    show x ∈ (s.ready_queue ++
          (admission_result s.current_time s.mem s.list_processes).1.map (fun x => x.1) ++
          s.wait_queue ++ on_cpu s).map (fun p => p.PID)
    have hx2 : x ∈ (s.ready_queue ++ s.wait_queue ++ on_cpu s).map (fun p => p.PID) ∨
        x ∈ (admission_result s.current_time s.mem s.list_processes).1.map
          (fun x => x.1.PID) := List.mem_append.1 hx
    simp only [List.map_append, List.mem_append, List.map_map] at hx2 ⊢
    tauto
  · rw [admission_eq]
    exact hG
  · rw [admission_eq]
    intro q hq
    change q ∈ s.job_list ++
      (admission_result s.current_time s.mem s.list_processes).1.map (fun x => x.1) at hq
    show q.state = states.TERMINATED ∨ q.PID ∈ (s.ready_queue ++
          (admission_result s.current_time s.mem s.list_processes).1.map (fun x => x.1) ++
          s.wait_queue ++ on_cpu s).map (fun p => p.PID)
    rcases List.mem_append.1 hq with hq | hq
    · rcases hH q hq with ht | hl
      · exact Or.inl ht
      · right
        have hl2 : q.PID ∈ (s.ready_queue ++ s.wait_queue ++ on_cpu s).map
            (fun p => p.PID) := hl
        simp only [List.map_append, List.mem_append] at hl2 ⊢
        tauto
    · right
      have := List.mem_map_of_mem (fun p : PCB => p.PID) hq
      simp only [List.map_append, List.mem_append]
      tauto
  · rw [admission_eq]
    intro x hx
    show x ∈ (admission_result s.current_time s.mem s.list_processes).2.1.map
          (fun p => p.PID) ∨
      x ∈ (s.job_list ++
        (admission_result s.current_time s.mem s.list_processes).1.map (fun x => x.1)).map
          (fun p => p.PID)
    rcases hI x hx with h | h
    · have hp2 := hperm.map (fun p : PCB => p.PID)
      rw [← map_core_PID] at h
      have := hp2.mem_iff.2 h
      rw [← List.map_append, map_core_PID] at this
      simp only [List.map_append, List.mem_append] at this ⊢
      tauto
    · simp only [List.map_append, List.mem_append]
      tauto

/-! ### The execution step -/

theorem mem_sync_queue_ne {l : List PCB} {p q : PCB} (h : q ∈ sync_queue l p) :
    q = p ∨ (q ∈ l ∧ q.PID ≠ p.PID) := by
  unfold sync_queue at h
  obtain ⟨x, hx, rfl⟩ := List.mem_map.1 h
  by_cases hc : x.PID = p.PID
  · left
    rw [if_pos hc]
  · right
    rw [if_neg hc]
    exact ⟨hx, hc⟩

theorem free_memory_owned (mem : List memory_partition) (ids ids2 : List Int) (p : PCB)
    (htab : table_ok mem) (hown : mem_owned mem ids)
    (hsub : ∀ y ∈ ids, y ≠ p.PID → y ∈ ids2) :
    mem_owned (free_memory mem p).2.1 ids2 := by
  have hlen := table_ok_length htab
  cases hb : (free_memory_loop mem p 6).1 with
  | false =>
    obtain ⟨hno, heq⟩ := free_memory_loop_false mem p 6 hb
    unfold free_memory
    rw [heq]
    intro k e hk ho
    change mem[k]? = some e at hk
    have hk6 : k < 6 := by
      obtain ⟨hl, -⟩ := List.getElem?_eq_some.1 hk
      omega
    obtain ⟨o1, o2⟩ := hown k e hk ho
    exact ⟨hsub _ o1 (hno k e hk6 hk), o2⟩
  | true =>
    obtain ⟨i, part, -, hi, hocc, -, heq⟩ := free_memory_loop_true mem p 6 hb
    obtain ⟨f1, f2, -, -⟩ := set_occupied_frame mem i part (-1) hi
    unfold free_memory
    rw [heq]
    intro k e hk ho
    change (mem.set i { part with occupied := -1 })[k]? = some e at hk
    by_cases hki : k = i
    · subst hki
      rw [f1] at hk
      exact absurd (by rw [← Option.some.inj hk]) ho
    · rw [f2 k hki] at hk
      obtain ⟨o1, o2⟩ := hown k e hk ho
      refine ⟨hsub _ o1 ?_, ?_⟩
      · intro hc
        exact hki (o2 i part hi (hocc.trans hc.symm)).symm
      · intro j q hj hq
        change (mem.set i { part with occupied := -1 })[j]? = some q at hj
        by_cases hji : j = i
        · subst hji
          rw [f1] at hj
          have hq2 : q.occupied = -1 := by rw [← Option.some.inj hj]
          exact absurd (hq.symm.trans hq2) ho
        · rw [f2 j hji] at hj
          exact o2 j q hj hq

theorem last_unit_of_work (r : PCB) (h1 : 1 ≤ r.remaining_time)
    (h0 : (work r).remaining_time = 0) : r.remaining_time = 1 := by
  have h : (work r).remaining_time = u32_dec r.remaining_time := rfl
  rw [h, u32_dec_pos _ h1] at h0
  omega

theorem work_remaining (r : PCB) (h1 : 1 ≤ r.remaining_time) :
    (work r).remaining_time + 1 = r.remaining_time := by
  have h : (work r).remaining_time = u32_dec r.remaining_time := rfl
  rw [h, u32_dec_pos _ h1]
  omega

theorem live_of_running (s : SimState) (hr : s.running.state = states.RUNNING) :
    live s = s.ready_queue ++ s.wait_queue ++ [s.running] := by
  unfold live
  rw [on_cpu_of_running s hr]

theorem Good_running {ids : List Int} {s : SimState} (hinv : LInv ids s)
    (hr : s.running.state = states.RUNNING) : Good s.running := by
  refine hinv.2.2.1.2 _ ?_
  unfold pool
  rw [live_of_running s hr]
  exact List.mem_append_right _ (List.mem_append_right _ (List.mem_singleton_self _))

theorem LInv_terminated {ids : List Int} {s s2 : SimState} (hinv : LInv ids s)
    (hr : s.running.state = states.RUNNING) (h0 : (work s.running).remaining_time = 0)
    (T : PCB) (hT : T.PID = s.running.PID) (hTs : T.state = states.TERMINATED)
    (h1 : s2.list_processes = s.list_processes) (h2 : s2.ready_queue = s.ready_queue)
    (h3 : s2.wait_queue = s.wait_queue) (h4 : s2.current_time = s.current_time)
    (h5 : s2.running = idle_CPU)
    (h6 : s2.mem = (free_memory (free_memory s.mem (terminated (work s.running))).2.1
      (free_memory s.mem (terminated (work s.running))).2.2).2.1)
    (h7 : s2.job_list = sync_queue s.job_list T) :
    LInv ids s2 ∧ work_left s2 + 1 = work_left s := by
  have hgood := Good_running hinv hr
  obtain ⟨hA, hB, hC, hE, hF, -, hH, hI⟩ := hinv
  have hlive := live_of_running s hr
  have hlive2 : live s2 = s.ready_queue ++ s.wait_queue := by
    unfold live
    rw [h2, h3, on_cpu_of_not_running s2 (by rw [h5]; intro h; cases h), List.append_nil]
  have hsub : List.Sublist (pool s2) (pool s) := by
    unfold pool
    rw [h1, hlive, hlive2]
    exact List.Sublist.append (List.Sublist.refl _) (List.sublist_append_left _ _)
  have step1 := free_memory_owned s.mem _ ((s.ready_queue ++ s.wait_queue).map
    (fun p => p.PID)) (terminated (work s.running)) hB hF (by
      intro y hy hne
      rw [hlive] at hy
      have hne2 : y ≠ s.running.PID := hne
      simp only [List.map_append, List.mem_append, List.map_cons, List.map_nil,
        List.mem_singleton] at hy ⊢
      tauto)
  have step2 := free_memory_owned _ _ ((s.ready_queue ++ s.wait_queue).map
    (fun p => p.PID)) (free_memory s.mem (terminated (work s.running))).2.2
    (free_memory_table_ok _ _ hB) step1 (fun y hy _ => hy)
  refine ⟨⟨h4 ▸ hA, ?_, ⟨(hC.1).sublist (hsub.map _), fun p hp => hC.2 p (hsub.subset hp)⟩,
    h1 ▸ hE, ?_, Or.inr (by rw [h5]; rfl), ?_, ?_⟩, ?_⟩
  · rw [h6]
    exact free_memory_table_ok _ _ (free_memory_table_ok _ _ hB)
  · rw [h6, hlive2]
    exact step2
  · intro q hq
    rw [h7] at hq
    rcases mem_sync_queue_ne hq with rfl | ⟨hq1, hq2⟩
    · exact Or.inl hTs
    · rcases hH q hq1 with ht | hl
      · exact Or.inl ht
      · right
        rw [hlive] at hl
        rw [hlive2]
        rw [hT] at hq2
        simp only [List.map_append, List.mem_append, List.map_cons, List.map_nil,
          List.mem_singleton] at hl ⊢
        tauto
  · intro x hx
    rw [h1, h7, sync_queue_map_PID]
    exact hI x hx
  · have h1r := last_unit_of_work s.running hgood.2.1 h0
    unfold work_left pool
    rw [h1, hlive, hlive2]
    simp only [List.map_append, List.sum_append, List.map_cons, List.map_nil, List.sum_cons,
      List.sum_nil]
    omega

theorem LInv_worked {ids : List Int} {s s2 : SimState} (hinv : LInv ids s)
    (hr : s.running.state = states.RUNNING) (r2 : PCB)
    (hp : r2.PID = s.running.PID) (hs : r2.size = s.running.size)
    (hd : r2.io_duration = s.running.io_duration)
    (hw : r2.remaining_time + 1 = s.running.remaining_time) (hpos : r2.remaining_time ≠ 0)
    (h1 : s2.list_processes = s.list_processes) (h3 : s2.mem = s.mem)
    (h4 : s2.current_time = s.current_time)
    (hlive2 : live s2 = s.ready_queue ++ s.wait_queue ++ [r2])
    (hG : s2.running.state = states.RUNNING ∨ s2.running.state = states.NOT_ASSIGNED)
    (hj : ∀ q ∈ s2.job_list, q ∈ s.job_list ∨ q.PID = s.running.PID)
    (hjp : s2.job_list.map (fun p => p.PID) = s.job_list.map (fun p => p.PID)) :
    LInv ids s2 ∧ work_left s2 + 1 = work_left s := by
  have hgood := Good_running hinv hr
  obtain ⟨hA, hB, hC, hE, hF, -, hH, hI⟩ := hinv
  have hlive := live_of_running s hr
  have hpids : (live s2).map (fun p => p.PID) = (live s).map (fun p => p.PID) := by
    rw [hlive, hlive2]
    simp only [List.map_append, List.map_cons, List.map_nil, hp]
  have hg2 : Good r2 := ⟨hp ▸ hgood.1, by omega, hs ▸ hgood.2.2.1, hd ▸ hgood.2.2.2⟩
  refine ⟨⟨h4 ▸ hA, h3 ▸ hB, ⟨?_, ?_⟩, h1 ▸ hE, ?_, hG, ?_, ?_⟩, ?_⟩
  · have := hC.1
    unfold pool at this ⊢
    rw [List.map_append] at this ⊢
    rw [hpids, h1]
    exact this
  · intro p hp2
    unfold pool at hp2
    rw [h1, hlive2] at hp2
    have hold : ∀ q ∈ s.list_processes ++ (s.ready_queue ++ s.wait_queue ++ [s.running]),
        Good q := by
      have := hC.2
      unfold pool at this
      rw [hlive] at this
      exact this
    simp only [List.mem_append, List.mem_singleton] at hp2 hold
    rcases hp2 with h | (h | h) | h
    · exact hold p (Or.inl h)
    · exact hold p (Or.inr (Or.inl (Or.inl h)))
    · exact hold p (Or.inr (Or.inl (Or.inr h)))
    · rw [h]
      exact hg2
  · rw [h3, hpids]
    exact hF
  · intro q hq
    rw [hpids]
    rcases hj q hq with h | h
    · exact hH q h
    · right
      rw [h, hlive]
      simp
  · intro x hx
    rw [h1, hjp]
    exact hI x hx
  · unfold work_left pool
    rw [h1, hlive, hlive2]
    simp only [List.map_append, List.sum_append, List.map_cons, List.map_nil, List.sum_cons,
      List.sum_nil]
    omega

theorem terminated_record (mem : List memory_partition) (r : PCB) :
    (free_memory mem (terminated (work r))).2.2.PID = r.PID ∧
    (free_memory mem (terminated (work r))).2.2.state = states.TERMINATED := by
  constructor
  · rw [free_memory_PID]
    rfl
  · rw [free_memory_snd]
    rfl

theorem LInv_wait_step {ids : List Int} {s s2 : SimState} (hinv : LInv ids s)
    (hr : s.running.state = states.RUNNING) (hne : (work s.running).remaining_time ≠ 0)
    (h1 : s2.list_processes = s.list_processes) (h2 : s2.ready_queue = s.ready_queue)
    (h3 : s2.mem = s.mem) (h4 : s2.current_time = s.current_time)
    (h5 : s2.running = idle_CPU)
    (h6 : s2.wait_queue = s.wait_queue ++ [to_wait s.current_time (work s.running)])
    (h7 : s2.job_list = sync_queue s.job_list (to_wait s.current_time (work s.running))) :
    LInv ids s2 ∧ work_left s2 + 1 = work_left s := by
  refine LInv_worked hinv hr (to_wait s.current_time (work s.running)) rfl rfl rfl
    (work_remaining _ (Good_running hinv hr).2.1) hne h1 h3 h4 ?_
    (Or.inr (by rw [h5]; rfl)) ?_ ?_
  · unfold live
    rw [h2, h6, on_cpu_of_not_running s2 (by rw [h5]; intro h; cases h), List.append_nil,
      List.append_assoc]
  · intro q hq
    rw [h7] at hq
    rcases mem_sync_queue hq with h | h
    · exact Or.inl h
    · right
      rw [h]
      rfl
  · rw [h7, sync_queue_map_PID]

theorem LInv_work_step {ids : List Int} {s s2 : SimState} (hinv : LInv ids s)
    (hr : s.running.state = states.RUNNING) (hne : (work s.running).remaining_time ≠ 0)
    (h1 : s2.list_processes = s.list_processes) (h2 : s2.ready_queue = s.ready_queue)
    (h3 : s2.mem = s.mem) (h4 : s2.current_time = s.current_time)
    (h5 : s2.running = work s.running) (h6 : s2.wait_queue = s.wait_queue)
    (h7 : s2.job_list = s.job_list) :
    LInv ids s2 ∧ work_left s2 + 1 = work_left s := by
  have hr2 : s2.running.state = states.RUNNING := by
    rw [h5]
    exact hr
  refine LInv_worked hinv hr (work s.running) rfl rfl rfl
    (work_remaining _ (Good_running hinv hr).2.1) hne h1 h3 h4 ?_ (Or.inl hr2) ?_ ?_
  · rw [live_of_running s2 hr2, h2, h6, h5]
  · intro q hq
    rw [h7] at hq
    exact Or.inl hq
  · rw [h7]

theorem exec_case {ids : List Int} {s s2 : SimState} (hr : s.running.state = states.RUNNING)
    (h : LInv ids s2 ∧ work_left s2 + 1 = work_left s) :
    LInv ids s2 ∧ (s.running.state = states.RUNNING → work_left s2 + 1 = work_left s) ∧
      (s.running.state ≠ states.RUNNING → s2 = s) :=
  ⟨h.1, fun _ => h.2, fun hn => absurd hr hn⟩

theorem execute_EP_ok {ids : List Int} {s : SimState} (hinv : LInv ids s) :
    LInv ids (execute_EP s) ∧
    (s.running.state = states.RUNNING → work_left (execute_EP s) + 1 = work_left s) ∧
    (s.running.state ≠ states.RUNNING → execute_EP s = s) := by
  rcases execute_EP_cases s with ⟨hn, h⟩ | ⟨hr, h0, h⟩ | ⟨hr, hne, -, h⟩ | ⟨hr, hne, -, h⟩
  · rw [h]
    exact ⟨hinv, fun hr => absurd hr hn, fun _ => rfl⟩
  · rw [h]
    exact exec_case hr (LInv_terminated hinv hr h0 _
      (terminated_record s.mem s.running).1 (terminated_record s.mem s.running).2
      rfl rfl rfl rfl rfl rfl rfl)
  · rw [h]
    exact exec_case hr (LInv_wait_step hinv hr hne rfl rfl rfl rfl rfl rfl rfl)
  · rw [h]
    exact exec_case hr (LInv_work_step hinv hr hne rfl rfl rfl rfl rfl rfl rfl)

theorem execute_RR_ok {ids : List Int} {s : SimState} (hinv : LInv ids s) :
    LInv ids (execute_RR s) ∧
    (s.running.state = states.RUNNING → work_left (execute_RR s) + 1 = work_left s) ∧
    (s.running.state ≠ states.RUNNING → execute_RR s = s) := by
  rcases execute_RR_cases s with ⟨hn, h⟩ | ⟨hr, h0, h⟩ | ⟨hr, hne, -, h⟩ | ⟨hr, hne, -, h⟩
  · rw [h]
    exact ⟨hinv, fun hr => absurd hr hn, fun _ => rfl⟩
  · rw [h]
    exact exec_case hr (LInv_terminated hinv hr h0 _
      (terminated_record s.mem s.running).1 (terminated_record s.mem s.running).2
      rfl rfl rfl rfl rfl rfl rfl)
  · rw [h]
    exact exec_case hr (LInv_wait_step hinv hr hne rfl rfl rfl rfl rfl rfl rfl)
  · rw [h]
    exact exec_case hr (LInv_work_step hinv hr hne rfl rfl rfl rfl rfl rfl rfl)

/-! ### Ticks in which no process runs -/

theorem toUnsigned_lt (i : Int) : toUnsigned i < 2 ^ 32 := by
  unfold toUnsigned
  have h1 := Int.emod_lt_of_pos i (by norm_num : (0 : Int) < ((2 ^ 32 : Nat) : Int))
  have h2 := Int.emod_nonneg i (by norm_num : (((2 ^ 32 : Nat) : Int)) ≠ 0)
  omega

theorem u32_sub_step (t b : Nat) (ht : t < 2 ^ 32) (hb : b < 2 ^ 32)
    (h : u32_sub t b + 1 < 2 ^ 32) : u32_sub ((t + 1) % 2 ^ 32) b = u32_sub t b + 1 := by
  unfold u32_sub at h ⊢
  split at h <;> split <;> omega

/-- A wait-queue sweep that wakes nothing brings every I/O one tick closer to
its end. -/
theorem wait_idle (t : Nat) (w : List PCB) (ht : t < 2 ^ 32)
    (hd : ∀ p ∈ w, p.io_duration < 2 ^ 32)
    (hF : w.filter (fun p => io_done t p) = []) :
    w.filter (fun p => !io_done t p) = w ∧
    ((w.map (fun p => p.io_duration -
        u32_sub ((t + 1) % 2 ^ 32) (toUnsigned p.start_time))).sum ≤
      (w.map (fun p => p.io_duration - u32_sub t (toUnsigned p.start_time))).sum) ∧
    (w ≠ [] →
      (w.map (fun p => p.io_duration -
          u32_sub ((t + 1) % 2 ^ 32) (toUnsigned p.start_time))).sum <
        (w.map (fun p => p.io_duration - u32_sub t (toUnsigned p.start_time))).sum) := by
  induction w with
  | nil => simp
  | cons p rest ih =>
    have hp : io_done t p = false := by
      by_contra hc
      have hc2 : io_done t p = true := by
        cases h : io_done t p
        · exact absurd h hc
        · rfl
      rw [List.filter_cons_of_pos hc2] at hF
      exact List.cons_ne_nil _ _ hF
    have hF2 : rest.filter (fun p => io_done t p) = [] := by
      rw [List.filter_cons_of_neg (by rw [hp]; simp)] at hF
      exact hF
    obtain ⟨i0, i1, -⟩ := ih (fun q hq => hd q (List.mem_cons_of_mem _ hq)) hF2
    have hlt : u32_sub t (toUnsigned p.start_time) < p.io_duration := by
      unfold io_done at hp
      simpa using hp
    have hdur := hd p (List.mem_cons_self _ _)
    have hstep := u32_sub_step t (toUnsigned p.start_time) ht (toUnsigned_lt _) (by omega)
    refine ⟨?_, ?_, fun _ => ?_⟩
    · rw [List.filter_cons_of_pos (by rw [hp]; rfl), i0]
    · simp only [List.map_cons, List.sum_cons]
      omega
    · simp only [List.map_cons, List.sum_cons]
      omega

theorem all_free_of_no_live {mem : List memory_partition} (h : mem_owned mem [])
    (i : Nat) (part : memory_partition) (hi : mem[i]? = some part) : part.occupied = -1 := by
  by_contra hc
  exact absurd (h i part hi hc).1 (List.not_mem_nil _)

/-- With no admitted process alive and the loop still running, the first
process of the incoming list that has arrived is admitted. -/
theorem admission_when_empty {ids : List Int} {s : SimState} (hinv : LInv ids s)
    (hc : loop_cond s = true) (hlive : live s = [])
    (harr : ∀ p ∈ s.list_processes, p.arrival_time = s.current_time) :
    (admission_result s.current_time s.mem s.list_processes).1 ≠ [] := by
  obtain ⟨-, hB, hC, -, hF, -, hH, -⟩ := hinv
  rw [hlive] at hF hH
  cases hl : s.list_processes with
  | nil =>
    exfalso
    have hall : all_process_terminated s.job_list = true := by
      unfold all_process_terminated
      rw [List.all_eq_true]
      intro q hq
      rcases hH q hq with h | h
      · exact decide_eq_true h
      · exact absurd h (List.not_mem_nil _)
    unfold loop_cond at hc
    rw [hall, hl] at hc
    simp at hc
  | cons p rest =>
    have hp : p ∈ pool s := by
      unfold pool
      rw [hl]
      exact List.mem_append_left _ (List.mem_cons_self _ _)
    have hsize := (hC.2 p hp).2.2.1
    have hok : (assign_memory s.mem p).1 = true := by
      cases hb : (assign_memory s.mem p).1 with
      | true => rfl
      | false =>
        obtain ⟨hno, -⟩ := assign_memory_loop_false s.mem p 6 hb
        obtain ⟨o1, o2, o3, o4, o5, o6, hm⟩ := table_ok_cases hB
        have h0 : s.mem[0]? = some ⟨1, 40, o1⟩ := by rw [hm]; rfl
        have hfree := all_free_of_no_live hF 0 _ h0
        exact absurd ((fits_iff hB (by omega) h0).2 ⟨hfree, hsize⟩) (hno 0 _ (by omega) h0)
    exact admission_result_fires _ _ p rest
      (harr p (by rw [hl]; exact List.mem_cons_self _ _)) hok

/-! ### The scheduling parts of the three engines -/

theorem Sched_ok_step {ids : List Int} {s s2 : SimState} (hinv : LInv ids s)
    (h : Resched s s2) :
    LInv ids s2 ∧ work_left s2 = work_left s ∧ s2.list_processes = s.list_processes ∧
      s2.wait_queue = s.wait_queue :=
  ⟨LInv_resched hinv h, Resched_work_left h, h.1, h.2.1⟩

theorem Sched_ok_EP : Sched_ok dispatch_EP := by
  intro ids s hinv
  obtain ⟨hres, hidle⟩ := dispatch_EP_resched s hinv.2.2.2.2.2.1
  obtain ⟨a, b, c, d⟩ := Sched_ok_step hinv hres
  exact ⟨a, b, c, d, hidle⟩

theorem Sched_ok_RR : Sched_ok sched_RR := by
  intro ids s hinv
  unfold sched_RR
  obtain ⟨hres1, hkeep⟩ := preempt_RR_resched s hinv.2.2.2.2.2.1
  obtain ⟨a1, b1, c1, d1⟩ := Sched_ok_step hinv hres1
  obtain ⟨hres2, hidle⟩ := dispatch_RR_resched (preempt_RR s) a1.2.2.2.2.2.1
  obtain ⟨a2, b2, c2, d2⟩ := Sched_ok_step a1 hres2
  refine ⟨a2, b2.trans b1, c2.trans c1, d2.trans d1, fun h => ?_⟩
  obtain ⟨e1, e2⟩ := hidle h
  constructor
  · by_contra hc
    rcases hkeep (Or.inl hc) with h3 | h3
    · exact h3 e1
    · exact e2 h3
  · intro hc
    rcases hkeep (Or.inr hc) with h3 | h3
    · exact h3 e1
    · exact e2 h3

theorem Sched_ok_EP_RR : Sched_ok sched_EP_RR := by
  intro ids s hinv
  unfold sched_EP_RR
  have hres0 := Resched_sort s hinv.2.2.2.2.2.1
  obtain ⟨a0, b0, c0, d0⟩ := Sched_ok_step hinv hres0
  obtain ⟨hres1, hkeep⟩ := preempt_EP_RR_resched (sort_EP_RR s) a0.2.2.2.2.2.1
  obtain ⟨a1, b1, c1, d1⟩ := Sched_ok_step a0 hres1
  obtain ⟨hres2, hidle⟩ := dispatch_EP_RR_resched (preempt_EP_RR (sort_EP_RR s))
    a1.2.2.2.2.2.1
  obtain ⟨a2, b2, c2, d2⟩ := Sched_ok_step a1 hres2
  refine ⟨a2, b2.trans (b1.trans b0), c2.trans (c1.trans c0), d2.trans (d1.trans d0),
    fun h => ?_⟩
  obtain ⟨e1, e2⟩ := hidle h
  have hsort : sort_EP_RR s = { s with ready_queue := sortByPriority s.ready_queue } :=
    sort_EP_RR_eq s
  have hq : (sort_EP_RR s).ready_queue = sortByPriority s.ready_queue := by rw [hsort]
  have hr : (sort_EP_RR s).running = s.running := by rw [hsort]
  constructor
  · by_contra hc
    rcases hkeep (Or.inl (by rw [hq]; exact sortByPriority_ne_nil _ hc)) with h3 | h3
    · exact h3 e1
    · exact e2 h3
  · intro hc
    rcases hkeep (Or.inr (by rw [hr]; exact hc)) with h3 | h3
    · exact h3 e1
    · exact e2 h3

theorem Exec_ok_EP : Exec_ok execute_EP := fun _ _ hinv => execute_EP_ok hinv

theorem Exec_ok_RR : Exec_ok execute_RR := fun _ _ hinv => execute_RR_ok hinv

theorem LInv_time {ids : List Int} {s : SimState} (hinv : LInv ids s) (t : Nat)
    (ht : t < 2 ^ 32) : LInv ids { s with current_time := t } :=
  ⟨ht, hinv.2.1, hinv.2.2.1, hinv.2.2.2.1, hinv.2.2.2.2.1, hinv.2.2.2.2.2.1,
    hinv.2.2.2.2.2.2.1, hinv.2.2.2.2.2.2.2⟩

theorem tick_EP_eq : tick_EP = tick_of dispatch_EP execute_EP := rfl

theorem tick_EP_RR_eq : tick_EP_RR = tick_of sched_EP_RR execute_RR := rfl

theorem tick_RR_eq : tick_RR = tick_of sched_RR execute_RR := rfl

/-- A tick whose two sweeps leave the ready queue empty and the processor idle
brings the next arrival or the next end of an I/O one tick closer. -/
theorem sweeps_idle {ids : List Int} {s : SimState} (hinv : LInv ids s)
    (hc : loop_cond s = true)
    (e1 : (admission (manage_wait_queue s)).ready_queue = [])
    (e2 : (admission (manage_wait_queue s)).running.state ≠ states.RUNNING) :
    ((admission (manage_wait_queue s)).list_processes.map
        (fun p => u32_sub p.arrival_time ((s.current_time + 1) % 2 ^ 32))).sum +
      ((admission (manage_wait_queue s)).wait_queue.map
        (fun p => p.io_duration -
          u32_sub ((s.current_time + 1) % 2 ^ 32) (toUnsigned p.start_time))).sum <
    idle_left s := by
  have e1b : s.ready_queue ++
      (s.wait_queue.filter (fun p => io_done s.current_time p)).map wake ++
      (admission_result s.current_time s.mem s.list_processes).1.map (fun x => x.1) = [] := by
    rw [admission_eq, manage_wait_queue_eq] at e1
    exact e1
  have e2b : s.running.state ≠ states.RUNNING := by
    rw [admission_eq, manage_wait_queue_eq] at e2
    exact e2
  have hlist : (admission (manage_wait_queue s)).list_processes =
      (admission_result s.current_time s.mem s.list_processes).2.1 := by
    rw [admission_eq, manage_wait_queue_eq]
  have hwait : (admission (manage_wait_queue s)).wait_queue =
      s.wait_queue.filter (fun p => !io_done s.current_time p) := by
    rw [admission_eq, manage_wait_queue_eq]
  obtain ⟨e3, hA⟩ := List.append_eq_nil.1 e1b
  obtain ⟨hready, hF⟩ := List.append_eq_nil.1 e3
  rw [List.map_eq_nil_iff] at hA hF
  have hgood : ∀ p ∈ s.wait_queue, p.io_duration < 2 ^ 32 := by
    intro p hp
    refine (hinv.2.2.1.2 p ?_).2.2.2
    unfold pool live
    exact List.mem_append_right _ (List.mem_append_left _ (List.mem_append_right _ hp))
  obtain ⟨w0, w1, w2⟩ := wait_idle s.current_time s.wait_queue hinv.1 hgood hF
  obtain ⟨l1, l2⟩ := admission_result_idle s.current_time s.mem s.list_processes hinv.1
    hinv.2.2.2.1 hA
  rw [hlist, hwait, w0]
  unfold idle_left
  by_cases hw : s.wait_queue = []
  · have hex : ∃ p ∈ s.list_processes, p.arrival_time ≠ s.current_time := by
      by_contra hno
      push_neg at hno
      have hlive : live s = [] := by
        unfold live
        rw [hready, hw, on_cpu_of_not_running s e2b]
        rfl
      exact admission_when_empty hinv hc hlive hno hA
    have := l2 hex
    omega
  · have := w2 hw
    omega

theorem tick_of_progress {sched exec : SimState → SimState} (hs : Sched_ok sched)
    (he : Exec_ok exec) {ids : List Int} {s : SimState} (hinv : LInv ids s)
    (hc : loop_cond s = true) :
    LInv ids (tick_of sched exec s) ∧
    (work_left (tick_of sched exec s) < work_left s ∨
      (work_left (tick_of sched exec s) = work_left s ∧
        idle_left (tick_of sched exec s) < idle_left s)) := by
  obtain ⟨i0, w0⟩ := LInv_manage_wait_queue hinv
  obtain ⟨i1, w1⟩ := LInv_admission i0
  obtain ⟨i2, w2, l2, q2, hidle⟩ := hs ids _ i1
  obtain ⟨i3, hbusy, hid⟩ := he ids _ i2
  refine ⟨LInv_time i3 ((s.current_time + 1) % 2 ^ 32) (Nat.mod_lt _ (by norm_num)), ?_⟩
  have hwl : work_left (tick_of sched exec s) =
      work_left (exec (sched (admission (manage_wait_queue s)))) := rfl
  by_cases hr : (sched (admission (manage_wait_queue s))).running.state = states.RUNNING
  · left
    have := hbusy hr
    omega
  · right
    have h3 := hid hr
    refine ⟨by rw [hwl, h3, w2, w1, w0], ?_⟩
    obtain ⟨e1, e2⟩ := hidle hr
    have hil : idle_left (tick_of sched exec s) =
        ((exec (sched (admission (manage_wait_queue s)))).list_processes.map
          (fun p => u32_sub p.arrival_time ((s.current_time + 1) % 2 ^ 32))).sum +
        ((exec (sched (admission (manage_wait_queue s)))).wait_queue.map
          (fun p => p.io_duration -
            u32_sub ((s.current_time + 1) % 2 ^ 32) (toUnsigned p.start_time))).sum := rfl
    rw [hil, h3, l2, q2]
    exact sweeps_idle hinv hc e1 e2

/-! ### The loop ends -/

theorem run_loop_step (tick : SimState → SimState) (n : Nat) (s : SimState)
    (hc : loop_cond s = true) : run_loop tick (n + 1) s = run_loop tick n (tick s) := by
  rw [run_loop, if_pos hc]

theorem run_loop_ends (tick : SimState → SimState) (ids : List Int)
    (htick : ∀ s, LInv ids s → loop_cond s = true →
      LInv ids (tick s) ∧
      (work_left (tick s) < work_left s ∨
        (work_left (tick s) = work_left s ∧ idle_left (tick s) < idle_left s))) :
    ∀ (r w : Nat) (s : SimState), LInv ids s → work_left s = r → idle_left s = w →
      ∃ n, loop_cond (run_loop tick n s) = false ∧ LInv ids (run_loop tick n s) := by
  intro r
  induction r using Nat.strong_induction_on with
  | _ r ihr =>
    intro w
    induction w using Nat.strong_induction_on with
    | _ w ihw =>
      intro s hinv hr hw
      by_cases hc : loop_cond s = true
      · obtain ⟨hi, hdec⟩ := htick s hinv hc
        have hrec : ∃ n, loop_cond (run_loop tick n (tick s)) = false ∧
            LInv ids (run_loop tick n (tick s)) := by
          rcases hdec with h | ⟨h1, h2⟩
          · exact ihr _ (by omega) _ (tick s) hi rfl rfl
          · exact ihw _ (by omega) (tick s) hi (by omega) rfl
        obtain ⟨n, hn1, hn2⟩ := hrec
        refine ⟨n + 1, ?_, ?_⟩
        · rw [run_loop_step tick n s hc]
          exact hn1
        · rw [run_loop_step tick n s hc]
          exact hn2
      · refine ⟨0, ?_, hinv⟩
        show loop_cond s = false
        cases h : loop_cond s
        · rfl
        · exact absurd h hc

theorem LInv_init (l : List PCB) (hl : progress_input l) :
    LInv (l.map (fun p => p.PID)) (init l) := by
  have hlive : live (init l) = [] := by
    unfold live
    rw [on_cpu_of_not_running _ (by intro h; cases h)]
    rfl
  have hpool : pool (init l) = l := by
    unfold pool
    rw [hlive, List.append_nil]
    rfl
  refine ⟨by show 0 < 2 ^ 32; norm_num, ⟨rfl, rfl⟩, ?_, ?_, ?_, Or.inr rfl, ?_, ?_⟩
  · rw [hpool]
    refine ⟨hl.1, fun p hp => ?_⟩
    obtain ⟨h1, h2, -, h4, h5, -, h7⟩ := hl.2 p hp
    exact ⟨h1, by omega, h4, h7⟩
  · intro p hp
    exact (hl.2 p hp).2.2.2.2.2.1
  · intro i part hi ho
    exfalso
    have hmem : part ∈ memory_paritions := List.getElem?_mem hi
    unfold memory_paritions at hmem
    simp only [List.mem_cons, List.mem_singleton, List.not_mem_nil, or_false] at hmem
    rcases hmem with rfl | rfl | rfl | rfl | rfl | rfl <;> exact ho rfl
  · intro q hq
    exact absurd hq (List.not_mem_nil _)
  · intro x hx
    exact Or.inl hx

theorem all_terminate_of (tick : SimState → SimState) (l : List PCB)
    (hl : progress_input l)
    (htick : ∀ s, LInv (l.map (fun p => p.PID)) s → loop_cond s = true →
      LInv (l.map (fun p => p.PID)) (tick s) ∧
      (work_left (tick s) < work_left s ∨
        (work_left (tick s) = work_left s ∧ idle_left (tick s) < idle_left s))) :
    all_terminate tick l := by
  obtain ⟨n, hn, hinv⟩ := run_loop_ends tick _ htick _ _ (init l) (LInv_init l hl) rfl rfl
  unfold loop_cond at hn
  simp only [Bool.or_eq_false_iff, Bool.not_eq_false', List.isEmpty_iff] at hn
  obtain ⟨hall, hemp⟩ := hn
  refine ⟨n, ?_, hemp, ?_⟩
  · unfold loop_cond
    rw [hall, hemp]
    rfl
  · intro p hp
    rcases hinv.2.2.2.2.2.2.2 p.PID (List.mem_map_of_mem (fun p : PCB => p.PID) hp) with h | h
    · rw [hemp] at h
      exact absurd h (List.not_mem_nil _)
    · obtain ⟨q, hq, hpid⟩ := List.mem_map.1 h
      refine ⟨q, hq, hpid, ?_⟩
      unfold all_process_terminated at hall
      rw [List.all_eq_true] at hall
      exact of_decide_eq_true (hall q hq)

/-- C6: for each of the three engines, started with all partitions free, and
every finite input list whose processes have unique non-negative ids,
processing time above 0 and requested size between 1 and 40, there is a tick
count `n` after which the loop condition is false; at that point no process is
left in the incoming list and every input process is in the job list, that is,
has been admitted, with the state TERMINATED. -/
theorem every_process_terminates (l : List PCB) (hl : progress_input l) :
    all_terminate tick_EP l ∧ all_terminate tick_EP_RR l ∧ all_terminate tick_RR l := by
  refine ⟨?_, ?_, ?_⟩
  · rw [tick_EP_eq]
    exact all_terminate_of _ l hl
      (fun _ hinv hc => tick_of_progress Sched_ok_EP Exec_ok_EP hinv hc)
  · rw [tick_EP_RR_eq]
    exact all_terminate_of _ l hl
      (fun _ hinv hc => tick_of_progress Sched_ok_EP_RR Exec_ok_RR hinv hc)
  · rw [tick_RR_eq]
    exact all_terminate_of _ l hl
      (fun _ hinv hc => tick_of_progress Sched_ok_RR Exec_ok_RR hinv hc)

/-- Witness of `every_process_terminates`: three processes, one of them with
I/O, the last one asking for the largest partition while it is taken. -/
theorem every_process_terminates_witness :
    progress_input
      [add_process 1 40 0 5 2 3, add_process 2 10 1 3 0 0, add_process 3 40 1 200 0 0] ∧
    all_terminate tick_EP
      [add_process 1 40 0 5 2 3, add_process 2 10 1 3 0 0, add_process 3 40 1 200 0 0] ∧
    all_terminate tick_EP_RR
      [add_process 1 40 0 5 2 3, add_process 2 10 1 3 0 0, add_process 3 40 1 200 0 0] ∧
    all_terminate tick_RR
      [add_process 1 40 0 5 2 3, add_process 2 10 1 3 0 0, add_process 3 40 1 200 0 0] :=
  ⟨by unfold progress_input; decide,
   every_process_terminates _ (by unfold progress_input; decide)⟩

/-! ## A failed admission -/

theorem admission_result_admitted (t : Nat) (mem : List memory_partition) (p : PCB)
    (post : List PCB) (ha : p.arrival_time = t) (hok : (assign_memory mem p).1 = true) :
    admission_result t mem (p :: post) =
      (((to_ready (assign_memory mem p).2.2, (assign_memory mem p).2.1)
          :: (admission_result t (assign_memory mem p).2.1 post).1),
        (admission_result t (assign_memory mem p).2.1 post).2.1,
        (admission_result t (assign_memory mem p).2.1 post).2.2) := by
  rw [admission_result, if_pos ha, if_pos hok]

theorem admission_result_deferred (t : Nat) (mem : List memory_partition) (p : PCB)
    (post : List PCB) (ha : p.arrival_time = t) (hfail : (assign_memory mem p).1 = false) :
    admission_result t mem (p :: post) =
      ((admission_result t mem post).1,
        { p with arrival_time := (p.arrival_time + 1) % 2 ^ 32 } ::
          (admission_result t mem post).2.1,
        (admission_result t mem post).2.2) := by
  rw [admission_result, if_pos ha, if_neg (by rw [hfail]; exact Bool.false_ne_true)]

theorem admission_result_skipped (t : Nat) (mem : List memory_partition) (p : PCB)
    (post : List PCB) (ha : p.arrival_time ≠ t) :
    admission_result t mem (p :: post) =
      ((admission_result t mem post).1, p :: (admission_result t mem post).2.1,
        (admission_result t mem post).2.2) := by
  rw [admission_result, if_neg ha]

theorem admission_result_append (t : Nat) (mem : List memory_partition) (a b : List PCB) :
    admission_result t mem (a ++ b) =
      ((admission_result t mem a).1 ++
          (admission_result t (admission_result t mem a).2.2 b).1,
        (admission_result t mem a).2.1 ++
          (admission_result t (admission_result t mem a).2.2 b).2.1,
        (admission_result t (admission_result t mem a).2.2 b).2.2) := by
  induction a generalizing mem with
  | nil => simp [admission_result]
  | cons p rest ih =>
    rw [List.cons_append]
    by_cases h1 : p.arrival_time = t
    · cases h2 : (assign_memory mem p).1 with
      | true =>
        rw [admission_result_admitted t mem p _ h1 h2, admission_result_admitted t mem p _ h1 h2,
          ih]
        rfl
      | false =>
        rw [admission_result_deferred t mem p _ h1 h2,
          admission_result_deferred t mem p _ h1 h2, ih]
        rfl
    · rw [admission_result_skipped t mem p _ h1, admission_result_skipped t mem p _ h1, ih]
      rfl

theorem assign_memory_failed (mem : List memory_partition) (p : PCB)
    (hfail : (assign_memory mem p).1 = false) :
    (assign_memory mem p).2.1 = mem ∧ (assign_memory mem p).2.2 = p := by
  obtain ⟨-, heq⟩ := assign_memory_loop_false mem p 6 hfail
  unfold assign_memory
  rw [heq]
  exact ⟨rfl, rfl⟩

/-- C20 (as amended): in the admission sweep (shared verbatim by the three
engines), when the iterator reaches an incoming process `p` whose arrival time
equals the current tick and `assign_memory` fails for it: the call leaves the
partition table and `p` as they were, and the whole sweep is the sweep over
the part of the list before `p` followed by the sweep over the part after `p`
— so `p` contributes nothing to the table, the queues, the transition log and
the memory snapshots — with `p` kept between the processes kept of the two
parts, every field unchanged except the arrival time, which is
`(arrival_time + 1) mod 2 ^ 32`. -/
theorem failed_admission_defers (s : SimState) (pre post : List PCB) (p : PCB)
    (hl : s.list_processes = pre ++ p :: post)
    (ha : p.arrival_time = s.current_time)
    (hfail : (assign_memory (admission { s with list_processes := pre }).mem p).1 = false) :
    (assign_memory (admission { s with list_processes := pre }).mem p).2.1 =
      (admission { s with list_processes := pre }).mem ∧
    (assign_memory (admission { s with list_processes := pre }).mem p).2.2 = p ∧
    admission s =
      { admission { admission { s with list_processes := pre } with list_processes := post } with
        list_processes :=
          (admission { s with list_processes := pre }).list_processes ++
            { p with arrival_time := (p.arrival_time + 1) % 2 ^ 32 } ::
            (admission { admission { s with list_processes := pre } with
              list_processes := post }).list_processes } := by
  refine ⟨(assign_memory_failed _ _ hfail).1, (assign_memory_failed _ _ hfail).2, ?_⟩
  have hmem : (admission { s with list_processes := pre }).mem =
      (admission_result s.current_time s.mem pre).2.2 := by
    rw [admission_eq]
  rw [hmem] at hfail
  cases s with
  | mk lp rq wq jl mem t c run log ms =>
    simp only at hl ha hfail
    subst hl
    simp only [admission_eq, admission_result_append,
      admission_result_deferred t _ p post ha hfail, List.map_append, List.append_assoc]

/-- Witness of `failed_admission_defers`: the second of three processes that
arrive at tick 0 asks for size 50. -/
theorem failed_admission_defers_witness :
    (admission (init sample_incoming)).list_processes =
      [{ add_process 2 50 0 5 0 0 with arrival_time := 1 }] ∧
    admission (init sample_incoming) =
      { admission { admission { init sample_incoming with
            list_processes := [add_process 1 10 0 5 0 0] } with
          list_processes := [add_process 3 10 0 5 0 0] } with
        list_processes :=
          (admission { init sample_incoming with
            list_processes := [add_process 1 10 0 5 0 0] }).list_processes ++
            { add_process 2 50 0 5 0 0 with
              arrival_time := ((add_process 2 50 0 5 0 0).arrival_time + 1) % 2 ^ 32 } ::
            (admission { admission { init sample_incoming with
                list_processes := [add_process 1 10 0 5 0 0] } with
              list_processes := [add_process 3 10 0 5 0 0] }).list_processes } :=
  ⟨by decide,
   (failed_admission_defers (init sample_incoming) [add_process 1 10 0 5 0 0]
      [add_process 3 10 0 5 0 0] (add_process 2 50 0 5 0 0) rfl rfl (by decide)).2.2⟩

theorem tick_EP_single_waiting (P : PCB) (k : Nat) (hk : k ≠ P.arrival_time) :
    tick_EP (single_waiting P k) = single_waiting P ((k + 1) % 2 ^ 32) := by
  unfold tick_EP
  rw [single_waiting_skip P k hk, dispatch_EP_of_empty _ rfl,
    execute_EP_of_not_running _ (fun h => by cases h)]
  rfl

theorem run_EP_before_arrival (P : PCB) (ha : P.arrival_time < 2 ^ 32) (k : Nat)
    (hk : k ≤ P.arrival_time) : run_loop tick_EP k (init [P]) = single_waiting P k := by
  induction k with
  | zero => rfl
  | succ k ih =>
    rw [run_loop_succ, ih (by omega), if_pos (loop_cond_single_waiting P k),
      tick_EP_single_waiting P k (by omega), Nat.mod_eq_of_lt (by omega)]

/-- C20, counterexample: on the input line `1, 50, -1, 5, 0, 0` the EP engine
reaches tick `4294967295` with the process still incoming; the admission sweep
of that tick fails for it and leaves it with the arrival time 0, not
`4294967295 + 1`. -/
theorem deferred_arrival_wraps :
    run_loop tick_EP 4294967295 (init [late_big]) = single_waiting late_big 4294967295 ∧
    late_big.arrival_time = (single_waiting late_big 4294967295).current_time ∧
    (assign_memory (single_waiting late_big 4294967295).mem late_big).1 = false ∧
    (admission (manage_wait_queue (single_waiting late_big 4294967295))).list_processes =
      [{ late_big with arrival_time := 0 }] ∧
    (0 : Nat) ≠ late_big.arrival_time + 1 := by
  refine ⟨run_EP_before_arrival late_big (by decide) _ (by decide), by decide, by decide, ?_,
    by decide⟩
  decide

/-! ## The preemption check of the preemptive priority engine -/

theorem preempt_cond_EP_RR_iff (s : SimState)
    (hs : s.ready_queue.Pairwise (fun a b => b.PID ≤ a.PID)) :
    preempt_cond_EP_RR s = true ↔
      (s.time_slice_counter ≥ 100 ∨ ∃ q ∈ s.ready_queue, q.PID < s.running.PID) := by
  unfold preempt_cond_EP_RR TIME_QUANTUM
  rw [Bool.or_eq_true, decide_eq_true_iff]
  constructor
  · rintro (h | h)
    · exact Or.inl h
    · right
      cases hl : s.ready_queue.getLast? with
      | none => rw [hl] at h; cases h
      | some b =>
        rw [hl] at h
        exact ⟨b, List.mem_of_getLast?_eq_some hl, of_decide_eq_true h⟩
  · rintro (h | ⟨q, hq, hlt⟩)
    · exact Or.inl h
    · right
      cases hl : s.ready_queue.getLast? with
      | none =>
        rw [List.getLast?_eq_none_iff] at hl
        rw [hl] at hq
        cases hq
      | some b =>
        have := getLast_le_of_sorted _ b hs hl q hq
        exact decide_eq_true (by omega)

/-- C18: in the preemptive priority engine, at the preemption check of a tick
(the ready queue has just been sorted) with a RUNNING process in the running
slot: if the time-slice counter is at least 100 or some process in the ready
queue has an id strictly lower than the running process, the process is
demoted: a row RUNNING -> READY is logged at the current tick, the record with
state READY is re-inserted in the (re-sorted) ready queue, the job list is
synced, the slot is idle and the counter is 0; otherwise the check changes
nothing, in particular neither the running slot nor the counter. -/
theorem EP_RR_preemption_check (s : SimState)
    (hr : (sort_EP_RR s).running.state = states.RUNNING) :
    (((sort_EP_RR s).time_slice_counter ≥ 100 ∨
        ∃ q ∈ (sort_EP_RR s).ready_queue, q.PID < (sort_EP_RR s).running.PID) →
      preempt_EP_RR (sort_EP_RR s) =
        { sort_EP_RR s with
          ready_queue := sortByPriority
            ((sort_EP_RR s).ready_queue ++ [to_ready (sort_EP_RR s).running]),
          job_list := sync_queue (sort_EP_RR s).job_list (to_ready (sort_EP_RR s).running),
          execution_status := (sort_EP_RR s).execution_status ++
            [Event.mk (sort_EP_RR s).current_time (sort_EP_RR s).running.PID
              states.RUNNING states.READY],
          running := idle_CPU,
          time_slice_counter := 0 } ∧
      (preempt_EP_RR (sort_EP_RR s)).ready_queue.Perm
        ((sort_EP_RR s).ready_queue ++ [to_ready (sort_EP_RR s).running]) ∧
      (to_ready (sort_EP_RR s).running).state = states.READY) ∧
    (¬ ((sort_EP_RR s).time_slice_counter ≥ 100 ∨
        ∃ q ∈ (sort_EP_RR s).ready_queue, q.PID < (sort_EP_RR s).running.PID) →
      preempt_EP_RR (sort_EP_RR s) = sort_EP_RR s) := by
  have hsorted : (sort_EP_RR s).ready_queue.Pairwise (fun a b => b.PID ≤ a.PID) := by
    rw [sort_EP_RR_eq]
    exact sortByPriority_sorted _
  have hiff := preempt_cond_EP_RR_iff (sort_EP_RR s) hsorted
  constructor
  · intro hc
    have heq : preempt_EP_RR (sort_EP_RR s) =
        { sort_EP_RR s with
          ready_queue := sortByPriority
            ((sort_EP_RR s).ready_queue ++ [to_ready (sort_EP_RR s).running]),
          job_list := sync_queue (sort_EP_RR s).job_list (to_ready (sort_EP_RR s).running),
          execution_status := (sort_EP_RR s).execution_status ++
            [Event.mk (sort_EP_RR s).current_time (sort_EP_RR s).running.PID
              states.RUNNING states.READY],
          running := idle_CPU,
          time_slice_counter := 0 } := by
      unfold preempt_EP_RR
      rw [if_pos hr, if_pos (hiff.2 hc)]
    refine ⟨heq, ?_, rfl⟩
    rw [heq]
    exact sortByPriority_perm _
  · intro hc
    unfold preempt_EP_RR
    rw [if_pos hr, if_neg (fun h => hc (hiff.1 h))]

/-- Witness of `EP_RR_preemption_check`: process 2 is running, processes 3
and 1 are ready; process 1 has the lower id and process 2 is demoted. -/
theorem EP_RR_preemption_check_witness :
    (sort_EP_RR sample_running_state).running.state = states.RUNNING ∧
    (∃ q ∈ (sort_EP_RR sample_running_state).ready_queue,
      q.PID < (sort_EP_RR sample_running_state).running.PID) ∧
    (preempt_EP_RR (sort_EP_RR sample_running_state)).running = idle_CPU ∧
    (preempt_EP_RR (sort_EP_RR sample_running_state)).ready_queue.map (fun q => q.PID) =
      [3, 2, 1] :=
  ⟨by decide, ⟨sample_p1, by decide, by decide⟩,
   by rw [((EP_RR_preemption_check sample_running_state (by decide)).1
      (Or.inr ⟨sample_p1, by decide, by decide⟩)).1],
   by decide⟩

/-! ## Freeing a process that holds no partition -/

theorem free_memory_of_absent (mem : List memory_partition) (p : PCB)
    (h : ∀ part ∈ mem, part.occupied ≠ p.PID) : free_memory mem p = (false, mem, p) := by
  cases hb : (free_memory_loop mem p 6).1 with
  | false => exact (free_memory_loop_false mem p 6 hb).2
  | true =>
    obtain ⟨i, part, -, hi, hocc, -, -⟩ := free_memory_loop_true mem p 6 hb
    exact absurd hocc (h part (List.getElem?_mem hi))

theorem free_memory_clears (mem : List memory_partition) (p : PCB) (htab : table_ok mem)
    (hpid : p.PID ≠ -1)
    (huniq : ∀ (i j : Nat) (a b : memory_partition), mem[i]? = some a → mem[j]? = some b →
      a.occupied = p.PID → b.occupied = p.PID → i = j) :
    ∀ part ∈ (free_memory mem p).2.1, part.occupied ≠ p.PID := by
  have hlen := table_ok_length htab
  cases hb : (free_memory_loop mem p 6).1 with
  | false =>
    obtain ⟨hno, heq⟩ := free_memory_loop_false mem p 6 hb
    unfold free_memory
    rw [heq]
    intro part hpart
    obtain ⟨k, hk⟩ := List.getElem?_of_mem hpart
    have hk6 : k < 6 := by
      obtain ⟨hl, -⟩ := List.getElem?_eq_some.1 hk
      have hl2 : k < mem.length := hl
      omega
    exact hno k part hk6 hk
  | true =>
    obtain ⟨i, part, -, hi, hocc, -, heq⟩ := free_memory_loop_true mem p 6 hb
    obtain ⟨f1, f2, -, -⟩ := set_occupied_frame mem i part (-1) hi
    unfold free_memory
    rw [heq]
    intro e he
    obtain ⟨k, hk⟩ := List.getElem?_of_mem he
    change (mem.set i { part with occupied := -1 })[k]? = some e at hk
    by_cases hki : k = i
    · subst hki
      rw [f1] at hk
      rw [← Option.some.inj hk]
      exact fun h => hpid h.symm
    · rw [f2 k hki] at hk
      intro hc
      exact hki (huniq k i e part hk hi hc hocc)

theorem two_le_filter_length {α : Type} (l : List α) (P : α → Bool) (i j : Nat) (a b : α)
    (hij : i < j) (hi : l[i]? = some a) (hj : l[j]? = some b) (ha : P a = true)
    (hb : P b = true) : 2 ≤ (l.filter P).length := by
  have h1 : a ∈ l.take j := by
    have : (l.take j)[i]? = some a := by
      rw [List.getElem?_take_of_lt hij]
      exact hi
    exact List.getElem?_mem this
  have h2 : b ∈ l.drop j := by
    have : (l.drop j)[0]? = some b := by
      rw [List.getElem?_drop]
      exact hj
    exact List.getElem?_mem this
  have h3 : 0 < ((l.take j).filter P).length :=
    List.length_pos_of_mem (List.mem_filter.2 ⟨h1, ha⟩)
  have h4 : 0 < ((l.drop j).filter P).length :=
    List.length_pos_of_mem (List.mem_filter.2 ⟨h2, hb⟩)
  have h5 : (l.filter P).length = ((l.take j).filter P).length + ((l.drop j).filter P).length := by
    rw [← List.length_append, ← List.filter_append, List.take_append_drop]
  omega

theorem index_unique_of_filter {α : Type} (l : List α) (P : α → Bool)
    (h : (l.filter P).length ≤ 1) (i j : Nat) (a b : α) (hi : l[i]? = some a)
    (hj : l[j]? = some b) (ha : P a = true) (hb : P b = true) : i = j := by
  by_contra hne
  rcases Nat.lt_or_gt_of_ne hne with hlt | hgt
  · have := two_le_filter_length l P i j a b hlt hi hj ha hb
    omega
  · have := two_le_filter_length l P j i b a hgt hj hi hb ha
    omega

/-- C15 (as amended): freeing a process that holds no partition is not fatal
and every termination does it.  In the termination branch of the execution
step the engines call `free_memory` a second time, right after
`terminate_process` has freed the partition: for a running process whose id is
not `-1` and that is the occupant of at most one partition, this second call
is on a process that is the occupant of no partition; it returns false, leaves
the table and the record as they are, the flag is dropped, and the step goes
on to log the termination and to idle the processor (in the EP engine and in
the two quantum engines). -/
theorem second_free_is_ignored (s : SimState) (hr : s.running.state = states.RUNNING)
    (h0 : (work s.running).remaining_time = 0) (htab : table_ok s.mem)
    (hpid : s.running.PID ≠ -1)
    (huniq : (s.mem.filter (fun part => decide (part.occupied = s.running.PID))).length ≤ 1) :
    (∀ part ∈ (terminate_process { s with running := work s.running }).mem,
      part.occupied ≠ (terminate_process { s with running := work s.running }).running.PID) ∧
    second_free s =
      (false, (terminate_process { s with running := work s.running }).mem,
        (terminate_process { s with running := work s.running }).running) ∧
    execute_EP s = after_termination s ∧
    execute_RR s = { after_termination s with time_slice_counter := 0 } ∧
    (after_termination s).mem = (terminate_process { s with running := work s.running }).mem ∧
    (after_termination s).running = idle_CPU := by
  have hclear : ∀ part ∈ (terminate_process { s with running := work s.running }).mem,
      part.occupied ≠ (terminate_process { s with running := work s.running }).running.PID := by
    have hp : (terminate_process { s with running := work s.running }).running.PID =
        (terminated (work s.running)).PID := free_memory_PID _ _
    rw [hp]
    refine free_memory_clears s.mem (terminated (work s.running)) htab hpid ?_
    intro i j a b hi hj ha hb
    exact index_unique_of_filter s.mem _ huniq i j a b hi hj (decide_eq_true ha)
      (decide_eq_true hb)
  have hsecond := free_memory_of_absent _ _ hclear
  have hEP : execute_EP s = after_termination s := by
    rcases execute_EP_cases s with ⟨hn, -⟩ | ⟨-, -, h⟩ | ⟨-, hne, -⟩ | ⟨-, hne, -⟩
    · exact absurd hr hn
    · exact h
    · exact absurd h0 hne
    · exact absurd h0 hne
  have hRR : execute_RR s = { after_termination s with time_slice_counter := 0 } := by
    rcases execute_RR_cases s with ⟨hn, -⟩ | ⟨-, -, h⟩ | ⟨-, hne, -⟩ | ⟨-, hne, -⟩
    · exact absurd hr hn
    · exact h
    · exact absurd h0 hne
    · exact absurd h0 hne
  refine ⟨hclear, hsecond, hEP, hRR, ?_, rfl⟩
  show (free_memory (terminate_process { s with running := work s.running }).mem
    (terminate_process { s with running := work s.running }).running).2.1 = _
  rw [hsecond]

/-- Witness of `second_free_is_ignored`: the fifth tick of the EP engine on
the single process `{id=1,size=10,arrival=0,processing=5}`. -/
theorem second_free_is_ignored_witness :
    second_free (run_loop tick_EP 4 (init [add_process 1 10 0 5 0 0])) =
      (false,
        (terminate_process { run_loop tick_EP 4 (init [add_process 1 10 0 5 0 0]) with
          running := work (run_loop tick_EP 4 (init [add_process 1 10 0 5 0 0])).running }).mem,
        (terminate_process { run_loop tick_EP 4 (init [add_process 1 10 0 5 0 0]) with
          running :=
            work (run_loop tick_EP 4 (init [add_process 1 10 0 5 0 0])).running }).running) :=
  (second_free_is_ignored (run_loop tick_EP 4 (init [add_process 1 10 0 5 0 0]))
    (by decide) (by decide) ⟨by decide, by decide⟩ (by decide) (by decide)).2.1

/-- C15, counterexample: the EP run on the single process
`{id=1,size=10,arrival=0,processing=5}` completes after five ticks, and its
fifth tick calls `free_memory` on a process that is the occupant of no
partition: the call returns false and the run is not aborted. -/
theorem run_completes_after_free_of_nothing :
    (run_loop tick_EP 4 (init [add_process 1 10 0 5 0 0])).running.state = states.RUNNING ∧
    (work (run_loop tick_EP 4 (init [add_process 1 10 0 5 0 0])).running).remaining_time = 0 ∧
    (∀ part ∈ (terminate_process { run_loop tick_EP 4 (init [add_process 1 10 0 5 0 0]) with
        running := work (run_loop tick_EP 4 (init [add_process 1 10 0 5 0 0])).running }).mem,
      part.occupied ≠ 1) ∧
    (second_free (run_loop tick_EP 4 (init [add_process 1 10 0 5 0 0]))).1 = false ∧
    loop_cond (run_loop tick_EP 5 (init [add_process 1 10 0 5 0 0])) = false ∧
    (run_loop tick_EP 5 (init [add_process 1 10 0 5 0 0])).execution_status.getLast? =
      some (Event.mk 5 1 states.RUNNING states.TERMINATED) := by
  decide

/-! ## The rows of one tick -/

theorem sweeps_log (s : SimState) :
    ∃ rows : List Event,
      (admission (manage_wait_queue s)).execution_status = s.execution_status ++ rows ∧
      (admission (manage_wait_queue s)).current_time = s.current_time ∧
      (admission (manage_wait_queue s)).running = s.running ∧
      ∀ e ∈ rows, e.time = s.current_time ∧ e.new_state = states.READY ∧
        (e.old_state = states.WAITING ∨ e.old_state = states.NEW) := by
  refine ⟨(s.wait_queue.filter (fun p => io_done s.current_time p)).map
      (fun p => Event.mk s.current_time (wake p).PID states.WAITING states.READY) ++
    (admission_result s.current_time s.mem s.list_processes).1.map
      (fun x => Event.mk s.current_time x.1.PID states.NEW states.READY), ?_, ?_, ?_, ?_⟩
  · rw [admission_eq, manage_wait_queue_eq, ← List.append_assoc]
  · rw [admission_eq, manage_wait_queue_eq]
  · rw [admission_eq, manage_wait_queue_eq]
  · intro e he
    rcases List.mem_append.1 he with h | h
    · obtain ⟨p, -, rfl⟩ := List.mem_map.1 h
      exact ⟨rfl, rfl, Or.inl rfl⟩
    · obtain ⟨p, -, rfl⟩ := List.mem_map.1 h
      exact ⟨rfl, rfl, Or.inr rfl⟩

theorem Sched_log_EP : Sched_log dispatch_EP := by
  intro s
  rcases dispatch_EP_cases s with h | ⟨p, rest, -, -, h⟩
  · exact ⟨[], [], by rw [h]; simp, by rw [h], Or.inl rfl, Or.inl rfl⟩
  · refine ⟨[], [Event.mk s.current_time p.PID states.READY states.RUNNING], ?_, ?_,
      Or.inl rfl, Or.inr ⟨_, rfl⟩⟩
    · rw [h, List.append_nil]
    · rw [h]

theorem Sched_log_RR : Sched_log sched_RR := by
  intro s
  unfold sched_RR
  have hpre : ∃ pre, (preempt_RR s).execution_status = s.execution_status ++ pre ∧
      (preempt_RR s).current_time = s.current_time ∧
      (pre = [] ∨ (s.running.state = states.RUNNING ∧
        ∃ x, pre = [Event.mk s.current_time x states.RUNNING states.READY])) := by
    rcases preempt_RR_cases s with h | ⟨hr, -, h⟩
    · exact ⟨[], by rw [h]; simp, by rw [h], Or.inl rfl⟩
    · exact ⟨[Event.mk s.current_time s.running.PID states.RUNNING states.READY],
        by rw [h], by rw [h], Or.inr ⟨hr, _, rfl⟩⟩
  obtain ⟨pre, h1, h2, h3⟩ := hpre
  rcases dispatch_RR_cases (preempt_RR s) with h | ⟨p, rest, -, -, h⟩
  · exact ⟨pre, [], by rw [h, h1]; simp, by rw [h, h2], h3, Or.inl rfl⟩
  · refine ⟨pre, [Event.mk s.current_time p.PID states.READY states.RUNNING], ?_, ?_, h3,
      Or.inr ⟨_, rfl⟩⟩
    · rw [h]
      show (preempt_RR s).execution_status ++
        [Event.mk (preempt_RR s).current_time p.PID states.READY states.RUNNING] = _
      rw [h1, h2]
    · rw [h]
      exact h2

theorem Sched_log_EP_RR : Sched_log sched_EP_RR := by
  intro s
  unfold sched_EP_RR
  have hsort : sort_EP_RR s = { s with ready_queue := sortByPriority s.ready_queue } :=
    sort_EP_RR_eq s
  have hpre : ∃ pre, (preempt_EP_RR (sort_EP_RR s)).execution_status =
        s.execution_status ++ pre ∧
      (preempt_EP_RR (sort_EP_RR s)).current_time = s.current_time ∧
      (pre = [] ∨ (s.running.state = states.RUNNING ∧
        ∃ x, pre = [Event.mk s.current_time x states.RUNNING states.READY])) := by
    rcases preempt_EP_RR_cases (sort_EP_RR s) with h | ⟨hr, -, h⟩
    · exact ⟨[], by rw [h, hsort]; simp, by rw [h, hsort], Or.inl rfl⟩
    · refine ⟨[Event.mk s.current_time s.running.PID states.RUNNING states.READY],
        ?_, ?_, Or.inr ⟨?_, _, rfl⟩⟩
      · rw [h, hsort]
      · rw [h, hsort]
      · rw [hsort] at hr
        exact hr
  obtain ⟨pre, h1, h2, h3⟩ := hpre
  rcases dispatch_EP_RR_cases (preempt_EP_RR (sort_EP_RR s)) with h | ⟨p, rest, -, -, h⟩
  · exact ⟨pre, [], by rw [h, h1]; simp, by rw [h, h2], h3, Or.inl rfl⟩
  · refine ⟨pre, [Event.mk s.current_time p.PID states.READY states.RUNNING], ?_, ?_, h3,
      Or.inr ⟨_, rfl⟩⟩
    · rw [h]
      show (preempt_EP_RR (sort_EP_RR s)).execution_status ++
        [Event.mk (preempt_EP_RR (sort_EP_RR s)).current_time p.PID
          states.READY states.RUNNING] = _
      rw [h1, h2]
    · rw [h]
      exact h2

theorem Exec_log_EP : Exec_log execute_EP := by
  intro s
  rcases execute_EP_cases s with ⟨-, h⟩ | ⟨-, -, h⟩ | ⟨-, -, -, h⟩ | ⟨-, -, -, h⟩
  · exact ⟨[], by rw [h]; simp, Or.inl rfl⟩
  · refine ⟨[Event.mk ((s.current_time + 1) % 2 ^ 32)
        (free_memory s.mem (terminated (work s.running))).2.2.PID
        states.RUNNING states.TERMINATED], by rw [h]; rfl, Or.inr ⟨?_, _, _, Or.inr rfl, rfl⟩⟩
    rw [h]
    exact fun hc => by cases hc
  · refine ⟨[Event.mk ((s.current_time + 1) % 2 ^ 32) (work s.running).PID
        states.RUNNING states.WAITING], by rw [h]; rfl, Or.inr ⟨?_, _, _, Or.inl rfl, rfl⟩⟩
    rw [h]
    exact fun hc => by cases hc
  · exact ⟨[], by rw [h]; simp, Or.inl rfl⟩

theorem Exec_log_RR : Exec_log execute_RR := by
  intro s
  rcases execute_RR_cases s with ⟨-, h⟩ | ⟨-, -, h⟩ | ⟨-, -, -, h⟩ | ⟨-, -, -, h⟩
  · exact ⟨[], by rw [h]; simp, Or.inl rfl⟩
  · refine ⟨[Event.mk ((s.current_time + 1) % 2 ^ 32)
        (free_memory s.mem (terminated (work s.running))).2.2.PID
        states.RUNNING states.TERMINATED], by rw [h]; rfl, Or.inr ⟨?_, _, _, Or.inr rfl, rfl⟩⟩
    rw [h]
    exact fun hc => by cases hc
  · refine ⟨[Event.mk ((s.current_time + 1) % 2 ^ 32) (work s.running).PID
        states.RUNNING states.WAITING], by rw [h]; rfl, Or.inr ⟨?_, _, _, Or.inl rfl, rfl⟩⟩
    rw [h]
    exact fun hc => by cases hc
  · exact ⟨[], by rw [h]; simp, Or.inl rfl⟩

theorem Tick_log_of {sched exec : SimState → SimState} (hs : Sched_log sched)
    (he : Exec_log exec) (s : SimState) : Tick_log s (tick_of sched exec s) := by
  obtain ⟨sweep, a1, a2, a3, a4⟩ := sweeps_log s
  obtain ⟨pre, dis, b1, b2, b3, b4⟩ := hs (admission (manage_wait_queue s))
  obtain ⟨ex, c1, c2⟩ := he (sched (admission (manage_wait_queue s)))
  rw [a2] at b3 b4
  rw [a3] at b3
  rw [b2, a2] at c2
  refine ⟨sweep, pre, dis, ex, ?_, rfl, a4, b3, b4, c2⟩
  show (exec (sched (admission (manage_wait_queue s)))).execution_status = _
  rw [c1, b1, a1]

theorem countP_zero_of {α : Type} (p : α → Bool) (l : List α) (h : ∀ a ∈ l, p a = false) :
    l.countP p = 0 := by
  rw [List.countP_eq_zero]
  intro a ha hc
  rw [h a ha] at hc
  cases hc

theorem countP_le_one_of_length {α : Type} (p : α → Bool) (l : List α) (h : l.length ≤ 1) :
    l.countP p ≤ 1 :=
  le_trans (List.countP_le_length p) h

/-- One tick keeps the invariant of the log, as long as the clock does not
wrap. -/
theorem LogInv_tick {s s2 : SimState} (hinv : LogInv s) (ht : Tick_log s s2)
    (hw : s.current_time + 1 < 2 ^ 32) : LogInv s2 := by
  obtain ⟨I1, I2, I3, I4⟩ := hinv
  obtain ⟨sweep, pre, dis, ex, hlog, htime, hsw, hpre, hdis, hex⟩ := ht
  rw [Nat.mod_eq_of_lt hw] at htime hex
  have fpre : pre.length ≤ 1 ∧ ∀ e ∈ pre, e.time = s.current_time ∧
      e.old_state = states.RUNNING ∧ s.running.state = states.RUNNING := by
    rcases hpre with rfl | ⟨hr, x, rfl⟩
    · exact ⟨by simp, fun e he => by cases he⟩
    · refine ⟨by simp, fun e he => ?_⟩
      rw [List.mem_singleton] at he
      subst he
      exact ⟨rfl, rfl, hr⟩
  have fdis : dis.length ≤ 1 ∧ ∀ e ∈ dis, e.time = s.current_time ∧
      e.old_state = states.READY := by
    rcases hdis with rfl | ⟨x, rfl⟩
    · exact ⟨by simp, fun e he => by cases he⟩
    · refine ⟨by simp, fun e he => ?_⟩
      rw [List.mem_singleton] at he
      subst he
      exact ⟨rfl, rfl⟩
  have fex : ex.length ≤ 1 ∧ ∀ e ∈ ex, e.time = s.current_time + 1 ∧
      e.old_state = states.RUNNING ∧ s2.running.state ≠ states.RUNNING := by
    rcases hex with rfl | ⟨hr, x, st, -, rfl⟩
    · exact ⟨by simp, fun e he => by cases he⟩
    · refine ⟨by simp, fun e he => ?_⟩
      rw [List.mem_singleton] at he
      subst he
      exact ⟨rfl, rfl, hr⟩
  obtain ⟨lpre, fpre⟩ := fpre
  obtain ⟨ldis, fdis⟩ := fdis
  obtain ⟨lex, fex⟩ := fex
  have hmid : ∀ e ∈ sweep ++ pre ++ dis, e.time = s.current_time := by
    intro e he
    rcases List.mem_append.1 he with h | h
    · rcases List.mem_append.1 h with h | h
      · exact (hsw e h).1
      · exact (fpre e h).1
    · exact (fdis e h).1
  have hlog2 : s2.execution_status = s.execution_status ++ (sweep ++ pre ++ dis) ++ ex := by
    rw [hlog]
    simp only [List.append_assoc]
  refine ⟨?_, ?_, ?_, ?_⟩
  · intro e he
    rw [hlog2] at he
    rw [htime]
    rcases List.mem_append.1 he with h | h
    · rcases List.mem_append.1 h with h | h
      · have := I1 e h
        omega
      · have := hmid e h
        omega
    · have := (fex e h).1
      omega
  · unfold time_ordered at I2 ⊢
    rw [hlog2, List.pairwise_append, List.pairwise_append]
    refine ⟨⟨I2, ?_, ?_⟩, ?_, ?_⟩
    · refine List.pairwise_of_forall_mem_list (fun a ha b hb => ?_)
      rw [hmid a ha, hmid b hb]
    · intro a ha b hb
      rw [hmid b hb]
      exact I1 a ha
    · refine List.pairwise_of_forall_mem_list (fun a ha b hb => ?_)
      rw [(fex a ha).1, (fex b hb).1]
    · intro a ha b hb
      rw [(fex b hb).1]
      rcases List.mem_append.1 ha with h | h
      · have := I1 a h
        omega
      · have := hmid a h
        omega
  · intro t
    rw [hlog]
    simp only [List.countP_append]
    constructor
    · have c2 : sweep.countP (fun e => decide (e.time = t ∧ e.old_state = states.READY)) = 0 := by
        refine countP_zero_of _ _ (fun e he => decide_eq_false ?_)
        rintro ⟨-, h⟩
        rcases (hsw e he).2.2 with h2 | h2 <;> rw [h2] at h <;> cases h
      have c3 : pre.countP (fun e => decide (e.time = t ∧ e.old_state = states.READY)) = 0 := by
        refine countP_zero_of _ _ (fun e he => decide_eq_false ?_)
        rintro ⟨-, h⟩
        rw [(fpre e he).2.1] at h
        cases h
      have c5 : ex.countP (fun e => decide (e.time = t ∧ e.old_state = states.READY)) = 0 := by
        refine countP_zero_of _ _ (fun e he => decide_eq_false ?_)
        rintro ⟨-, h⟩
        rw [(fex e he).2.1] at h
        cases h
      rw [c2, c3, c5]
      by_cases htt : t = s.current_time
      · have c1 : s.execution_status.countP
            (fun e => decide (e.time = t ∧ e.old_state = states.READY)) = 0 := by
          refine countP_zero_of _ _ (fun e he => decide_eq_false ?_)
          rintro ⟨h1, h2⟩
          rw [(I4 e he (h1.trans htt)).1] at h2
          cases h2
        have c4 := countP_le_one_of_length
          (fun e : Event => decide (e.time = t ∧ e.old_state = states.READY)) dis ldis
        omega
      · have c4 : dis.countP (fun e => decide (e.time = t ∧ e.old_state = states.READY)) = 0 := by
          refine countP_zero_of _ _ (fun e he => decide_eq_false ?_)
          rintro ⟨h1, -⟩
          exact htt (h1.symm.trans (fdis e he).1)
        have := (I3 t).1
        omega
    · have c2 : sweep.countP
          (fun e => decide (e.time = t ∧ e.old_state = states.RUNNING)) = 0 := by
        refine countP_zero_of _ _ (fun e he => decide_eq_false ?_)
        rintro ⟨-, h⟩
        rcases (hsw e he).2.2 with h2 | h2 <;> rw [h2] at h <;> cases h
      have c4 : dis.countP (fun e => decide (e.time = t ∧ e.old_state = states.RUNNING)) = 0 := by
        refine countP_zero_of _ _ (fun e he => decide_eq_false ?_)
        rintro ⟨-, h⟩
        rw [(fdis e he).2] at h
        cases h
      rw [c2, c4]
      by_cases htt : t = s.current_time
      · have c5 : ex.countP (fun e => decide (e.time = t ∧ e.old_state = states.RUNNING)) = 0 := by
          refine countP_zero_of _ _ (fun e he => decide_eq_false ?_)
          rintro ⟨h1, -⟩
          have := (fex e he).1
          omega
        rw [c5]
        by_cases hp : ∃ e, e ∈ pre
        · obtain ⟨e0, he0⟩ := hp
          have hrun := (fpre e0 he0).2.2
          have c1 : s.execution_status.countP
              (fun e => decide (e.time = t ∧ e.old_state = states.RUNNING)) = 0 := by
            refine countP_zero_of _ _ (fun e he => decide_eq_false ?_)
            rintro ⟨h1, -⟩
            exact (I4 e he (h1.trans htt)).2 hrun
          have c3 := countP_le_one_of_length
            (fun e : Event => decide (e.time = t ∧ e.old_state = states.RUNNING)) pre lpre
          omega
        · have c3 : pre.countP
              (fun e => decide (e.time = t ∧ e.old_state = states.RUNNING)) = 0 :=
            countP_zero_of _ _ (fun e he => absurd ⟨e, he⟩ hp)
          have := (I3 t).2
          omega
      · have c3 : pre.countP
            (fun e => decide (e.time = t ∧ e.old_state = states.RUNNING)) = 0 := by
          refine countP_zero_of _ _ (fun e he => decide_eq_false ?_)
          rintro ⟨h1, -⟩
          exact htt (h1.symm.trans (fpre e he).1)
        rw [c3]
        by_cases ht1 : t = s.current_time + 1
        · have c1 : s.execution_status.countP
              (fun e => decide (e.time = t ∧ e.old_state = states.RUNNING)) = 0 := by
            refine countP_zero_of _ _ (fun e he => decide_eq_false ?_)
            rintro ⟨h1, -⟩
            have := I1 e he
            omega
          have c5 := countP_le_one_of_length
            (fun e : Event => decide (e.time = t ∧ e.old_state = states.RUNNING)) ex lex
          omega
        · have c5 : ex.countP
              (fun e => decide (e.time = t ∧ e.old_state = states.RUNNING)) = 0 := by
            refine countP_zero_of _ _ (fun e he => decide_eq_false ?_)
            rintro ⟨h1, -⟩
            exact ht1 (h1.symm.trans (fex e he).1)
          have := (I3 t).2
          omega
  · intro e he hte
    rw [hlog2] at he
    rw [htime] at hte
    rcases List.mem_append.1 he with h | h
    · exfalso
      rcases List.mem_append.1 h with h | h
      · have := I1 e h
        omega
      · have := hmid e h
        omega
    · exact ⟨(fex e h).2.1, (fex e h).2.2⟩

theorem LogInv_init (l : List PCB) : LogInv (init l) := by
  refine ⟨fun e he => (by cases he), List.Pairwise.nil, fun t => ?_,
    fun e he => (by cases he)⟩
  constructor <;> exact Nat.zero_le 1

theorem LogInv_run_loop (tick : SimState → SimState) (htick : ∀ s, Tick_log s (tick s))
    (l : List PCB) (n : Nat) (hn : n < 2 ^ 32) :
    LogInv (run_loop tick n (init l)) ∧ (run_loop tick n (init l)).current_time ≤ n := by
  induction n with
  | zero => exact ⟨LogInv_init l, Nat.le_refl 0⟩
  | succ n ih =>
    obtain ⟨i1, i2⟩ := ih (by omega)
    rw [run_loop_succ]
    by_cases hc : loop_cond (run_loop tick n (init l)) = true
    · rw [if_pos hc]
      have ht := htick (run_loop tick n (init l))
      refine ⟨LogInv_tick i1 ht (by omega), ?_⟩
      obtain ⟨_, _, _, _, -, htime, -⟩ := ht
      rw [htime, Nat.mod_eq_of_lt (by omega)]
      omega
    · rw [if_neg hc]
      exact ⟨i1, by omega⟩

theorem Tick_log_EP (s : SimState) : Tick_log s (tick_EP s) :=
  Tick_log_of Sched_log_EP Exec_log_EP s

theorem Tick_log_EP_RR (s : SimState) : Tick_log s (tick_EP_RR s) :=
  Tick_log_of Sched_log_EP_RR Exec_log_RR s

theorem Tick_log_RR (s : SimState) : Tick_log s (tick_RR s) :=
  Tick_log_of Sched_log_RR Exec_log_RR s

/-- C14 (as amended): in each of the three engines, for every input, the
transition log is time-ordered as long as the clock has not wrapped: after any
number `n < 2 ^ 32` of loop iterations the tick values of the rows, in the
order in which they were appended, are non-decreasing. -/
theorem log_time_ordered (l : List PCB) (n : Nat) (hn : n < 2 ^ 32) :
    time_ordered (run_loop tick_EP n (init l)).execution_status ∧
    time_ordered (run_loop tick_EP_RR n (init l)).execution_status ∧
    time_ordered (run_loop tick_RR n (init l)).execution_status :=
  ⟨(LogInv_run_loop tick_EP Tick_log_EP l n hn).1.2.1,
   (LogInv_run_loop tick_EP_RR Tick_log_EP_RR l n hn).1.2.1,
   (LogInv_run_loop tick_RR Tick_log_RR l n hn).1.2.1⟩

/-- Witness of `log_time_ordered`: twenty iterations on three processes. -/
theorem log_time_ordered_witness :
    time_ordered (run_loop tick_EP 20 (init sample_incoming)).execution_status ∧
    time_ordered (run_loop tick_EP_RR 20 (init sample_incoming)).execution_status ∧
    time_ordered (run_loop tick_RR 20 (init sample_incoming)).execution_status :=
  log_time_ordered sample_incoming 20 (by norm_num)

/-- C14, counterexample: on the input line `1, 10, -1, 1, 0, 0` the EP engine
logs the admission and the dispatch at tick `4294967295` and then the
termination at tick 0: the log is not time-ordered. -/
theorem log_wraps_back :
    (run_loop tick_EP (4294967295 + 1) (init [late_one])).execution_status =
      [Event.mk 4294967295 1 states.NEW states.READY,
       Event.mk 4294967295 1 states.READY states.RUNNING,
       Event.mk 0 1 states.RUNNING states.TERMINATED] ∧
    ¬ time_ordered (run_loop tick_EP (4294967295 + 1) (init [late_one])).execution_status := by
  have hin : single_input late_one := by
    unfold single_input
    decide
  have h : run_loop tick_EP (4294967295 + 1) (init [late_one]) = single_done late_one :=
    (single_run_EP late_one hin).1
  have hl := single_done_log late_one hin.2.2.1
  rw [h, hl]
  refine ⟨by decide, ?_⟩
  unfold time_ordered
  decide

theorem one_per_tick_of_ticks_ok {log : List Event} (h : ticks_ok log) : one_per_tick log := by
  intro x t
  constructor
  · refine le_trans (List.countP_mono_left (fun e _ he => ?_)) (h t).1
    rw [decide_eq_true_iff] at he ⊢
    exact ⟨he.2.1, he.2.2.1⟩
  · refine le_trans (List.countP_mono_left (fun e _ he => ?_)) (h t).2
    rw [decide_eq_true_iff] at he ⊢
    exact ⟨he.2.1, he.2.2.1⟩

/-- C17 (as amended): in each of the three engines, for every input, every
process and every tick value `t`, as long as the clock has not wrapped (after
any number `n < 2 ^ 32` of loop iterations): the transition log has at most
one row READY -> RUNNING of that process carrying tick `t`, and at most one row
of that process carrying tick `t` among the three kinds RUNNING -> WAITING,
RUNNING -> TERMINATED and RUNNING -> READY. -/
theorem one_transition_per_tick (l : List PCB) (n : Nat) (hn : n < 2 ^ 32) :
    one_per_tick (run_loop tick_EP n (init l)).execution_status ∧
    one_per_tick (run_loop tick_EP_RR n (init l)).execution_status ∧
    one_per_tick (run_loop tick_RR n (init l)).execution_status :=
  ⟨one_per_tick_of_ticks_ok (LogInv_run_loop tick_EP Tick_log_EP l n hn).1.2.2.1,
   one_per_tick_of_ticks_ok (LogInv_run_loop tick_EP_RR Tick_log_EP_RR l n hn).1.2.2.1,
   one_per_tick_of_ticks_ok (LogInv_run_loop tick_RR Tick_log_RR l n hn).1.2.2.1⟩

/-- Witness of `one_transition_per_tick`: three iterations on the process
with an I/O after every unit of work. -/
theorem one_transition_per_tick_witness :
    one_per_tick (run_loop tick_EP 3 (init [io_every_tick])).execution_status ∧
    one_per_tick (run_loop tick_EP_RR 3 (init [io_every_tick])).execution_status ∧
    one_per_tick (run_loop tick_RR 3 (init [io_every_tick])).execution_status :=
  one_transition_per_tick [io_every_tick] 3 (by norm_num)

/-- C17, counterexample: on the input line `1, 10, 0, 3, 1, 0` every engine
logs, for process 1 and tick 1, the row RUNNING -> WAITING (end of the first
unit of work) and the row READY -> RUNNING (dispatch right after the I/O of
duration 0): two rows of the four kinds with the same tick. -/
theorem two_transitions_in_one_tick :
    (run_loop tick_EP 2 (init [io_every_tick])).execution_status =
      [Event.mk 0 1 states.NEW states.READY, Event.mk 0 1 states.READY states.RUNNING,
       Event.mk 1 1 states.RUNNING states.WAITING, Event.mk 1 1 states.WAITING states.READY,
       Event.mk 1 1 states.READY states.RUNNING, Event.mk 2 1 states.RUNNING states.WAITING] ∧
    (run_loop tick_EP 2 (init [io_every_tick])).execution_status.countP
      (fun e => decide (e.PID = 1 ∧ e.time = 1) && four_kinds e) = 2 ∧
    (run_loop tick_EP_RR 2 (init [io_every_tick])).execution_status.countP
      (fun e => decide (e.PID = 1 ∧ e.time = 1) && four_kinds e) = 2 ∧
    (run_loop tick_RR 2 (init [io_every_tick])).execution_status.countP
      (fun e => decide (e.PID = 1 ∧ e.time = 1) && four_kinds e) = 2 := by
  decide

/-! ## Every tick is a sequence of atomic steps -/

theorem Steps_refl (pg : SimState → Prop) (q : Bool) (s : SimState) : Steps pg q s s :=
  Relation.ReflTransGen.refl

theorem Steps_trans {pg : SimState → Prop} {q : Bool} {a b c : SimState}
    (h1 : Steps pg q a b) (h2 : Steps pg q b c) : Steps pg q a c :=
  Relation.ReflTransGen.trans h1 h2

theorem Steps_one {pg : SimState → Prop} {q : Bool} {a b : SimState} (h : Step pg q a b) :
    Steps pg q a b :=
  Relation.ReflTransGen.single h

theorem Steps_of_eq {pg : SimState → Prop} {q : Bool} {a b : SimState} (h : a = b) :
    Steps pg q a b := by
  rw [h]
  exact Steps_refl pg q b

theorem Steps_manage_wait_queue_loop (pg : SimState → Prop) (q : Bool) (s : SimState)
    (rest : List PCB) :
    Steps pg q { s with wait_queue := s.wait_queue ++ rest }
      (manage_wait_queue_loop s rest) := by
  induction rest generalizing s with
  | nil =>
    refine Steps_of_eq ?_
    rw [manage_wait_queue_loop, List.append_nil]
  | cons p rest ih =>
    rw [manage_wait_queue_loop]
    by_cases hd : io_done s.current_time p = true
    · rw [if_pos hd]
      exact Steps_trans
        (Steps_one (Step.woken { s with wait_queue := s.wait_queue ++ p :: rest }
          s.wait_queue rest p rfl hd))
        (ih { s with ready_queue := s.ready_queue ++ [wake p],
                     job_list := sync_queue s.job_list (wake p),
                     execution_status := s.execution_status ++
                       [Event.mk s.current_time (wake p).PID states.WAITING states.READY] })
    · rw [if_neg hd]
      have := ih { s with wait_queue := s.wait_queue ++ [p] }
      simp only [List.append_assoc, List.singleton_append] at this
      exact this

theorem Steps_manage_wait_queue (pg : SimState → Prop) (q : Bool) (s : SimState) :
    Steps pg q s (manage_wait_queue s) := by
  have := Steps_manage_wait_queue_loop pg q { s with wait_queue := [] } s.wait_queue
  simp only [List.nil_append] at this
  exact this

theorem Steps_admission_loop (pg : SimState → Prop) (q : Bool) (s : SimState)
    (rest : List PCB) :
    Steps pg q { s with list_processes := s.list_processes ++ rest }
      (admission_loop s rest) := by
  induction rest generalizing s with
  | nil =>
    refine Steps_of_eq ?_
    rw [admission_loop, List.append_nil]
  | cons p rest ih =>
    rw [admission_loop]
    by_cases ha : p.arrival_time = s.current_time
    · rw [if_pos ha]
      cases hok : (assign_memory s.mem p).1 with
      | true =>
        rw [if_pos rfl]
        exact Steps_trans
          (Steps_one (Step.arrived { s with list_processes := s.list_processes ++ p :: rest }
            s.list_processes rest p rfl ha hok))
          (ih { s with
                mem := (assign_memory s.mem p).2.1,
                ready_queue := s.ready_queue ++ [to_ready (assign_memory s.mem p).2.2],
                job_list := s.job_list ++ [to_ready (assign_memory s.mem p).2.2],
                execution_status := s.execution_status ++
                  [Event.mk s.current_time (to_ready (assign_memory s.mem p).2.2).PID
                    states.NEW states.READY],
                memory_status := s.memory_status ++
                  [(s.current_time, (assign_memory s.mem p).2.1)] })
      | false =>
        rw [if_neg (by exact Bool.false_ne_true)]
        have h2 := ih { s with list_processes := s.list_processes ++
          [{ p with arrival_time := (p.arrival_time + 1) % 2 ^ 32 }] }
        simp only [List.append_assoc, List.singleton_append] at h2
        exact Steps_trans
          (Steps_one (Step.deferred { s with list_processes := s.list_processes ++ p :: rest }
            s.list_processes rest p rfl ha hok)) h2
    · rw [if_neg ha]
      have := ih { s with list_processes := s.list_processes ++ [p] }
      simp only [List.append_assoc, List.singleton_append] at this
      exact this

theorem Steps_admission (pg : SimState → Prop) (q : Bool) (s : SimState) :
    Steps pg q s (admission s) := by
  have := Steps_admission_loop pg q { s with list_processes := [] } s.list_processes
  simp only [List.nil_append] at this
  exact this

theorem Steps_dispatch_EP (pg : SimState → Prop) (s : SimState) :
    Steps pg false s (dispatch_EP s) := by
  rcases dispatch_EP_cases s with h | ⟨p, rest, hv, hq, h⟩
  · exact Steps_of_eq h.symm
  · rw [h]
    have hv2 : s.running.state ≠ states.RUNNING := by
      intro hc
      rw [hc] at hv
      rcases hv with h | h | h <;> cases h
    have h1 : Step pg false s { s with ready_queue := sortByPriority s.ready_queue } :=
      Step.reordered s _ (sortByPriority_perm _)
    have h2 : Step pg false { s with ready_queue := sortByPriority s.ready_queue } _ :=
      Step.dispatched _ rest [] p s.time_slice_counter hq hv2 (fun hc => by cases hc)
    simp only [List.append_nil] at h2
    exact Steps_trans (Steps_one h1) (Steps_one h2)

theorem not_running_of_vacant {s : SimState}
    (h : s.running.state = states.NOT_ASSIGNED ∨ s.running.state = states.TERMINATED ∨
      s.running.state = states.WAITING ∨ s.running.state = states.READY) :
    s.running.state ≠ states.RUNNING := by
  intro hc
  rw [hc] at h
  rcases h with h | h | h | h <;> cases h

theorem Steps_dispatch_EP_RR (pg : SimState → Prop) (s : SimState) :
    Steps pg false s (dispatch_EP_RR s) := by
  rcases dispatch_EP_RR_cases s with h | ⟨p, rest, hv, hq, h⟩
  · exact Steps_of_eq h.symm
  · rw [h]
    have h2 : Step pg false s _ :=
      Step.dispatched s rest [] p 0 hq (not_running_of_vacant hv) (fun hc => by cases hc)
    simp only [List.append_nil] at h2
    exact Steps_one h2

theorem Steps_dispatch_RR (pg : SimState → Prop) (q : Bool) (s : SimState) :
    Steps pg q s (dispatch_RR s) := by
  rcases dispatch_RR_cases s with h | ⟨p, rest, hv, hq, h⟩
  · exact Steps_of_eq h.symm
  · rw [h]
    have h2 : Step pg q s _ :=
      Step.dispatched s [] rest p 0 hq (not_running_of_vacant hv) (fun _ => rfl)
    exact Steps_one h2

theorem Steps_preempt_RR (q : Bool) (s : SimState) :
    Steps pg_RR q s (preempt_RR s) := by
  rcases preempt_RR_cases s with h | ⟨hr, hg, h⟩
  · exact Steps_of_eq h.symm
  · rw [h]
    exact Steps_one (Step.preempted s hr hg)

theorem Steps_preempt_EP_RR (s : SimState) :
    Steps pg_EP_RR false s (preempt_EP_RR s) := by
  rcases preempt_EP_RR_cases s with h | ⟨hr, hg, h⟩
  · exact Steps_of_eq h.symm
  · rw [h]
    have h1 : Step pg_EP_RR false s _ := Step.preempted s hr hg
    have h2 : Step pg_EP_RR false
        { s with ready_queue := s.ready_queue ++ [to_ready s.running],
                 job_list := sync_queue s.job_list (to_ready s.running),
                 execution_status := s.execution_status ++
                   [Event.mk s.current_time s.running.PID states.RUNNING states.READY],
                 running := idle_CPU,
                 time_slice_counter := 0 } _ :=
      Step.reordered _ (sortByPriority (s.ready_queue ++ [to_ready s.running]))
        (sortByPriority_perm _)
    exact Steps_trans (Steps_one h1) (Steps_one h2)

theorem Steps_sort_EP_RR (pg : SimState → Prop) (q : Bool) (s : SimState) :
    Steps pg q s (sort_EP_RR s) := by
  rw [sort_EP_RR_eq]
  exact Steps_one (Step.reordered s _ (sortByPriority_perm _))

theorem Steps_sched_EP_RR (s : SimState) : Steps pg_EP_RR false s (sched_EP_RR s) :=
  Steps_trans (Steps_sort_EP_RR _ _ s)
    (Steps_trans (Steps_preempt_EP_RR _) (Steps_dispatch_EP_RR _ _))

theorem Steps_sched_RR (q : Bool) (s : SimState) : Steps pg_RR q s (sched_RR s) :=
  Steps_trans (Steps_preempt_RR q s) (Steps_dispatch_RR _ q _)

/-- The execution step of `..._EP.cpp` followed by `current_time++`. -/
theorem Step_execute_EP (pg : SimState → Prop) (s : SimState)
    (hw : ∀ p ∈ s.wait_queue, io_done s.current_time p = false) :
    Step pg false s { execute_EP s with current_time := (s.current_time + 1) % 2 ^ 32 } := by
  rcases execute_EP_cases s with ⟨hn, h⟩ | ⟨hr, h0, h⟩ | ⟨hr, hne, hio, h⟩ | ⟨hr, hne, hio, h⟩
  · rw [h]
    exact Step.idled s hn hw
  · rw [h]
    exact Step.finished s s.time_slice_counter hr h0 hw
  · rw [h]
    exact Step.blocked s s.time_slice_counter hr hne hio hw
  · rw [h]
    exact Step.worked s s.time_slice_counter hr hne hio hw (fun hc => by cases hc)

/-- The execution step of the quantum engines followed by `current_time++`. -/
theorem Step_execute_RR (pg : SimState → Prop) (q : Bool) (s : SimState)
    (hw : ∀ p ∈ s.wait_queue, io_done s.current_time p = false)
    (hc : q = true → s.running.state = states.RUNNING → s.time_slice_counter < 100) :
    Step pg q s { execute_RR s with current_time := (s.current_time + 1) % 2 ^ 32 } := by
  rcases execute_RR_cases s with ⟨hn, h⟩ | ⟨hr, h0, h⟩ | ⟨hr, hne, hio, h⟩ | ⟨hr, hne, hio, h⟩
  · rw [h]
    exact Step.idled s hn hw
  · rw [h]
    exact Step.finished s 0 hr h0 hw
  · rw [h]
    exact Step.blocked s 0 hr hne hio hw
  · rw [h]
    by_cases hq : q = true
    · have hlt := hc hq hr
      have hmod : (s.time_slice_counter + 1) % 2 ^ 32 = s.time_slice_counter + 1 :=
        Nat.mod_eq_of_lt (by omega)
      rw [hmod]
      exact Step.worked s (s.time_slice_counter + 1) hr hne hio hw (fun _ => ⟨hlt, rfl⟩)
    · exact Step.worked s _ hr hne hio hw (fun h => absurd h hq)

theorem sweeps_keep (s : SimState) :
    (admission (manage_wait_queue s)).wait_queue =
      s.wait_queue.filter (fun p => !io_done s.current_time p) ∧
    (admission (manage_wait_queue s)).current_time = s.current_time ∧
    (admission (manage_wait_queue s)).time_slice_counter = s.time_slice_counter ∧
    (admission (manage_wait_queue s)).running = s.running := by
  rw [admission_eq, manage_wait_queue_eq]
  exact ⟨rfl, rfl, rfl, rfl⟩

theorem dispatch_EP_keeps (s : SimState) :
    (dispatch_EP s).wait_queue = s.wait_queue ∧
    (dispatch_EP s).current_time = s.current_time := by
  rcases dispatch_EP_cases s with h | ⟨p, rest, -, -, h⟩ <;> rw [h] <;> exact ⟨rfl, rfl⟩

theorem sched_EP_RR_keeps (s : SimState) :
    (sched_EP_RR s).wait_queue = s.wait_queue ∧
    (sched_EP_RR s).current_time = s.current_time := by
  unfold sched_EP_RR
  have h1 : (sort_EP_RR s).wait_queue = s.wait_queue ∧
      (sort_EP_RR s).current_time = s.current_time := by
    rw [sort_EP_RR_eq]
    exact ⟨rfl, rfl⟩
  have h2 : (preempt_EP_RR (sort_EP_RR s)).wait_queue = (sort_EP_RR s).wait_queue ∧
      (preempt_EP_RR (sort_EP_RR s)).current_time = (sort_EP_RR s).current_time := by
    rcases preempt_EP_RR_cases (sort_EP_RR s) with h | ⟨-, -, h⟩ <;> rw [h] <;>
      exact ⟨rfl, rfl⟩
  have h3 : (dispatch_EP_RR (preempt_EP_RR (sort_EP_RR s))).wait_queue =
        (preempt_EP_RR (sort_EP_RR s)).wait_queue ∧
      (dispatch_EP_RR (preempt_EP_RR (sort_EP_RR s))).current_time =
        (preempt_EP_RR (sort_EP_RR s)).current_time := by
    rcases dispatch_EP_RR_cases (preempt_EP_RR (sort_EP_RR s)) with h | ⟨p, rest, -, -, h⟩ <;>
      rw [h] <;> exact ⟨rfl, rfl⟩
  exact ⟨h3.1.trans (h2.1.trans h1.1), h3.2.trans (h2.2.trans h1.2)⟩

theorem sched_RR_keeps (s : SimState) :
    (sched_RR s).wait_queue = s.wait_queue ∧
    (sched_RR s).current_time = s.current_time := by
  unfold sched_RR
  have h2 : (preempt_RR s).wait_queue = s.wait_queue ∧
      (preempt_RR s).current_time = s.current_time := by
    rcases preempt_RR_cases s with h | ⟨-, -, h⟩ <;> rw [h] <;> exact ⟨rfl, rfl⟩
  have h3 : (dispatch_RR (preempt_RR s)).wait_queue = (preempt_RR s).wait_queue ∧
      (dispatch_RR (preempt_RR s)).current_time = (preempt_RR s).current_time := by
    rcases dispatch_RR_cases (preempt_RR s) with h | ⟨p, rest, -, -, h⟩ <;>
      rw [h] <;> exact ⟨rfl, rfl⟩
  exact ⟨h3.1.trans h2.1, h3.2.trans h2.2⟩

/-- At the execution step of the round-robin engine a running process has
used less than its quantum. -/
theorem sched_RR_counter (s : SimState) (h : s.time_slice_counter ≤ 100)
    (hr : (sched_RR s).running.state = states.RUNNING) :
    (sched_RR s).time_slice_counter < 100 := by
  unfold sched_RR at hr ⊢
  rcases dispatch_RR_cases (preempt_RR s) with hd | ⟨p, rest, -, -, hd⟩
  · rw [hd] at hr ⊢
    rcases preempt_RR_cases s with hp | ⟨-, -, hp⟩
    · rw [hp] at hr ⊢
      by_contra hc
      have hge : s.time_slice_counter ≥ TIME_QUANTUM := by
        unfold TIME_QUANTUM
        omega
      have hfire : preempt_RR s ≠ s := by
        unfold preempt_RR
        rw [if_pos hr, if_pos hge]
        intro he
        have := congrArg (fun x => x.running.state) he
        simp only at this
        rw [hr] at this
        cases this
      exact hfire hp
    · rw [hp] at hr
      cases hr
  · rw [hd]
    exact Nat.zero_lt_succ 99

theorem swept_wait (s : SimState) :
    ∀ p ∈ (admission (manage_wait_queue s)).wait_queue,
      io_done (admission (manage_wait_queue s)).current_time p = false := by
  obtain ⟨h1, h2, -, -⟩ := sweeps_keep s
  rw [h1, h2]
  intro p hp
  have := (List.mem_filter.1 hp).2
  simpa using this

theorem Steps_sweeps (pg : SimState → Prop) (q : Bool) (s : SimState) :
    Steps pg q s (admission (manage_wait_queue s)) :=
  Steps_trans (Steps_manage_wait_queue pg q s) (Steps_admission pg q _)

theorem Steps_tick_EP (s : SimState) : Steps pg_EP false s (tick_EP s) := by
  have hk := dispatch_EP_keeps (admission (manage_wait_queue s))
  have hsw := sweeps_keep s
  have hw : ∀ p ∈ (dispatch_EP (admission (manage_wait_queue s))).wait_queue,
      io_done (dispatch_EP (admission (manage_wait_queue s))).current_time p = false := by
    rw [hk.1, hk.2]
    exact swept_wait s
  have h3 := Step_execute_EP pg_EP _ hw
  rw [hk.2, hsw.2.1] at h3
  exact Steps_trans (Steps_sweeps _ _ s)
    (Steps_trans (Steps_dispatch_EP _ _) (Steps_one h3))

theorem Steps_tick_EP_RR (s : SimState) : Steps pg_EP_RR false s (tick_EP_RR s) := by
  have hk := sched_EP_RR_keeps (admission (manage_wait_queue s))
  have hsw := sweeps_keep s
  have hw : ∀ p ∈ (sched_EP_RR (admission (manage_wait_queue s))).wait_queue,
      io_done (sched_EP_RR (admission (manage_wait_queue s))).current_time p = false := by
    rw [hk.1, hk.2]
    exact swept_wait s
  have h3 := Step_execute_RR pg_EP_RR false _ hw (fun hc => by cases hc)
  rw [hk.2, hsw.2.1] at h3
  exact Steps_trans (Steps_sweeps _ _ s)
    (Steps_trans (Steps_sched_EP_RR _) (Steps_one h3))

theorem Steps_tick_RR (s : SimState) (hc : s.time_slice_counter ≤ 100) :
    Steps pg_RR true s (tick_RR s) := by
  have hk := sched_RR_keeps (admission (manage_wait_queue s))
  have hsw := sweeps_keep s
  have hw : ∀ p ∈ (sched_RR (admission (manage_wait_queue s))).wait_queue,
      io_done (sched_RR (admission (manage_wait_queue s))).current_time p = false := by
    rw [hk.1, hk.2]
    exact swept_wait s
  have h3 := Step_execute_RR pg_RR true _ hw
    (fun _ hr => sched_RR_counter _ (by rw [hsw.2.2.1]; exact hc) hr)
  rw [hk.2, hsw.2.1] at h3
  exact Steps_trans (Steps_sweeps _ _ s)
    (Steps_trans (Steps_sched_RR _ _) (Steps_one h3))

/-! ## Invariants over the atomic steps -/

theorem Steps_invariant {pg : SimState → Prop} {q : Bool} (I : SimState → Prop)
    (hI : ∀ s s2, I s → Step pg q s s2 → I s2) {s s2 : SimState} (h0 : I s)
    (h : Steps pg q s s2) : I s2 := by
  induction h with
  | refl => exact h0
  | tail _ hstep ih => exact hI _ _ ih hstep

theorem Steps_run_loop {pg : SimState → Prop} {q : Bool} (tick : SimState → SimState)
    (P : SimState → Prop) (hP : ∀ s, P s → P (tick s))
    (htick : ∀ s, P s → Steps pg q s (tick s)) (s0 : SimState) (h0 : P s0) (n : Nat) :
    Steps pg q s0 (run_loop tick n s0) ∧ P (run_loop tick n s0) := by
  induction n with
  | zero => exact ⟨Steps_refl _ _ _, h0⟩
  | succ n ih =>
    rw [run_loop_succ]
    by_cases hc : loop_cond (run_loop tick n s0) = true
    · rw [if_pos hc]
      exact ⟨Steps_trans ih.1 (htick _ ih.2), hP _ ih.2⟩
    · rw [if_neg hc]
      exact ih

theorem pool_eq (s : SimState) :
    pool s = s.list_processes ++ (s.ready_queue ++ s.wait_queue ++ on_cpu s) := rfl

theorem perm_of_multiset {α : Type} {l l2 : List α} (h : (l : Multiset α) = (l2 : Multiset α)) :
    l.Perm l2 :=
  Multiset.coe_eq_coe.1 h

/-- The ids of the unfinished processes after a step: those before it, in
some order, without the id of a process that has just terminated. -/
theorem Step_pool_ids {pg : SimState → Prop} {q : Bool} {s s2 : SimState}
    (h : Step pg q s s2) :
    List.Subperm ((pool s2).map (fun p => p.PID)) ((pool s).map (fun p => p.PID)) := by
  cases h with
  | woken a b p h hd =>
    refine List.Perm.subperm (perm_of_multiset ?_)
    have h2 : s.wait_queue = a ++ ([p] ++ b) := h
    rw [pool_eq, pool_eq, h2]
    show (((s.list_processes ++ (s.ready_queue ++ [wake p] ++ (a ++ b) ++ on_cpu s)).map
      (fun p => p.PID) : List Int) : Multiset Int) = _
    simp only [List.map_append, ← Multiset.coe_add]
    have : ([wake p].map (fun p => p.PID) : List Int) = [p].map (fun p => p.PID) := rfl
    rw [this]
    abel
  | arrived a b p h ha hok =>
    refine List.Perm.subperm (perm_of_multiset ?_)
    have h2 : s.list_processes = a ++ ([p] ++ b) := h
    rw [pool_eq, pool_eq, h2]
    show (((a ++ b ++ (s.ready_queue ++ [to_ready (assign_memory s.mem p).2.2] ++
      s.wait_queue ++ on_cpu s)).map (fun p => p.PID) : List Int) : Multiset Int) = _
    simp only [List.map_append, ← Multiset.coe_add]
    have : ([to_ready (assign_memory s.mem p).2.2].map (fun p => p.PID) : List Int) =
        [p].map (fun p => p.PID) := by
      show [(assign_memory s.mem p).2.2.PID] = [p.PID]
      rw [assign_memory_PID]
    rw [this]
    abel
  | deferred a b p h ha hno =>
    refine List.Perm.subperm (perm_of_multiset ?_)
    rw [pool_eq, pool_eq, h]
    show (((a ++ { p with arrival_time := (p.arrival_time + 1) % 2 ^ 32 } :: b ++
      (s.ready_queue ++ s.wait_queue ++ on_cpu s)).map (fun p => p.PID) : List Int) :
        Multiset Int) = _
    simp only [List.map_append, List.map_cons]
  | reordered r hr =>
    refine List.Perm.subperm ?_
    rw [pool_eq, pool_eq]
    show ((s.list_processes ++ (r ++ s.wait_queue ++ on_cpu s)).map (fun p => p.PID)).Perm _
    exact (((hr.append_right _).append_right _).append_left _).map _
  | preempted hr hg =>
    refine List.Perm.subperm (perm_of_multiset ?_)
    rw [pool_eq, pool_eq, on_cpu_of_running s hr, on_cpu_of_not_running _ (by
      show idle_CPU.state ≠ states.RUNNING
      exact fun hc => by cases hc)]
    show (((s.list_processes ++ (s.ready_queue ++ [to_ready s.running] ++ s.wait_queue ++
      [])).map (fun p : PCB => p.PID) : List Int) : Multiset Int) = _
    simp only [List.map_append, ← Multiset.coe_add, List.map_nil, List.append_nil]
    have : ([to_ready s.running].map (fun p => p.PID) : List Int) =
        [s.running].map (fun p => p.PID) := rfl
    rw [this]
    abel
  | dispatched a b p c h hv hc =>
    refine List.Perm.subperm (perm_of_multiset ?_)
    have h2 : s.ready_queue = a ++ ([p] ++ b) := h
    rw [pool_eq, pool_eq, on_cpu_of_not_running s hv, on_cpu_of_running _ (by rfl), h2]
    show (((s.list_processes ++ (a ++ b ++ s.wait_queue ++
      [to_run s.current_time p])).map (fun p => p.PID) : List Int) : Multiset Int) = _
    simp only [List.map_append, ← Multiset.coe_add, List.map_nil, List.append_nil]
    have : ([to_run s.current_time p].map (fun p => p.PID) : List Int) =
        [p].map (fun p => p.PID) := rfl
    rw [this]
    abel
  | finished c hr h0 hw =>
    rw [pool_eq, pool_eq, on_cpu_of_running s hr, on_cpu_of_not_running _ (by
      show idle_CPU.state ≠ states.RUNNING
      exact fun hc => by cases hc)]
    show List.Subperm ((s.list_processes ++ (s.ready_queue ++ s.wait_queue ++ [])).map
      (fun p : PCB => p.PID)) _
    refine List.Sublist.subperm (List.Sublist.map _ ?_)
    exact List.Sublist.append (List.Sublist.refl _)
      (List.Sublist.append (List.Sublist.refl _) (List.nil_sublist _))
  | blocked c hr h0 hio hw =>
    refine List.Perm.subperm (perm_of_multiset ?_)
    rw [pool_eq, pool_eq, on_cpu_of_running s hr, on_cpu_of_not_running _ (by
      show idle_CPU.state ≠ states.RUNNING
      exact fun hc => by cases hc)]
    show (((s.list_processes ++ (s.ready_queue ++
      (s.wait_queue ++ [to_wait s.current_time (work s.running)]) ++
      [])).map (fun p : PCB => p.PID) : List Int) : Multiset Int) = _
    simp only [List.map_append, ← Multiset.coe_add, List.map_nil, List.append_nil]
    have : ([to_wait s.current_time (work s.running)].map (fun p => p.PID) : List Int) =
        [s.running].map (fun p => p.PID) := rfl
    rw [this]
    abel
  | worked c hr h0 hio hw hc =>
    refine List.Perm.subperm (perm_of_multiset ?_)
    rw [pool_eq, pool_eq, on_cpu_of_running s hr, on_cpu_of_running _ (by exact hr)]
    show (((s.list_processes ++ (s.ready_queue ++ s.wait_queue ++ [work s.running])).map
      (fun p : PCB => p.PID) : List Int) : Multiset Int) = _
    simp only [List.map_append, List.map_cons, List.map_nil]
    rfl
  | idled hr hw =>
    exact List.Perm.subperm (List.Perm.refl _)

theorem nodup_of_subperm {α : Type} {l l2 : List α} (h : List.Subperm l l2)
    (hn : l2.Nodup) : l.Nodup := by
  obtain ⟨m, hm, hsub⟩ := h
  exact (List.Perm.nodup_iff hm).1 (hn.sublist hsub)

theorem Base_step {pg : SimState → Prop} {q : Bool} (s s2 : SimState) (hb : Base s)
    (h : Step pg q s s2) : Base s2 := by
  refine ⟨?_, nodup_of_subperm (Step_pool_ids h) hb.2⟩
  have hm : (s.current_time + 1) % 2 ^ 32 < 2 ^ 32 := Nat.mod_lt _ (by norm_num)
  cases h with
  | woken a b p h hd => exact hb.1
  | arrived a b p h ha hok => exact hb.1
  | deferred a b p h ha hno => exact hb.1
  | reordered r hr => exact hb.1
  | preempted hr hg => exact hb.1
  | dispatched a b p c h hv hc => exact hb.1
  | finished c hr h0 hw => exact hm
  | blocked c hr h0 hio hw => exact hm
  | worked c hr h0 hio hw hc => exact hm
  | idled hr hw => exact hm

/-! ## The lifecycle of a process in the log -/

theorem rows_of_append (x : Int) (log : List Event) (e : Event) :
    rows_of x (log ++ [e]) = if e.PID = x then rows_of x log ++ [e] else rows_of x log := by
  unfold rows_of
  rw [List.filter_append]
  by_cases h : e.PID = x
  · rw [if_pos h]
    simp [List.filter, h]
  · rw [if_neg h]
    simp [List.filter, h]

theorem rows_of_append_self (log : List Event) (e : Event) :
    rows_of e.PID (log ++ [e]) = rows_of e.PID log ++ [e] := by
  rw [rows_of_append, if_pos rfl]

theorem rows_of_append_ne (x : Int) (log : List Event) (e : Event) (h : e.PID ≠ x) :
    rows_of x (log ++ [e]) = rows_of x log := by
  rw [rows_of_append, if_neg h]

theorem lifecycle_run_append (pre : Bool) (rows : List Event) (e : Event) :
    lifecycle_run pre (rows ++ [e]) = lifecycle_step pre (lifecycle_run pre rows) e := by
  unfold lifecycle_run
  rw [List.foldl_append]
  rfl

theorem lifecycle_step_some {pre : Bool} {st : Option states} {e : Event} {c : states}
    (h : lifecycle_step pre st e = some c) :
    st = some e.old_state ∧ valid_kind pre e = true ∧ c = e.new_state := by
  cases st with
  | none => cases h
  | some d =>
    unfold lifecycle_step at h
    dsimp only at h
    by_cases hc : e.old_state = d ∧ valid_kind pre e = true
    · rw [if_pos hc] at h
      exact ⟨by rw [hc.1], hc.2, (Option.some.inj h).symm⟩
    · rw [if_neg hc] at h
      cases h

theorem lifecycle_step_ok (pre : Bool) (e : Event) (h : valid_kind pre e = true) :
    lifecycle_step pre (some e.old_state) e = some e.new_state := by
  unfold lifecycle_step
  dsimp only
  rw [if_pos ⟨rfl, h⟩]

theorem valid_kind_old {pre : Bool} {e : Event} (h : valid_kind pre e = true) :
    e.old_state ≠ states.TERMINATED ∧ e.new_state ≠ states.NEW := by
  unfold valid_kind at h
  have h2 := of_decide_eq_true h
  constructor
  · intro hc
    rw [hc] at h2
    rcases h2 with h2 | h2 | h2 | h2 | h2 | h2
    · cases h2.1
    · cases h2.1
    · cases h2.1
    · cases h2.1
    · cases h2.1
    · cases h2.2.1
  · intro hc
    rw [hc] at h2
    rcases h2 with h2 | h2 | h2 | h2 | h2 | h2
    · cases h2.2
    · cases h2.2
    · cases h2.2
    · cases h2.2
    · cases h2.2
    · cases h2.2.2

theorem valid_kind_of_new {pre : Bool} {e : Event} (h : valid_kind pre e = true)
    (h0 : e.old_state = states.NEW) : e.new_state = states.READY := by
  unfold valid_kind at h
  have h2 := of_decide_eq_true h
  rw [h0] at h2
  rcases h2 with h2 | h2 | h2 | h2 | h2 | h2
  · exact h2.2
  · cases h2.1
  · cases h2.1
  · cases h2.1
  · cases h2.1
  · cases h2.2.1

/-- What an accepted run says about the rows: they follow the lifecycle, and
the state reached is the one the last row enters (NEW if there is none). -/
theorem follows_of_run (pre : Bool) (rows : List Event) :
    ∀ st, lifecycle_run pre rows = some st →
      follows_lifecycle pre rows ∧
      ((rows = [] ∧ st = states.NEW) ∨
        ∃ e, rows.getLast? = some e ∧ e.new_state = st) := by
  induction rows using List.reverseRecOn with
  | nil =>
    intro st h
    have hst : st = states.NEW := (Option.some.inj h).symm
    refine ⟨⟨fun e he => (by cases he), List.chain'_nil, fun e he => (by cases he),
      fun i e he => (by cases he)⟩, Or.inl ⟨rfl, hst⟩⟩
  | append_singleton rows e ih =>
    intro st h
    rw [lifecycle_run_append] at h
    obtain ⟨h1, h2, h3⟩ := lifecycle_step_some h
    obtain ⟨⟨ha, hb, hc, hd⟩, hlast⟩ := ih _ h1
    refine ⟨⟨?_, ?_, ?_, ?_⟩, Or.inr ⟨e, by simp, h3.symm⟩⟩
    · intro e0 he0
      rcases hlast with ⟨hnil, hst⟩ | ⟨e1, he1, _⟩
      · rw [hnil] at he0
        have : e0 = e := (Option.some.inj he0).symm
        rw [this]
        exact ⟨hst, valid_kind_of_new h2 hst⟩
      · have hne : rows ≠ [] := by
          intro hn
          rw [hn] at he1
          cases he1
        rw [List.head?_append_of_ne_nil _ hne] at he0
        exact ha e0 he0
    · rw [List.chain'_append]
      refine ⟨hb, List.chain'_singleton _, ?_⟩
      intro a hxa b hyb
      have hbe : b = e := by
        simp at hyb
        exact hyb.symm
      rw [hbe]
      rcases hlast with ⟨hnil, _⟩ | ⟨e1, he1, hst⟩
      · rw [hnil] at hxa
        cases hxa
      · rw [he1] at hxa
        have : a = e1 := by
          simp at hxa
          exact hxa.symm
        rw [this, hst]
    · intro e0 he0
      rcases List.mem_append.1 he0 with h0 | h0
      · exact hc e0 h0
      · rw [List.mem_singleton.1 h0]
        exact h2
    · intro i e0 hi hterm
      rw [List.length_append, List.length_singleton]
      by_cases hlt : i < rows.length
      · exfalso
        rw [List.getElem?_append_left hlt] at hi
        have hlen := hd i e0 hi hterm
        rcases hlast with ⟨hnil, _⟩ | ⟨e1, he1, hst⟩
        · rw [hnil] at hlt
          exact Nat.not_lt_zero _ hlt
        · have hget : rows.getLast? = rows[i]? := by
            rw [List.getLast?_eq_getElem?]
            congr 1
            omega
          rw [hget, hi] at he1
          have : e0 = e1 := Option.some.inj he1
          rw [← this, hterm] at hst
          exact (valid_kind_old h2).1 hst.symm
      · have hge : rows.length ≤ i := Nat.le_of_not_lt hlt
        rw [List.getElem?_append_right hge] at hi
        have : i - rows.length = 0 := by
          by_contra hne
          have h1 : i - rows.length = (i - rows.length - 1) + 1 := by omega
          rw [h1] at hi
          cases hi
        omega

theorem Life_quiet {pre : Bool} {s s2 : SimState} (h : Life pre s)
    (hp : (tagged s2).Perm (tagged s))
    (hlog : s2.execution_status = s.execution_status)
    (hjob : s2.job_list = s.job_list) : Life pre s2 := by
  obtain ⟨hn, hin, hout, hjl, hje⟩ := h
  refine ⟨?_, ?_, ?_, ?_, ?_⟩
  · exact (List.Perm.nodup_iff (hp.map _)).2 hn
  · intro x st hx
    rw [hlog]
    exact hin x st (hp.mem_iff.1 hx)
  · intro x hx
    rw [hlog]
    refine hout x (fun hc => hx ?_)
    exact ((hp.map _).mem_iff).2 hc
  · intro q hq
    rw [hlog]
    rw [hjob] at hq
    exact hjl q hq
  · intro x st hx hst
    rw [hjob]
    exact hje x st (hp.mem_iff.1 hx) hst

/-- A step that logs one row of the process `x`: the process leaves the place
with the state `A` for the place with the state `B` (`now = [(x, B)]`), or
leaves for good (`now = []`, `B` = TERMINATED); the job list is synchronised
with a record in the state `B`, or that record is appended to it when the
process is admitted. -/
theorem Life_event {pre : Bool} {s s2 : SimState} (h : Life pre s)
    (x : Int) (A B : states) (now rest : List (Int × states)) (r : PCB) (t : Nat)
    (h0 : (tagged s).Perm ([(x, A)] ++ rest))
    (h2 : (tagged s2).Perm (now ++ rest))
    (hnow : now = [(x, B)] ∨ (now = [] ∧ B = states.TERMINATED))
    (hk : valid_kind pre (Event.mk t x A B) = true)
    (hlog : s2.execution_status = s.execution_status ++ [Event.mk t x A B])
    (hjob : (A ≠ states.NEW ∧ s2.job_list = sync_queue s.job_list r) ∨
      (A = states.NEW ∧ s2.job_list = s.job_list ++ [r]))
    (hr : r.PID = x) (hrs : r.state = B) : Life pre s2 := by
  obtain ⟨hn, hin, hout, hjl, hje⟩ := h
  have h1 : (tagged s).Perm ((x, A) :: rest) := h0
  have hn1 : (((x, A) :: rest).map (fun a => a.1)).Nodup :=
    (List.Perm.nodup_iff (h1.map _)).1 hn
  rw [List.map_cons, List.nodup_cons] at hn1
  obtain ⟨hxr, hnr⟩ := hn1
  have hxA : lifecycle_run pre (rows_of x s.execution_status) = some A :=
    hin x A (h1.mem_iff.2 (List.mem_cons_self _ _))
  have hrun : lifecycle_run pre (rows_of x s2.execution_status) = some B := by
    rw [hlog]
    have : rows_of x (s.execution_status ++ [Event.mk t x A B]) =
        rows_of x s.execution_status ++ [Event.mk t x A B] :=
      rows_of_append_self s.execution_status (Event.mk t x A B)
    rw [this, lifecycle_run_append, hxA]
    exact lifecycle_step_ok pre (Event.mk t x A B) hk
  have hne : ∀ y, y ≠ x → rows_of y s2.execution_status = rows_of y s.execution_status := by
    intro y hy
    rw [hlog]
    exact rows_of_append_ne y _ _ (fun hc => hy hc.symm)
  have hrest : ∀ y st, (y, st) ∈ rest → y ≠ x ∧ (y, st) ∈ tagged s := by
    intro y st hy
    refine ⟨?_, h1.mem_iff.2 (List.mem_cons_of_mem _ hy)⟩
    intro hc
    apply hxr
    rw [← hc]
    exact List.mem_map.2 ⟨(y, st), hy, rfl⟩
  have hBnew : B ≠ states.NEW := (valid_kind_old hk).2
  have hjobPID : ∀ y, y ∈ s.job_list.map (fun p => p.PID) →
      y ∈ s2.job_list.map (fun p => p.PID) := by
    intro y hy
    rcases hjob with ⟨_, hj⟩ | ⟨_, hj⟩
    · rw [hj, sync_queue_map_PID]
      exact hy
    · rw [hj, List.map_append]
      exact List.mem_append_left _ hy
  refine ⟨?_, ?_, ?_, ?_, ?_⟩
  · rw [List.Perm.nodup_iff (h2.map _)]
    rcases hnow with hnow | ⟨hnow, _⟩
    · rw [hnow]
      show (((x, B) :: rest).map (fun a => a.1)).Nodup
      rw [List.map_cons, List.nodup_cons]
      exact ⟨hxr, hnr⟩
    · rw [hnow]
      exact hnr
  · intro y st hy
    have hy2 := h2.mem_iff.1 hy
    rcases List.mem_append.1 hy2 with hy3 | hy3
    · rcases hnow with hnow | ⟨hnow, _⟩
      · rw [hnow, List.mem_singleton] at hy3
        have e1 : y = x := congrArg Prod.fst hy3
        have e2 : st = B := congrArg Prod.snd hy3
        rw [e1, e2]
        exact hrun
      · rw [hnow] at hy3
        cases hy3
    · obtain ⟨hyx, hys⟩ := hrest y st hy3
      rw [hne y hyx]
      exact hin y st hys
  · intro y hy
    by_cases hyx : y = x
    · rw [hyx]
      rcases hnow with hnow | ⟨_, hB⟩
      · exfalso
        apply hy
        rw [(h2.map _).mem_iff, hnow, hyx]
        exact List.mem_map.2 ⟨(x, B), List.mem_append_left _ (List.mem_singleton_self _), rfl⟩
      · rw [← hB]
        exact Or.inl hrun
    · rw [hne y hyx]
      refine hout y (fun hc => hy ?_)
      rw [(h1.map _).mem_iff, List.map_cons, List.mem_cons] at hc
      rcases hc with hc | hc
      · exact absurd hc hyx
      · rw [(h2.map _).mem_iff, List.map_append]
        exact List.mem_append_right _ hc
  · intro q hq
    have hcase : q = r ∨ (q ∈ s.job_list ∧ q.PID ≠ x) := by
      rcases hjob with ⟨_, hj⟩ | ⟨hA, hj⟩
      · rw [hj] at hq
        rcases mem_sync_queue_ne hq with h3 | ⟨h3, h4⟩
        · exact Or.inl h3
        · exact Or.inr ⟨h3, by rw [← hr]; exact h4⟩
      · rw [hj] at hq
        rcases List.mem_append.1 hq with h3 | h3
        · refine Or.inr ⟨h3, ?_⟩
          intro hc
          have h5 := hjl q h3
          rw [hc, hxA, hA] at h5
          exact h5.2 (Option.some.inj h5.1).symm
        · exact Or.inl (List.mem_singleton.1 h3)
    rcases hcase with h3 | ⟨h3, h4⟩
    · rw [h3, hr, hrs]
      exact ⟨hrun, hBnew⟩
    · rw [hne q.PID h4]
      exact hjl q h3
  · intro y st hy hst
    have hy2 := h2.mem_iff.1 hy
    rcases List.mem_append.1 hy2 with hy3 | hy3
    · rcases hnow with hnow | ⟨hnow, _⟩
      · rw [hnow, List.mem_singleton] at hy3
        have e1 : y = x := congrArg Prod.fst hy3
        rw [e1]
        rcases hjob with ⟨hA, hj⟩ | ⟨_, hj⟩
        · rw [hj, sync_queue_map_PID]
          exact hje x A (h1.mem_iff.2 (List.mem_cons_self _ _)) hA
        · rw [hj, List.map_append, ← hr]
          exact List.mem_append_right _ (List.mem_singleton_self _)
      · rw [hnow] at hy3
        cases hy3
    · exact hjobPID y (hje y st (hrest y st hy3).2 hst)

theorem tagged_eq (s : SimState) :
    tagged s = s.list_processes.map (tag states.NEW) ++
      (s.ready_queue.map (tag states.READY) ++
      (s.wait_queue.map (tag states.WAITING) ++
      (on_cpu s).map (tag states.RUNNING))) := rfl

theorem tag_wake (st : states) (p : PCB) : tag st (wake p) = tag st p := rfl

theorem tag_to_ready (st : states) (p : PCB) : tag st (to_ready p) = tag st p := rfl

theorem tag_to_run (st : states) (t : Nat) (p : PCB) : tag st (to_run t p) = tag st p := rfl

theorem tag_to_wait (st : states) (t : Nat) (p : PCB) : tag st (to_wait t p) = tag st p := rfl

theorem tag_work (st : states) (p : PCB) : tag st (work p) = tag st p := rfl

theorem tag_assigned (st : states) (mem : List memory_partition) (p : PCB) :
    tag st (assign_memory mem p).2.2 = tag st p := by
  unfold tag
  rw [assign_memory_PID]

theorem valid_kind_admitted (pre : Bool) (t : Nat) (x : Int) :
    valid_kind pre (Event.mk t x states.NEW states.READY) = true := by
  simp [valid_kind]

theorem valid_kind_dispatched (pre : Bool) (t : Nat) (x : Int) :
    valid_kind pre (Event.mk t x states.READY states.RUNNING) = true := by
  simp [valid_kind]

theorem valid_kind_blocked (pre : Bool) (t : Nat) (x : Int) :
    valid_kind pre (Event.mk t x states.RUNNING states.WAITING) = true := by
  simp [valid_kind]

theorem valid_kind_woken (pre : Bool) (t : Nat) (x : Int) :
    valid_kind pre (Event.mk t x states.WAITING states.READY) = true := by
  simp [valid_kind]

theorem valid_kind_finished (pre : Bool) (t : Nat) (x : Int) :
    valid_kind pre (Event.mk t x states.RUNNING states.TERMINATED) = true := by
  simp [valid_kind]

theorem valid_kind_preempted (t : Nat) (x : Int) :
    valid_kind true (Event.mk t x states.RUNNING states.READY) = true := by
  simp [valid_kind]

theorem idle_not_running : idle_CPU.state ≠ states.RUNNING := fun h => by cases h

/-- Every atomic step keeps the agreement of the log with the queues; in the
engine without preemption (`pre = false`) the preemption check never
fires. -/
theorem Life_step {pg : SimState → Prop} {q : Bool} (pre : Bool)
    (hpre : pre = true ∨ ∀ s, ¬ pg s) {s s2 : SimState}
    (hL : Life pre s) (h : Step pg q s s2) : Life pre s2 := by
  cases h with
  | woken a b p h hd =>
    have h2 : s.wait_queue = a ++ ([p] ++ b) := h
    refine Life_event hL p.PID states.WAITING states.READY [(p.PID, states.READY)]
      (s.list_processes.map (tag states.NEW) ++ (s.ready_queue.map (tag states.READY) ++
        ((a ++ b).map (tag states.WAITING) ++ (on_cpu s).map (tag states.RUNNING))))
      (wake p) s.current_time ?_ ?_ (Or.inl rfl) (valid_kind_woken _ _ _) rfl
      (Or.inl ⟨fun hc => (by cases hc), rfl⟩) rfl rfl
    · refine perm_of_multiset ?_
      rw [tagged_eq, h2]
      simp only [List.map_append, List.map_cons, List.map_nil, List.append_nil, tag_wake,
        tag_to_ready, tag_to_run, tag_to_wait, tag_work, tag_assigned]
      simp only [tag, ← Multiset.coe_add]
      abel
    · refine perm_of_multiset ?_
      show (((s.list_processes.map (tag states.NEW) ++
        ((s.ready_queue ++ [wake p]).map (tag states.READY) ++
        ((a ++ b).map (tag states.WAITING) ++ (on_cpu s).map (tag states.RUNNING))) :
          List (Int × states))) : Multiset (Int × states)) = _
      simp only [List.map_append, List.map_cons, List.map_nil, List.append_nil, tag_wake,
        tag_to_ready, tag_to_run, tag_to_wait, tag_work, tag_assigned]
      simp only [tag, ← Multiset.coe_add]
      abel
  | arrived a b p h ha hok =>
    have h2 : s.list_processes = a ++ ([p] ++ b) := h
    refine Life_event hL p.PID states.NEW states.READY [(p.PID, states.READY)]
      ((a ++ b).map (tag states.NEW) ++ (s.ready_queue.map (tag states.READY) ++
        (s.wait_queue.map (tag states.WAITING) ++ (on_cpu s).map (tag states.RUNNING))))
      (to_ready (assign_memory s.mem p).2.2) s.current_time ?_ ?_ (Or.inl rfl)
      (valid_kind_admitted _ _ _) ?_ (Or.inr ⟨rfl, rfl⟩) (assign_memory_PID _ _) rfl
    · refine perm_of_multiset ?_
      rw [tagged_eq, h2]
      simp only [List.map_append, List.map_cons, List.map_nil, List.append_nil, tag_wake,
        tag_to_ready, tag_to_run, tag_to_wait, tag_work, tag_assigned]
      simp only [tag, ← Multiset.coe_add]
      abel
    · refine perm_of_multiset ?_
      show ((((a ++ b).map (tag states.NEW) ++
        ((s.ready_queue ++ [to_ready (assign_memory s.mem p).2.2]).map (tag states.READY) ++
        (s.wait_queue.map (tag states.WAITING) ++ (on_cpu s).map (tag states.RUNNING))) :
          List (Int × states))) : Multiset (Int × states)) = _
      simp only [List.map_append, List.map_cons, List.map_nil, List.append_nil, tag_wake,
        tag_to_ready, tag_to_run, tag_to_wait, tag_work, tag_assigned]
      simp only [tag, ← Multiset.coe_add]
      abel
    · show s.execution_status ++
        [Event.mk s.current_time (to_ready (assign_memory s.mem p).2.2).PID
          states.NEW states.READY] = _
      have : (to_ready (assign_memory s.mem p).2.2).PID = p.PID := assign_memory_PID _ _
      rw [this]
  | deferred a b p h ha hno =>
    refine Life_quiet hL ?_ rfl rfl
    rw [tagged_eq, tagged_eq, h]
    show ((a ++ { p with arrival_time := (p.arrival_time + 1) % 2 ^ 32 } :: b).map
      (tag states.NEW) ++ _).Perm _
    simp only [List.map_append, List.map_cons]
    exact List.Perm.refl _
  | reordered r hr =>
    refine Life_quiet hL ?_ rfl rfl
    rw [tagged_eq, tagged_eq]
    show (s.list_processes.map (tag states.NEW) ++ (r.map (tag states.READY) ++
      (s.wait_queue.map (tag states.WAITING) ++ (on_cpu s).map (tag states.RUNNING)))).Perm _
    exact ((hr.map _).append_right _).append_left _
  | preempted hr hg =>
    have hp : pre = true := by
      rcases hpre with hp | hp
      · exact hp
      · exact absurd hg (hp s)
    refine Life_event hL s.running.PID states.RUNNING states.READY
      [(s.running.PID, states.READY)]
      (s.list_processes.map (tag states.NEW) ++ (s.ready_queue.map (tag states.READY) ++
        s.wait_queue.map (tag states.WAITING)))
      (to_ready s.running) s.current_time ?_ ?_ (Or.inl rfl)
      (by rw [hp]; exact valid_kind_preempted _ _) rfl
      (Or.inl ⟨fun hc => (by cases hc), rfl⟩) rfl rfl
    · refine perm_of_multiset ?_
      rw [tagged_eq, on_cpu_of_running s hr]
      simp only [List.map_append, List.map_cons, List.map_nil, List.append_nil, tag_wake,
        tag_to_ready, tag_to_run, tag_to_wait, tag_work, tag_assigned]
      simp only [tag, ← Multiset.coe_add]
      abel
    · refine perm_of_multiset ?_
      rw [tagged_eq, on_cpu_of_not_running _ idle_not_running]
      show (((s.list_processes.map (tag states.NEW) ++
        ((s.ready_queue ++ [to_ready s.running]).map (tag states.READY) ++
        (s.wait_queue.map (tag states.WAITING) ++ [].map (tag states.RUNNING))) :
          List (Int × states))) : Multiset (Int × states)) = _
      simp only [List.map_append, List.map_cons, List.map_nil, List.append_nil, tag_wake,
        tag_to_ready, tag_to_run, tag_to_wait, tag_work, tag_assigned]
      simp only [tag, ← Multiset.coe_add]
      abel
  | dispatched a b p c h hv hc =>
    have h2 : s.ready_queue = a ++ ([p] ++ b) := h
    refine Life_event hL p.PID states.READY states.RUNNING [(p.PID, states.RUNNING)]
      (s.list_processes.map (tag states.NEW) ++ ((a ++ b).map (tag states.READY) ++
        s.wait_queue.map (tag states.WAITING)))
      (to_run s.current_time p) s.current_time ?_ ?_ (Or.inl rfl)
      (valid_kind_dispatched _ _ _) rfl
      (Or.inl ⟨fun hc => (by cases hc), rfl⟩) rfl rfl
    · refine perm_of_multiset ?_
      rw [tagged_eq, on_cpu_of_not_running s hv, h2]
      simp only [List.map_append, List.map_cons, List.map_nil, List.append_nil, tag_wake,
        tag_to_ready, tag_to_run, tag_to_wait, tag_work, tag_assigned]
      simp only [tag, ← Multiset.coe_add]
      abel
    · refine perm_of_multiset ?_
      rw [tagged_eq, on_cpu_of_running _ (by rfl)]
      show (((s.list_processes.map (tag states.NEW) ++
        ((a ++ b).map (tag states.READY) ++
        (s.wait_queue.map (tag states.WAITING) ++
          [to_run s.current_time p].map (tag states.RUNNING))) :
          List (Int × states))) : Multiset (Int × states)) = _
      simp only [List.map_append, List.map_cons, List.map_nil, List.append_nil, tag_wake,
        tag_to_ready, tag_to_run, tag_to_wait, tag_work, tag_assigned]
      simp only [tag, ← Multiset.coe_add]
      abel
  | finished c hr h0 hw =>
    refine Life_event hL s.running.PID states.RUNNING states.TERMINATED []
      (s.list_processes.map (tag states.NEW) ++ (s.ready_queue.map (tag states.READY) ++
        s.wait_queue.map (tag states.WAITING)))
      (free_memory s.mem (terminated (work s.running))).2.2 ((s.current_time + 1) % 2 ^ 32)
      ?_ ?_ (Or.inr ⟨rfl, rfl⟩) (valid_kind_finished _ _ _) ?_
      (Or.inl ⟨fun hc => (by cases hc), rfl⟩) (free_memory_PID _ _) ?_
    · refine perm_of_multiset ?_
      rw [tagged_eq, on_cpu_of_running s hr]
      simp only [List.map_append, List.map_cons, List.map_nil, List.append_nil, tag_wake,
        tag_to_ready, tag_to_run, tag_to_wait, tag_work, tag_assigned]
      simp only [tag, ← Multiset.coe_add]
      abel
    · refine perm_of_multiset ?_
      rw [tagged_eq, on_cpu_of_not_running _ idle_not_running]
      show (((s.list_processes.map (tag states.NEW) ++
        (s.ready_queue.map (tag states.READY) ++
        (s.wait_queue.map (tag states.WAITING) ++ [].map (tag states.RUNNING))) :
          List (Int × states))) : Multiset (Int × states)) = _
      simp only [List.map_nil, List.append_nil, List.nil_append]
    · show s.execution_status ++
        [Event.mk ((s.current_time + 1) % 2 ^ 32)
          (free_memory s.mem (terminated (work s.running))).2.2.PID
          states.RUNNING states.TERMINATED] = _
      have : (free_memory s.mem (terminated (work s.running))).2.2.PID = s.running.PID :=
        free_memory_PID _ _
      rw [this]
    · rw [free_memory_snd]
      rfl
  | blocked c hr h0 hio hw =>
    refine Life_event hL s.running.PID states.RUNNING states.WAITING
      [(s.running.PID, states.WAITING)]
      (s.list_processes.map (tag states.NEW) ++ (s.ready_queue.map (tag states.READY) ++
        s.wait_queue.map (tag states.WAITING)))
      (to_wait s.current_time (work s.running)) ((s.current_time + 1) % 2 ^ 32)
      ?_ ?_ (Or.inl rfl) (valid_kind_blocked _ _ _) rfl
      (Or.inl ⟨fun hc => (by cases hc), rfl⟩) rfl rfl
    · refine perm_of_multiset ?_
      rw [tagged_eq, on_cpu_of_running s hr]
      simp only [List.map_append, List.map_cons, List.map_nil, List.append_nil, tag_wake,
        tag_to_ready, tag_to_run, tag_to_wait, tag_work, tag_assigned]
      simp only [tag, ← Multiset.coe_add]
      abel
    · refine perm_of_multiset ?_
      rw [tagged_eq, on_cpu_of_not_running _ idle_not_running]
      show (((s.list_processes.map (tag states.NEW) ++
        (s.ready_queue.map (tag states.READY) ++
        ((s.wait_queue ++ [to_wait s.current_time (work s.running)]).map
          (tag states.WAITING) ++ [].map (tag states.RUNNING))) :
          List (Int × states))) : Multiset (Int × states)) = _
      simp only [List.map_append, List.map_cons, List.map_nil, List.append_nil, tag_wake,
        tag_to_ready, tag_to_run, tag_to_wait, tag_work, tag_assigned]
      simp only [tag, ← Multiset.coe_add]
      abel
  | worked c hr h0 hio hw hc =>
    refine Life_quiet hL ?_ rfl rfl
    rw [tagged_eq, tagged_eq, on_cpu_of_running s hr, on_cpu_of_running _ (by exact hr)]
    exact List.Perm.refl _
  | idled hr hw =>
    exact Life_quiet hL (List.Perm.refl _) rfl rfl

/-! ## The runs as sequences of atomic steps -/

theorem Steps_run_EP (l : List PCB) (n : Nat) :
    Steps pg_EP false (init l) (run_loop tick_EP n (init l)) :=
  (Steps_run_loop tick_EP (fun _ => True) (fun _ _ => trivial)
    (fun s _ => Steps_tick_EP s) (init l) trivial n).1

theorem Steps_run_EP_RR (l : List PCB) (n : Nat) :
    Steps pg_EP_RR false (init l) (run_loop tick_EP_RR n (init l)) :=
  (Steps_run_loop tick_EP_RR (fun _ => True) (fun _ _ => trivial)
    (fun s _ => Steps_tick_EP_RR s) (init l) trivial n).1

theorem Steps_run_RR (l : List PCB) (n : Nat) :
    Steps pg_RR true (init l) (run_loop tick_RR n (init l)) :=
  (Steps_run_loop tick_RR QInv QInv_tick_RR
    (fun s h => Steps_tick_RR s h.1) (init l) (QInv_init l) n).1

theorem Life_init (pre : Bool) (l : List PCB) (hl : (l.map (fun p => p.PID)).Nodup) :
    Life pre (init l) := by
  have htag : tagged (init l) = l.map (tag states.NEW) := by
    rw [tagged_eq, on_cpu_of_not_running _ idle_not_running]
    show l.map (tag states.NEW) ++ ([].map (tag states.READY) ++
      ([].map (tag states.WAITING) ++ [].map (tag states.RUNNING))) = _
    simp only [List.map_nil, List.append_nil]
  refine ⟨?_, ?_, ?_, ?_, ?_⟩
  · rw [htag, List.map_map]
    exact hl
  · intro x st hx
    rw [htag] at hx
    obtain ⟨p, _, hp⟩ := List.mem_map.1 hx
    have : st = states.NEW := (congrArg Prod.snd hp).symm
    rw [this]
    rfl
  · intro x _
    exact Or.inr rfl
  · intro q hq
    cases hq
  · intro x st hx hst
    rw [htag] at hx
    obtain ⟨p, _, hp⟩ := List.mem_map.1 hx
    exact absurd (congrArg Prod.snd hp).symm hst

theorem Life_Steps {pg : SimState → Prop} {q : Bool} (pre : Bool)
    (hpre : pre = true ∨ ∀ s, ¬ pg s) {s s2 : SimState}
    (hL : Life pre s) (h : Steps pg q s s2) : Life pre s2 :=
  Steps_invariant (Life pre) (fun _ _ h1 h2 => Life_step pre hpre h1 h2) hL h

theorem Life_follows {pre : Bool} {s : SimState} (hL : Life pre s) (x : Int) :
    follows_lifecycle pre (rows_of x s.execution_status) := by
  by_cases hx : x ∈ (tagged s).map (fun a => a.1)
  · obtain ⟨a, ha, hax⟩ := List.mem_map.1 hx
    have : (x, a.2) ∈ tagged s := by
      rw [← hax]
      exact ha
    exact (follows_of_run pre _ _ (hL.2.1 x a.2 this)).1
  · rcases hL.2.2.1 x hx with h | h
    · exact (follows_of_run pre _ _ h).1
    · rw [h]
      exact (follows_of_run pre [] states.NEW rfl).1

/-- C16: in each of the three engines, for every input with pairwise distinct
ids, after any number of iterations of the loop and for every process id `x`,
the rows of `x` in the transition log follow the lifecycle state machine: the
first is NEW -> READY, every later row leaves the state the row before it
entered, every row is one of NEW -> READY, READY -> RUNNING,
RUNNING -> WAITING, WAITING -> READY, RUNNING -> READY and
RUNNING -> TERMINATED (RUNNING -> READY not being allowed in the EP engine),
and a row that enters TERMINATED is the last row of `x`. -/
theorem log_follows_lifecycle (l : List PCB) (hl : (l.map (fun p => p.PID)).Nodup)
    (n : Nat) (x : Int) :
    follows_lifecycle false (rows_of x (run_loop tick_EP n (init l)).execution_status) ∧
    follows_lifecycle true (rows_of x (run_loop tick_EP_RR n (init l)).execution_status) ∧
    follows_lifecycle true (rows_of x (run_loop tick_RR n (init l)).execution_status) :=
  ⟨Life_follows (Life_Steps false (Or.inr (fun _ h => h)) (Life_init false l hl)
      (Steps_run_EP l n)) x,
   Life_follows (Life_Steps true (Or.inl rfl) (Life_init true l hl)
      (Steps_run_EP_RR l n)) x,
   Life_follows (Life_Steps true (Or.inl rfl) (Life_init true l hl)
      (Steps_run_RR l n)) x⟩

/-- Witness of `log_follows_lifecycle`: two processes with ids 1 and 2, the
first with an I/O after every second unit of work, after 20 iterations. -/
theorem log_follows_lifecycle_witness :
    ([add_process 1 10 0 5 2 3, add_process 2 10 1 3 0 0].map (fun p => p.PID)).Nodup ∧
    follows_lifecycle false (rows_of 1 (run_loop tick_EP 20
      (init [add_process 1 10 0 5 2 3, add_process 2 10 1 3 0 0])).execution_status) ∧
    follows_lifecycle true (rows_of 1 (run_loop tick_EP_RR 20
      (init [add_process 1 10 0 5 2 3, add_process 2 10 1 3 0 0])).execution_status) ∧
    follows_lifecycle true (rows_of 1 (run_loop tick_RR 20
      (init [add_process 1 10 0 5 2 3, add_process 2 10 1 3 0 0])).execution_status) :=
  ⟨by decide, log_follows_lifecycle _ (by decide) 20 1⟩

/-! ## Properties of the records of the unfinished processes -/

theorem mem_pool_list {s : SimState} {p : PCB} (h : p ∈ s.list_processes) : p ∈ pool s :=
  List.mem_append_left _ h

theorem mem_pool_ready {s : SimState} {p : PCB} (h : p ∈ s.ready_queue) : p ∈ pool s :=
  List.mem_append_right _ (List.mem_append_left _ (List.mem_append_left _ h))

theorem mem_pool_wait {s : SimState} {p : PCB} (h : p ∈ s.wait_queue) : p ∈ pool s :=
  List.mem_append_right _ (List.mem_append_left _ (List.mem_append_right _ h))

theorem mem_pool_running {s : SimState} (h : s.running.state = states.RUNNING) :
    s.running ∈ pool s := by
  refine List.mem_append_right _ (List.mem_append_right _ ?_)
  rw [on_cpu_of_running s h]
  exact List.mem_singleton_self _

theorem mem_pool_cases {s : SimState} {p : PCB} (h : p ∈ pool s) :
    p ∈ s.list_processes ∨ p ∈ s.ready_queue ∨ p ∈ s.wait_queue ∨
      (s.running.state = states.RUNNING ∧ p = s.running) := by
  rcases List.mem_append.1 h with h | h
  · exact Or.inl h
  · rcases List.mem_append.1 h with h | h
    · rcases List.mem_append.1 h with h | h
      · exact Or.inr (Or.inl h)
      · exact Or.inr (Or.inr (Or.inl h))
    · by_cases hr : s.running.state = states.RUNNING
      · rw [on_cpu_of_running s hr] at h
        exact Or.inr (Or.inr (Or.inr ⟨hr, List.mem_singleton.1 h⟩))
      · rw [on_cpu_of_not_running s hr] at h
        cases h

theorem mem_split {α : Type} {a b : List α} {p x : α} (h : x ∈ a ++ b) : x ∈ a ++ p :: b := by
  rcases List.mem_append.1 h with h | h
  · exact List.mem_append_left _ h
  · exact List.mem_append_right _ (List.mem_cons_of_mem _ h)

theorem mem_split_self {α : Type} (a b : List α) (p : α) : p ∈ a ++ p :: b :=
  List.mem_append_right _ (List.mem_cons_self _ _)

/-- A property that the assignments to a record keep holds of every
unfinished process after a step if it did before. -/
theorem PoolQ_step {pg : SimState → Prop} {q : Bool} {Q : PCB → Prop} (hQ : Keeps Q)
    {s s2 : SimState} (hs : ∀ p ∈ pool s, Q p) (h : Step pg q s s2) :
    ∀ p ∈ pool s2, Q p := by
  intro x hx
  have hx2 := mem_pool_cases hx
  cases h with
  | woken a b p h hd =>
    rcases hx2 with h1 | h1 | h1 | ⟨h1, h2⟩
    · exact hs x (mem_pool_list h1)
    · rcases List.mem_append.1 h1 with h3 | h3
      · exact hs x (mem_pool_ready h3)
      · rw [List.mem_singleton.1 h3]
        exact (hQ p (hs p (mem_pool_wait (by rw [h]; exact mem_split_self a b p)))).1
    · exact hs x (mem_pool_wait (by rw [h]; exact mem_split h1))
    · rw [h2]
      exact hs _ (mem_pool_running h1)
  | arrived a b p h ha hok =>
    rcases hx2 with h1 | h1 | h1 | ⟨h1, h2⟩
    · exact hs x (mem_pool_list (by rw [h]; exact mem_split h1))
    · rcases List.mem_append.1 h1 with h3 | h3
      · exact hs x (mem_pool_ready h3)
      · rw [List.mem_singleton.1 h3, assign_memory_snd]
        have hp := hs p (mem_pool_list (by rw [h]; exact mem_split_self a b p))
        exact (hQ _ ((hQ p hp).2.2.2.2.2.1 _)).2.2.1
    · exact hs x (mem_pool_wait h1)
    · rw [h2]
      exact hs _ (mem_pool_running h1)
  | deferred a b p h ha hno =>
    rcases hx2 with h1 | h1 | h1 | ⟨h1, h2⟩
    · rcases List.mem_append.1 h1 with h3 | h3
      · exact hs x (mem_pool_list (by rw [h]; exact List.mem_append_left _ h3))
      · rcases List.mem_cons.1 h3 with h4 | h4
        · rw [h4]
          exact (hQ p (hs p (mem_pool_list (by rw [h]; exact mem_split_self a b p)))).2.2.2.2.2.2 _
        · exact hs x (mem_pool_list (by
            rw [h]; exact List.mem_append_right _ (List.mem_cons_of_mem _ h4)))
    · exact hs x (mem_pool_ready h1)
    · exact hs x (mem_pool_wait h1)
    · rw [h2]
      exact hs _ (mem_pool_running h1)
  | reordered r hr =>
    rcases hx2 with h1 | h1 | h1 | ⟨h1, h2⟩
    · exact hs x (mem_pool_list h1)
    · exact hs x (mem_pool_ready (hr.mem_iff.1 h1))
    · exact hs x (mem_pool_wait h1)
    · rw [h2]
      exact hs _ (mem_pool_running h1)
  | preempted hr hg =>
    rcases hx2 with h1 | h1 | h1 | ⟨h1, h2⟩
    · exact hs x (mem_pool_list h1)
    · rcases List.mem_append.1 h1 with h3 | h3
      · exact hs x (mem_pool_ready h3)
      · rw [List.mem_singleton.1 h3]
        exact (hQ _ (hs _ (mem_pool_running hr))).2.2.1
    · exact hs x (mem_pool_wait h1)
    · exact absurd h1 idle_not_running
  | dispatched a b p c h hv hc =>
    rcases hx2 with h1 | h1 | h1 | ⟨h1, h2⟩
    · exact hs x (mem_pool_list h1)
    · exact hs x (mem_pool_ready (by rw [h]; exact mem_split h1))
    · exact hs x (mem_pool_wait h1)
    · rw [h2]
      exact (hQ p (hs p (mem_pool_ready (by rw [h]; exact mem_split_self a b p)))).2.1 _
  | finished c hr h0 hw =>
    rcases hx2 with h1 | h1 | h1 | ⟨h1, h2⟩
    · exact hs x (mem_pool_list h1)
    · exact hs x (mem_pool_ready h1)
    · exact hs x (mem_pool_wait h1)
    · exact absurd h1 idle_not_running
  | blocked c hr h0 hio hw =>
    rcases hx2 with h1 | h1 | h1 | ⟨h1, h2⟩
    · exact hs x (mem_pool_list h1)
    · exact hs x (mem_pool_ready h1)
    · rcases List.mem_append.1 h1 with h3 | h3
      · exact hs x (mem_pool_wait h3)
      · rw [List.mem_singleton.1 h3]
        exact (hQ _ ((hQ _ (hs _ (mem_pool_running hr))).2.2.2.2.1)).2.2.2.1 _
    · exact absurd h1 idle_not_running
  | worked c hr h0 hio hw hc =>
    rcases hx2 with h1 | h1 | h1 | ⟨h1, h2⟩
    · exact hs x (mem_pool_list h1)
    · exact hs x (mem_pool_ready h1)
    · exact hs x (mem_pool_wait h1)
    · rw [h2]
      exact (hQ _ (hs _ (mem_pool_running hr))).2.2.2.2.1
  | idled hr hw =>
    rcases hx2 with h1 | h1 | h1 | ⟨h1, h2⟩
    · exact hs x (mem_pool_list h1)
    · exact hs x (mem_pool_ready h1)
    · exact hs x (mem_pool_wait h1)
    · exact absurd h1 hr

theorem Keeps_same_spec (l : List PCB) : Keeps (same_spec l) := by
  intro p hp
  obtain ⟨p0, h0, h1⟩ := hp
  exact ⟨⟨p0, h0, h1⟩, fun _ => ⟨p0, h0, h1⟩, ⟨p0, h0, h1⟩, fun _ => ⟨p0, h0, h1⟩,
    ⟨p0, h0, h1⟩, fun _ => ⟨p0, h0, h1⟩, fun _ => ⟨p0, h0, h1⟩⟩

theorem pool_init (l : List PCB) : pool (init l) = l := by
  rw [pool_eq, on_cpu_of_not_running _ idle_not_running]
  show l ++ ([] ++ [] ++ []) = l
  simp

theorem same_spec_init (l : List PCB) : ∀ p ∈ pool (init l), same_spec l p := by
  intro p hp
  rw [pool_init] at hp
  exact ⟨p, hp, rfl, rfl, rfl, rfl, rfl⟩

theorem Base_init (l : List PCB) (hl : (l.map (fun p => p.PID)).Nodup) : Base (init l) := by
  refine ⟨by show 0 < 2 ^ 32; norm_num, ?_⟩
  rw [pool_init]
  exact hl

/-! ## The partitions held by the admitted processes -/

theorem wake_PID (p : PCB) : (wake p).PID = p.PID := rfl

theorem to_ready_PID (p : PCB) : (to_ready p).PID = p.PID := rfl

theorem to_run_PID (t : Nat) (p : PCB) : (to_run t p).PID = p.PID := rfl

theorem to_wait_PID (t : Nat) (p : PCB) : (to_wait t p).PID = p.PID := rfl

theorem work_PID (p : PCB) : (work p).PID = p.PID := rfl

theorem live_eq (s : SimState) : live s = s.ready_queue ++ s.wait_queue ++ on_cpu s := rfl

theorem Base_list_not_live {s : SimState} (hb : Base s) {p : PCB}
    (hp : p ∈ s.list_processes) : p.PID ∉ (live s).map (fun p => p.PID) := by
  have hn := hb.2
  rw [pool, List.map_append, List.nodup_append] at hn
  intro hc
  exact hn.2.2 (List.mem_map_of_mem (fun p : PCB => p.PID) hp) hc

theorem Base_running_alone {s : SimState} (hb : Base s)
    (hr : s.running.state = states.RUNNING) :
    s.running.PID ∉ (s.ready_queue ++ s.wait_queue).map (fun p => p.PID) := by
  have hn := hb.2
  rw [pool, List.map_append, List.nodup_append] at hn
  have h2 := hn.2.1
  rw [live_eq, on_cpu_of_running s hr, List.map_append, List.nodup_append] at h2
  intro hc
  exact h2.2.2 hc (List.mem_map_of_mem (fun p : PCB => p.PID) (List.mem_singleton_self _))

/-- The ids of the admitted, unfinished processes and the table after a step:
nothing changes, or a process of the incoming list is admitted, or the
running process terminates. -/
theorem Step_live {pg : SimState → Prop} {q : Bool} {s s2 : SimState}
    (h : Step pg q s s2) (hb : Base s) :
    (s2.mem = s.mem ∧
      ∀ x, x ∈ (live s2).map (fun p => p.PID) ↔ x ∈ (live s).map (fun p => p.PID)) ∨
    (∃ p ∈ s.list_processes, (assign_memory s.mem p).1 = true ∧
      s2.mem = (assign_memory s.mem p).2.1 ∧ p.PID ∉ (live s).map (fun p => p.PID) ∧
      ∀ x, x ∈ (live s2).map (fun p => p.PID) ↔
        (x ∈ (live s).map (fun p => p.PID) ∨ x = p.PID)) ∨
    (s.running.state = states.RUNNING ∧ s2.mem = (after_termination s).mem ∧
      s.running.PID ∉ (live s2).map (fun p => p.PID) ∧
      ∀ x, x ∈ (live s).map (fun p => p.PID) ↔
        (x ∈ (live s2).map (fun p => p.PID) ∨ x = s.running.PID)) := by
  cases h with
  | woken a b p h hd =>
    refine Or.inl ⟨rfl, fun x => ?_⟩
    rw [live_eq, live_eq, h]
    show x ∈ ((s.ready_queue ++ [wake p]) ++ (a ++ b) ++ on_cpu s).map (fun p : PCB => p.PID) ↔ _
    simp only [List.map_append, List.mem_append, List.map_cons, List.mem_cons, List.map_nil,
      List.not_mem_nil, or_false, wake_PID]
    tauto
  | arrived a b p h ha hok =>
    have hp : p ∈ s.list_processes := by rw [h]; exact mem_split_self a b p
    refine Or.inr (Or.inl ⟨p, hp, hok, rfl, Base_list_not_live hb hp, fun x => ?_⟩)
    rw [live_eq, live_eq]
    show x ∈ ((s.ready_queue ++ [to_ready (assign_memory s.mem p).2.2]) ++ s.wait_queue ++
      on_cpu s).map (fun p : PCB => p.PID) ↔ _
    simp only [List.map_append, List.mem_append, List.map_cons, List.mem_cons, List.map_nil,
      List.not_mem_nil, or_false, to_ready_PID, assign_memory_PID]
    tauto
  | deferred a b p h ha hno =>
    exact Or.inl ⟨rfl, fun x => Iff.rfl⟩
  | reordered r hr =>
    refine Or.inl ⟨rfl, fun x => ?_⟩
    rw [live_eq, live_eq]
    show x ∈ (r ++ s.wait_queue ++ on_cpu s).map (fun p : PCB => p.PID) ↔ _
    simp only [List.map_append, List.mem_append, List.mem_map, hr.mem_iff]
  | preempted hr hg =>
    refine Or.inl ⟨rfl, fun x => ?_⟩
    rw [live_eq, live_eq, on_cpu_of_running s hr, on_cpu_of_not_running _ idle_not_running]
    show x ∈ ((s.ready_queue ++ [to_ready s.running]) ++ s.wait_queue ++ []).map
      (fun p : PCB => p.PID) ↔ _
    simp only [List.map_append, List.mem_append, List.map_cons, List.mem_cons, List.map_nil,
      List.not_mem_nil, or_false, to_ready_PID]
    tauto
  | dispatched a b p c h hv hc =>
    refine Or.inl ⟨rfl, fun x => ?_⟩
    rw [live_eq, live_eq, on_cpu_of_not_running s hv, on_cpu_of_running _ (by rfl), h]
    show x ∈ ((a ++ b) ++ s.wait_queue ++ [to_run s.current_time p]).map
      (fun p : PCB => p.PID) ↔ _
    simp only [List.map_append, List.mem_append, List.map_cons, List.mem_cons, List.map_nil,
      List.not_mem_nil, or_false, to_run_PID]
    tauto
  | finished c hr h0 hw =>
    refine Or.inr (Or.inr ⟨hr, rfl, ?_, fun x => ?_⟩)
    · rw [live_eq, on_cpu_of_not_running _ idle_not_running]
      show s.running.PID ∉ ((s.ready_queue ++ s.wait_queue) ++ []).map (fun p : PCB => p.PID)
      rw [List.append_nil]
      exact Base_running_alone hb hr
    · rw [live_eq, live_eq, on_cpu_of_running s hr, on_cpu_of_not_running _ idle_not_running]
      show _ ↔ (x ∈ ((s.ready_queue ++ s.wait_queue) ++ []).map (fun p : PCB => p.PID) ∨ _)
      simp only [List.map_append, List.mem_append, List.map_cons, List.mem_cons, List.map_nil,
        List.not_mem_nil, or_false]
  | blocked c hr h0 hio hw =>
    refine Or.inl ⟨rfl, fun x => ?_⟩
    rw [live_eq, live_eq, on_cpu_of_running s hr, on_cpu_of_not_running _ idle_not_running]
    show x ∈ (s.ready_queue ++ (s.wait_queue ++ [to_wait s.current_time (work s.running)]) ++
      []).map (fun p : PCB => p.PID) ↔ _
    simp only [List.map_append, List.mem_append, List.map_cons, List.mem_cons, List.map_nil,
      List.not_mem_nil, or_false, to_wait_PID, work_PID]
    tauto
  | worked c hr h0 hio hw hc =>
    refine Or.inl ⟨rfl, fun x => ?_⟩
    rw [live_eq, live_eq, on_cpu_of_running s hr, on_cpu_of_running _ (by exact hr)]
    show x ∈ (s.ready_queue ++ s.wait_queue ++ [work s.running]).map (fun p : PCB => p.PID) ↔ _
    simp only [List.map_append, List.mem_append, List.map_cons, List.mem_cons, List.map_nil,
      List.not_mem_nil, or_false, work_PID]
  | idled hr hw =>
    exact Or.inl ⟨rfl, fun x => Iff.rfl⟩

theorem free_memory_keeps (mem : List memory_partition) (p : PCB) (i : Nat)
    (part : memory_partition) (hi : mem[i]? = some part) (hne : part.occupied ≠ p.PID) :
    (free_memory mem p).2.1[i]? = some part := by
  cases hb : (free_memory_loop mem p 6).1 with
  | false =>
    unfold free_memory
    rw [(free_memory_loop_false mem p 6 hb).2]
    exact hi
  | true =>
    obtain ⟨k, partk, -, hk, hocc, -, heq⟩ := free_memory_loop_true mem p 6 hb
    unfold free_memory
    rw [heq]
    have hik : i ≠ k := by
      intro hc
      rw [hc, hk] at hi
      have : partk = part := Option.some.inj hi
      rw [this] at hocc
      exact hne hocc
    show (mem.set k { partk with occupied := -1 })[i]? = some part
    rw [(set_occupied_frame mem k partk (-1) hk).2.1 i hik]
    exact hi

theorem assign_memory_keeps (mem : List memory_partition) (p : PCB) (i : Nat)
    (part : memory_partition) (hi : mem[i]? = some part) (hne : part.occupied ≠ -1) :
    (assign_memory mem p).2.1[i]? = some part := by
  cases hb : (assign_memory_loop mem p 6).1 with
  | false =>
    unfold assign_memory
    rw [(assign_memory_loop_false mem p 6 hb).2]
    exact hi
  | true =>
    obtain ⟨k, partk, -, hk, hfit, -, heq⟩ := assign_memory_loop_true mem p 6 hb
    unfold assign_memory
    rw [heq]
    have hik : i ≠ k := by
      intro hc
      rw [hc, hk] at hi
      have : partk = part := Option.some.inj hi
      rw [this] at hfit
      exact hne hfit.2
    show (mem.set k { partk with occupied := p.PID })[i]? = some part
    rw [(set_occupied_frame mem k partk p.PID hk).2.1 i hik]
    exact hi

theorem assign_memory_housed (mem : List memory_partition) (p : PCB) (htab : table_ok mem)
    (hs : p.size < 2 ^ 31) (hok : (assign_memory mem p).1 = true) :
    ∃ (i : Nat) (part : memory_partition), (assign_memory mem p).2.1[i]? = some part ∧
      part.occupied = p.PID ∧ p.size ≤ part.size := by
  obtain ⟨k, partk, -, hk, hfit, -, heq⟩ := assign_memory_loop_true mem p 6 hok
  refine ⟨k, { partk with occupied := p.PID }, ?_, rfl, ((fits_iff htab hs hk).1 hfit).2⟩
  unfold assign_memory
  rw [heq]
  exact (set_occupied_frame mem k partk p.PID hk).1

theorem eq_of_same_PID {l : List PCB} (hl : (l.map (fun p => p.PID)).Nodup) {a b : PCB}
    (ha : a ∈ l) (hb : b ∈ l) (h : a.PID = b.PID) : a = b :=
  List.inj_on_of_nodup_map hl ha hb h

/-- Every atomic step keeps the memory invariant. -/
theorem MInv_step {pg : SimState → Prop} {q : Bool} (l : List PCB)
    (hl : (l.map (fun p => p.PID)).Nodup) (hsz : ∀ p0 ∈ l, p0.size < 2 ^ 31)
    {s s2 : SimState} (hb : Base s) (hq : ∀ p ∈ pool s, same_spec l p ∧ 0 ≤ p.PID)
    (hm : MInv l s) (h : Step pg q s s2) : MInv l s2 := by
  obtain ⟨htab, hown, hhouse⟩ := hm
  have hpos : ∀ x ∈ (live s).map (fun p => p.PID), x ≠ -1 := by
    intro x hx hc
    obtain ⟨p, hp, hpx⟩ := List.mem_map.1 hx
    have h0 := (hq p (List.mem_append_right _ hp)).2
    have hpx2 : p.PID = x := hpx
    rw [hpx2, hc] at h0
    exact absurd h0 (by decide)
  rcases Step_live h hb with ⟨hmem, hiff⟩ | ⟨p, hp, hok, hmem, hnot, hiff⟩ |
    ⟨hr, hmem, hnot, hiff⟩
  · refine ⟨by rw [hmem]; exact htab, ?_, ?_⟩
    · rw [hmem]
      exact mem_owned_mono hown (fun x hx => (hiff x).2 hx)
    · intro x hx
      rw [hmem]
      exact hhouse x ((hiff x).1 hx)
  · refine ⟨by rw [hmem]; exact assign_memory_table_ok _ _ htab, ?_, ?_⟩
    · rw [hmem]
      refine mem_owned_mono (assign_memory_owned _ _ p hown hnot hok) (fun x hx => ?_)
      rcases List.mem_append.1 hx with h1 | h1
      · exact (hiff x).2 (Or.inl h1)
      · exact (hiff x).2 (Or.inr (List.mem_singleton.1 h1))
    · intro x hx
      rw [hmem]
      rcases (hiff x).1 hx with h1 | h1
      · obtain ⟨i, part, hi, hocc, hcap⟩ := hhouse x h1
        refine ⟨i, part, assign_memory_keeps _ p i part hi ?_, hocc, hcap⟩
        rw [hocc]
        exact hpos x h1
      · obtain ⟨⟨p0, hp0, hpid, hsize, -⟩, -⟩ := hq p (mem_pool_list hp)
        have hs : p.size < 2 ^ 31 := by
          rw [← hsize]
          exact hsz p0 hp0
        obtain ⟨i, part, hi, hocc, hcap⟩ := assign_memory_housed _ p htab hs hok
        refine ⟨i, part, hi, by rw [hocc, h1], ?_⟩
        intro p1 hp1 hpid1
        have : p1 = p0 := eq_of_same_PID hl hp1 hp0 (by rw [hpid1, h1, hpid])
        rw [this, hsize]
        exact hcap
  · have hmem2 : s2.mem = (free_memory (free_memory s.mem (terminated (work s.running))).2.1
        (free_memory s.mem (terminated (work s.running))).2.2).2.1 := hmem
    have hown1 : mem_owned (free_memory s.mem (terminated (work s.running))).2.1
        ((live s2).map (fun p => p.PID)) := by
      refine free_memory_owned _ _ _ _ htab hown (fun y hy hne => ?_)
      rcases (hiff y).1 hy with h1 | h1
      · exact h1
      · exact absurd h1 hne
    refine ⟨?_, ?_, ?_⟩
    · rw [hmem2]
      exact free_memory_table_ok _ _ (free_memory_table_ok _ _ htab)
    · rw [hmem2]
      exact free_memory_owned _ _ _ _ (free_memory_table_ok _ _ htab) hown1
        (fun y hy _ => hy)
    · intro x hx
      have hxl : x ∈ (live s).map (fun p => p.PID) := (hiff x).2 (Or.inl hx)
      have hne : x ≠ s.running.PID := fun hc => hnot (hc ▸ hx)
      obtain ⟨i, part, hi, hocc, hcap⟩ := hhouse x hxl
      refine ⟨i, part, ?_, hocc, hcap⟩
      rw [hmem2]
      refine free_memory_keeps _ _ i part (free_memory_keeps _ _ i part hi ?_) ?_
      · rw [hocc]
        exact hne
      · rw [hocc, free_memory_PID]
        exact hne

theorem MInv_init (l : List PCB) : MInv l (init l) := by
  refine ⟨⟨rfl, rfl⟩, ?_, ?_⟩
  · intro i part hi ho
    exfalso
    have hmem : part ∈ memory_paritions := List.mem_iff_getElem?.2 ⟨i, hi⟩
    simp [memory_paritions] at hmem
    rcases hmem with h | h | h | h | h | h <;> rw [h] at ho <;> exact ho rfl
  · intro x hx
    rw [live_eq, on_cpu_of_not_running _ idle_not_running] at hx
    cases hx

theorem Step_job_ids {pg : SimState → Prop} {q : Bool} {s s2 : SimState}
    (h : Step pg q s s2) :
    s2.job_list.map (fun p => p.PID) = s.job_list.map (fun p => p.PID) ∨
    ∃ p ∈ s.list_processes,
      s2.job_list.map (fun p => p.PID) = s.job_list.map (fun p => p.PID) ++ [p.PID] := by
  cases h with
  | woken a b p h hd => exact Or.inl (sync_queue_map_PID _ _)
  | arrived a b p h ha hok =>
    refine Or.inr ⟨p, by rw [h]; exact mem_split_self a b p, ?_⟩
    show (s.job_list ++ [to_ready (assign_memory s.mem p).2.2]).map (fun p : PCB => p.PID) = _
    rw [List.map_append]
    show _ ++ [(assign_memory s.mem p).2.2.PID] = _
    rw [assign_memory_PID]
  | deferred a b p h ha hno => exact Or.inl rfl
  | reordered r hr => exact Or.inl rfl
  | preempted hr hg => exact Or.inl (sync_queue_map_PID _ _)
  | dispatched a b p c h hv hc => exact Or.inl (sync_queue_map_PID _ _)
  | finished c hr h0 hw => exact Or.inl (sync_queue_map_PID _ _)
  | blocked c hr h0 hio hw => exact Or.inl (sync_queue_map_PID _ _)
  | worked c hr h0 hio hw hc => exact Or.inl rfl
  | idled hr hw => exact Or.inl rfl

theorem Keeps_spec_id (l : List PCB) : Keeps (fun p => same_spec l p ∧ 0 ≤ p.PID) := by
  intro p hp
  have h := Keeps_same_spec l p hp.1
  exact ⟨⟨h.1, hp.2⟩, fun t => ⟨h.2.1 t, hp.2⟩, ⟨h.2.2.1, hp.2⟩, fun t => ⟨h.2.2.2.1 t, hp.2⟩,
    ⟨h.2.2.2.2.1, hp.2⟩, fun n => ⟨h.2.2.2.2.2.1 n, hp.2⟩, fun n => ⟨h.2.2.2.2.2.2 n, hp.2⟩⟩

theorem PInv_step {pg : SimState → Prop} {q : Bool} (l : List PCB)
    (hl : (l.map (fun p => p.PID)).Nodup) (hsz : ∀ p0 ∈ l, p0.size < 2 ^ 31)
    (s s2 : SimState) (hi : PInv l s) (h : Step pg q s s2) : PInv l s2 := by
  obtain ⟨hb, hq, hj, hm, hL⟩ := hi
  refine ⟨Base_step s s2 hb h, PoolQ_step (Keeps_spec_id l) hq h, ?_,
    MInv_step l hl hsz hb hq hm h, Life_step true (Or.inl rfl) hL h⟩
  rcases Step_job_ids h with h1 | ⟨p, hp, h1⟩
  · rw [h1]
    exact hj
  · rw [h1]
    intro x hx
    rcases List.mem_append.1 hx with h2 | h2
    · exact hj x h2
    · obtain ⟨⟨p0, hp0, hpid, -⟩, -⟩ := hq p (mem_pool_list hp)
      rw [List.mem_singleton.1 h2, ← hpid]
      exact List.mem_map_of_mem (fun p : PCB => p.PID) hp0

theorem PInv_init (l : List PCB) (hl : (l.map (fun p => p.PID)).Nodup)
    (hid : ∀ p ∈ l, 0 ≤ p.PID) : PInv l (init l) := by
  refine ⟨Base_init l hl, ?_, ?_, MInv_init l, Life_init true l hl⟩
  · intro p hp
    refine ⟨same_spec_init l p hp, ?_⟩
    rw [pool_init] at hp
    exact hid p hp
  · intro x hx
    cases hx

theorem tagged_of_pool {s : SimState} {p : PCB} (h : p ∈ pool s) :
    ∃ st, (p.PID, st) ∈ tagged s ∧ st ≠ states.TERMINATED := by
  rw [tagged_eq]
  rcases List.mem_append.1 h with h | h
  · exact ⟨states.NEW, List.mem_append_left _ (List.mem_map_of_mem (tag states.NEW) h),
      fun hc => by cases hc⟩
  · rcases List.mem_append.1 h with h | h
    · rcases List.mem_append.1 h with h | h
      · exact ⟨states.READY, List.mem_append_right _ (List.mem_append_left _
          (List.mem_map_of_mem (tag states.READY) h)), fun hc => by cases hc⟩
      · exact ⟨states.WAITING, List.mem_append_right _ (List.mem_append_right _
          (List.mem_append_left _ (List.mem_map_of_mem (tag states.WAITING) h))),
          fun hc => by cases hc⟩
    · exact ⟨states.RUNNING, List.mem_append_right _ (List.mem_append_right _
        (List.mem_append_right _ (List.mem_map_of_mem (tag states.RUNNING) h))),
        fun hc => by cases hc⟩

/-- A process that is TERMINATED in the job list is not among the unfinished
processes. -/
theorem Life_terminated {pre : Bool} {s : SimState} (hL : Life pre s) {q : PCB}
    (hq : q ∈ s.job_list) (hterm : q.state = states.TERMINATED) :
    q.PID ∉ (pool s).map (fun p => p.PID) := by
  intro hc
  obtain ⟨p, hp, hpq⟩ := List.mem_map.1 hc
  obtain ⟨st, hst, hne⟩ := tagged_of_pool hp
  have h1 := hL.2.1 p.PID st hst
  have h2 := (hL.2.2.2.1 q hq).1
  have hpq2 : p.PID = q.PID := hpq
  rw [hpq2, h2, hterm] at h1
  exact hne (Option.some.inj h1).symm

theorem PInv_partitions {l : List PCB} {s : SimState} (h : PInv l s)
    (hid : ∀ p ∈ l, 0 ≤ p.PID) : partitions_ok s := by
  obtain ⟨hb, hq, hj, ⟨htab, hown, hhouse⟩, hL⟩ := h
  refine ⟨?_, ?_, ?_⟩
  · intro p hp
    obtain ⟨i, part, hi, hocc, hcap⟩ :=
      hhouse p.PID (List.mem_map_of_mem (fun p : PCB => p.PID) hp)
    obtain ⟨⟨p0, hp0, hpid, hsize, -⟩, hpos⟩ := hq p (List.mem_append_right _ hp)
    refine ⟨i, part, hi, hocc, ?_, ?_⟩
    · rw [← hsize]
      exact hcap p0 hp0 hpid
    · intro j q hjq hqo
      have hne : part.occupied ≠ -1 := by
        rw [hocc]
        intro hc
        rw [hc] at hpos
        exact absurd hpos (by decide)
      exact (hown i part hi hne).2 j q hjq (by rw [hqo, hocc])
  · intro p hp part hpart hc
    obtain ⟨i, hi⟩ := List.mem_iff_getElem?.1 hpart
    have hpos := (hq p (mem_pool_list hp)).2
    have hne : part.occupied ≠ -1 := by
      rw [hc]
      intro h1
      rw [h1] at hpos
      exact absurd hpos (by decide)
    have := (hown i part hi hne).1
    rw [hc] at this
    exact Base_list_not_live hb hp this
  · intro p hp hterm part hpart hc
    obtain ⟨i, hi⟩ := List.mem_iff_getElem?.1 hpart
    have hmem : p.PID ∈ l.map (fun p => p.PID) :=
      hj p.PID (List.mem_map_of_mem (fun p : PCB => p.PID) hp)
    obtain ⟨p0, hp0, hpid⟩ := List.mem_map.1 hmem
    have hpos : 0 ≤ p.PID := by
      rw [← hpid]
      exact hid p0 hp0
    have hne : part.occupied ≠ -1 := by
      rw [hc]
      intro h1
      rw [h1] at hpos
      exact absurd hpos (by decide)
    have hlive := (hown i part hi hne).1
    rw [hc] at hlive
    apply Life_terminated hL hp hterm
    rw [pool, List.map_append]
    exact List.mem_append_right _ hlive

/-- C13 (as amended): in each of the three engines, for every input with
pairwise distinct non-negative ids and requested sizes below `2 ^ 31`, started
with all partitions free, after any number of iterations of the loop: every
process in the ready queue, the wait queue or the running slot is the occupant
of exactly one partition, whose capacity is at least its requested size, and
every process of the incoming list and every process that is TERMINATED in the
job list is the occupant of no partition. -/
theorem processes_hold_partitions (l : List PCB) (hl : (l.map (fun p => p.PID)).Nodup)
    (hid : ∀ p ∈ l, 0 ≤ p.PID) (hsz : ∀ p ∈ l, p.size < 2 ^ 31) (n : Nat) :
    partitions_ok (run_loop tick_EP n (init l)) ∧
    partitions_ok (run_loop tick_EP_RR n (init l)) ∧
    partitions_ok (run_loop tick_RR n (init l)) :=
  ⟨PInv_partitions (Steps_invariant (PInv l) (PInv_step l hl hsz) (PInv_init l hl hid)
      (Steps_run_EP l n)) hid,
   PInv_partitions (Steps_invariant (PInv l) (PInv_step l hl hsz) (PInv_init l hl hid)
      (Steps_run_EP_RR l n)) hid,
   PInv_partitions (Steps_invariant (PInv l) (PInv_step l hl hsz) (PInv_init l hl hid)
      (Steps_run_RR l n)) hid⟩

/-- Witness of `processes_hold_partitions`: three processes, two of them
asking for the largest partition, after 4 iterations. -/
theorem processes_hold_partitions_witness :
    ([add_process 1 40 0 5 2 3, add_process 2 10 1 3 0 0, add_process 3 40 1 200 0 0].map
      (fun p => p.PID)).Nodup ∧
    partitions_ok (run_loop tick_EP 4
      (init [add_process 1 40 0 5 2 3, add_process 2 10 1 3 0 0,
        add_process 3 40 1 200 0 0])) :=
  ⟨by decide,
   (processes_hold_partitions _ (by decide) (by decide) (by decide) 4).1⟩

/-- Counterexample to C13 as stated: on the input line
`1, -2147483648, 0, 5, 0, 0` (a unique, non-negative id) the EP engine admits
the process at tick 0; at the next tick boundary it is in the running slot,
its requested size is `2147483648`, and the only partition it occupies is
partition 6, of capacity 2. -/
theorem huge_request_in_small_partition :
    (run_loop tick_EP 1 (init [huge_request])).running.state = states.RUNNING ∧
    (run_loop tick_EP 1 (init [huge_request])).running.PID = 1 ∧
    (run_loop tick_EP 1 (init [huge_request])).running.size = 2147483648 ∧
    (run_loop tick_EP 1 (init [huge_request])).mem =
      [⟨1, 40, -1⟩, ⟨2, 25, -1⟩, ⟨3, 15, -1⟩, ⟨4, 10, -1⟩, ⟨5, 8, -1⟩, ⟨6, 2, 1⟩] ∧
    ¬ partitions_ok (run_loop tick_EP 1 (init [huge_request])) := by
  have h1 : (run_loop tick_EP 1 (init [huge_request])).running.state = states.RUNNING := by
    decide
  have h2 : (run_loop tick_EP 1 (init [huge_request])).running.size = 2147483648 := by
    decide
  have h3 : (run_loop tick_EP 1 (init [huge_request])).mem =
      [⟨1, 40, -1⟩, ⟨2, 25, -1⟩, ⟨3, 15, -1⟩, ⟨4, 10, -1⟩, ⟨5, 8, -1⟩, ⟨6, 2, 1⟩] := by
    decide
  refine ⟨h1, by decide, h2, h3, ?_⟩
  intro hc
  have hrun : (run_loop tick_EP 1 (init [huge_request])).running ∈
      live (run_loop tick_EP 1 (init [huge_request])) := by
    rw [live_eq, on_cpu_of_running _ h1]
    exact List.mem_append_right _ (List.mem_singleton_self _)
  obtain ⟨i, part, hi, -, hcap, -⟩ := hc.1 _ hrun
  rw [h2] at hcap
  rw [h3] at hi
  have hmem : part ∈ [(⟨1, 40, -1⟩ : memory_partition), ⟨2, 25, -1⟩, ⟨3, 15, -1⟩,
      ⟨4, 10, -1⟩, ⟨5, 8, -1⟩, ⟨6, 2, 1⟩] := List.mem_iff_getElem?.2 ⟨i, hi⟩
  simp at hmem
  rcases hmem with h | h | h | h | h | h <;> rw [h] at hcap <;> simp at hcap

/-! ## Preemption in the round-robin engine -/

theorem preempted_at_quantum_append (rows : List Event) (e : Event)
    (hP : preempted_at_quantum rows)
    (he : e.old_state = states.RUNNING → e.new_state = states.READY →
      ∃ (rows2 : List Event) (a : Event), rows = rows2 ++ [a] ∧
        a.old_state = states.READY ∧ a.new_state = states.RUNNING ∧
        u32_sub e.time a.time = 100) :
    preempted_at_quantum (rows ++ [e]) := by
  intro i b hi ho hn
  by_cases hlt : i < rows.length
  · rw [List.getElem?_append_left hlt] at hi
    obtain ⟨a, h0, h1, h2, h3, h4⟩ := hP i b hi ho hn
    refine ⟨a, h0, ?_, h2, h3, h4⟩
    rw [List.getElem?_append_left (by omega)]
    exact h1
  · have hge : rows.length ≤ i := Nat.le_of_not_lt hlt
    rw [List.getElem?_append_right hge] at hi
    have hi0 : i - rows.length = 0 := by
      by_contra hne
      have h1 : i - rows.length = (i - rows.length - 1) + 1 := by omega
      rw [h1] at hi
      cases hi
    rw [hi0] at hi
    have hb : e = b := Option.some.inj hi
    rw [← hb] at ho hn
    obtain ⟨rows2, a, hr, h2, h3, h4⟩ := he ho hn
    have hlen : rows.length = rows2.length + 1 := by
      rw [hr, List.length_append, List.length_singleton]
    refine ⟨a, by omega, ?_, h2, h3, by rw [← hb]; exact h4⟩
    have hidx : i - 1 = rows2.length := by omega
    rw [hidx, hr, List.append_assoc, List.getElem?_append_right (Nat.le_refl _),
      Nat.sub_self]
    rfl

/-- A row that is not a preemption keeps the property of the rows of every
process. -/
theorem preempted_at_quantum_other (log : List Event) (e : Event)
    (hP : ∀ x, preempted_at_quantum (rows_of x log))
    (he : ¬ (e.old_state = states.RUNNING ∧ e.new_state = states.READY)) :
    ∀ x, preempted_at_quantum (rows_of x (log ++ [e])) := by
  intro x
  rw [rows_of_append]
  by_cases hx : e.PID = x
  · rw [if_pos hx]
    exact preempted_at_quantum_append _ e (hP x) (fun h1 h2 => absurd ⟨h1, h2⟩ he)
  · rw [if_neg hx]
    exact hP x

theorem Base_running_ne_wait {s : SimState} (hb : Base s)
    (hr : s.running.state = states.RUNNING) {p : PCB} (hp : p ∈ s.wait_queue) :
    p.PID ≠ s.running.PID := by
  intro hc
  apply Base_running_alone hb hr
  rw [← hc]
  exact List.mem_map_of_mem (fun p : PCB => p.PID) (List.mem_append_right _ hp)

theorem Base_running_ne_ready {s : SimState} (hb : Base s)
    (hr : s.running.state = states.RUNNING) {p : PCB} (hp : p ∈ s.ready_queue) :
    p.PID ≠ s.running.PID := by
  intro hc
  apply Base_running_alone hb hr
  rw [← hc]
  exact List.mem_map_of_mem (fun p : PCB => p.PID) (List.mem_append_left _ hp)

theorem Base_running_ne_list {s : SimState} (hb : Base s)
    (hr : s.running.state = states.RUNNING) {p : PCB} (hp : p ∈ s.list_processes) :
    p.PID ≠ s.running.PID := by
  intro hc
  apply Base_list_not_live hb hp
  rw [hc, live_eq, on_cpu_of_running s hr]
  exact List.mem_map_of_mem (fun p : PCB => p.PID)
    (List.mem_append_right _ (List.mem_singleton_self _))

/-- Every atomic step of the round-robin engine keeps `RRInv`. -/
theorem RRInv_step (s s2 : SimState) (hI : RRInv s) (h : Step pg_RR true s s2) :
    RRInv s2 := by
  obtain ⟨hb, hP, hR⟩ := hI
  refine ⟨Base_step s s2 hb h, ?_⟩
  have hm : (s.current_time + 1) % 2 ^ 32 < 2 ^ 32 := Nat.mod_lt _ (by norm_num)
  cases h with
  | woken a b p h hd =>
    refine ⟨preempted_at_quantum_other _ _ hP (fun hc => by cases hc.1), ?_⟩
    intro hr
    have hr2 : s.running.state = states.RUNNING := hr
    obtain ⟨hc, rows, τ, h1, h2, h3⟩ := hR hr2
    refine ⟨hc, rows, τ, ?_, h2, h3⟩
    have hne : p.PID ≠ s.running.PID :=
      Base_running_ne_wait hb hr2 (by rw [h]; exact mem_split_self a b p)
    show rows_of s.running.PID (s.execution_status ++ _) = _
    rw [rows_of_append_ne _ _ _ hne]
    exact h1
  | arrived a b p h ha hok =>
    refine ⟨preempted_at_quantum_other _ _ hP (fun hc => by cases hc.1), ?_⟩
    intro hr
    have hr2 : s.running.state = states.RUNNING := hr
    obtain ⟨hc, rows, τ, h1, h2, h3⟩ := hR hr2
    refine ⟨hc, rows, τ, ?_, h2, h3⟩
    have hne : (to_ready (assign_memory s.mem p).2.2).PID ≠ s.running.PID := by
      rw [to_ready_PID, assign_memory_PID]
      exact Base_running_ne_list hb hr2 (by rw [h]; exact mem_split_self a b p)
    show rows_of s.running.PID (s.execution_status ++ _) = _
    rw [rows_of_append_ne _ _ _ hne]
    exact h1
  | deferred a b p h ha hno => exact ⟨hP, hR⟩
  | reordered r hr => exact ⟨hP, hR⟩
  | preempted hr hg =>
    refine ⟨?_, fun hc => absurd hc idle_not_running⟩
    obtain ⟨hc, rows, τ, h1, h2, h3⟩ := hR hr
    have h100 : s.time_slice_counter = 100 := by
      have : s.time_slice_counter ≥ 100 := hg
      omega
    intro x
    show preempted_at_quantum (rows_of x (s.execution_status ++
      [Event.mk s.current_time s.running.PID states.RUNNING states.READY]))
    rw [rows_of_append]
    by_cases hx : s.running.PID = x
    · rw [if_pos hx, ← hx]
      refine preempted_at_quantum_append _ _ (hP _) (fun _ _ => ⟨rows, _, h1, rfl, rfl, ?_⟩)
      show u32_sub s.current_time τ = 100
      rw [h3, h100]
    · rw [if_neg hx]
      exact hP x
  | dispatched a b p c h hv hc =>
    refine ⟨preempted_at_quantum_other _ _ hP (fun hc => by cases hc.1), ?_⟩
    intro _
    have hc0 : c = 0 := hc rfl
    refine ⟨by show c ≤ 100; omega, rows_of p.PID s.execution_status, s.current_time, ?_,
      hb.1, ?_⟩
    · exact rows_of_append_self s.execution_status
        (Event.mk s.current_time p.PID states.READY states.RUNNING)
    · show u32_sub s.current_time s.current_time = c
      rw [u32_sub_self, hc0]
  | finished c hr h0 hw =>
    exact ⟨preempted_at_quantum_other _ _ hP (fun hc => by cases hc.2),
      fun hc => absurd hc idle_not_running⟩
  | blocked c hr h0 hio hw =>
    exact ⟨preempted_at_quantum_other _ _ hP (fun hc => by cases hc.2),
      fun hc => absurd hc idle_not_running⟩
  | worked c hr h0 hio hw hc =>
    refine ⟨hP, fun _ => ?_⟩
    obtain ⟨hlt, hcc⟩ := hc rfl
    obtain ⟨-, rows, τ, h1, h2, h3⟩ := hR hr
    refine ⟨by show c ≤ 100; omega, rows, τ, h1, h2, ?_⟩
    show u32_sub ((s.current_time + 1) % 2 ^ 32) τ = c
    rw [hcc]
    exact u32_sub_succ _ _ _ hb.1 h2 hlt h3
  | idled hr hw =>
    exact ⟨hP, fun hc => absurd hc hr⟩

theorem RRInv_init (l : List PCB) (hl : (l.map (fun p => p.PID)).Nodup) :
    RRInv (init l) := by
  refine ⟨Base_init l hl, ?_, fun hc => absurd hc idle_not_running⟩
  intro x i b hi
  cases hi

theorem sweeps_ready (s : SimState) :
    (admission (manage_wait_queue s)).ready_queue =
      s.ready_queue ++ (s.wait_queue.filter (fun p => io_done s.current_time p)).map wake ++
        (admission_result s.current_time s.mem s.list_processes).1.map (fun x => x.1) := by
  rw [admission_eq, manage_wait_queue_eq]

theorem preempt_RR_fires (s : SimState) (hr : s.running.state = states.RUNNING)
    (hc : s.time_slice_counter ≥ TIME_QUANTUM) :
    (preempt_RR s).ready_queue = s.ready_queue ++ [to_ready s.running] ∧
    (preempt_RR s).execution_status = s.execution_status ++
      [Event.mk s.current_time s.running.PID states.RUNNING states.READY] := by
  unfold preempt_RR
  rw [if_pos hr, if_pos hc]
  exact ⟨rfl, rfl⟩

theorem preempt_RR_idle (s : SimState)
    (h : ¬ (s.running.state = states.RUNNING ∧ s.time_slice_counter ≥ TIME_QUANTUM)) :
    preempt_RR s = s := by
  unfold preempt_RR
  by_cases hr : s.running.state = states.RUNNING
  · rw [if_pos hr, if_neg (fun hc => h ⟨hr, hc⟩)]
  · rw [if_neg hr]

/-- In time-ordered rows the difference of the two `unsigned int` tick values
is the difference of the ticks. -/
theorem preempted_after_quantum_of (rows : List Event) (h : preempted_at_quantum rows)
    (hord : rows.Pairwise (fun a b => a.time ≤ b.time)) : preempted_after_quantum rows := by
  intro i b hi h1 h2
  obtain ⟨a, h3, h4, h5, h6, h7⟩ := h i b hi h1 h2
  refine ⟨a, h3, h4, h5, h6, ?_⟩
  obtain ⟨hib, hb⟩ := List.getElem?_eq_some.1 hi
  obtain ⟨hia, ha⟩ := List.getElem?_eq_some.1 h4
  have hle : a.time ≤ b.time := by
    have := List.pairwise_iff_getElem.1 hord (i - 1) i hia hib (by omega)
    rw [ha, hb] at this
    exact this
  unfold u32_sub at h7
  rw [if_pos hle] at h7
  omega

/-- C19 (as amended): in the round-robin engine, for every input with
pairwise distinct ids and after any number of iterations of the loop, every
row RUNNING -> READY of a process `x` comes right after the most recent row
READY -> RUNNING of `x`, and the difference of the two `unsigned int` tick
values is exactly 100; as long as the clock has not wrapped (after any number
`n < 2 ^ 32` of iterations) its tick is the tick of that dispatch row plus
100.  The preemption check fires only when a process is running and the
counter has reached the quantum, and otherwise changes nothing; when it fires
in the iteration that starts in the state `s`, the ready queue after it is
the queue of `s`, followed by the processes woken and the processes admitted
earlier in this iteration, followed by the preempted process. -/
theorem RR_preemption_at_quantum (l : List PCB) (hl : (l.map (fun p => p.PID)).Nodup)
    (n : Nat) (x : Int) (s : SimState) :
    preempted_at_quantum (rows_of x (run_loop tick_RR n (init l)).execution_status) ∧
    (n < 2 ^ 32 →
      preempted_after_quantum (rows_of x (run_loop tick_RR n (init l)).execution_status)) ∧
    (s.running.state = states.RUNNING → s.time_slice_counter ≥ TIME_QUANTUM →
      (preempt_RR (admission (manage_wait_queue s))).ready_queue =
        s.ready_queue ++ (s.wait_queue.filter (fun p => io_done s.current_time p)).map wake ++
          (admission_result s.current_time s.mem s.list_processes).1.map (fun x => x.1) ++
          [to_ready s.running] ∧
      (preempt_RR (admission (manage_wait_queue s))).execution_status =
        (admission (manage_wait_queue s)).execution_status ++
          [Event.mk s.current_time s.running.PID states.RUNNING states.READY]) ∧
    (¬ (s.running.state = states.RUNNING ∧ s.time_slice_counter ≥ TIME_QUANTUM) →
      preempt_RR s = s) := by
  have hrows : preempted_at_quantum (rows_of x (run_loop tick_RR n (init l)).execution_status) :=
    (Steps_invariant RRInv RRInv_step (RRInv_init l hl) (Steps_run_RR l n)).2.1 x
  refine ⟨hrows, ?_, ?_, preempt_RR_idle s⟩
  · intro hn
    exact preempted_after_quantum_of _ hrows
      (List.Pairwise.sublist (List.filter_sublist _)
        (LogInv_run_loop tick_RR Tick_log_RR l n hn).1.2.1)
  · intro hr hc
    obtain ⟨-, h2, h3, h4⟩ := sweeps_keep s
    have h := preempt_RR_fires (admission (manage_wait_queue s)) (by rw [h4]; exact hr)
      (by rw [h3]; exact hc)
    rw [h4, h2, sweeps_ready] at h
    exact h

/-- Witness of `RR_preemption_at_quantum`: two processes with 250 and 150
units of work, after 400 iterations, and the sample state with process 2
running. -/
theorem RR_preemption_at_quantum_witness :
    (two_bursts.map (fun p => p.PID)).Nodup ∧
    preempted_at_quantum (rows_of 1 (run_loop tick_RR 400 (init two_bursts)).execution_status) ∧
    preempted_after_quantum
      (rows_of 1 (run_loop tick_RR 400 (init two_bursts)).execution_status) ∧
    (¬ (sample_running_state.running.state = states.RUNNING ∧
        sample_running_state.time_slice_counter ≥ TIME_QUANTUM) →
      preempt_RR sample_running_state = sample_running_state) :=
  ⟨by decide,
   (RR_preemption_at_quantum two_bursts (by decide) 400 1 sample_running_state).1,
   (RR_preemption_at_quantum two_bursts (by decide) 400 1 sample_running_state).2.1 (by decide),
   (RR_preemption_at_quantum two_bursts (by decide) 400 1 sample_running_state).2.2.2⟩

/-! ## The duration of an I/O -/

theorem wait_timed_append (d : Nat) (rows : List Event) (e : Event)
    (hP : wait_timed d rows)
    (he : ∀ a, rows.getLast? = some a → a.old_state = states.RUNNING →
      a.new_state = states.WAITING → e.old_state = states.WAITING →
      e.new_state = states.READY → e.time = (a.time + d) % 2 ^ 32) :
    wait_timed d (rows ++ [e]) := by
  intro i a b hi hi1 ha1 ha2 hb1 hb2
  by_cases hlt : i + 1 < rows.length
  · rw [List.getElem?_append_left (by omega)] at hi
    rw [List.getElem?_append_left hlt] at hi1
    exact hP i a b hi hi1 ha1 ha2 hb1 hb2
  · have hge : rows.length ≤ i + 1 := Nat.le_of_not_lt hlt
    rw [List.getElem?_append_right hge] at hi1
    have hi0 : i + 1 - rows.length = 0 := by
      by_contra hne
      have h1 : i + 1 - rows.length = (i + 1 - rows.length - 1) + 1 := by omega
      rw [h1] at hi1
      cases hi1
    rw [hi0] at hi1
    have hb : e = b := Option.some.inj hi1
    have hlen : i + 1 = rows.length := by omega
    rw [List.getElem?_append_left (by omega)] at hi
    have hlast : rows.getLast? = some a := by
      rw [List.getLast?_eq_getElem?, ← hi]
      congr 1
      omega
    rw [← hb]
    rw [← hb] at hb1 hb2
    exact he a hlast ha1 ha2 hb1 hb2

/-- A row that is not WAITING -> READY keeps the timing of the waits of every
process. -/
theorem wait_timed_other (l : List PCB) (log : List Event) (e : Event)
    (hP : ∀ p0 ∈ l, wait_timed p0.io_duration (rows_of p0.PID log))
    (he : ¬ (e.old_state = states.WAITING ∧ e.new_state = states.READY)) :
    ∀ p0 ∈ l, wait_timed p0.io_duration (rows_of p0.PID (log ++ [e])) := by
  intro p0 hp0
  rw [rows_of_append]
  by_cases hx : e.PID = p0.PID
  · rw [if_pos hx]
    exact wait_timed_append _ _ e (hP p0 hp0) (fun _ _ _ _ h1 h2 => absurd ⟨h1, h2⟩ he)
  · rw [if_neg hx]
    exact hP p0 hp0

theorem waiting_since_event {t : Nat} {log : List Event} {p : PCB} (e : Event)
    (h : waiting_since t log p) (hne : e.PID ≠ p.PID) : waiting_since t (log ++ [e]) p := by
  obtain ⟨h1, rows, h2⟩ := h
  refine ⟨h1, rows, ?_⟩
  rw [rows_of_append_ne _ _ _ hne]
  exact h2

theorem waiting_since_tick {t : Nat} {log : List Event} {p : PCB}
    (h : waiting_since t log p) (ht : t < 2 ^ 32) (hd : p.io_duration < 2 ^ 32)
    (hno : io_done t p = false) : waiting_since ((t + 1) % 2 ^ 32) log p := by
  obtain ⟨h1, h2⟩ := h
  refine ⟨?_, h2⟩
  have hlt : u32_sub t (toUnsigned p.start_time) < p.io_duration := by
    unfold io_done at hno
    have := of_decide_eq_false hno
    omega
  rw [u32_sub_step t _ ht (toUnsigned_lt _) (by omega)]
  omega

theorem wake_time (t b d : Nat) (ht : t < 2 ^ 32) (hb : b < 2 ^ 32)
    (h : u32_sub t b = d) : t = (b + d) % 2 ^ 32 := by
  unfold u32_sub at h
  split at h <;> omega

theorem nodup_split_ne {l a b : List PCB} {p x : PCB}
    (hn : (l.map (fun p => p.PID)).Nodup) (h : l = a ++ p :: b) (hx : x ∈ a ++ b) :
    x.PID ≠ p.PID := by
  rw [h, List.map_append, List.map_cons] at hn
  have h2 := (List.nodup_middle.1 hn)
  rw [List.nodup_cons] at h2
  intro hc
  apply h2.1
  rw [← hc, ← List.map_append]
  exact List.mem_map_of_mem (fun p : PCB => p.PID) hx

theorem Base_parts {s : SimState} (hb : Base s) :
    (s.list_processes.map (fun p => p.PID)).Nodup ∧
    (s.ready_queue.map (fun p => p.PID)).Nodup ∧
    (s.wait_queue.map (fun p => p.PID)).Nodup ∧
    (∀ p ∈ s.ready_queue, ∀ w ∈ s.wait_queue, p.PID ≠ w.PID) := by
  have hn := hb.2
  rw [pool, List.map_append, List.nodup_append] at hn
  obtain ⟨h1, h2, -⟩ := hn
  rw [live_eq, List.map_append, List.nodup_append] at h2
  obtain ⟨h3, -, -⟩ := h2
  rw [List.map_append, List.nodup_append] at h3
  obtain ⟨h4, h5, h6⟩ := h3
  refine ⟨h1, h4, h5, ?_⟩
  intro p hp w hw hc
  apply h6 (List.mem_map_of_mem (fun p : PCB => p.PID) hp)
  show p.PID ∈ _
  rw [hc]
  exact List.mem_map_of_mem (fun p : PCB => p.PID) hw

theorem Base_list_ne_wait {s : SimState} (hb : Base s) {p w : PCB}
    (hp : p ∈ s.list_processes) (hw : w ∈ s.wait_queue) : p.PID ≠ w.PID := by
  intro hc
  apply Base_list_not_live hb hp
  rw [hc, live_eq]
  exact List.mem_map_of_mem (fun p : PCB => p.PID)
    (List.mem_append_left _ (List.mem_append_right _ hw))

/-- Every atomic step keeps `WInv`. -/
theorem WInv_step {pg : SimState → Prop} {q : Bool} (l : List PCB)
    (hl : (l.map (fun p => p.PID)).Nodup) (hdur : ∀ p0 ∈ l, p0.io_duration < 2 ^ 32)
    (s s2 : SimState) (hI : WInv l s) (h : Step pg q s s2) : WInv l s2 := by
  obtain ⟨hb, hq, hT, hW⟩ := hI
  refine ⟨Base_step s s2 hb h, PoolQ_step (Keeps_same_spec l) hq h, ?_⟩
  have hm : (s.current_time + 1) % 2 ^ 32 < 2 ^ 32 := Nat.mod_lt _ (by norm_num)
  have hd32 : ∀ p ∈ s.wait_queue, p.io_duration < 2 ^ 32 := by
    intro p hp
    obtain ⟨p0, hp0, -, -, -, -, h5⟩ := hq p (mem_pool_wait hp)
    rw [← h5]
    exact hdur p0 hp0
  have htick : ∀ (log : List Event) (p : PCB), p ∈ s.wait_queue →
      io_done s.current_time p = false → waiting_since s.current_time log p →
      waiting_since ((s.current_time + 1) % 2 ^ 32) log p :=
    fun log p hp hno hw => waiting_since_tick hw hb.1 (hd32 p hp) hno
  cases h with
  | woken a b p h hd =>
    have hp : p ∈ s.wait_queue := by rw [h]; exact mem_split_self a b p
    obtain ⟨h1, rows, h2⟩ := hW p hp
    have hge : u32_sub s.current_time (toUnsigned p.start_time) ≥ p.io_duration := by
      unfold io_done at hd
      exact of_decide_eq_true hd
    have htime : s.current_time = (toUnsigned p.start_time + p.io_duration) % 2 ^ 32 :=
      wake_time _ _ _ hb.1 (toUnsigned_lt _) (by omega)
    refine ⟨?_, ?_⟩
    · intro p0 hp0
      show wait_timed _ (rows_of p0.PID (s.execution_status ++
        [Event.mk s.current_time p.PID states.WAITING states.READY]))
      rw [rows_of_append]
      by_cases hx : p.PID = p0.PID
      · rw [if_pos hx]
        refine wait_timed_append _ _ _ (hT p0 hp0) ?_
        intro a0 ha0 _ _ _ _
        rw [← hx, h2, List.getLast?_append, List.getLast?_singleton] at ha0
        have ha1 : a0 = Event.mk (toUnsigned p.start_time) p.PID states.RUNNING
            states.WAITING := by
          simp at ha0
          exact ha0.symm
        obtain ⟨p1, hp1, hpid, -, -, -, hdd⟩ := hq p (mem_pool_wait hp)
        have : p0 = p1 := eq_of_same_PID hl hp0 hp1 (by rw [hpid, hx])
        rw [this, hdd, ha1]
        exact htime
      · rw [if_neg hx]
        exact hT p0 hp0
    · intro p2 hp2
      have hp3 : p2 ∈ a ++ b := hp2
      refine waiting_since_event _ (hW p2 (by rw [h]; exact mem_split hp3)) ?_
      exact fun hc => nodup_split_ne (Base_parts hb).2.2.1 h hp3 hc.symm
  | arrived a b p h ha hok =>
    have hp : p ∈ s.list_processes := by rw [h]; exact mem_split_self a b p
    refine ⟨wait_timed_other l _ _ hT (fun hc => by cases hc.1), ?_⟩
    intro p2 hp2
    refine waiting_since_event _ (hW p2 hp2) ?_
    show (to_ready (assign_memory s.mem p).2.2).PID ≠ p2.PID
    rw [to_ready_PID, assign_memory_PID]
    exact Base_list_ne_wait hb hp hp2
  | deferred a b p h ha hno => exact ⟨hT, hW⟩
  | reordered r hr => exact ⟨hT, hW⟩
  | preempted hr hg =>
    refine ⟨wait_timed_other l _ _ hT (fun hc => by cases hc.1), ?_⟩
    intro p2 hp2
    exact waiting_since_event _ (hW p2 hp2)
      (fun hc => Base_running_ne_wait hb hr hp2 hc.symm)
  | dispatched a b p c h hv hc =>
    refine ⟨wait_timed_other l _ _ hT (fun hc => by cases hc.1), ?_⟩
    intro p2 hp2
    exact waiting_since_event _ (hW p2 hp2)
      ((Base_parts hb).2.2.2 p (by rw [h]; exact mem_split_self a b p) p2 hp2)
  | finished c hr h0 hw =>
    refine ⟨wait_timed_other l _ _ hT (fun hc => by cases hc.1), ?_⟩
    intro p2 hp2
    have hp3 : p2 ∈ s.wait_queue := hp2
    refine htick _ p2 hp3 (hw p2 hp3) (waiting_since_event _ (hW p2 hp3) ?_)
    show (free_memory s.mem (terminated (work s.running))).2.2.PID ≠ p2.PID
    rw [free_memory_PID]
    exact fun hc => Base_running_ne_wait hb hr hp3 hc.symm
  | blocked c hr h0 hio hw =>
    refine ⟨wait_timed_other l _ _ hT (fun hc => by cases hc.1), ?_⟩
    intro p2 hp2
    have hp3 : p2 ∈ s.wait_queue ++ [to_wait s.current_time (work s.running)] := hp2
    rcases List.mem_append.1 hp3 with h1 | h1
    · refine htick _ p2 h1 (hw p2 h1) (waiting_since_event _ (hW p2 h1) ?_)
      exact fun hc => Base_running_ne_wait hb hr h1 hc.symm
    · rw [List.mem_singleton.1 h1]
      have hst : toUnsigned (to_wait s.current_time (work s.running)).start_time =
          (s.current_time + 1) % 2 ^ 32 := toUnsigned_toInt hm
      refine ⟨?_, rows_of s.running.PID s.execution_status, ?_⟩
      · rw [hst, u32_sub_self]
        exact Nat.zero_le _
      · rw [hst]
        exact rows_of_append_self s.execution_status
          (Event.mk ((s.current_time + 1) % 2 ^ 32) s.running.PID states.RUNNING
            states.WAITING)
  | worked c hr h0 hio hw hc =>
    exact ⟨hT, fun p2 hp2 => htick _ p2 hp2 (hw p2 hp2) (hW p2 hp2)⟩
  | idled hr hw =>
    exact ⟨hT, fun p2 hp2 => htick _ p2 hp2 (hw p2 hp2) (hW p2 hp2)⟩

theorem WInv_init (l : List PCB) (hl : (l.map (fun p => p.PID)).Nodup) : WInv l (init l) := by
  refine ⟨Base_init l hl, same_spec_init l, ?_, ?_⟩
  · intro p0 _ i a b hi
    cases hi
  · intro p hp
    cases hp

theorem chain_getElem {R : Event → Event → Prop} (rows : List Event)
    (h : rows.Chain' R) (i : Nat) (a b : Event) (hi : rows[i]? = some a)
    (hi1 : rows[i + 1]? = some b) : R a b := by
  induction rows generalizing i with
  | nil => cases hi
  | cons x xs ih =>
    cases i with
    | zero =>
      have hx : x = a := by
        simp at hi
        exact hi
      cases xs with
      | nil => simp at hi1
      | cons y ys =>
        have hy : y = b := by
          simp at hi1
          exact hi1
        rw [← hx, ← hy]
        exact (List.chain'_cons.1 h).1
    | succ i =>
      rw [List.getElem?_cons_succ] at hi hi1
      exact ih (List.Chain'.tail h) i hi hi1

theorem valid_kind_of_waiting {pre : Bool} {e : Event} (h : valid_kind pre e = true)
    (h0 : e.old_state = states.WAITING) : e.new_state = states.READY := by
  unfold valid_kind at h
  have h2 := of_decide_eq_true h
  rw [h0] at h2
  rcases h2 with h2 | h2 | h2 | h2 | h2 | h2
  · cases h2.1
  · cases h2.1
  · cases h2.1
  · exact h2.2
  · cases h2.1
  · cases h2.2.1

theorem wait_lasts_of {pre : Bool} {d : Nat} {rows : List Event}
    (hf : follows_lifecycle pre rows) (ht : wait_timed d rows) : wait_lasts d rows := by
  intro i a b hi hi1 ha1 ha2
  have hold : b.old_state = states.WAITING := by
    rw [chain_getElem rows hf.2.1 i a b hi hi1]
    exact ha2
  have hb : b ∈ rows := List.mem_iff_getElem?.2 ⟨i + 1, hi1⟩
  have hnew : b.new_state = states.READY := valid_kind_of_waiting (hf.2.2.1 b hb) hold
  exact ⟨hold, hnew, ht i a b hi hi1 ha1 ha2 hold hnew⟩

theorem Life_run {pre : Bool} {s : SimState} (hL : Life pre s) (x : Int) :
    ∃ st, lifecycle_run pre (rows_of x s.execution_status) = some st ∧
      (st ≠ states.NEW → st ≠ states.TERMINATED →
        ∃ q ∈ s.job_list, q.PID = x ∧ q.state = st) := by
  by_cases hx : x ∈ (tagged s).map (fun a => a.1)
  · obtain ⟨a, ha, hax⟩ := List.mem_map.1 hx
    have hmem : (x, a.2) ∈ tagged s := by
      rw [← hax]
      exact ha
    have hrun := hL.2.1 x a.2 hmem
    refine ⟨a.2, hrun, fun hnew _ => ?_⟩
    obtain ⟨q, hq, hqx⟩ := List.mem_map.1 (hL.2.2.2.2 x a.2 hmem hnew)
    have hqx2 : q.PID = x := hqx
    refine ⟨q, hq, hqx2, ?_⟩
    have h2 := (hL.2.2.2.1 q hq).1
    rw [hqx2, hrun] at h2
    exact (Option.some.inj h2).symm
  · rcases hL.2.2.1 x hx with h | h
    · exact ⟨states.TERMINATED, h, fun _ hc => absurd rfl hc⟩
    · refine ⟨states.NEW, ?_, fun hc _ => absurd rfl hc⟩
      rw [h]
      rfl

/-- When the loop has ended no process is left in WAITING: every row
RUNNING -> WAITING has a next row. -/
theorem Life_waits_end {pre : Bool} {s : SimState} (hL : Life pre s)
    (hend : loop_cond s = false) (x : Int) : waits_end (rows_of x s.execution_status) := by
  intro i a hi _ hn
  by_contra hlt
  have hlen : i < (rows_of x s.execution_status).length := by
    by_contra hc
    rw [List.getElem?_eq_none (Nat.le_of_not_lt hc)] at hi
    cases hi
  have hlast : (rows_of x s.execution_status).getLast? = some a := by
    rw [List.getLast?_eq_getElem?, ← hi]
    congr 1
    omega
  obtain ⟨st, hrun, hjob⟩ := Life_run hL x
  have hst : a.new_state = st := by
    rcases (follows_of_run pre _ st hrun).2 with ⟨hnil, -⟩ | ⟨e, he, hes⟩
    · rw [hnil] at hi
      cases hi
    · rw [hlast] at he
      rw [← Option.some.inj he] at hes
      exact hes
  rw [hn] at hst
  obtain ⟨q, hq, -, hqs⟩ := hjob (by rw [← hst]; exact fun hc => by cases hc)
    (by rw [← hst]; exact fun hc => by cases hc)
  have hall : all_process_terminated s.job_list = true := by
    unfold loop_cond at hend
    cases h1 : all_process_terminated s.job_list with
    | true => rfl
    | false =>
      rw [h1] at hend
      cases hend
  unfold all_process_terminated at hall
  have hq2 := of_decide_eq_true (List.all_eq_true.1 hall q hq)
  rw [hqs, ← hst] at hq2
  cases hq2

theorem round_trip_of {l : List PCB} {s : SimState} (hW : WInv l s) (hL : Life true s)
    (p : PCB) (hp : p ∈ l) : io_round_trip p.io_duration p.PID s :=
  ⟨wait_lasts_of (Life_follows hL p.PID) (hW.2.2.1 p hp), fun hend => Life_waits_end hL hend _⟩

theorem round_trip_Steps {pg : SimState → Prop} {q : Bool} (l : List PCB)
    (hl : (l.map (fun p => p.PID)).Nodup) (hdur : ∀ p0 ∈ l, p0.io_duration < 2 ^ 32)
    {s : SimState} (h : Steps pg q (init l) s) (p : PCB) (hp : p ∈ l) :
    io_round_trip p.io_duration p.PID s :=
  round_trip_of (Steps_invariant (WInv l) (WInv_step l hl hdur) (WInv_init l hl) h)
    (Life_Steps true (Or.inl rfl) (Life_init true l hl) h) p hp

/-! ### A run in which the tick of the wake-up wraps -/

theorem run_loop_add (tick : SimState → SimState) (a b : Nat) (s : SimState) :
    run_loop tick (a + b) s = run_loop tick b (run_loop tick a s) := by
  induction b with
  | zero => rfl
  | succ b ih =>
    rw [← Nat.add_assoc, run_loop_succ, run_loop_succ, ih]

theorem tick_EP_idle (s : SimState) (hl : s.list_processes = []) (hr : s.ready_queue = [])
    (hw : ∀ p ∈ s.wait_queue, io_done s.current_time p = false)
    (hrun : s.running.state ≠ states.RUNNING) : tick_EP s = advance 1 s := by
  have h1 : manage_wait_queue s = s := by
    rw [manage_wait_queue_eq]
    have e1 : s.wait_queue.filter (fun p => io_done s.current_time p) = [] := by
      rw [List.filter_eq_nil_iff]
      intro p hp
      rw [hw p hp]
      exact fun hc => by cases hc
    have e2 : s.wait_queue.filter (fun p => !io_done s.current_time p) = s.wait_queue := by
      rw [List.filter_eq_self]
      intro p hp
      rw [hw p hp]
      rfl
    rw [e1, e2]
    simp
  unfold tick_EP
  rw [h1, admission_of_nil s hl, dispatch_EP_of_empty s hr, execute_EP_of_not_running s hrun]
  rfl

theorem idle_elapsed (t k d : Nat) (ht : t < 2 ^ 32) (hk : k + 1 ≤ d) (hd : d < 2 ^ 32) :
    ¬ (u32_sub ((t + k) % 2 ^ 32) t ≥ d) := by
  unfold u32_sub
  split <;> omega

/-- While the only unfinished process waits for its I/O, the iterations of
the EP engine only advance the clock. -/
theorem run_EP_waiting (s : SimState) (hl : s.list_processes = []) (hr : s.ready_queue = [])
    (hrun : s.running.state ≠ states.RUNNING) (hc : loop_cond s = true)
    (ht : s.current_time < 2 ^ 32) (k : Nat)
    (hw : ∀ p ∈ s.wait_queue, toUnsigned p.start_time = s.current_time ∧
      k ≤ p.io_duration ∧ p.io_duration < 2 ^ 32) :
    run_loop tick_EP k s = advance k s := by
  induction k with
  | zero =>
    show s = advance 0 s
    unfold advance
    rw [Nat.add_zero, Nat.mod_eq_of_lt ht]
  | succ k ih =>
    have ih2 := ih (fun p hp => ⟨(hw p hp).1, by have := (hw p hp).2.1; omega, (hw p hp).2.2⟩)
    rw [run_loop_succ, ih2, if_pos (by exact hc), tick_EP_idle (advance k s) hl hr ?_ hrun]
    · unfold advance
      show { s with current_time := ((s.current_time + k) % 2 ^ 32 + 1) % 2 ^ 32 } = _
      have : ((s.current_time + k) % 2 ^ 32 + 1) % 2 ^ 32 =
          (s.current_time + (k + 1)) % 2 ^ 32 := by omega
      rw [this]
    · intro p hp
      obtain ⟨h1, h2, h3⟩ := hw p hp
      unfold io_done
      rw [h1]
      exact decide_eq_false (idle_elapsed _ _ _ ht h2 h3)

theorem long_io_AB : run_loop tick_EP 2147483647 long_io_A = long_io_B :=
  run_EP_waiting long_io_A (by decide) (by decide) (by decide) (by decide) (by decide)
    2147483647 (by decide)

theorem long_io_CD : run_loop tick_EP 2147483647 long_io_C = long_io_D :=
  run_EP_waiting long_io_C (by decide) (by decide) (by decide) (by decide) (by decide)
    2147483647 (by decide)

theorem long_io_run : run_loop tick_EP 4294967297 (init [long_io]) = long_io_E := by
  have e : (4294967297 : Nat) = 1 + 2147483647 + 1 + 2147483647 + 1 := by norm_num
  rw [e, run_loop_add, run_loop_add, run_loop_add, run_loop_add]
  show run_loop tick_EP 1 (run_loop tick_EP 2147483647 (run_loop tick_EP 1
    (run_loop tick_EP 2147483647 long_io_A))) = long_io_E
  rw [long_io_AB]
  show run_loop tick_EP 1 (run_loop tick_EP 2147483647 long_io_C) = long_io_E
  rw [long_io_CD]
  rfl

/-- Counterexample to C12 as stated: on the input line
`1, 10, 0, 3, 1, 2147483647` the EP engine logs the second row
RUNNING -> WAITING of process 1 at tick `2147483649`; the I/O lasts
`2147483647` ticks, and the next row of the process, WAITING -> READY, carries
the tick 0, not `2147483649 + 2147483647`. -/
theorem wake_tick_wraps :
    (run_loop tick_EP 4294967297 (init [long_io])).execution_status =
      [Event.mk 0 1 states.NEW states.READY,
       Event.mk 0 1 states.READY states.RUNNING,
       Event.mk 1 1 states.RUNNING states.WAITING,
       Event.mk 2147483648 1 states.WAITING states.READY,
       Event.mk 2147483648 1 states.READY states.RUNNING,
       Event.mk 2147483649 1 states.RUNNING states.WAITING,
       Event.mk 0 1 states.WAITING states.READY,
       Event.mk 0 1 states.READY states.RUNNING,
       Event.mk 1 1 states.RUNNING states.TERMINATED] ∧
    long_io.io_duration = 2147483647 ∧
    (0 : Nat) ≠ 2147483649 + 2147483647 := by
  rw [long_io_run]
  exact ⟨by decide, by decide, by decide⟩

/-! ## The number of I/O waits of a process -/

theorem wait_count_append (x : Int) (log : List Event) (e : Event) :
    wait_count x (log ++ [e]) = wait_count x log +
      if e.PID = x ∧ e.old_state = states.RUNNING ∧ e.new_state = states.WAITING then 1
      else 0 := by
  unfold wait_count
  rw [List.countP_append]
  by_cases h : e.PID = x ∧ e.old_state = states.RUNNING ∧ e.new_state = states.WAITING
  · rw [if_pos h]
    simp [List.countP_cons, h]
  · rw [if_neg h]
    simp [List.countP_cons, h]

theorem wait_count_other (x : Int) (log : List Event) (e : Event)
    (h : ¬ (e.PID = x ∧ e.old_state = states.RUNNING ∧ e.new_state = states.WAITING)) :
    wait_count x (log ++ [e]) = wait_count x log := by
  rw [wait_count_append, if_neg h, Nat.add_zero]

/-- What a step does to the records of the unfinished processes, seen through
a function `f` of the fields that only the execution step assigns, and to the
number of waits in the log: nothing; or the running process does a unit of
work and goes on, or goes to wait, or terminates. -/
theorem Step_pool_map {α : Type} (f : PCB → α) (hf : Keyed f)
    {pg : SimState → Prop} {q : Bool} {s s2 : SimState} (h : Step pg q s s2) :
    (((pool s2).map f).Perm ((pool s).map f) ∧
      ∀ x, wait_count x s2.execution_status = wait_count x s.execution_status) ∨
    (s.running.state = states.RUNNING ∧
      ((pool s).map f).Perm
        ([f s.running] ++ (s.list_processes ++ (s.ready_queue ++ s.wait_queue)).map f) ∧
      (((work s.running).remaining_time ≠ 0 ∧ io_due (work s.running) = false ∧
          ((pool s2).map f).Perm ([f (work s.running)] ++
            (s.list_processes ++ (s.ready_queue ++ s.wait_queue)).map f) ∧
          s2.execution_status = s.execution_status) ∨
       ((work s.running).remaining_time ≠ 0 ∧ io_due (work s.running) = true ∧
          ((pool s2).map f).Perm ([f (work s.running)] ++
            (s.list_processes ++ (s.ready_queue ++ s.wait_queue)).map f) ∧
          s2.execution_status = s.execution_status ++
            [Event.mk ((s.current_time + 1) % 2 ^ 32) s.running.PID states.RUNNING
              states.WAITING]) ∨
       ((work s.running).remaining_time = 0 ∧
          ((pool s2).map f).Perm
            ((s.list_processes ++ (s.ready_queue ++ s.wait_queue)).map f) ∧
          ∀ x, wait_count x s2.execution_status = wait_count x s.execution_status))) := by
  have f1 : ∀ p, f (wake p) = f p := fun p => (hf p).1
  have f2 : ∀ t p, f (to_run t p) = f p := fun t p => (hf p).2.1 t
  have f3 : ∀ p, f (to_ready p) = f p := fun p => (hf p).2.2.1
  have f4 : ∀ t p, f (to_wait t p) = f p := fun t p => (hf p).2.2.2.1 t
  have hrun : s.running.state = states.RUNNING →
      ((pool s).map f).Perm
        ([f s.running] ++ (s.list_processes ++ (s.ready_queue ++ s.wait_queue)).map f) := by
    intro hr
    refine perm_of_multiset ?_
    rw [pool_eq, on_cpu_of_running s hr]
    simp only [List.map_append, List.map_cons, List.map_nil, ← Multiset.coe_add]
    abel
  cases h with
  | woken a b p h hd =>
    refine Or.inl ⟨perm_of_multiset ?_, fun x => wait_count_other _ _ _ (fun hc => by
      cases hc.2.1)⟩
    have h2 : s.wait_queue = a ++ ([p] ++ b) := h
    rw [pool_eq, pool_eq, h2]
    show (((s.list_processes ++ (s.ready_queue ++ [wake p] ++ (a ++ b) ++ on_cpu s)).map f :
      List α) : Multiset α) = _
    simp only [List.map_append, List.map_cons, List.map_nil, f1, ← Multiset.coe_add]
    abel
  | arrived a b p h ha hok =>
    refine Or.inl ⟨perm_of_multiset ?_, fun x => wait_count_other _ _ _ (fun hc => by
      cases hc.2.1)⟩
    have h2 : s.list_processes = a ++ ([p] ++ b) := h
    have h3 : f (to_ready (assign_memory s.mem p).2.2) = f p := by
      rw [f3, assign_memory_snd]
      exact (hf p).2.2.2.2.1 _
    rw [pool_eq, pool_eq, h2]
    show (((a ++ b ++ (s.ready_queue ++ [to_ready (assign_memory s.mem p).2.2] ++
      s.wait_queue ++ on_cpu s)).map f : List α) : Multiset α) = _
    simp only [List.map_append, List.map_cons, List.map_nil, h3, ← Multiset.coe_add]
    abel
  | deferred a b p h ha hno =>
    refine Or.inl ⟨?_, fun x => rfl⟩
    rw [pool_eq, pool_eq, h]
    show ((a ++ { p with arrival_time := (p.arrival_time + 1) % 2 ^ 32 } :: b ++
      (s.ready_queue ++ s.wait_queue ++ on_cpu s)).map f).Perm _
    simp only [List.map_append, List.map_cons, (hf p).2.2.2.2.2 _]
    exact List.Perm.refl _
  | reordered r hr =>
    refine Or.inl ⟨?_, fun x => rfl⟩
    rw [pool_eq, pool_eq]
    show ((s.list_processes ++ (r ++ s.wait_queue ++ on_cpu s)).map f).Perm _
    exact (((hr.append_right _).append_right _).append_left _).map _
  | preempted hr hg =>
    refine Or.inl ⟨perm_of_multiset ?_, fun x => wait_count_other _ _ _ (fun hc => by
      cases hc.2.2)⟩
    rw [pool_eq, pool_eq, on_cpu_of_running s hr, on_cpu_of_not_running _ idle_not_running]
    show (((s.list_processes ++ (s.ready_queue ++ [to_ready s.running] ++ s.wait_queue ++
      [])).map f : List α) : Multiset α) = _
    simp only [List.map_append, List.map_cons, List.map_nil, List.append_nil, f3,
      ← Multiset.coe_add]
    abel
  | dispatched a b p c h hv hc =>
    refine Or.inl ⟨perm_of_multiset ?_, fun x => wait_count_other _ _ _ (fun hc => by
      cases hc.2.1)⟩
    have h2 : s.ready_queue = a ++ ([p] ++ b) := h
    rw [pool_eq, pool_eq, on_cpu_of_not_running s hv, on_cpu_of_running _ (by rfl), h2]
    show (((s.list_processes ++ (a ++ b ++ s.wait_queue ++ [to_run s.current_time p])).map f :
      List α) : Multiset α) = _
    simp only [List.map_append, List.map_cons, List.map_nil, List.append_nil, f2,
      ← Multiset.coe_add]
    abel
  | finished c hr h0 hw =>
    refine Or.inr ⟨hr, hrun hr, Or.inr (Or.inr ⟨h0, ?_, fun x =>
      wait_count_other _ _ _ (fun hc => by cases hc.2.2)⟩)⟩
    rw [pool_eq, on_cpu_of_not_running _ idle_not_running]
    show ((s.list_processes ++ (s.ready_queue ++ s.wait_queue ++ [])).map f).Perm _
    rw [List.append_nil]
  | blocked c hr h0 hio hw =>
    refine Or.inr ⟨hr, hrun hr, Or.inr (Or.inl ⟨h0, hio, perm_of_multiset ?_, rfl⟩)⟩
    rw [pool_eq, on_cpu_of_not_running _ idle_not_running]
    show (((s.list_processes ++ (s.ready_queue ++
      (s.wait_queue ++ [to_wait s.current_time (work s.running)]) ++ [])).map f :
      List α) : Multiset α) = _
    simp only [List.map_append, List.map_cons, List.map_nil, List.append_nil, f4,
      ← Multiset.coe_add]
    abel
  | worked c hr h0 hio hw hc =>
    refine Or.inr ⟨hr, hrun hr, Or.inl ⟨h0, hio, perm_of_multiset ?_, rfl⟩⟩
    rw [pool_eq, on_cpu_of_running _ (by exact hr)]
    show (((s.list_processes ++ (s.ready_queue ++ s.wait_queue ++ [work s.running])).map f :
      List α) : Multiset α) = _
    simp only [List.map_append, List.map_cons, List.map_nil, ← Multiset.coe_add]
    abel
  | idled hr hw =>
    exact Or.inl ⟨List.Perm.refl _, fun x => rfl⟩

theorem Keyed_key : Keyed key :=
  fun _ => ⟨rfl, fun _ => rfl, rfl, fun _ => rfl, fun _ => rfl, fun _ => rfl⟩

theorem div_succ_of_not_dvd (a f : Nat) (h : ¬ (f > 0 ∧ (a + 1) % f = 0)) :
    (a + 1) / f = a / f := by
  rw [Nat.succ_div]
  by_cases hf : f = 0
  · subst hf
    simp
  · have hd : ¬ f ∣ a + 1 := by
      intro hc
      exact h ⟨Nat.pos_of_ne_zero hf, Nat.mod_eq_zero_of_dvd hc⟩
    rw [if_neg hd, Nat.add_zero]

theorem div_succ_of_dvd (a f : Nat) (h : (a + 1) % f = 0) :
    (a + 1) / f = a / f + 1 := by
  rw [Nat.succ_div, if_pos (Nat.dvd_of_mod_eq_zero h)]

theorem io_due_iff (r : PCB) (h1 : r.remaining_time ≤ r.processing_time)
    (h2 : r.processing_time < 2 ^ 32) :
    io_due r = true ↔
      (r.io_freq > 0 ∧ (r.processing_time - r.remaining_time) % r.io_freq = 0) := by
  unfold io_due
  have e1 : u32_sub r.processing_time r.remaining_time =
      r.processing_time - r.remaining_time := by
    unfold u32_sub
    rw [if_pos h1]
  rw [e1, toUnsigned_toInt (by omega), decide_eq_true_iff]

theorem map_key_PID (l : List PCB) :
    l.map (fun p => p.PID) = (l.map key).map (fun k => k.1) := by
  rw [List.map_map]
  rfl

theorem counted_work {log log2 : List Event} {r : PCB} (h : counted log (key r))
    (h0 : (work r).remaining_time ≠ 0)
    (hc : wait_count r.PID log2 = wait_count r.PID log +
      if io_due (work r) = true then 1 else 0) :
    counted log2 (key (work r)) := by
  obtain ⟨h1, h2, h3, h4⟩ := h
  have h1' : 1 ≤ r.remaining_time := h1
  have h2' : r.remaining_time ≤ r.processing_time := h2
  have h3' : r.processing_time < 2 ^ 32 := h3
  have h4' : wait_count r.PID log = (r.processing_time - r.remaining_time) / r.io_freq := h4
  have hrem : (work r).remaining_time + 1 = r.remaining_time := work_remaining r h1'
  have hw1 : 1 ≤ (work r).remaining_time := Nat.pos_of_ne_zero h0
  have hw2 : (work r).remaining_time ≤ (work r).processing_time := by
    show (work r).remaining_time ≤ r.processing_time
    omega
  have hio := io_due_iff (work r) hw2 h3'
  have hsub : (work r).processing_time - (work r).remaining_time =
      (r.processing_time - r.remaining_time) + 1 := by
    show r.processing_time - (work r).remaining_time = _
    omega
  refine ⟨hw1, hw2, h3', ?_⟩
  show wait_count r.PID log2 =
    ((work r).processing_time - (work r).remaining_time) / r.io_freq
  rw [hc, h4', hsub]
  rw [hsub] at hio
  by_cases hd : io_due (work r) = true
  · rw [if_pos hd]
    exact (div_succ_of_dvd _ _ (hio.1 hd).2).symm
  · rw [if_neg hd, Nat.add_zero]
    exact (div_succ_of_not_dvd _ _ (fun hc2 => hd (hio.2 hc2))).symm

/-- Every atomic step keeps `NInv`. -/
theorem NInv_step {pg : SimState → Prop} {q : Bool} (l : List PCB)
    (hl : (l.map (fun p => p.PID)).Nodup) (s s2 : SimState) (hI : NInv l s)
    (h : Step pg q s s2) : NInv l s2 := by
  obtain ⟨hb, hq, hK, hT⟩ := hI
  refine ⟨Base_step s s2 hb h, PoolQ_step (Keeps_same_spec l) hq h, ?_⟩
  rcases Step_pool_map key Keyed_key h with ⟨hperm, hcount⟩ | ⟨hr, hperm, hcase⟩
  · refine ⟨?_, ?_⟩
    · intro k hk
      have hk2 := hK k (hperm.mem_iff.1 hk)
      unfold counted at hk2 ⊢
      rw [hcount]
      exact hk2
    · intro p0 hp0 hnot
      rw [hcount]
      refine hT p0 hp0 (fun hc => hnot ?_)
      rw [map_key_PID] at hc ⊢
      exact ((hperm.map _).mem_iff).2 hc
  · have hKr : counted s.execution_status (key s.running) :=
      hK _ (hperm.mem_iff.2 (List.mem_append_left _ (List.mem_singleton_self _)))
    have hnd : (([key s.running] ++
        (s.list_processes ++ (s.ready_queue ++ s.wait_queue)).map key).map
          (fun k => k.1)).Nodup := by
      have := hb.2
      rw [map_key_PID] at this
      exact (List.Perm.nodup_iff (hperm.map _)).1 this
    have hnot_rest : ∀ k ∈ (s.list_processes ++ (s.ready_queue ++ s.wait_queue)).map key,
        k.1 ≠ s.running.PID := by
      intro k hk hc
      rw [List.map_append, List.nodup_append] at hnd
      exact hnd.2.2 (List.mem_singleton_self _)
        (by
          show s.running.PID ∈ _
          rw [← hc]
          exact List.mem_map_of_mem (fun k : Int × Nat × Nat × Nat => k.1) hk)
    have hpool_iff : ∀ x, x ∈ (pool s).map (fun p => p.PID) ↔
        (x = s.running.PID ∨
          x ∈ ((s.list_processes ++ (s.ready_queue ++ s.wait_queue)).map key).map
            (fun k => k.1)) := by
      intro x
      rw [map_key_PID, (hperm.map _).mem_iff, List.map_append, List.mem_append]
      simp only [List.map_cons, List.map_nil, List.mem_singleton]
      rfl
    rcases hcase with ⟨h0, hio, hperm2, hlog⟩ | ⟨h0, hio, hperm2, hlog⟩ |
      ⟨h0, hperm2, hcount⟩
    · refine ⟨?_, ?_⟩
      · intro k hk
        rcases List.mem_append.1 (hperm2.mem_iff.1 hk) with h1 | h1
        · rw [List.mem_singleton.1 h1]
          refine counted_work hKr h0 ?_
          rw [hlog, if_neg (by rw [hio]; exact fun hc => by cases hc), Nat.add_zero]
        · rw [hlog]
          exact hK k (hperm.mem_iff.2 (List.mem_append_right _ h1))
      · intro p0 hp0 hnot
        rw [hlog]
        refine hT p0 hp0 (fun hc => hnot ?_)
        rw [map_key_PID, (hperm2.map _).mem_iff, List.map_append, List.mem_append]
        rcases (hpool_iff _).1 hc with h1 | h1
        · left
          rw [h1]
          exact List.mem_singleton_self _
        · exact Or.inr h1
    · refine ⟨?_, ?_⟩
      · intro k hk
        rcases List.mem_append.1 (hperm2.mem_iff.1 hk) with h1 | h1
        · rw [List.mem_singleton.1 h1]
          refine counted_work hKr h0 ?_
          rw [hlog, if_pos hio, wait_count_append, if_pos ⟨rfl, rfl, rfl⟩]
        · have hk2 := hK k (hperm.mem_iff.2 (List.mem_append_right _ h1))
          unfold counted at hk2 ⊢
          rw [hlog, wait_count_other _ _ _ (fun hc => hnot_rest k h1 hc.1.symm)]
          exact hk2
      · intro p0 hp0 hnot
        have hne : p0.PID ≠ s.running.PID := by
          intro hc
          apply hnot
          rw [map_key_PID, (hperm2.map _).mem_iff, List.map_append, List.mem_append, hc]
          left
          exact List.mem_singleton_self _
        rw [hlog, wait_count_other _ _ _ (fun hc => hne hc.1.symm)]
        refine hT p0 hp0 (fun hc => hnot ?_)
        rw [map_key_PID, (hperm2.map _).mem_iff, List.map_append, List.mem_append]
        rcases (hpool_iff _).1 hc with h1 | h1
        · exact absurd h1 hne
        · exact Or.inr h1
    · refine ⟨?_, ?_⟩
      · intro k hk
        have hk2 := hK k (hperm.mem_iff.2 (List.mem_append_right _ (hperm2.mem_iff.1 hk)))
        unfold counted at hk2 ⊢
        rw [hcount]
        exact hk2
      · intro p0 hp0 hnot
        rw [hcount]
        by_cases hc : p0.PID = s.running.PID
        · obtain ⟨h1, h2, h3, h4⟩ := hKr
          have h1' : 1 ≤ s.running.remaining_time := h1
          have h4' : wait_count s.running.PID s.execution_status =
              (s.running.processing_time - s.running.remaining_time) / s.running.io_freq := h4
          have hone : s.running.remaining_time = 1 := last_unit_of_work _ h1' h0
          obtain ⟨p1, hp1, hpid, -, hT1, hf1, -⟩ := hq _ (mem_pool_running hr)
          have : p0 = p1 := eq_of_same_PID hl hp0 hp1 (by rw [hpid, hc])
          rw [hc, h4', hone, this, hT1, hf1]
        · refine hT p0 hp0 (fun hc2 => hnot ?_)
          rw [map_key_PID, (hperm2.map _).mem_iff]
          rcases (hpool_iff _).1 hc2 with h1 | h1
          · exact absurd h1 hc
          · exact h1

theorem NInv_init (l : List PCB) (hl : (l.map (fun p => p.PID)).Nodup)
    (hin : ∀ p ∈ l, 1 ≤ p.processing_time ∧ p.processing_time < 2 ^ 32 ∧
      p.remaining_time = p.processing_time) : NInv l (init l) := by
  refine ⟨Base_init l hl, same_spec_init l, ?_, ?_⟩
  · intro k hk
    rw [pool_init] at hk
    obtain ⟨p, hp, hpk⟩ := List.mem_map.1 hk
    obtain ⟨h1, h2, h3⟩ := hin p hp
    rw [← hpk]
    refine ⟨by show 1 ≤ p.remaining_time; omega, by show p.remaining_time ≤ p.processing_time; omega,
      h2, ?_⟩
    show wait_count p.PID [] = (p.processing_time - p.remaining_time) / p.io_freq
    rw [h3, Nat.sub_self, Nat.zero_div]
    rfl
  · intro p0 hp0 hnot
    exfalso
    apply hnot
    rw [pool_init]
    exact List.mem_map_of_mem (fun p : PCB => p.PID) hp0

/-- When the loop has ended no process is unfinished. -/
theorem Life_pool_end {pre : Bool} {s : SimState} (hL : Life pre s)
    (hend : loop_cond s = false) (x : Int) : x ∉ (pool s).map (fun p => p.PID) := by
  intro hc
  obtain ⟨p, hp, hpx⟩ := List.mem_map.1 hc
  have hpx2 : p.PID = x := hpx
  have hall : all_process_terminated s.job_list = true ∧ s.list_processes.isEmpty = true := by
    unfold loop_cond at hend
    cases h1 : all_process_terminated s.job_list <;> cases h2 : s.list_processes.isEmpty <;>
      rw [h1, h2] at hend <;> first | exact ⟨rfl, rfl⟩ | cases hend
  have hlist : s.list_processes = [] := List.isEmpty_iff.1 hall.2
  obtain ⟨st, hst, hne⟩ := tagged_of_pool hp
  have hrun := hL.2.1 p.PID st hst
  by_cases hnew : st = states.NEW
  · rw [hnew, tagged_eq, hlist] at hst
    simp only [List.map_nil, List.nil_append, List.mem_append, List.mem_map] at hst
    rcases hst with ⟨a, -, ha⟩ | ⟨a, -, ha⟩ | ⟨a, -, ha⟩
    · cases congrArg Prod.snd ha
    · cases congrArg Prod.snd ha
    · cases congrArg Prod.snd ha
  · obtain ⟨q, hq, hqx⟩ := List.mem_map.1 (hL.2.2.2.2 p.PID st hst hnew)
    have hqx2 : q.PID = p.PID := hqx
    have h2 := (hL.2.2.2.1 q hq).1
    rw [hqx2, hrun] at h2
    have hq2 := of_decide_eq_true (List.all_eq_true.1 hall.1 q hq)
    rw [hq2] at h2
    exact hne (Option.some.inj h2)

theorem NInv_Life_run_EP (l : List PCB) (hl : counting_input l) (n : Nat) :
    NInv l (run_loop tick_EP n (init l)) ∧ Life false (run_loop tick_EP n (init l)) :=
  ⟨Steps_invariant (NInv l) (NInv_step l hl.1) (NInv_init l hl.1 hl.2) (Steps_run_EP l n),
   Life_Steps false (Or.inr (fun _ h => h)) (Life_init false l hl.1) (Steps_run_EP l n)⟩

/-- C11 (as amended): in the EP engine, for every input with pairwise
distinct ids and processing times above 0, and every process `p` of it with
I/O frequency `f > 0` and total processing time `T`: once the loop has ended,
and already once `p` is TERMINATED in the job list, the transition log has
exactly `(T - 1) / f` rows RUNNING -> WAITING of `p` (rounded down); and on
the inputs of the progress property the loop does end. -/
theorem EP_number_of_waits (l : List PCB) (hl : counting_input l) (p : PCB) (hp : p ∈ l)
    (_hf : 0 < p.io_freq) :
    (∀ n, loop_cond (run_loop tick_EP n (init l)) = false →
      wait_count p.PID (run_loop tick_EP n (init l)).execution_status =
        (p.processing_time - 1) / p.io_freq) ∧
    (∀ n, (∃ q ∈ (run_loop tick_EP n (init l)).job_list,
        q.PID = p.PID ∧ q.state = states.TERMINATED) →
      wait_count p.PID (run_loop tick_EP n (init l)).execution_status =
        (p.processing_time - 1) / p.io_freq) ∧
    (progress_input l → ∃ n, loop_cond (run_loop tick_EP n (init l)) = false) := by
  refine ⟨?_, ?_, ?_⟩
  · intro n hend
    obtain ⟨hN, hL⟩ := NInv_Life_run_EP l hl n
    exact hN.2.2.2 p hp (Life_pool_end hL hend p.PID)
  · intro n hq
    obtain ⟨q, hq1, hq2, hq3⟩ := hq
    obtain ⟨hN, hL⟩ := NInv_Life_run_EP l hl n
    refine hN.2.2.2 p hp ?_
    rw [← hq2]
    exact Life_terminated hL hq1 hq3
  · intro hprog
    have h : all_terminate (tick_of dispatch_EP execute_EP) l :=
      all_terminate_of _ l hprog
        (fun _ hinv hc => tick_of_progress Sched_ok_EP Exec_ok_EP hinv hc)
    rw [← tick_EP_eq] at h
    obtain ⟨n, hn, -⟩ := h
    exact ⟨n, hn⟩

/-- Witness of `EP_number_of_waits`: ten units of work with an I/O after
every third make three waits. -/
theorem EP_number_of_waits_witness :
    counting_input [add_process 1 10 0 10 3 1] ∧
    (∀ n, loop_cond (run_loop tick_EP n (init [add_process 1 10 0 10 3 1])) = false →
      wait_count 1 (run_loop tick_EP n (init [add_process 1 10 0 10 3 1])).execution_status =
        (10 - 1) / 3) :=
  ⟨by unfold counting_input; decide,
   (EP_number_of_waits [add_process 1 10 0 10 3 1] (by unfold counting_input; decide)
      (add_process 1 10 0 10 3 1) (List.mem_cons_self _ _) (by decide)).1⟩

/-- Counterexample to C11 as stated: on the input line `1, 10, 0, 10, 5, 1`
the EP run ends after 11 iterations with process 1 TERMINATED, and the log has
one row RUNNING -> WAITING of process 1, not `10 / 5 = 2`: after the tenth
unit of work the process terminates, and the I/O test is not reached. -/
theorem ten_by_five_waits_once :
    loop_cond (run_loop tick_EP 11 (init [ten_by_five])) = false ∧
    (run_loop tick_EP 11 (init [ten_by_five])).execution_status =
      [Event.mk 0 1 states.NEW states.READY,
       Event.mk 0 1 states.READY states.RUNNING,
       Event.mk 5 1 states.RUNNING states.WAITING,
       Event.mk 6 1 states.WAITING states.READY,
       Event.mk 6 1 states.READY states.RUNNING,
       Event.mk 11 1 states.RUNNING states.TERMINATED] ∧
    wait_count 1 (run_loop tick_EP 11 (init [ten_by_five])).execution_status = 1 ∧
    ten_by_five.processing_time / ten_by_five.io_freq = 2 := by
  decide

/-! ### Every I/O ends -/

theorem rows_of_app (x : Int) (l1 l2 : List Event) :
    rows_of x (l1 ++ l2) = rows_of x l1 ++ rows_of x l2 := by
  unfold rows_of
  rw [List.filter_append]

/-- The rows of one iteration: first the wake-up rows of the processes whose
I/O has ended. -/
theorem tick_of_log {sched exec : SimState → SimState} (hs : Sched_log sched)
    (he : Exec_log exec) (s : SimState) :
    ∃ rest, (tick_of sched exec s).execution_status =
      s.execution_status ++
        (s.wait_queue.filter (fun p => io_done s.current_time p)).map
          (fun p => Event.mk s.current_time (wake p).PID states.WAITING states.READY) ++
        rest := by
  obtain ⟨pre, dis, b1, -⟩ := hs (admission (manage_wait_queue s))
  obtain ⟨ex, c1, -⟩ := he (sched (admission (manage_wait_queue s)))
  have a1 : (admission (manage_wait_queue s)).execution_status =
      s.execution_status ++
        (s.wait_queue.filter (fun p => io_done s.current_time p)).map
          (fun p => Event.mk s.current_time (wake p).PID states.WAITING states.READY) ++
        (admission_result s.current_time s.mem s.list_processes).1.map
          (fun x => Event.mk s.current_time x.1.PID states.NEW states.READY) := by
    rw [admission_eq, manage_wait_queue_eq]
  refine ⟨(admission_result s.current_time s.mem s.list_processes).1.map
      (fun x => Event.mk s.current_time x.1.PID states.NEW states.READY) ++ pre ++ dis ++ ex, ?_⟩
  show (exec (sched (admission (manage_wait_queue s)))).execution_status = _
  rw [c1, b1, a1]
  simp only [List.append_assoc]

theorem tick_of_wakes {sched exec : SimState → SimState} (hs : Sched_log sched)
    (he : Exec_log exec) (s : SimState) (p : PCB) (hp : p ∈ s.wait_queue)
    (hd : io_done s.current_time p = true) :
    (rows_of p.PID s.execution_status).length <
      (rows_of p.PID (tick_of sched exec s).execution_status).length := by
  obtain ⟨rest, hlog⟩ := tick_of_log hs he s
  rw [hlog, rows_of_app, rows_of_app, List.length_append, List.length_append]
  have hmem : Event.mk s.current_time (wake p).PID states.WAITING states.READY ∈
      rows_of p.PID ((s.wait_queue.filter (fun p => io_done s.current_time p)).map
        (fun p => Event.mk s.current_time (wake p).PID states.WAITING states.READY)) := by
    unfold rows_of
    rw [List.mem_filter]
    refine ⟨List.mem_map.2 ⟨p, List.mem_filter.2 ⟨hp, hd⟩, rfl⟩, ?_⟩
    exact decide_eq_true rfl
  have := List.length_pos_of_mem hmem
  omega

theorem tick_of_rows_prefix {sched exec : SimState → SimState} (hs : Sched_log sched)
    (he : Exec_log exec) (s : SimState) (x : Int) :
    ∃ extra, rows_of x (tick_of sched exec s).execution_status =
      rows_of x s.execution_status ++ extra := by
  obtain ⟨rest, hlog⟩ := tick_of_log hs he s
  rw [hlog, List.append_assoc, rows_of_app]
  exact ⟨_, rfl⟩

theorem run_rows_prefix {sched exec : SimState → SimState} (hs : Sched_log sched)
    (he : Exec_log exec) (x : Int) (s : SimState) (k : Nat) :
    ∃ extra, rows_of x (run_loop (tick_of sched exec) k s).execution_status =
      rows_of x s.execution_status ++ extra := by
  induction k with
  | zero => exact ⟨[], by rw [List.append_nil]; rfl⟩
  | succ k ih =>
    obtain ⟨e1, h1⟩ := ih
    rw [run_loop_succ]
    by_cases hc : loop_cond (run_loop (tick_of sched exec) k s) = true
    · rw [if_pos hc]
      obtain ⟨e2, h2⟩ := tick_of_rows_prefix hs he (run_loop (tick_of sched exec) k s) x
      exact ⟨e1 ++ e2, by rw [h2, h1, List.append_assoc]⟩
    · rw [if_neg hc]
      exact ⟨e1, h1⟩

/-- A process whose last row is RUNNING -> WAITING is in the wait queue. -/
theorem Life_waiting {pre : Bool} {s : SimState} (hL : Life pre s) (x : Int)
    (h : lifecycle_run pre (rows_of x s.execution_status) = some states.WAITING) :
    ∃ p ∈ s.wait_queue, p.PID = x := by
  by_cases hx : x ∈ (tagged s).map (fun a => a.1)
  · obtain ⟨a, ha, hax⟩ := List.mem_map.1 hx
    have hax2 : a.1 = x := hax
    have hmem : (x, a.2) ∈ tagged s := by
      rw [← hax2]
      exact ha
    have hrun := hL.2.1 x a.2 hmem
    rw [h] at hrun
    have hst : a.2 = states.WAITING := (Option.some.inj hrun).symm
    rw [hst, tagged_eq] at hmem
    simp only [List.mem_append, List.mem_map] at hmem
    rcases hmem with ⟨p, -, hp⟩ | ⟨p, -, hp⟩ | ⟨p, hp1, hp⟩ | ⟨p, -, hp⟩
    · cases congrArg Prod.snd hp
    · cases congrArg Prod.snd hp
    · exact ⟨p, hp1, congrArg Prod.fst hp⟩
    · cases congrArg Prod.snd hp
  · rcases hL.2.2.1 x hx with h1 | h1
    · rw [h] at h1
      cases h1
    · rw [h1] at h
      cases h

/-- What the invariants say of a process `p0` of the input whose last row is
RUNNING -> WAITING: the loop goes on, and the record of the process is in the
wait queue, with the tick of that row as its start time and at most the I/O
duration of ticks elapsed. -/
theorem waiting_facts {l : List PCB} {s : SimState} (hl : (l.map (fun p => p.PID)).Nodup)
    (hW : WInv l s) (hL : Life true s) (p0 : PCB) (hp0 : p0 ∈ l) (a : Event)
    (hlast : (rows_of p0.PID s.execution_status).getLast? = some a)
    (hn : a.new_state = states.WAITING) :
    loop_cond s = true ∧
    ∃ p ∈ s.wait_queue, p.PID = p0.PID ∧ p.io_duration = p0.io_duration ∧
      toUnsigned p.start_time = a.time ∧
      u32_sub s.current_time a.time ≤ p0.io_duration := by
  obtain ⟨st, hrun, hjob⟩ := Life_run hL p0.PID
  have hst : st = states.WAITING := by
    rcases (follows_of_run true _ st hrun).2 with ⟨hnil, -⟩ | ⟨e, he, hes⟩
    · rw [hnil] at hlast
      cases hlast
    · rw [hlast] at he
      rw [← Option.some.inj he, hn] at hes
      exact hes.symm
  rw [hst] at hrun hjob
  obtain ⟨q, hq, -, hqs⟩ := hjob (fun hc => by cases hc) (fun hc => by cases hc)
  have hloop : loop_cond s = true := by
    exact Bool.or_eq_true_iff.2 (Or.inl (by
      have h2 : all_process_terminated s.job_list = false := by
        unfold all_process_terminated
        rw [List.all_eq_false]
        exact ⟨q, hq, by rw [decide_eq_true_iff, hqs]; exact fun hc => by cases hc⟩
      rw [h2]
      rfl))
  obtain ⟨p, hp, hpx⟩ := Life_waiting hL p0.PID hrun
  obtain ⟨h1, rows, h2⟩ := hW.2.2.2 p hp
  obtain ⟨p1, hp1, hpid, -, -, -, hdd⟩ := hW.2.1 p (mem_pool_wait hp)
  have hp01 : p0 = p1 := eq_of_same_PID hl hp0 hp1 (by rw [hpid, hpx])
  have ha : a = Event.mk (toUnsigned p.start_time) p.PID states.RUNNING states.WAITING := by
    rw [← hpx, h2, List.getLast?_append, List.getLast?_singleton] at hlast
    simp at hlast
    exact hlast.symm
  refine ⟨hloop, p, hp, hpx, by rw [hp01, hdd], by rw [ha], ?_⟩
  rw [ha, hp01, hdd]
  exact h1

/-- The induction behind the end of an I/O, on the number of ticks that are
left of it. -/
theorem wait_ends {sched exec : SimState → SimState} (hs : Sched_log sched)
    (he : Exec_log exec) (l : List PCB) (hl : (l.map (fun p => p.PID)).Nodup)
    (hdur : ∀ p ∈ l, p.io_duration < 2 ^ 32)
    (hinv : ∀ n, WInv l (run_loop (tick_of sched exec) n (init l)) ∧
      Life true (run_loop (tick_of sched exec) n (init l)))
    (p0 : PCB) (hp0 : p0 ∈ l) :
    ∀ (m n : Nat) (a : Event),
      (rows_of p0.PID (run_loop (tick_of sched exec) n (init l)).execution_status).getLast? =
        some a →
      a.new_state = states.WAITING →
      p0.io_duration -
        u32_sub (run_loop (tick_of sched exec) n (init l)).current_time a.time = m →
      ∃ j, (rows_of p0.PID
          (run_loop (tick_of sched exec) n (init l)).execution_status).length <
        (rows_of p0.PID
          (run_loop (tick_of sched exec) (n + j) (init l)).execution_status).length := by
  intro m
  induction m with
  | zero =>
    intro n a hlast hn hm
    obtain ⟨hloop, p, hp, hpx, hpd, hstart, hle⟩ :=
      waiting_facts hl (hinv n).1 (hinv n).2 p0 hp0 a hlast hn
    have hd : io_done (run_loop (tick_of sched exec) n (init l)).current_time p = true := by
      unfold io_done
      rw [hstart, hpd]
      exact decide_eq_true (by omega)
    refine ⟨1, ?_⟩
    rw [run_loop_succ, if_pos hloop, ← hpx]
    exact tick_of_wakes hs he _ p hp hd
  | succ m ih =>
    intro n a hlast hn hm
    obtain ⟨hloop, p, hp, hpx, hpd, hstart, hle⟩ :=
      waiting_facts hl (hinv n).1 (hinv n).2 p0 hp0 a hlast hn
    have hnext : run_loop (tick_of sched exec) (n + 1) (init l) =
        tick_of sched exec (run_loop (tick_of sched exec) n (init l)) := by
      rw [run_loop_succ, if_pos hloop]
    obtain ⟨extra, hext⟩ :=
      tick_of_rows_prefix hs he (run_loop (tick_of sched exec) n (init l)) p0.PID
    cases extra with
    | cons e es =>
      refine ⟨1, ?_⟩
      rw [hnext, hext, List.length_append, List.length_cons]
      omega
    | nil =>
      rw [List.append_nil] at hext
      have hlast2 : (rows_of p0.PID
          (run_loop (tick_of sched exec) (n + 1) (init l)).execution_status).getLast? =
          some a := by
        rw [hnext, hext]
        exact hlast
      have htime : (run_loop (tick_of sched exec) (n + 1) (init l)).current_time =
          ((run_loop (tick_of sched exec) n (init l)).current_time + 1) % 2 ^ 32 := by
        rw [hnext]
        rfl
      have hd32 := hdur p0 hp0
      have hat : a.time < 2 ^ 32 := by
        rw [← hstart]
        exact toUnsigned_lt _
      have hm2 : p0.io_duration -
          u32_sub (run_loop (tick_of sched exec) (n + 1) (init l)).current_time a.time = m := by
        rw [htime, u32_sub_step _ _ (hinv n).1.1.1 hat (by omega)]
        omega
      obtain ⟨j, hj⟩ := ih (n + 1) a hlast2 hn hm2
      refine ⟨1 + j, ?_⟩
      rw [← Nat.add_assoc]
      rw [hnext, hext] at hj
      exact hj

theorem io_completes_of {sched exec : SimState → SimState} (hs : Sched_log sched)
    (he : Exec_log exec) (l : List PCB) (hl : (l.map (fun p => p.PID)).Nodup)
    (hdur : ∀ p ∈ l, p.io_duration < 2 ^ 32)
    (hinv : ∀ n, WInv l (run_loop (tick_of sched exec) n (init l)) ∧
      Life true (run_loop (tick_of sched exec) n (init l)))
    (p0 : PCB) (hp0 : p0 ∈ l) :
    io_completes (tick_of sched exec) l p0.io_duration p0.PID := by
  intro n i a hi ho hn
  have hlasts : ∀ k, wait_lasts p0.io_duration
      (rows_of p0.PID (run_loop (tick_of sched exec) k (init l)).execution_status) :=
    fun k => (round_trip_of (hinv k).1 (hinv k).2 p0 hp0).1
  have hilt : i < (rows_of p0.PID
      (run_loop (tick_of sched exec) n (init l)).execution_status).length := by
    by_contra hc
    rw [List.getElem?_eq_none (Nat.le_of_not_lt hc)] at hi
    cases hi
  have hfin : ∀ k, (rows_of p0.PID
      (run_loop (tick_of sched exec) k (init l)).execution_status)[i]? = some a →
      i + 1 < (rows_of p0.PID
        (run_loop (tick_of sched exec) k (init l)).execution_status).length →
      ∃ (m : Nat) (b : Event),
        (rows_of p0.PID (run_loop (tick_of sched exec) m (init l)).execution_status)[i]? =
          some a ∧
        (rows_of p0.PID
          (run_loop (tick_of sched exec) m (init l)).execution_status)[i + 1]? = some b ∧
        b.old_state = states.WAITING ∧ b.new_state = states.READY ∧
        b.time = (a.time + p0.io_duration) % 2 ^ 32 := by
    intro k hk hlt
    obtain ⟨b, hb⟩ : ∃ b, (rows_of p0.PID
        (run_loop (tick_of sched exec) k (init l)).execution_status)[i + 1]? = some b :=
      ⟨_, List.getElem?_eq_getElem hlt⟩
    obtain ⟨h1, h2, h3⟩ := hlasts k i a b hk hb ho hn
    exact ⟨k, b, hk, hb, h1, h2, h3⟩
  by_cases hlt : i + 1 < (rows_of p0.PID
      (run_loop (tick_of sched exec) n (init l)).execution_status).length
  · exact hfin n hi hlt
  · have hlast : (rows_of p0.PID
        (run_loop (tick_of sched exec) n (init l)).execution_status).getLast? = some a := by
      rw [List.getLast?_eq_getElem?, ← hi]
      congr 1
      omega
    obtain ⟨j, hj⟩ := wait_ends hs he l hl hdur hinv p0 hp0 _ n a hlast hn rfl
    obtain ⟨extra, hext⟩ := run_rows_prefix hs he p0.PID
      (run_loop (tick_of sched exec) n (init l)) j
    rw [← run_loop_add] at hext
    refine hfin (n + j) ?_ (by omega)
    rw [hext, List.getElem?_append_left hilt]
    exact hi

theorem run_invariants {pg : SimState → Prop} {q : Bool} (l : List PCB)
    (hl : (l.map (fun p => p.PID)).Nodup) (hdur : ∀ p0 ∈ l, p0.io_duration < 2 ^ 32)
    {s : SimState} (h : Steps pg q (init l) s) : WInv l s ∧ Life true s :=
  ⟨Steps_invariant (WInv l) (WInv_step l hl hdur) (WInv_init l hl) h,
   Life_Steps true (Or.inl rfl) (Life_init true l hl) h⟩

/-- C12 (as amended): in each of the three engines, for every input with
pairwise distinct ids whose I/O durations are `unsigned int` values, and for
every process `p` of the input with the I/O duration `d`: after any number `n`
of iterations of the loop, the next row of `p` in the transition log after a
row RUNNING -> WAITING of `p` with the tick `t` is WAITING -> READY with the
tick `(t + d) mod 2 ^ 32` (the same tick for `d = 0`), and once the loop has
ended every row RUNNING -> WAITING of `p` has such a next row; moreover every
I/O completes: a row RUNNING -> WAITING that the log holds after some number
of iterations has such a next row after some number of iterations. -/
theorem io_wait_lasts_its_duration (l : List PCB) (hl : (l.map (fun p => p.PID)).Nodup)
    (hdur : ∀ p0 ∈ l, p0.io_duration < 2 ^ 32) (n : Nat) (p : PCB) (hp : p ∈ l) :
    (io_round_trip p.io_duration p.PID (run_loop tick_EP n (init l)) ∧
      io_round_trip p.io_duration p.PID (run_loop tick_EP_RR n (init l)) ∧
      io_round_trip p.io_duration p.PID (run_loop tick_RR n (init l))) ∧
    io_completes tick_EP l p.io_duration p.PID ∧
    io_completes tick_EP_RR l p.io_duration p.PID ∧
    io_completes tick_RR l p.io_duration p.PID :=
  ⟨⟨round_trip_Steps l hl hdur (Steps_run_EP l n) p hp,
    round_trip_Steps l hl hdur (Steps_run_EP_RR l n) p hp,
    round_trip_Steps l hl hdur (Steps_run_RR l n) p hp⟩,
   io_completes_of Sched_log_EP Exec_log_EP l hl hdur
     (fun k => run_invariants l hl hdur (Steps_run_EP l k)) p hp,
   io_completes_of Sched_log_EP_RR Exec_log_RR l hl hdur
     (fun k => run_invariants l hl hdur (Steps_run_EP_RR l k)) p hp,
   io_completes_of Sched_log_RR Exec_log_RR l hl hdur
     (fun k => run_invariants l hl hdur (Steps_run_RR l k)) p hp⟩

/-- Witness of `io_wait_lasts_its_duration`: two processes, the first with an
I/O of 3 ticks after every second unit of work, after 20 iterations. -/
theorem io_wait_lasts_its_duration_witness :
    ([add_process 1 10 0 5 2 3, add_process 2 10 1 3 0 0].map (fun p => p.PID)).Nodup ∧
    io_round_trip 3 1 (run_loop tick_EP 20
      (init [add_process 1 10 0 5 2 3, add_process 2 10 1 3 0 0])) ∧
    io_completes tick_EP [add_process 1 10 0 5 2 3, add_process 2 10 1 3 0 0] 3 1 :=
  ⟨by decide,
   (io_wait_lasts_its_duration [add_process 1 10 0 5 2 3, add_process 2 10 1 3 0 0]
      (by decide) (by decide) 20 (add_process 1 10 0 5 2 3) (List.mem_cons_self _ _)).1.1,
   (io_wait_lasts_its_duration [add_process 1 10 0 5 2 3, add_process 2 10 1 3 0 0]
      (by decide) (by decide) 20 (add_process 1 10 0 5 2 3) (List.mem_cons_self _ _)).2.1⟩

/-! ## Allocation followed by release; the id -1 -/

theorem set_same (mem : List memory_partition) (i : Nat) (part : memory_partition)
    (hi : mem[i]? = some part) : mem.set i part = mem := by
  apply List.ext_getElem?
  intro j
  by_cases hj : j = i
  · subst hj
    obtain ⟨hl, -⟩ := List.getElem?_eq_some.1 hi
    rw [hi]
    simp [List.getElem?_set, hl]
  · simp [List.getElem?_set, Ne.symm hj]

/-- C24: allocation followed by release is a round trip.  For every table and
every process that is the occupant of no partition and whose partition field
is unset, if `assign_memory` returns true then `free_memory` on the process as
`assign_memory` left it, in the table as `assign_memory` left it, returns
true, and the table and the process are what they were before the
allocation. -/
theorem assign_then_free (mem : List memory_partition) (p : PCB)
    (hnone : ∀ part ∈ mem, part.occupied ≠ p.PID) (hunset : p.partition_number = -1)
    (hok : (assign_memory mem p).1 = true) :
    free_memory (assign_memory mem p).2.1 (assign_memory mem p).2.2 = (true, mem, p) := by
  obtain ⟨i, part, hi6, hi, hfit, -, heq⟩ := assign_memory_loop_true mem p 6 hok
  obtain ⟨f1, f2, -, -⟩ := set_occupied_frame mem i part p.PID hi
  have hmem : (assign_memory mem p).2.1 = mem.set i { part with occupied := p.PID } := by
    unfold assign_memory
    rw [heq]
  have hproc : (assign_memory mem p).2.2 =
      { p with partition_number := toInt part.partition_number } := by
    unfold assign_memory
    rw [heq]
  rw [hmem, hproc]
  have hflag : (free_memory_loop (mem.set i { part with occupied := p.PID })
      { p with partition_number := toInt part.partition_number } 6).1 = true := by
    cases hb : (free_memory_loop (mem.set i { part with occupied := p.PID })
        { p with partition_number := toInt part.partition_number } 6).1 with
    | true => rfl
    | false =>
      exact absurd rfl ((free_memory_loop_false _ _ 6 hb).1 i _ hi6 f1)
  obtain ⟨k, partk, -, hk, hocc, -, hres⟩ := free_memory_loop_true _ _ 6 hflag
  have hki : k = i := by
    by_contra hne
    rw [f2 k hne] at hk
    exact hnone partk (List.mem_iff_getElem?.2 ⟨k, hk⟩) hocc
  subst hki
  rw [f1] at hk
  have hpk : partk = { part with occupied := p.PID } := (Option.some.inj hk).symm
  unfold free_memory
  rw [hres, hpk]
  have htab : (mem.set k { part with occupied := p.PID }).set k
      { ({ part with occupied := p.PID } : memory_partition) with occupied := -1 } = mem := by
    rw [List.set_set]
    have : ({ ({ part with occupied := p.PID } : memory_partition) with occupied := -1 } :
        memory_partition) = part := by
      cases part
      simp only [fits] at hfit
      simp only [memory_partition.mk.injEq, true_and]
      exact hfit.2.symm
    rw [this]
    exact set_same mem k part hi
  have hp : ({ ({ p with partition_number := toInt part.partition_number } : PCB) with
      partition_number := -1 } : PCB) = p := by
    cases p
    simp only at hunset
    simp only [PCB.mk.injEq, true_and, and_true]
    exact hunset.symm
  rw [htab, hp]

/-- Witness of `assign_then_free`: process 7 of size 9 and the table with
partition 5 taken by process 3. -/
theorem assign_then_free_witness :
    (∀ part ∈ [(⟨1, 40, -1⟩ : memory_partition), ⟨2, 25, -1⟩, ⟨3, 15, -1⟩, ⟨4, 10, -1⟩,
      ⟨5, 8, 3⟩, ⟨6, 2, -1⟩], part.occupied ≠ (add_process 7 9 0 4 0 0).PID) ∧
    free_memory
      (assign_memory [⟨1, 40, -1⟩, ⟨2, 25, -1⟩, ⟨3, 15, -1⟩, ⟨4, 10, -1⟩, ⟨5, 8, 3⟩,
        ⟨6, 2, -1⟩] (add_process 7 9 0 4 0 0)).2.1
      (assign_memory [⟨1, 40, -1⟩, ⟨2, 25, -1⟩, ⟨3, 15, -1⟩, ⟨4, 10, -1⟩, ⟨5, 8, 3⟩,
        ⟨6, 2, -1⟩] (add_process 7 9 0 4 0 0)).2.2 =
      (true, [⟨1, 40, -1⟩, ⟨2, 25, -1⟩, ⟨3, 15, -1⟩, ⟨4, 10, -1⟩, ⟨5, 8, 3⟩, ⟨6, 2, -1⟩],
        add_process 7 9 0 4 0 0) :=
  ⟨by decide,
   assign_then_free
     [⟨1, 40, -1⟩, ⟨2, 25, -1⟩, ⟨3, 15, -1⟩, ⟨4, 10, -1⟩, ⟨5, 8, 3⟩, ⟨6, 2, -1⟩]
     (add_process 7 9 0 4 0 0) (by decide) (by decide) (by decide)⟩

/-- C25: the id -1 is the idle-slot sentinel and the mark of a free partition.
For every six-entry table with a free partition, `free_memory` on a process
with the id -1, such as the record `idle_CPU` leaves, returns true and leaves
the table as it is; and if some free partition fits the size of such a
process, `assign_memory` returns true and leaves the table as it is, so that
the partition it chose still reads as free. -/
theorem minus_one_is_the_free_mark (mem : List memory_partition) (p : PCB)
    (hlen : mem.length = 6) (hp : p.PID = -1) :
    ((∃ part ∈ mem, part.occupied = -1) →
      (free_memory mem p).1 = true ∧ (free_memory mem p).2.1 = mem ∧
      (free_memory mem idle_CPU).1 = true ∧ (free_memory mem idle_CPU).2.1 = mem) ∧
    ((∃ part ∈ mem, fits p part) →
      (assign_memory mem p).1 = true ∧ (assign_memory mem p).2.1 = mem ∧
      ∃ part ∈ (assign_memory mem p).2.1,
        toInt part.partition_number = (assign_memory mem p).2.2.partition_number ∧
        part.occupied = -1) := by
  have hfree : ∀ r : PCB, r.PID = -1 → (∃ part ∈ mem, part.occupied = -1) →
      (free_memory mem r).1 = true ∧ (free_memory mem r).2.1 = mem := by
    intro r hr hex
    obtain ⟨part, hpart, hocc⟩ := hex
    obtain ⟨i, hi⟩ := List.mem_iff_getElem?.1 hpart
    have hi6 : i < 6 := by
      rw [← hlen]
      exact (List.getElem?_eq_some.1 hi).1
    have hflag : (free_memory_loop mem r 6).1 = true := by
      cases hb : (free_memory_loop mem r 6).1 with
      | true => rfl
      | false =>
        exact absurd (by rw [hocc, hr]) ((free_memory_loop_false mem r 6 hb).1 i part hi6 hi)
    obtain ⟨k, partk, -, hk, hocck, -, hres⟩ := free_memory_loop_true mem r 6 hflag
    unfold free_memory
    rw [hres]
    refine ⟨rfl, ?_⟩
    show mem.set k { partk with occupied := -1 } = mem
    have : ({ partk with occupied := -1 } : memory_partition) = partk := by
      cases partk
      simp only at hocck
      simp only [memory_partition.mk.injEq, true_and]
      rw [hocck, hr]
    rw [this]
    exact set_same mem k partk hk
  refine ⟨fun hex => ⟨(hfree p hp hex).1, (hfree p hp hex).2, (hfree idle_CPU rfl hex).1,
    (hfree idle_CPU rfl hex).2⟩, ?_⟩
  intro hex
  obtain ⟨part, hpart, hfit⟩ := hex
  obtain ⟨i, hi⟩ := List.mem_iff_getElem?.1 hpart
  have hi6 : i < 6 := by
    rw [← hlen]
    exact (List.getElem?_eq_some.1 hi).1
  have hflag : (assign_memory_loop mem p 6).1 = true := by
    cases hb : (assign_memory_loop mem p 6).1 with
    | true => rfl
    | false => exact absurd hfit ((assign_memory_loop_false mem p 6 hb).1 i part hi6 hi)
  obtain ⟨k, partk, -, hk, hfitk, -, hres⟩ := assign_memory_loop_true mem p 6 hflag
  have hsame : ({ partk with occupied := p.PID } : memory_partition) = partk := by
    cases partk
    simp only [fits] at hfitk
    simp only [memory_partition.mk.injEq, true_and]
    rw [hp]
    exact hfitk.2.symm
  unfold assign_memory
  rw [hres, hsame, set_same mem k partk hk]
  exact ⟨rfl, rfl, partk, List.mem_iff_getElem?.2 ⟨k, hk⟩, rfl, hfitk.2⟩

/-- Witness of `minus_one_is_the_free_mark`: the table with all partitions
free and the record `idle_CPU` leaves. -/
theorem minus_one_is_the_free_mark_witness :
    memory_paritions.length = 6 ∧ idle_CPU.PID = -1 ∧
    (free_memory memory_paritions idle_CPU).1 = true ∧
    (free_memory memory_paritions idle_CPU).2.1 = memory_paritions ∧
    (assign_memory memory_paritions idle_CPU).1 = true ∧
    (assign_memory memory_paritions idle_CPU).2.1 = memory_paritions :=
  ⟨rfl, rfl,
   ((minus_one_is_the_free_mark memory_paritions idle_CPU rfl rfl).1
      ⟨⟨6, 2, -1⟩, by decide, rfl⟩).1,
   ((minus_one_is_the_free_mark memory_paritions idle_CPU rfl rfl).1
      ⟨⟨6, 2, -1⟩, by decide, rfl⟩).2.1,
   ((minus_one_is_the_free_mark memory_paritions idle_CPU rfl rfl).2
      ⟨⟨6, 2, -1⟩, by decide, ⟨by decide, rfl⟩⟩).1,
   ((minus_one_is_the_free_mark memory_paritions idle_CPU rfl rfl).2
      ⟨⟨6, 2, -1⟩, by decide, ⟨by decide, rfl⟩⟩).2.1⟩

/-! ## The running process of the preemptive priority engine -/

theorem preempt_EP_RR_running (s : SimState)
    (hr : (preempt_EP_RR s).running.state = states.RUNNING) :
    preempt_EP_RR s = s ∧ preempt_cond_EP_RR s = false := by
  unfold preempt_EP_RR at hr ⊢
  by_cases h1 : s.running.state = states.RUNNING
  · rw [if_pos h1] at hr ⊢
    by_cases h2 : preempt_cond_EP_RR s = true
    · rw [if_pos h2] at hr
      exact absurd hr idle_not_running
    · rw [if_neg h2]
      exact ⟨rfl, by cases h3 : preempt_cond_EP_RR s <;> simp_all⟩
  · rw [if_neg h1] at hr
    exact absurd hr h1

/-- After the scheduling part of an iteration of `..._EP_RR.cpp` no process in
the ready queue has a lower id than the running process. -/
theorem sched_EP_RR_lowest (s : SimState)
    (hr : (sched_EP_RR s).running.state = states.RUNNING) :
    ∀ p ∈ (sched_EP_RR s).ready_queue, (sched_EP_RR s).running.PID ≤ p.PID := by
  unfold sched_EP_RR at hr ⊢
  have hsorted := preempt_EP_RR_sorted s
  rcases dispatch_EP_RR_cases (preempt_EP_RR (sort_EP_RR s)) with hd | ⟨p, rest, -, hq, hd⟩
  · rw [hd] at hr ⊢
    obtain ⟨h1, h2⟩ := preempt_EP_RR_running (sort_EP_RR s) hr
    rw [h1]
    have hs1 : (sort_EP_RR s).ready_queue.Pairwise (fun a b => b.PID ≤ a.PID) := by
      rw [sort_EP_RR_eq]
      exact sortByPriority_sorted _
    intro q hq
    by_contra hlt
    have hc := (preempt_cond_EP_RR_iff (sort_EP_RR s) hs1).2
      (Or.inr ⟨q, hq, Int.lt_of_not_ge hlt⟩)
    rw [h2] at hc
    cases hc
  · rw [hd]
    intro q hq2
    have hq3 : q ∈ rest := hq2
    show p.PID ≤ q.PID
    rw [hq] at hsorted
    exact getLast_le_of_sorted (rest ++ [p]) p hsorted (by simp) q
      (List.mem_append_left _ hq3)

/-- C23: in the preemptive priority engine, for every input with pairwise
distinct ids and in every iteration of the loop: right after the dispatch
step, if a process is running, its id is strictly lower than the id of every
process in the ready queue. -/
theorem EP_RR_runs_lowest_id (l : List PCB) (hl : (l.map (fun p => p.PID)).Nodup)
    (n : Nat)
    (hr : (dispatch_EP_RR (preempt_EP_RR (sort_EP_RR (admission (manage_wait_queue
      (run_loop tick_EP_RR n (init l))))))).running.state = states.RUNNING) :
    ∀ p ∈ (dispatch_EP_RR (preempt_EP_RR (sort_EP_RR (admission (manage_wait_queue
        (run_loop tick_EP_RR n (init l))))))).ready_queue,
      (dispatch_EP_RR (preempt_EP_RR (sort_EP_RR (admission (manage_wait_queue
        (run_loop tick_EP_RR n (init l))))))).running.PID < p.PID := by
  have hb : Base (sched_EP_RR (admission (manage_wait_queue
      (run_loop tick_EP_RR n (init l))))) :=
    Steps_invariant Base Base_step (Base_init l hl)
      (Steps_trans (Steps_run_EP_RR l n)
        (Steps_trans (Steps_sweeps _ _ _) (Steps_sched_EP_RR _)))
  intro p hp
  have hle := sched_EP_RR_lowest _ hr p hp
  have hne := Base_running_ne_ready hb hr hp
  exact lt_of_le_of_ne hle (fun hc => hne hc.symm)

/-- Witness of `EP_RR_runs_lowest_id`: the processes 3, 1 and 2 arrive
together; in the first iteration process 1 is dispatched. -/
theorem EP_RR_runs_lowest_id_witness :
    ([add_process 3 5 0 4 0 0, add_process 1 9 0 4 0 0, add_process 2 1 0 4 0 0].map
      (fun p => p.PID)).Nodup ∧
    (dispatch_EP_RR (preempt_EP_RR (sort_EP_RR (admission (manage_wait_queue
      (run_loop tick_EP_RR 0 (init [add_process 3 5 0 4 0 0, add_process 1 9 0 4 0 0,
        add_process 2 1 0 4 0 0]))))))).running.state = states.RUNNING ∧
    ∀ p ∈ (dispatch_EP_RR (preempt_EP_RR (sort_EP_RR (admission (manage_wait_queue
        (run_loop tick_EP_RR 0 (init [add_process 3 5 0 4 0 0, add_process 1 9 0 4 0 0,
          add_process 2 1 0 4 0 0]))))))).ready_queue,
      (dispatch_EP_RR (preempt_EP_RR (sort_EP_RR (admission (manage_wait_queue
        (run_loop tick_EP_RR 0 (init [add_process 3 5 0 4 0 0, add_process 1 9 0 4 0 0,
          add_process 2 1 0 4 0 0]))))))).running.PID < p.PID :=
  ⟨by decide, by decide,
   EP_RR_runs_lowest_id
     [add_process 3 5 0 4 0 0, add_process 1 9 0 4 0 0, add_process 2 1 0 4 0 0]
     (by decide) 0 (by decide)⟩

/-! ## Arrival times and admission -/

/-- The records the admission sweep keeps: a record whose arrival time is not
the current tick, as it was, or a record that arrives now, deferred by one
tick. -/
theorem admission_result_kept (t : Nat) (mem : List memory_partition) (l : List PCB) :
    ∀ p2 ∈ (admission_result t mem l).2.1, ∃ p ∈ l, p2.PID = p.PID ∧
      ((p2 = p ∧ p.arrival_time ≠ t) ∨
        (p.arrival_time = t ∧ p2.arrival_time = (t + 1) % 2 ^ 32)) := by
  induction l generalizing mem with
  | nil =>
    intro p2 hp2
    cases hp2
  | cons p rest ih =>
    intro p2 hp2
    by_cases ha : p.arrival_time = t
    · by_cases hok : (assign_memory mem p).1 = true
      · rw [admission_result_admitted t mem p rest ha hok] at hp2
        obtain ⟨q, hq, h⟩ := ih _ p2 hp2
        exact ⟨q, List.mem_cons_of_mem _ hq, h⟩
      · have hfail : (assign_memory mem p).1 = false := by
          cases h : (assign_memory mem p).1
          · rfl
          · exact absurd h hok
        rw [admission_result_deferred t mem p rest ha hfail] at hp2
        rcases List.mem_cons.1 hp2 with h | h
        · refine ⟨p, List.mem_cons_self _ _, by rw [h], Or.inr ⟨ha, ?_⟩⟩
          rw [h]
          show (p.arrival_time + 1) % 2 ^ 32 = _
          rw [ha]
        · obtain ⟨q, hq, h2⟩ := ih _ p2 h
          exact ⟨q, List.mem_cons_of_mem _ hq, h2⟩
    · rw [admission_result_skipped t mem p rest ha] at hp2
      rcases List.mem_cons.1 hp2 with h | h
      · exact ⟨p, List.mem_cons_self _ _, by rw [h], Or.inl ⟨h, ha⟩⟩
      · obtain ⟨q, hq, h2⟩ := ih _ p2 h
        exact ⟨q, List.mem_cons_of_mem _ hq, h2⟩

/-- The records the admission sweep admits arrive at the current tick. -/
theorem admission_result_arrived (t : Nat) (mem : List memory_partition) (l : List PCB) :
    ∀ x ∈ (admission_result t mem l).1, ∃ p ∈ l, p.arrival_time = t ∧ x.1.PID = p.PID := by
  induction l generalizing mem with
  | nil =>
    intro x hx
    cases hx
  | cons p rest ih =>
    intro x hx
    by_cases ha : p.arrival_time = t
    · by_cases hok : (assign_memory mem p).1 = true
      · rw [admission_result_admitted t mem p rest ha hok] at hx
        rcases List.mem_cons.1 hx with h | h
        · refine ⟨p, List.mem_cons_self _ _, ha, ?_⟩
          rw [h]
          exact assign_memory_PID mem p
        · obtain ⟨q, hq, h2⟩ := ih _ x h
          exact ⟨q, List.mem_cons_of_mem _ hq, h2⟩
      · have hfail : (assign_memory mem p).1 = false := by
          cases h : (assign_memory mem p).1
          · rfl
          · exact absurd h hok
        rw [admission_result_deferred t mem p rest ha hfail] at hx
        obtain ⟨q, hq, h2⟩ := ih _ x hx
        exact ⟨q, List.mem_cons_of_mem _ hq, h2⟩
    · rw [admission_result_skipped t mem p rest ha] at hx
      obtain ⟨q, hq, h2⟩ := ih _ x hx
      exact ⟨q, List.mem_cons_of_mem _ hq, h2⟩

theorem tick_of_list {sched exec : SimState → SimState} (hk : Keeps_list sched exec)
    (s : SimState) :
    (tick_of sched exec s).list_processes =
      (admission_result s.current_time s.mem s.list_processes).2.1 := by
  show (exec (sched (admission (manage_wait_queue s)))).list_processes = _
  rw [hk, admission_eq, manage_wait_queue_eq]

/-- The rows of one iteration that leave NEW are the rows of the processes the
admission sweep admits. -/
theorem tick_of_new_rows {sched exec : SimState → SimState} (hs : Sched_log sched)
    (he : Exec_log exec) (s : SimState) :
    ∀ e ∈ (tick_of sched exec s).execution_status, e.old_state = states.NEW →
      e ∈ s.execution_status ∨
      ∃ x ∈ (admission_result s.current_time s.mem s.list_processes).1,
        e = Event.mk s.current_time x.1.PID states.NEW states.READY := by
  obtain ⟨pre, dis, b1, -, b3, b4⟩ := hs (admission (manage_wait_queue s))
  obtain ⟨ex, c1, c2⟩ := he (sched (admission (manage_wait_queue s)))
  have a1 : (admission (manage_wait_queue s)).execution_status =
      s.execution_status ++
        (s.wait_queue.filter (fun p => io_done s.current_time p)).map
          (fun p => Event.mk s.current_time (wake p).PID states.WAITING states.READY) ++
        (admission_result s.current_time s.mem s.list_processes).1.map
          (fun x => Event.mk s.current_time x.1.PID states.NEW states.READY) := by
    rw [admission_eq, manage_wait_queue_eq]
  intro e hmem hnew
  have hmem2 : e ∈ (exec (sched (admission (manage_wait_queue s)))).execution_status := hmem
  rw [c1, b1, a1] at hmem2
  simp only [List.mem_append] at hmem2
  rcases hmem2 with (((h | h) | h) | h) | h
  · rcases h with h | h
    · exact Or.inl h
    · obtain ⟨p, -, hp⟩ := List.mem_map.1 h
      rw [← hp] at hnew
      cases hnew
  · obtain ⟨x, hx, hxe⟩ := List.mem_map.1 h
    exact Or.inr ⟨x, hx, hxe.symm⟩
  · rcases b3 with h0 | ⟨-, x, h0⟩
    · rw [h0] at h
      cases h
    · rw [h0, List.mem_singleton] at h
      rw [h] at hnew
      cases hnew
  · rcases b4 with h0 | ⟨x, h0⟩
    · rw [h0] at h
      cases h
    · rw [h0, List.mem_singleton] at h
      rw [h] at hnew
      cases hnew
  · rcases c2 with h0 | ⟨-, x, st, -, h0⟩
    · rw [h0] at h
      cases h
    · rw [h0, List.mem_singleton] at h
      rw [h] at hnew
      cases hnew

theorem not_overdue_tick {sched exec : SimState → SimState} (hk : Keeps_list sched exec)
    (s : SimState) (h : not_overdue s) : not_overdue (tick_of sched exec s) := by
  intro p2 hp2
  rw [tick_of_list hk] at hp2
  show (s.current_time + 1) % 2 ^ 32 ≤ p2.arrival_time
  obtain ⟨p, hp, -, hcase⟩ := admission_result_kept _ _ _ p2 hp2
  have hle := h p hp
  rcases hcase with ⟨h1, h2⟩ | ⟨-, h2⟩
  · rw [h1]
    have := Nat.mod_le (s.current_time + 1) (2 ^ 32)
    omega
  · rw [h2]

theorem OInv_tick {sched exec : SimState → SimState} (hk : Keeps_list sched exec)
    (hs : Sched_log sched) (he : Exec_log exec) (l : List PCB) (s : SimState)
    (h : OInv l s) (hw : s.current_time + 1 < 2 ^ 32) : OInv l (tick_of sched exec s) := by
  obtain ⟨h1, h2⟩ := h
  refine ⟨?_, ?_⟩
  · intro p2 hp2
    rw [tick_of_list hk] at hp2
    obtain ⟨p, hp, hpid, hcase⟩ := admission_result_kept _ _ _ p2 hp2
    obtain ⟨p0, hp0, hpid0, harr⟩ := h1 p hp
    refine ⟨p0, hp0, by rw [hpid0, hpid], ?_⟩
    rcases hcase with ⟨h3, -⟩ | ⟨h3, h4⟩
    · rw [h3]
      exact harr
    · rw [h4, Nat.mod_eq_of_lt hw]
      omega
  · intro e hmem hnew
    rcases tick_of_new_rows hs he s e hmem hnew with h3 | ⟨x, hx, hxe⟩
    · exact h2 e h3 hnew
    · obtain ⟨p, hp, harr, hpid⟩ := admission_result_arrived _ _ _ x hx
      obtain ⟨p0, hp0, hpid0, harr0⟩ := h1 p hp
      refine ⟨p0, hp0, ?_, ?_⟩
      · rw [hxe, hpid0]
        exact hpid.symm
      · rw [hxe]
        show p0.arrival_time ≤ s.current_time
        omega

theorem not_overdue_run {sched exec : SimState → SimState} (hk : Keeps_list sched exec)
    (l : List PCB) (n : Nat) : not_overdue (run_loop (tick_of sched exec) n (init l)) := by
  induction n with
  | zero =>
    intro p _
    exact Nat.zero_le _
  | succ n ih =>
    rw [run_loop_succ]
    by_cases hc : loop_cond (run_loop (tick_of sched exec) n (init l)) = true
    · rw [if_pos hc]
      exact not_overdue_tick hk _ ih
    · rw [if_neg hc]
      exact ih

theorem OInv_run {sched exec : SimState → SimState} (hk : Keeps_list sched exec)
    (hs : Sched_log sched) (he : Exec_log exec) (l : List PCB) (n : Nat) (hn : n < 2 ^ 32) :
    OInv l (run_loop (tick_of sched exec) n (init l)) ∧
    (run_loop (tick_of sched exec) n (init l)).current_time ≤ n := by
  induction n with
  | zero =>
    refine ⟨⟨fun p hp => ⟨p, hp, rfl, Nat.le_refl _⟩, fun e he => ?_⟩, Nat.le_refl _⟩
    cases he
  | succ n ih =>
    obtain ⟨h1, h2⟩ := ih (by omega)
    rw [run_loop_succ]
    by_cases hc : loop_cond (run_loop (tick_of sched exec) n (init l)) = true
    · rw [if_pos hc]
      refine ⟨OInv_tick hk hs he l _ h1 (by omega), ?_⟩
      show ((run_loop (tick_of sched exec) n (init l)).current_time + 1) % 2 ^ 32 ≤ n + 1
      have := Nat.mod_le ((run_loop (tick_of sched exec) n (init l)).current_time + 1) (2 ^ 32)
      omega
    · rw [if_neg hc]
      exact ⟨h1, by omega⟩

theorem Keeps_list_EP : Keeps_list dispatch_EP execute_EP := by
  intro s
  rw [(execute_EP_list_mem _).1, (dispatch_EP_list_mem _).1]

theorem Keeps_list_EP_RR : Keeps_list sched_EP_RR execute_RR := by
  intro s
  unfold sched_EP_RR
  rw [(execute_RR_list_mem _).1, (dispatch_EP_RR_list_mem _).1, (preempt_EP_RR_list_mem _).1,
    sort_EP_RR_eq]

theorem Keeps_list_RR : Keeps_list sched_RR execute_RR := by
  intro s
  unfold sched_RR
  rw [(execute_RR_list_mem _).1, (dispatch_RR_list_mem _).1, (preempt_RR_list_mem _).1]

theorem admitted_on_time_of {l : List PCB} (hl : (l.map (fun p => p.PID)).Nodup)
    {s : SimState} (h : OInv l s) : admitted_on_time l s.execution_status := by
  intro e he hnew _
  obtain ⟨p0, hp0, hpid, harr⟩ := h.2 e he hnew
  refine ⟨⟨p0, hp0, hpid⟩, ?_⟩
  intro p1 hp1 hpid1
  have : p1 = p0 := eq_of_same_PID hl hp1 hp0 (by rw [hpid1, hpid])
  rw [this]
  exact harr

theorem sweep_start (s : SimState) :
    (manage_wait_queue s).list_processes = s.list_processes ∧
    (manage_wait_queue s).current_time = s.current_time := by
  rw [manage_wait_queue_eq]
  exact ⟨rfl, rfl⟩

theorem not_overdue_sweep {s : SimState} (h : not_overdue s) :
    not_overdue (manage_wait_queue s) := by
  intro p hp
  rw [(sweep_start s).1] at hp
  rw [(sweep_start s).2]
  exact h p hp

/-- The processes matched with the records of a list that the admission sweep
visits, without wrap of the clock, split into those matched with the admitted
records and those matched with the records kept. -/
theorem admission_result_matched (t : Nat) (hw : t + 1 < 2 ^ 32)
    (mem : List memory_partition) (list qs : List PCB)
    (h : List.Forall₂ (fun p0 p => p0.PID = p.PID ∧ p0.arrival_time ≤ p.arrival_time)
      qs list) :
    ∃ qa qk : List PCB, (qa ++ qk).Perm qs ∧
      List.Forall₂ (fun (p0 : PCB) (x : PCB × List memory_partition) =>
        p0.PID = x.1.PID ∧ p0.arrival_time ≤ t) qa (admission_result t mem list).1 ∧
      List.Forall₂ (fun p0 p => p0.PID = p.PID ∧ p0.arrival_time ≤ p.arrival_time)
        qk (admission_result t mem list).2.1 := by
  induction h generalizing mem with
  | nil => exact ⟨[], [], List.Perm.refl _, List.Forall₂.nil, List.Forall₂.nil⟩
  | @cons q p qs2 list2 hqp _ ih =>
    by_cases ha : p.arrival_time = t
    · by_cases hok : (assign_memory mem p).1 = true
      · obtain ⟨qa, qk, hperm, h1, h2⟩ := ih (assign_memory mem p).2.1
        rw [admission_result_admitted t mem p list2 ha hok]
        refine ⟨q :: qa, qk, List.Perm.cons q hperm, List.Forall₂.cons ⟨?_, ?_⟩ h1, h2⟩
        · show q.PID = (to_ready (assign_memory mem p).2.2).PID
          rw [to_ready_PID, assign_memory_PID]
          exact hqp.1
        · have := hqp.2
          omega
      · have hfail : (assign_memory mem p).1 = false := by
          cases h : (assign_memory mem p).1
          · rfl
          · exact absurd h hok
        obtain ⟨qa, qk, hperm, h1, h2⟩ := ih mem
        rw [admission_result_deferred t mem p list2 ha hfail]
        refine ⟨qa, q :: qk, List.perm_middle.trans (List.Perm.cons q hperm), h1,
          List.Forall₂.cons ⟨hqp.1, ?_⟩ h2⟩
        show q.arrival_time ≤ (p.arrival_time + 1) % 2 ^ 32
        have := hqp.2
        rw [ha, Nat.mod_eq_of_lt hw]
        omega
    · obtain ⟨qa, qk, hperm, h1, h2⟩ := ih mem
      rw [admission_result_skipped t mem p list2 ha]
      exact ⟨qa, q :: qk, List.perm_middle.trans (List.Perm.cons q hperm), h1,
        List.Forall₂.cons hqp h2⟩

theorem admission_rows_none (rows : List Event)
    (h : ∀ e ∈ rows, e.old_state ≠ states.NEW) : admission_rows rows = [] := by
  unfold admission_rows
  rw [List.filter_eq_nil_iff]
  intro e he hc
  exact h e he (of_decide_eq_true hc).1

theorem admission_rows_append (a b : List Event) :
    admission_rows (a ++ b) = admission_rows a ++ admission_rows b :=
  List.filter_append a b

theorem admission_rows_all (rows : List Event)
    (h : ∀ e ∈ rows, e.old_state = states.NEW ∧ e.new_state = states.READY) :
    admission_rows rows = rows := by
  unfold admission_rows
  rw [List.filter_eq_self]
  intro e he
  exact decide_eq_true (h e he)

/-- The rows NEW -> READY after one iteration: those before it, followed by
the rows of the processes the admission sweep admits, in their order. -/
theorem tick_of_admission_rows {sched exec : SimState → SimState} (hs : Sched_log sched)
    (he : Exec_log exec) (s : SimState) :
    admission_rows (tick_of sched exec s).execution_status =
      admission_rows s.execution_status ++
        (admission_result s.current_time s.mem s.list_processes).1.map
          (fun x => Event.mk s.current_time x.1.PID states.NEW states.READY) := by
  obtain ⟨pre, dis, b1, -, b3, b4⟩ := hs (admission (manage_wait_queue s))
  obtain ⟨ex, c1, c2⟩ := he (sched (admission (manage_wait_queue s)))
  have a1 : (admission (manage_wait_queue s)).execution_status =
      s.execution_status ++
        (s.wait_queue.filter (fun p => io_done s.current_time p)).map
          (fun p => Event.mk s.current_time (wake p).PID states.WAITING states.READY) ++
        (admission_result s.current_time s.mem s.list_processes).1.map
          (fun x => Event.mk s.current_time x.1.PID states.NEW states.READY) := by
    rw [admission_eq, manage_wait_queue_eq]
  have e1 : (tick_of sched exec s).execution_status =
      (exec (sched (admission (manage_wait_queue s)))).execution_status := rfl
  rw [e1, c1, b1, a1]
  simp only [admission_rows_append]
  have w1 : admission_rows ((s.wait_queue.filter (fun p => io_done s.current_time p)).map
      (fun p => Event.mk s.current_time (wake p).PID states.WAITING states.READY)) = [] := by
    refine admission_rows_none _ (fun e he2 => ?_)
    obtain ⟨p, -, hp⟩ := List.mem_map.1 he2
    rw [← hp]
    exact fun hc => by cases hc
  have w2 : admission_rows pre = [] := by
    refine admission_rows_none _ (fun e he2 => ?_)
    rcases b3 with h0 | ⟨-, x, h0⟩
    · rw [h0] at he2
      cases he2
    · rw [h0, List.mem_singleton] at he2
      rw [he2]
      exact fun hc => by cases hc
  have w3 : admission_rows dis = [] := by
    refine admission_rows_none _ (fun e he2 => ?_)
    rcases b4 with h0 | ⟨x, h0⟩
    · rw [h0] at he2
      cases he2
    · rw [h0, List.mem_singleton] at he2
      rw [he2]
      exact fun hc => by cases hc
  have w4 : admission_rows ex = [] := by
    refine admission_rows_none _ (fun e he2 => ?_)
    rcases c2 with h0 | ⟨-, x, st, -, h0⟩
    · rw [h0] at he2
      cases he2
    · rw [h0, List.mem_singleton] at he2
      rw [he2]
      exact fun hc => by cases hc
  have w5 : admission_rows ((admission_result s.current_time s.mem s.list_processes).1.map
      (fun x => Event.mk s.current_time x.1.PID states.NEW states.READY)) =
      (admission_result s.current_time s.mem s.list_processes).1.map
        (fun x => Event.mk s.current_time x.1.PID states.NEW states.READY) := by
    refine admission_rows_all _ (fun e he2 => ?_)
    obtain ⟨x, -, hx⟩ := List.mem_map.1 he2
    rw [← hx]
    exact ⟨rfl, rfl⟩
  rw [w1, w2, w3, w4, w5, List.append_nil, List.append_nil, List.append_nil, List.append_nil]

theorem forall2_append_of {α β : Type} {R : α → β → Prop} {a1 a2 : List α} {b1 b2 : List β}
    (h1 : List.Forall₂ R a1 b1) (h2 : List.Forall₂ R a2 b2) :
    List.Forall₂ R (a1 ++ a2) (b1 ++ b2) := by
  induction h1 with
  | nil => exact h2
  | cons hab _ ih => exact List.Forall₂.cons hab ih

theorem AInv_tick {sched exec : SimState → SimState} (hk : Keeps_list sched exec)
    (hs : Sched_log sched) (he : Exec_log exec) (l : List PCB) (s : SimState)
    (h : AInv l s) (hw : s.current_time + 1 < 2 ^ 32) : AInv l (tick_of sched exec s) := by
  obtain ⟨ps, qs, hperm, h1, h2⟩ := h
  obtain ⟨qa, qk, hperm2, h3, h4⟩ :=
    admission_result_matched s.current_time hw s.mem s.list_processes qs h2
  refine ⟨ps ++ qa, qk, ?_, ?_, ?_⟩
  · rw [List.append_assoc]
    exact (List.Perm.append_left ps hperm2).trans hperm
  · rw [tick_of_admission_rows hs he]
    refine forall2_append_of h1 ?_
    rw [List.forall₂_map_right_iff]
    exact h3
  · rw [tick_of_list hk]
    exact h4

theorem AInv_run {sched exec : SimState → SimState} (hk : Keeps_list sched exec)
    (hs : Sched_log sched) (he : Exec_log exec) (l : List PCB) (n : Nat) (hn : n < 2 ^ 32) :
    AInv l (run_loop (tick_of sched exec) n (init l)) ∧
    (run_loop (tick_of sched exec) n (init l)).current_time ≤ n := by
  induction n with
  | zero =>
    refine ⟨⟨[], l, List.Perm.refl _, List.Forall₂.nil, ?_⟩, Nat.le_refl _⟩
    exact List.forall₂_same.2 (fun p _ => ⟨rfl, Nat.le_refl _⟩)
  | succ n ih =>
    obtain ⟨h1, h2⟩ := ih (by omega)
    rw [run_loop_succ]
    by_cases hc : loop_cond (run_loop (tick_of sched exec) n (init l)) = true
    · rw [if_pos hc]
      refine ⟨AInv_tick hk hs he l _ h1 (by omega), ?_⟩
      show ((run_loop (tick_of sched exec) n (init l)).current_time + 1) % 2 ^ 32 ≤ n + 1
      have := Nat.mod_le ((run_loop (tick_of sched exec) n (init l)).current_time + 1) (2 ^ 32)
      omega
    · rw [if_neg hc]
      exact ⟨h1, by omega⟩

theorem admitted_after_arrival_of {l : List PCB} {s : SimState} (h : AInv l s) :
    admitted_after_arrival l s.execution_status := by
  obtain ⟨ps, qs, hperm, h1, -⟩ := h
  exact ⟨ps, (List.sublist_append_left ps qs).subperm.trans hperm.subperm, h1⟩

/-- C21 (as amended): in each of the three engines, for every input and in
every iteration of the loop, at the start of the admission sweep every process
of the incoming list has an arrival time that is at least the current tick;
and as long as the clock has not wrapped (after any number `n < 2 ^ 32` of
iterations) every row NEW -> READY of the log belongs to a process of the
input of its own, with the id of the row and an arrival time that is at most
the tick of the row; if the ids of the input are pairwise distinct, this is
the process of the input with the id of the row. -/
theorem arrivals_are_not_overdue (l : List PCB) (n : Nat) :
    (not_overdue (manage_wait_queue (run_loop tick_EP n (init l))) ∧
      not_overdue (manage_wait_queue (run_loop tick_EP_RR n (init l))) ∧
      not_overdue (manage_wait_queue (run_loop tick_RR n (init l)))) ∧
    (n < 2 ^ 32 →
      (admitted_after_arrival l (run_loop tick_EP n (init l)).execution_status ∧
        admitted_after_arrival l (run_loop tick_EP_RR n (init l)).execution_status ∧
        admitted_after_arrival l (run_loop tick_RR n (init l)).execution_status) ∧
      ((l.map (fun p => p.PID)).Nodup →
        admitted_on_time l (run_loop tick_EP n (init l)).execution_status ∧
        admitted_on_time l (run_loop tick_EP_RR n (init l)).execution_status ∧
        admitted_on_time l (run_loop tick_RR n (init l)).execution_status)) :=
  ⟨⟨not_overdue_sweep (not_overdue_run Keeps_list_EP l n),
    not_overdue_sweep (not_overdue_run Keeps_list_EP_RR l n),
    not_overdue_sweep (not_overdue_run Keeps_list_RR l n)⟩,
   fun hn =>
    ⟨⟨admitted_after_arrival_of (AInv_run Keeps_list_EP Sched_log_EP Exec_log_EP l n hn).1,
      admitted_after_arrival_of
        (AInv_run Keeps_list_EP_RR Sched_log_EP_RR Exec_log_RR l n hn).1,
      admitted_after_arrival_of (AInv_run Keeps_list_RR Sched_log_RR Exec_log_RR l n hn).1⟩,
     fun hl =>
      ⟨admitted_on_time_of hl (OInv_run Keeps_list_EP Sched_log_EP Exec_log_EP l n hn).1,
       admitted_on_time_of hl
        (OInv_run Keeps_list_EP_RR Sched_log_EP_RR Exec_log_RR l n hn).1,
       admitted_on_time_of hl (OInv_run Keeps_list_RR Sched_log_RR Exec_log_RR l n hn).1⟩⟩⟩

/-- Witness of `arrivals_are_not_overdue`: three processes of which the third
has to wait for the partition of the first, after 20 iterations. -/
theorem arrivals_are_not_overdue_witness :
    ([add_process 1 40 0 5 2 3, add_process 2 10 1 3 0 0, add_process 3 40 1 200 0 0].map
      (fun p => p.PID)).Nodup ∧
    not_overdue (manage_wait_queue (run_loop tick_EP 20
      (init [add_process 1 40 0 5 2 3, add_process 2 10 1 3 0 0,
        add_process 3 40 1 200 0 0]))) ∧
    admitted_after_arrival [add_process 1 40 0 5 2 3, add_process 2 10 1 3 0 0,
        add_process 3 40 1 200 0 0]
      (run_loop tick_EP 20 (init [add_process 1 40 0 5 2 3, add_process 2 10 1 3 0 0,
        add_process 3 40 1 200 0 0])).execution_status ∧
    admitted_on_time [add_process 1 40 0 5 2 3, add_process 2 10 1 3 0 0,
        add_process 3 40 1 200 0 0]
      (run_loop tick_EP 20 (init [add_process 1 40 0 5 2 3, add_process 2 10 1 3 0 0,
        add_process 3 40 1 200 0 0])).execution_status :=
  ⟨by decide,
   (arrivals_are_not_overdue
      [add_process 1 40 0 5 2 3, add_process 2 10 1 3 0 0, add_process 3 40 1 200 0 0]
      20).1.1,
   ((arrivals_are_not_overdue
      [add_process 1 40 0 5 2 3, add_process 2 10 1 3 0 0, add_process 3 40 1 200 0 0]
      20).2 (by norm_num)).1.1,
   (((arrivals_are_not_overdue
      [add_process 1 40 0 5 2 3, add_process 2 10 1 3 0 0, add_process 3 40 1 200 0 0]
      20).2 (by norm_num)).2 (by decide)).1⟩

/-! ### A run in which an admission is deferred across the wrap of the clock -/

theorem assign_memory_loop_flag (mem : List memory_partition) (p : PCB) (a k : Nat) :
    (assign_memory_loop mem { p with arrival_time := a } k).1 =
      (assign_memory_loop mem p k).1 := by
  induction k with
  | zero => rfl
  | succ i ih =>
    unfold assign_memory_loop
    cases h : mem[i]? with
    | none => exact ih
    | some part =>
      dsimp only
      by_cases hf : toInt p.size ≤ toInt part.size ∧ part.occupied = -1
      · rw [if_pos hf, if_pos hf]
      · rw [if_neg hf, if_neg hf]
        exact ih

theorem admission_result_all_deferred (t : Nat) (mem : List memory_partition)
    (l : List PCB) (h : ∀ p ∈ l, p.arrival_time = t ∧ (assign_memory mem p).1 = false) :
    admission_result t mem l = ([], l.map (postpone 1), mem) := by
  induction l with
  | nil => rfl
  | cons p rest ih =>
    obtain ⟨h1, h2⟩ := h p (List.mem_cons_self _ _)
    rw [admission_result_deferred t mem p rest h1 h2,
      ih (fun q hq => h q (List.mem_cons_of_mem _ hq))]
    rfl

theorem manage_wait_queue_none_done (s : SimState)
    (hw : ∀ p ∈ s.wait_queue, io_done s.current_time p = false) :
    manage_wait_queue s = s := by
  rw [manage_wait_queue_eq]
  have e1 : s.wait_queue.filter (fun p => io_done s.current_time p) = [] := by
    rw [List.filter_eq_nil_iff]
    intro p hp
    rw [hw p hp]
    exact fun hc => by cases hc
  have e2 : s.wait_queue.filter (fun p => !io_done s.current_time p) = s.wait_queue := by
    rw [List.filter_eq_self]
    intro p hp
    rw [hw p hp]
    rfl
  rw [e1, e2]
  simp

theorem tick_EP_deferring (s : SimState) (hr : s.ready_queue = [])
    (hw : ∀ p ∈ s.wait_queue, io_done s.current_time p = false)
    (hrun : s.running.state ≠ states.RUNNING)
    (hl : ∀ p ∈ s.list_processes,
      p.arrival_time = s.current_time ∧ (assign_memory s.mem p).1 = false) :
    tick_EP s = deferred_by 1 s := by
  have h2 : admission s = { s with list_processes := s.list_processes.map (postpone 1) } := by
    rw [admission_eq, admission_result_all_deferred _ _ _ hl]
    simp
  unfold tick_EP
  rw [manage_wait_queue_none_done s hw, h2, dispatch_EP_of_empty _ (show
      ({ s with list_processes := s.list_processes.map (postpone 1) } : SimState).ready_queue
        = [] from hr),
    execute_EP_of_not_running _ (show
      ({ s with list_processes := s.list_processes.map (postpone 1) } : SimState).running.state
        ≠ states.RUNNING from hrun)]
  rfl

theorem u32_sub_add (t b j : Nat) (ht : t < 2 ^ 32) (hb : b < 2 ^ 32)
    (h : u32_sub t b + j < 2 ^ 32) : u32_sub ((t + j) % 2 ^ 32) b = u32_sub t b + j := by
  unfold u32_sub at h ⊢
  split at h <;> split <;> omega

theorem postpone_succ (k : Nat) (p : PCB) : postpone 1 (postpone k p) = postpone (k + 1) p := by
  unfold postpone
  have e3 : ((p.arrival_time + k) % 2 ^ 32 + 1) % 2 ^ 32 =
      (p.arrival_time + (k + 1)) % 2 ^ 32 := by omega
  show ({ p with arrival_time := ((p.arrival_time + k) % 2 ^ 32 + 1) % 2 ^ 32 } : PCB) = _
  rw [e3]

theorem deferred_by_succ (k : Nat) (s : SimState) :
    deferred_by 1 (deferred_by k s) = deferred_by (k + 1) s := by
  have e1 : ((s.current_time + k) % 2 ^ 32 + 1) % 2 ^ 32 =
      (s.current_time + (k + 1)) % 2 ^ 32 := by omega
  have e2 : (s.list_processes.map (postpone k)).map (postpone 1) =
      s.list_processes.map (postpone (k + 1)) := by
    rw [List.map_map]
    apply List.map_congr_left
    intro p _
    exact postpone_succ k p
  unfold deferred_by
  show ({ s with current_time := ((s.current_time + k) % 2 ^ 32 + 1) % 2 ^ 32,
                 list_processes := (s.list_processes.map (postpone k)).map (postpone 1) } :
    SimState) = _
  rw [e1, e2]

/-- While the ready queue is empty, the processor is idle, no I/O ends and
every incoming process arrives at the current tick and is refused, the
iterations of the EP engine only advance the clock and the arrival times. -/
theorem run_EP_deferring (s : SimState) (hr : s.ready_queue = [])
    (hrun : s.running.state ≠ states.RUNNING)
    (hjob : all_process_terminated s.job_list = false)
    (ht : s.current_time < 2 ^ 32) (k : Nat)
    (hw : ∀ w ∈ s.wait_queue,
      u32_sub s.current_time (toUnsigned w.start_time) + k ≤ w.io_duration ∧
      w.io_duration < 2 ^ 32)
    (hl : ∀ p ∈ s.list_processes,
      p.arrival_time = s.current_time ∧ (assign_memory s.mem p).1 = false) :
    run_loop tick_EP k s = deferred_by k s := by
  induction k with
  | zero =>
    show s = deferred_by 0 s
    unfold deferred_by
    have e2 : s.list_processes.map (postpone 0) = s.list_processes := by
      conv_rhs => rw [← List.map_id s.list_processes]
      apply List.map_congr_left
      intro p hp
      have : (p.arrival_time + 0) % 2 ^ 32 = p.arrival_time := by
        rw [Nat.add_zero, (hl p hp).1, Nat.mod_eq_of_lt ht]
      show ({ p with arrival_time := (p.arrival_time + 0) % 2 ^ 32 } : PCB) = p
      rw [this]
    rw [e2, Nat.add_zero, Nat.mod_eq_of_lt ht]
  | succ k ih =>
    have ih2 := ih (fun w hw2 => ⟨by have := (hw w hw2).1; omega, (hw w hw2).2⟩)
    have hloop : loop_cond (deferred_by k s) = true := by
      unfold loop_cond
      show (!all_process_terminated s.job_list || _) = true
      rw [hjob]
      rfl
    rw [run_loop_succ, ih2, if_pos hloop, tick_EP_deferring (deferred_by k s) hr ?_ hrun ?_]
    · exact deferred_by_succ k s
    · intro w hw2
      obtain ⟨h1, h2⟩ := hw w hw2
      show io_done ((s.current_time + k) % 2 ^ 32) w = false
      unfold io_done
      rw [u32_sub_add _ _ _ ht (toUnsigned_lt _) (by omega)]
      exact decide_eq_false (by omega)
    · intro p2 hp2
      have hp3 : p2 ∈ s.list_processes.map (postpone k) := hp2
      obtain ⟨p, hp, hpe⟩ := List.mem_map.1 hp3
      obtain ⟨h1, h2⟩ := hl p hp
      rw [← hpe]
      refine ⟨?_, ?_⟩
      · show (p.arrival_time + k) % 2 ^ 32 = (s.current_time + k) % 2 ^ 32
        rw [h1]
      · show (assign_memory s.mem (postpone k p)).1 = false
        unfold assign_memory at h2 ⊢
        unfold postpone
        rw [assign_memory_loop_flag]
        exact h2

theorem held_up_AB : run_loop tick_EP 2147483646 held_up_A = held_up_B :=
  run_EP_deferring held_up_A (by decide) (by decide) (by decide) (by decide) 2147483646
    (by decide) (by decide)

theorem held_up_CD : run_loop tick_EP 2147483647 held_up_C = held_up_D :=
  run_EP_deferring held_up_C (by decide) (by decide) (by decide) (by decide) 2147483647
    (by decide) (by decide)

theorem held_up_run : run_loop tick_EP 4294967298 (init held_up) = held_up_E := by
  have e : (4294967298 : Nat) = 2 + 2147483646 + 1 + 2147483647 + 2 := by norm_num
  rw [e, run_loop_add, run_loop_add, run_loop_add, run_loop_add]
  show run_loop tick_EP 2 (run_loop tick_EP 2147483647 (run_loop tick_EP 1
    (run_loop tick_EP 2147483646 held_up_A))) = held_up_E
  rw [held_up_AB]
  show run_loop tick_EP 2 (run_loop tick_EP 2147483647 held_up_C) = held_up_E
  rw [held_up_CD]
  rfl

/-- Counterexample to C21 as stated: on the input lines
`1, 40, 0, 3, 1, 2147483647` and `2, 40, 2, 1, 0, 0` process 2 arrives at tick
2 while process 1 holds the only partition that fits it.  Its admission is
deferred tick by tick, across the wrap of the clock, until process 1
terminates; the row NEW -> READY of process 2 carries the tick 1, which is
before its arrival time 2. -/
theorem admitted_after_the_wrap :
    (run_loop tick_EP 4294967298 (init held_up)).execution_status =
      [Event.mk 0 1 states.NEW states.READY,
       Event.mk 0 1 states.READY states.RUNNING,
       Event.mk 1 1 states.RUNNING states.WAITING,
       Event.mk 2147483648 1 states.WAITING states.READY,
       Event.mk 2147483648 1 states.READY states.RUNNING,
       Event.mk 2147483649 1 states.RUNNING states.WAITING,
       Event.mk 0 1 states.WAITING states.READY,
       Event.mk 0 1 states.READY states.RUNNING,
       Event.mk 1 1 states.RUNNING states.TERMINATED,
       Event.mk 1 2 states.NEW states.READY,
       Event.mk 1 2 states.READY states.RUNNING,
       Event.mk 2 2 states.RUNNING states.TERMINATED] ∧
    (add_process 2 40 2 1 0 0).arrival_time = 2 ∧
    ¬ admitted_on_time held_up (run_loop tick_EP 4294967298 (init held_up)).execution_status := by
  rw [held_up_run]
  refine ⟨by decide, by decide, ?_⟩
  intro hc
  have h := (hc (Event.mk 1 2 states.NEW states.READY) (by decide) rfl rfl).2
    (add_process 2 40 2 1 0 0) (by decide) rfl
  exact absurd h (by decide)

/-! ## The time a process spends running -/

theorem run_time_from_snoc (a : Event) (rows : List Event) (z e : Event) :
    run_time_from a (rows ++ [z] ++ [e]) = run_time_from a (rows ++ [z]) + run_gap z e := by
  induction rows generalizing a with
  | nil =>
    show run_gap a z + (run_gap z e + 0) = run_gap a z + 0 + run_gap z e
    omega
  | cons b rest ih =>
    show run_gap a b + run_time_from b (rest ++ [z] ++ [e]) =
      run_gap a b + run_time_from b (rest ++ [z]) + run_gap z e
    rw [ih]
    omega

/-- A further row adds to the sum the running interval that the last row
opens. -/
theorem run_time_snoc (rows : List Event) (z e : Event) :
    run_time (rows ++ [z] ++ [e]) = run_time (rows ++ [z]) + run_gap z e := by
  cases rows with
  | nil =>
    show run_gap z e + 0 = 0 + run_gap z e
    omega
  | cons a rest => exact run_time_from_snoc a rest z e

theorem run_gap_closed (z e : Event)
    (hz : ¬ (z.old_state = states.READY ∧ z.new_state = states.RUNNING)) : run_gap z e = 0 := by
  unfold run_gap
  rw [if_neg hz]

theorem run_gap_open (τ : Nat) (x : Int) (e : Event) :
    run_gap (Event.mk τ x states.READY states.RUNNING) e = u32_sub e.time τ := by
  unfold run_gap
  rw [if_pos ⟨rfl, rfl⟩]

/-- A row that is not a dispatch leaves the booked running time of every
process that is not running as it is. -/
theorem time_booked_append {log : List Event} {x : Int} {T r : Nat}
    (h : time_booked log x T r) (e : Event)
    (he : ¬ (e.old_state = states.READY ∧ e.new_state = states.RUNNING)) :
    time_booked (log ++ [e]) x T r := by
  obtain ⟨h1, h2, h3, h4⟩ := h
  by_cases hx : e.PID = x
  · rw [time_booked, rows_of_append, if_pos hx]
    refine ⟨h1, h2, fun e2 => ?_, ?_⟩
    · rw [run_time_snoc, run_gap_closed _ _ he, Nat.add_zero]
    · rw [h3 e]
      exact h4
  · rw [time_booked, rows_of_append, if_neg hx]
    exact ⟨h1, h2, h3, h4⟩

/-- A row of another process leaves the booked running time as it is. -/
theorem time_booked_other {log : List Event} {x : Int} {T r : Nat}
    (h : time_booked log x T r) (e : Event) (he : e.PID ≠ x) :
    time_booked (log ++ [e]) x T r := by
  rw [time_booked, rows_of_append_ne _ _ _ he]
  exact h

theorem time_running_other {t : Nat} {log : List Event} {x : Int} {T r : Nat}
    (h : time_running t log x T r) (e : Event) (he : e.PID ≠ x) :
    time_running t (log ++ [e]) x T r := by
  rw [time_running, rows_of_append_ne _ _ _ he]
  exact h

/-- The dispatch of a process that is not running opens an interval. -/
theorem time_running_start {log : List Event} {x : Int} {T r : Nat}
    (h : time_booked log x T r) (t : Nat) (ht : t < 2 ^ 32) :
    time_running t (log ++ [Event.mk t x states.READY states.RUNNING]) x T r := by
  obtain ⟨-, h2, h3, h4⟩ := h
  refine ⟨h2, rows_of x log, t, ?_, ht, ?_⟩
  · rw [rows_of_append, if_pos rfl]
  · rw [rows_of_append, if_pos rfl, h3, u32_sub_self, Nat.add_zero]
    exact h4

/-- A unit of work makes the open interval one tick longer. -/
theorem time_running_tick {t : Nat} {log : List Event} {x : Int} {T r r2 : Nat}
    (h : time_running t log x T r) (ht : t < 2 ^ 32) (hr : r2 + 1 = r) :
    time_running ((t + 1) % 2 ^ 32) log x T r2 := by
  obtain ⟨h2, rows, τ, h3, h4, h5⟩ := h
  refine ⟨h2, rows, τ, h3, h4, ?_⟩
  rw [u32_sub_step t τ ht h4 (by omega)]
  omega

/-- A row of the running process at the current tick that is not a dispatch
closes the open interval. -/
theorem time_running_stop {t : Nat} {log : List Event} {x : Int} {T r : Nat}
    (h : time_running t log x T r) (e : Event) (hx : e.PID = x) (ht : e.time = t)
    (he : ¬ (e.old_state = states.READY ∧ e.new_state = states.RUNNING)) :
    (∀ e2, run_time (rows_of x (log ++ [e]) ++ [e2]) = run_time (rows_of x (log ++ [e]))) ∧
    run_time (rows_of x (log ++ [e])) + r = T := by
  obtain ⟨-, rows, τ, h3, -, h5⟩ := h
  rw [rows_of_append, if_pos hx]
  refine ⟨fun e2 => ?_, ?_⟩
  · rw [run_time_snoc, run_gap_closed _ _ he, Nat.add_zero]
  · rw [h3] at h5 ⊢
    rw [run_time_snoc, run_gap_open, ht]
    exact h5

theorem Keyed_PID : Keyed (fun p : PCB => p.PID) :=
  fun _ => ⟨rfl, fun _ => rfl, rfl, fun _ => rfl, fun _ => rfl, fun _ => rfl⟩

/-- A step loses no unfinished process but, at most, the running one. -/
theorem Step_pool_stays {pg : SimState → Prop} {q : Bool} {s s2 : SimState}
    (h : Step pg q s s2) :
    ∀ x ∈ (pool s).map (fun p => p.PID), x ∈ (pool s2).map (fun p => p.PID) ∨
      (x = s.running.PID ∧ s.running.state = states.RUNNING) := by
  intro x hx
  rcases Step_pool_map (fun p : PCB => p.PID) Keyed_PID h with ⟨hperm, -⟩ | ⟨hr, hperm, hcase⟩
  · exact Or.inl (hperm.mem_iff.2 hx)
  · rcases List.mem_append.1 (hperm.mem_iff.1 hx) with h1 | h1
    · exact Or.inr ⟨List.mem_singleton.1 h1, hr⟩
    · rcases hcase with ⟨-, -, hperm2, -⟩ | ⟨-, -, hperm2, -⟩ | ⟨-, hperm2, -⟩
      · exact Or.inl (hperm2.mem_iff.2 (List.mem_append_right _ h1))
      · exact Or.inl (hperm2.mem_iff.2 (List.mem_append_right _ h1))
      · exact Or.inl (hperm2.mem_iff.2 h1)

/-- The running time of the terminated processes after a step that loses no
unfinished process and appends at most a row of an unfinished one. -/
theorem done_kept {l : List PCB} {s s2 : SimState}
    (hT : ∀ p0 ∈ l, p0.PID ∉ (pool s).map (fun p => p.PID) →
      run_time (rows_of p0.PID s.execution_status) = p0.processing_time)
    (hstay : ∀ x ∈ (pool s).map (fun p => p.PID), x ∈ (pool s2).map (fun p => p.PID) ∨
      (x = s.running.PID ∧ s.running.state = states.RUNNING))
    (hrun : s.running.state = states.RUNNING →
      s.running.PID ∈ (pool s2).map (fun p => p.PID))
    (hlog : s2.execution_status = s.execution_status ∨
      ∃ e, s2.execution_status = s.execution_status ++ [e] ∧
        e.PID ∈ (pool s2).map (fun p => p.PID)) :
    ∀ p0 ∈ l, p0.PID ∉ (pool s2).map (fun p => p.PID) →
      run_time (rows_of p0.PID s2.execution_status) = p0.processing_time := by
  intro p0 hp0 hnot
  have h1 := hT p0 hp0 (fun hc => hnot (by
    rcases hstay _ hc with h2 | ⟨h2, h3⟩
    · exact h2
    · rw [h2]
      exact hrun h3))
  rcases hlog with h2 | ⟨e, h2, h3⟩
  · rw [h2]
    exact h1
  · rw [h2, rows_of_append_ne _ _ _ (fun hc => hnot (by rw [← hc]; exact h3))]
    exact h1

theorem mem_pool_ids {s : SimState} (p : PCB) (h : p ∈ pool s) :
    p.PID ∈ (pool s).map (fun p => p.PID) :=
  List.mem_map_of_mem (fun p : PCB => p.PID) h

/-- Every atomic step keeps `TInv`. -/
theorem TInv_step {pg : SimState → Prop} {q : Bool} (l : List PCB)
    (hl : (l.map (fun p => p.PID)).Nodup) (s s2 : SimState) (hI : TInv l s)
    (h : Step pg q s s2) : TInv l s2 := by
  obtain ⟨hb, hq, hO, hR, hT⟩ := hI
  refine ⟨Base_step s s2 hb h, PoolQ_step (Keeps_same_spec l) hq h, ?_⟩
  have hstay := Step_pool_stays h
  have hOl : ∀ p ∈ s.list_processes,
      time_booked s.execution_status p.PID p.processing_time p.remaining_time :=
    fun p hp => hO p (List.mem_append_left _ hp)
  have hOr : ∀ p ∈ s.ready_queue,
      time_booked s.execution_status p.PID p.processing_time p.remaining_time :=
    fun p hp => hO p (List.mem_append_right _ (List.mem_append_left _ hp))
  have hOw : ∀ p ∈ s.wait_queue,
      time_booked s.execution_status p.PID p.processing_time p.remaining_time :=
    fun p hp => hO p (List.mem_append_right _ (List.mem_append_right _ hp))
  cases h with
  | woken a b p h hd =>
    have hpw : p ∈ s.wait_queue := by rw [h]; exact mem_split_self a b p
    refine ⟨?_, ?_, ?_⟩
    · intro x hx
      have hx2 : x ∈ s.list_processes ++ ((s.ready_queue ++ [wake p]) ++ (a ++ b)) := hx
      refine time_booked_append ?_ _ (fun hc => by cases hc.1)
      rcases List.mem_append.1 hx2 with h1 | h1
      · exact hOl x h1
      · rcases List.mem_append.1 h1 with h2 | h2
        · rcases List.mem_append.1 h2 with h3 | h3
          · exact hOr x h3
          · rw [List.mem_singleton.1 h3]
            exact hOw p hpw
        · exact hOw x (by rw [h]; exact mem_split h2)
    · intro hr
      have hr2 : s.running.state = states.RUNNING := hr
      obtain ⟨h1, h2⟩ := hR hr2
      exact ⟨h1, time_running_other h2 _
        (show p.PID ≠ s.running.PID from Base_running_ne_wait hb hr2 hpw)⟩
    · exact done_kept hT hstay (fun hr => mem_pool_ids _ (mem_pool_running hr))
        (Or.inr ⟨_, rfl, mem_pool_ids (wake p) (mem_pool_ready
          (List.mem_append_right _ (List.mem_singleton_self _)))⟩)
  | arrived a b p h ha hok =>
    have hpl : p ∈ s.list_processes := by rw [h]; exact mem_split_self a b p
    refine ⟨?_, ?_, ?_⟩
    · intro x hx
      have hx2 : x ∈ (a ++ b) ++
          ((s.ready_queue ++ [to_ready (assign_memory s.mem p).2.2]) ++ s.wait_queue) := hx
      refine time_booked_append ?_ _ (fun hc => by cases hc.1)
      rcases List.mem_append.1 hx2 with h1 | h1
      · exact hOl x (by rw [h]; exact mem_split h1)
      · rcases List.mem_append.1 h1 with h2 | h2
        · rcases List.mem_append.1 h2 with h3 | h3
          · exact hOr x h3
          · rw [List.mem_singleton.1 h3, assign_memory_snd]
            exact hOl p hpl
        · exact hOw x h2
    · intro hr
      have hr2 : s.running.state = states.RUNNING := hr
      obtain ⟨h1, h2⟩ := hR hr2
      refine ⟨h1, time_running_other h2 _ ?_⟩
      show (to_ready (assign_memory s.mem p).2.2).PID ≠ s.running.PID
      rw [to_ready_PID, assign_memory_PID]
      exact Base_running_ne_list hb hr2 hpl
    · exact done_kept hT hstay (fun hr => mem_pool_ids _ (mem_pool_running hr))
        (Or.inr ⟨_, rfl, mem_pool_ids (to_ready (assign_memory s.mem p).2.2) (mem_pool_ready
          (List.mem_append_right _ (List.mem_singleton_self _)))⟩)
  | deferred a b p h ha hno =>
    have hpl : p ∈ s.list_processes := by rw [h]; exact mem_split_self a b p
    refine ⟨?_, hR, ?_⟩
    · intro x hx
      have hx2 : x ∈ (a ++ { p with arrival_time := (p.arrival_time + 1) % 2 ^ 32 } :: b) ++
          (s.ready_queue ++ s.wait_queue) := hx
      show time_booked s.execution_status _ _ _
      rcases List.mem_append.1 hx2 with h1 | h1
      · rcases List.mem_append.1 h1 with h2 | h2
        · exact hOl x (by rw [h]; exact List.mem_append_left _ h2)
        · rcases List.mem_cons.1 h2 with h3 | h3
          · rw [h3]
            exact hOl p hpl
          · exact hOl x (by rw [h]; exact List.mem_append_right _ (List.mem_cons_of_mem _ h3))
      · exact hO x (List.mem_append_right _ h1)
    · exact done_kept hT hstay (fun hr => mem_pool_ids _ (mem_pool_running hr)) (Or.inl rfl)
  | reordered r hr =>
    refine ⟨?_, hR, ?_⟩
    · intro x hx
      have hx2 : x ∈ s.list_processes ++ (r ++ s.wait_queue) := hx
      show time_booked s.execution_status _ _ _
      rcases List.mem_append.1 hx2 with h1 | h1
      · exact hOl x h1
      · rcases List.mem_append.1 h1 with h2 | h2
        · exact hOr x (hr.mem_iff.1 h2)
        · exact hOw x h2
    · exact done_kept hT hstay (fun hr => mem_pool_ids _ (mem_pool_running hr)) (Or.inl rfl)
  | preempted hr hg =>
    obtain ⟨h1, h2⟩ := hR hr
    refine ⟨?_, fun hc => absurd hc idle_not_running, ?_⟩
    · intro x hx
      have hx2 : x ∈ s.list_processes ++
          ((s.ready_queue ++ [to_ready s.running]) ++ s.wait_queue) := hx
      have hold : time_booked s.execution_status x.PID x.processing_time x.remaining_time →
          time_booked (s.execution_status ++
            [Event.mk s.current_time s.running.PID states.RUNNING states.READY])
            x.PID x.processing_time x.remaining_time :=
        fun hx3 => time_booked_append hx3 _ (fun hc => by cases hc.1)
      rcases List.mem_append.1 hx2 with h3 | h3
      · exact hold (hOl x h3)
      · rcases List.mem_append.1 h3 with h4 | h4
        · rcases List.mem_append.1 h4 with h5 | h5
          · exact hold (hOr x h5)
          · rw [List.mem_singleton.1 h5]
            obtain ⟨h6, h7⟩ := time_running_stop h2
              (Event.mk s.current_time s.running.PID states.RUNNING states.READY) rfl rfl
              (fun hc => by cases hc.1)
            exact ⟨h1, h2.1, h6, h7⟩
        · exact hold (hOw x h4)
    · exact done_kept hT hstay
        (fun _ => mem_pool_ids (to_ready s.running) (mem_pool_ready
          (List.mem_append_right _ (List.mem_singleton_self _))))
        (Or.inr ⟨_, rfl, mem_pool_ids (to_ready s.running) (mem_pool_ready
          (List.mem_append_right _ (List.mem_singleton_self _)))⟩)
  | dispatched a b p c h hv hc =>
    have hpr : p ∈ s.ready_queue := by rw [h]; exact mem_split_self a b p
    have hlive : p.PID ∈ (live s).map (fun p => p.PID) := by
      rw [live_eq]
      exact List.mem_map_of_mem (fun p : PCB => p.PID)
        (List.mem_append_left _ (List.mem_append_left _ hpr))
    refine ⟨?_, ?_, ?_⟩
    · intro x hx
      have hx2 : x ∈ s.list_processes ++ ((a ++ b) ++ s.wait_queue) := hx
      rcases List.mem_append.1 hx2 with h1 | h1
      · refine time_booked_other (hOl x h1) _ (fun hc2 => Base_list_not_live hb h1 ?_)
        rw [← hc2]
        exact hlive
      · rcases List.mem_append.1 h1 with h2 | h2
        · exact time_booked_other (hOr x (by rw [h]; exact mem_split h2)) _
            (fun hc2 => nodup_split_ne (Base_parts hb).2.1 h h2 hc2.symm)
        · exact time_booked_other (hOw x h2) _ ((Base_parts hb).2.2.2 p hpr x h2)
    · intro _
      exact ⟨(hOr p hpr).1, time_running_start (hOr p hpr) s.current_time hb.1⟩
    · exact done_kept hT hstay (fun hr => absurd hr hv)
        (Or.inr ⟨_, rfl, mem_pool_ids (to_run s.current_time p) (mem_pool_running (by rfl))⟩)
  | finished c hr h0 hw =>
    obtain ⟨h1, h2⟩ := hR hr
    have h3 := time_running_tick h2 hb.1 (work_remaining _ h1)
    obtain ⟨-, h5⟩ := time_running_stop h3
      (Event.mk ((s.current_time + 1) % 2 ^ 32)
        (free_memory s.mem (terminated (work s.running))).2.2.PID
        states.RUNNING states.TERMINATED)
      (free_memory_PID _ _) rfl (fun hc => by cases hc.1)
    refine ⟨?_, fun hc => absurd hc idle_not_running, ?_⟩
    · intro x hx
      have hx2 : x ∈ s.list_processes ++ (s.ready_queue ++ s.wait_queue) := hx
      exact time_booked_append (hO x hx2) _ (fun hc => by cases hc.1)
    · intro p0 hp0 hnot
      show run_time (rows_of p0.PID (s.execution_status ++
        [Event.mk ((s.current_time + 1) % 2 ^ 32)
          (free_memory s.mem (terminated (work s.running))).2.2.PID
          states.RUNNING states.TERMINATED])) = p0.processing_time
      by_cases hc : p0.PID = s.running.PID
      · obtain ⟨p1, hp1, hpid, -, hT1, -, -⟩ := hq _ (mem_pool_running hr)
        have hpp : p0 = p1 := eq_of_same_PID hl hp0 hp1 (by rw [hpid, hc])
        rw [hc, hpp, hT1]
        rw [h0, Nat.add_zero] at h5
        exact h5
      · have hne : (free_memory s.mem (terminated (work s.running))).2.2.PID ≠ p0.PID := by
          rw [free_memory_PID]
          exact fun hc2 => hc hc2.symm
        rw [rows_of_append_ne _ _ _ hne]
        refine hT p0 hp0 (fun hc2 => hnot ?_)
        rcases hstay _ hc2 with h6 | ⟨h6, -⟩
        · exact h6
        · exact absurd h6 hc
  | blocked c hr h0 hio hw =>
    obtain ⟨h1, h2⟩ := hR hr
    have h3 := time_running_tick h2 hb.1 (work_remaining _ h1)
    obtain ⟨h4, h5⟩ := time_running_stop h3
      (Event.mk ((s.current_time + 1) % 2 ^ 32) (work s.running).PID
        states.RUNNING states.WAITING) rfl rfl (fun hc => by cases hc.1)
    refine ⟨?_, fun hc => absurd hc idle_not_running, ?_⟩
    · intro x hx
      have hx2 : x ∈ s.list_processes ++
          (s.ready_queue ++ (s.wait_queue ++ [to_wait s.current_time (work s.running)])) := hx
      have hold : time_booked s.execution_status x.PID x.processing_time x.remaining_time →
          time_booked (s.execution_status ++
            [Event.mk ((s.current_time + 1) % 2 ^ 32) (work s.running).PID
              states.RUNNING states.WAITING])
            x.PID x.processing_time x.remaining_time :=
        fun hx3 => time_booked_append hx3 _ (fun hc => by cases hc.1)
      rcases List.mem_append.1 hx2 with h6 | h6
      · exact hold (hOl x h6)
      · rcases List.mem_append.1 h6 with h7 | h7
        · exact hold (hOr x h7)
        · rcases List.mem_append.1 h7 with h8 | h8
          · exact hold (hOw x h8)
          · rw [List.mem_singleton.1 h8]
            exact ⟨Nat.pos_of_ne_zero h0, h2.1, h4, h5⟩
    · exact done_kept hT hstay
        (fun _ => mem_pool_ids (to_wait s.current_time (work s.running)) (mem_pool_wait
          (List.mem_append_right _ (List.mem_singleton_self _))))
        (Or.inr ⟨_, rfl, mem_pool_ids (to_wait s.current_time (work s.running)) (mem_pool_wait
          (List.mem_append_right _ (List.mem_singleton_self _)))⟩)
  | worked c hr h0 hio hw hc =>
    obtain ⟨h1, h2⟩ := hR hr
    refine ⟨hO, fun _ => ⟨Nat.pos_of_ne_zero h0,
      time_running_tick h2 hb.1 (work_remaining _ h1)⟩, ?_⟩
    exact done_kept hT hstay (fun hr2 => mem_pool_ids (work s.running) (mem_pool_running (by exact hr2)))
      (Or.inl rfl)
  | idled hr hw =>
    exact ⟨hO, fun hc => absurd hc hr,
      done_kept hT hstay (fun hc => absurd hc hr) (Or.inl rfl)⟩

theorem TInv_init (l : List PCB) (hl : counting_input l) : TInv l (init l) := by
  refine ⟨Base_init l hl.1, same_spec_init l, ?_, fun hc => absurd hc idle_not_running, ?_⟩
  · intro p hp
    have hp2 : p ∈ l ++ ([] ++ []) := hp
    rw [List.append_nil, List.append_nil] at hp2
    obtain ⟨h1, h2, h3⟩ := hl.2 p hp2
    refine ⟨by omega, h2, fun e => rfl, ?_⟩
    show 0 + p.remaining_time = p.processing_time
    omega
  · intro p0 hp0 hnot
    exfalso
    apply hnot
    rw [pool_init]
    exact List.mem_map_of_mem (fun p : PCB => p.PID) hp0

theorem TInv_run (l : List PCB) (hl : counting_input l) (n : Nat) :
    TInv l (run_loop tick_EP n (init l)) ∧ TInv l (run_loop tick_EP_RR n (init l)) ∧
    TInv l (run_loop tick_RR n (init l)) :=
  ⟨Steps_invariant (TInv l) (TInv_step l hl.1) (TInv_init l hl) (Steps_run_EP l n),
   Steps_invariant (TInv l) (TInv_step l hl.1) (TInv_init l hl) (Steps_run_EP_RR l n),
   Steps_invariant (TInv l) (TInv_step l hl.1) (TInv_init l hl) (Steps_run_RR l n)⟩

/-- A row that enters TERMINATED is the last row of its process. -/
theorem terminated_row_last {pre : Bool} {s : SimState} (hL : Life pre s) (e : Event)
    (he : e ∈ s.execution_status) (hterm : e.new_state = states.TERMINATED) :
    (rows_of e.PID s.execution_status).getLast? = some e := by
  have hmem : e ∈ rows_of e.PID s.execution_status :=
    List.mem_filter.2 ⟨he, decide_eq_true rfl⟩
  obtain ⟨i, hi⟩ := List.mem_iff_getElem?.1 hmem
  have hlen := (Life_follows hL e.PID).2.2.2 i e hi hterm
  rw [List.getLast?_eq_getElem?, ← hlen, Nat.add_sub_cancel]
  exact hi

/-- A process with a row that enters TERMINATED is not among the unfinished
ones. -/
theorem terminated_row_not_pool {pre : Bool} {s : SimState} (hL : Life pre s) (e : Event)
    (he : e ∈ s.execution_status) (hterm : e.new_state = states.TERMINATED) :
    e.PID ∉ (pool s).map (fun p => p.PID) := by
  intro hc
  obtain ⟨p, hp, hpe⟩ := List.mem_map.1 hc
  have hpe2 : p.PID = e.PID := hpe
  obtain ⟨st, hst, hne⟩ := tagged_of_pool hp
  have h1 := hL.2.1 p.PID st hst
  rw [hpe2] at h1
  have hlast := terminated_row_last hL e he hterm
  rcases (follows_of_run pre _ st h1).2 with ⟨h2, -⟩ | ⟨e2, h2, h3⟩
  · rw [h2] at hlast
    cases hlast
  · rw [hlast] at h2
    rw [← Option.some.inj h2, hterm] at h3
    exact hne h3.symm

theorem run_gap_ordered (a b : Event) (h : a.time ≤ b.time) :
    a.time + run_gap a b ≤ b.time ∧ run_gap_int a b = (run_gap a b : Int) := by
  unfold run_gap run_gap_int u32_sub
  by_cases hd : a.old_state = states.READY ∧ a.new_state = states.RUNNING
  · rw [if_pos hd, if_pos hd, if_pos h]
    omega
  · rw [if_neg hd, if_neg hd]
    exact ⟨by omega, rfl⟩

theorem run_time_from_ordered (a : Event) (rows : List Event)
    (hord : (a :: rows).Pairwise (fun a b => a.time ≤ b.time)) :
    (∀ z, (a :: rows).getLast? = some z → a.time + run_time_from a rows ≤ z.time) ∧
    run_time_int_from a rows = (run_time_from a rows : Int) := by
  induction rows generalizing a with
  | nil =>
    refine ⟨fun z hz => ?_, rfl⟩
    have hz2 : a = z := Option.some.inj hz
    rw [← hz2]
    show a.time + 0 ≤ a.time
    omega
  | cons b rest ih =>
    obtain ⟨h1, h2⟩ := List.pairwise_cons.1 hord
    obtain ⟨h3, h4⟩ := run_gap_ordered a b (h1 b (List.mem_cons_self _ _))
    obtain ⟨h5, h6⟩ := ih b h2
    refine ⟨fun z hz => ?_, ?_⟩
    · rw [List.getLast?_cons_cons] at hz
      have h7 := h5 z hz
      show a.time + (run_gap a b + run_time_from b rest) ≤ z.time
      omega
    · show run_gap_int a b + run_time_int_from b rest =
        ((run_gap a b + run_time_from b rest : Nat) : Int)
      rw [h4, h6]
      omega

/-- In time-ordered rows the running intervals fit between the first and the
last row, and the differences in `unsigned int` are the differences in the
integers. -/
theorem run_time_ordered (rows : List Event)
    (hord : rows.Pairwise (fun a b => a.time ≤ b.time)) :
    (∀ a z, rows.head? = some a → rows.getLast? = some z →
      a.time + run_time rows ≤ z.time) ∧
    run_time_int rows = (run_time rows : Int) := by
  cases rows with
  | nil => exact ⟨fun a z ha => (by cases ha), rfl⟩
  | cons a rest =>
    obtain ⟨h1, h2⟩ := run_time_from_ordered a rest hord
    refine ⟨fun a2 z ha hz => ?_, h2⟩
    have ha2 : a = a2 := Option.some.inj ha
    rw [← ha2]
    exact h1 z hz

theorem adds_up_of {pre : Bool} {l : List PCB} {s : SimState} (hT : TInv l s)
    (hL : Life pre s) (p : PCB) (hp : p ∈ l) : running_time_adds_up p s := by
  intro e he hpid hterm
  have h1 := terminated_row_not_pool hL e he hterm
  rw [hpid] at h1
  exact hT.2.2.2.2 p hp h1

theorem finishes_of {pre : Bool} {l : List PCB} (hl : (l.map (fun p => p.PID)).Nodup)
    {s : SimState} (hT : TInv l s) (hL : Life pre s) (hO : OInv l s)
    (hord : time_ordered s.execution_status) (p : PCB) (hp : p ∈ l) :
    finishes_after_its_time p s := by
  intro e he hpid hterm
  have hsum := adds_up_of hT hL p hp e he hpid hterm
  have hrows : (rows_of p.PID s.execution_status).Pairwise (fun a b => a.time ≤ b.time) :=
    List.Pairwise.sublist (List.filter_sublist _) hord
  obtain ⟨h1, h2⟩ := run_time_ordered _ hrows
  have hlast := terminated_row_last hL e he hterm
  rw [hpid] at hlast
  refine ⟨by rw [h2, hsum], ?_⟩
  cases hrow : rows_of p.PID s.execution_status with
  | nil =>
    rw [hrow] at hlast
    cases hlast
  | cons a rest =>
    have hhead : (rows_of p.PID s.execution_status).head? = some a := by rw [hrow]; rfl
    have hfirst := (Life_follows hL p.PID).1 a hhead
    have hmem : a ∈ rows_of p.PID s.execution_status := by
      rw [hrow]
      exact List.mem_cons_self _ _
    obtain ⟨ha, hax⟩ := List.mem_filter.1 hmem
    have hax2 : a.PID = p.PID := of_decide_eq_true hax
    obtain ⟨p0, hp0, hpid0, harr⟩ := hO.2 a ha hfirst.1
    have hpp : p0 = p := eq_of_same_PID hl hp0 hp (by rw [hpid0, hax2])
    rw [hpp] at harr
    have h3 := h1 a e hhead hlast
    rw [hsum] at h3
    omega

theorem Life_run_engines (l : List PCB) (hl : (l.map (fun p => p.PID)).Nodup) (n : Nat) :
    Life false (run_loop tick_EP n (init l)) ∧ Life true (run_loop tick_EP_RR n (init l)) ∧
    Life true (run_loop tick_RR n (init l)) :=
  ⟨Life_Steps false (Or.inr (fun _ h => h)) (Life_init false l hl) (Steps_run_EP l n),
   Life_Steps true (Or.inl rfl) (Life_init true l hl) (Steps_run_EP_RR l n),
   Life_Steps true (Or.inl rfl) (Life_init true l hl) (Steps_run_RR l n)⟩

/-- C22 (as amended): in each of the three engines, for every input with
pairwise distinct ids and processing times above 0, every process `p` of it
and every number `n` of iterations: if the transition log has a row of `p`
that enters TERMINATED, then the running intervals of `p` in the log (for
every row READY -> RUNNING of `p` with the tick `s`, the tick `e` of the next
row of `p`, summed as `e - s` in `unsigned int`) add up to the total
processing time of `p`; and as long as the clock has not wrapped
(`n < 2 ^ 32`) the sum of the differences `e - s` taken in the integers is the
total processing time too, and the tick of the row RUNNING -> TERMINATED is at
least the arrival time plus the processing time. -/
theorem running_time_is_processing_time (l : List PCB) (hl : counting_input l) (n : Nat)
    (p : PCB) (hp : p ∈ l) :
    (running_time_adds_up p (run_loop tick_EP n (init l)) ∧
      running_time_adds_up p (run_loop tick_EP_RR n (init l)) ∧
      running_time_adds_up p (run_loop tick_RR n (init l))) ∧
    (n < 2 ^ 32 →
      finishes_after_its_time p (run_loop tick_EP n (init l)) ∧
      finishes_after_its_time p (run_loop tick_EP_RR n (init l)) ∧
      finishes_after_its_time p (run_loop tick_RR n (init l))) := by
  obtain ⟨t1, t2, t3⟩ := TInv_run l hl n
  obtain ⟨l1, l2, l3⟩ := Life_run_engines l hl.1 n
  refine ⟨⟨adds_up_of t1 l1 p hp, adds_up_of t2 l2 p hp, adds_up_of t3 l3 p hp⟩, fun hn => ?_⟩
  exact
    ⟨finishes_of hl.1 t1 l1 (OInv_run Keeps_list_EP Sched_log_EP Exec_log_EP l n hn).1
      (LogInv_run_loop tick_EP Tick_log_EP l n hn).1.2.1 p hp,
     finishes_of hl.1 t2 l2 (OInv_run Keeps_list_EP_RR Sched_log_EP_RR Exec_log_RR l n hn).1
      (LogInv_run_loop tick_EP_RR Tick_log_EP_RR l n hn).1.2.1 p hp,
     finishes_of hl.1 t3 l3 (OInv_run Keeps_list_RR Sched_log_RR Exec_log_RR l n hn).1
      (LogInv_run_loop tick_RR Tick_log_RR l n hn).1.2.1 p hp⟩

/-- Witness of `running_time_is_processing_time`: three units of work with an
I/O of one tick after each; after five iterations of the EP engine the process
has terminated, at tick 5, and its three running intervals of one tick add up
to 3. -/
theorem running_time_is_processing_time_witness :
    counting_input [add_process 1 10 0 3 1 1] ∧
    Event.mk 5 1 states.RUNNING states.TERMINATED ∈
      (run_loop tick_EP 5 (init [add_process 1 10 0 3 1 1])).execution_status ∧
    run_time (rows_of 1 (run_loop tick_EP 5 (init [add_process 1 10 0 3 1 1])).execution_status)
      = 3 ∧
    run_time_int
      (rows_of 1 (run_loop tick_EP 5 (init [add_process 1 10 0 3 1 1])).execution_status) = 3 ∧
    (add_process 1 10 0 3 1 1).arrival_time + (add_process 1 10 0 3 1 1).processing_time ≤ 5 :=
  ⟨by unfold counting_input; decide, by decide,
   (running_time_is_processing_time [add_process 1 10 0 3 1 1]
      (by unfold counting_input; decide) 5 (add_process 1 10 0 3 1 1)
      (List.mem_cons_self _ _)).1.1
      (Event.mk 5 1 states.RUNNING states.TERMINATED) (by decide) rfl rfl,
   ((running_time_is_processing_time [add_process 1 10 0 3 1 1]
      (by unfold counting_input; decide) 5 (add_process 1 10 0 3 1 1)
      (List.mem_cons_self _ _)).2 (by decide)).1
      (Event.mk 5 1 states.RUNNING states.TERMINATED) (by decide) rfl rfl⟩

/-- Counterexample to C22 as stated: on the input line
`1, 10, 0, 3, 1, 2147483647` (arrival at tick 0, three units of work) the EP
engine has logged RUNNING -> TERMINATED of process 1 after `4294967297`
iterations, at tick 1: the clock has wrapped during the second I/O, and
`1 < 0 + 3`.  The three running intervals of the process add up to 3. -/
theorem terminated_before_its_time :
    counting_input [long_io] ∧
    (run_loop tick_EP 4294967297 (init [long_io])).execution_status =
      [Event.mk 0 1 states.NEW states.READY,
       Event.mk 0 1 states.READY states.RUNNING,
       Event.mk 1 1 states.RUNNING states.WAITING,
       Event.mk 2147483648 1 states.WAITING states.READY,
       Event.mk 2147483648 1 states.READY states.RUNNING,
       Event.mk 2147483649 1 states.RUNNING states.WAITING,
       Event.mk 0 1 states.WAITING states.READY,
       Event.mk 0 1 states.READY states.RUNNING,
       Event.mk 1 1 states.RUNNING states.TERMINATED] ∧
    long_io.arrival_time = 0 ∧ long_io.processing_time = 3 ∧
    run_time (rows_of long_io.PID
      (run_loop tick_EP 4294967297 (init [long_io])).execution_status) = 3 ∧
    ¬ finishes_after_its_time long_io (run_loop tick_EP 4294967297 (init [long_io])) := by
  rw [long_io_run]
  refine ⟨by unfold counting_input; decide, by decide, by decide, by decide, by decide, ?_⟩
  intro hc
  have h := (hc (Event.mk 1 1 states.RUNNING states.TERMINATED) (by decide) rfl rfl).2
  exact absurd h (by decide)

/-! ## A preemption after the clock has wrapped -/

theorem tick_RR_deferring (s : SimState) (hr : s.ready_queue = [])
    (hw : ∀ p ∈ s.wait_queue, io_done s.current_time p = false)
    (hrun : s.running.state ≠ states.RUNNING)
    (hl : ∀ p ∈ s.list_processes,
      p.arrival_time = s.current_time ∧ (assign_memory s.mem p).1 = false) :
    tick_RR s = deferred_by 1 s := by
  have h2 : admission s = { s with list_processes := s.list_processes.map (postpone 1) } := by
    rw [admission_eq, admission_result_all_deferred _ _ _ hl]
    simp
  unfold tick_RR
  rw [manage_wait_queue_none_done s hw, h2,
    preempt_RR_of_not_running _ (show
      ({ s with list_processes := s.list_processes.map (postpone 1) } : SimState).running.state
        ≠ states.RUNNING from hrun),
    dispatch_RR_of_empty _ (show
      ({ s with list_processes := s.list_processes.map (postpone 1) } : SimState).ready_queue
        = [] from hr),
    execute_RR_of_not_running _ (show
      ({ s with list_processes := s.list_processes.map (postpone 1) } : SimState).running.state
        ≠ states.RUNNING from hrun)]
  rfl

/-- While the ready queue is empty, the processor is idle, no I/O ends and
every incoming process arrives at the current tick and is refused, the
iterations of the RR engine only advance the clock and the arrival times. -/
theorem run_RR_deferring (s : SimState) (hr : s.ready_queue = [])
    (hrun : s.running.state ≠ states.RUNNING)
    (hjob : all_process_terminated s.job_list = false)
    (ht : s.current_time < 2 ^ 32) (k : Nat)
    (hw : ∀ w ∈ s.wait_queue,
      u32_sub s.current_time (toUnsigned w.start_time) + k ≤ w.io_duration ∧
      w.io_duration < 2 ^ 32)
    (hl : ∀ p ∈ s.list_processes,
      p.arrival_time = s.current_time ∧ (assign_memory s.mem p).1 = false) :
    run_loop tick_RR k s = deferred_by k s := by
  induction k with
  | zero =>
    show s = deferred_by 0 s
    unfold deferred_by
    have e2 : s.list_processes.map (postpone 0) = s.list_processes := by
      conv_rhs => rw [← List.map_id s.list_processes]
      apply List.map_congr_left
      intro p hp
      have : (p.arrival_time + 0) % 2 ^ 32 = p.arrival_time := by
        rw [Nat.add_zero, (hl p hp).1, Nat.mod_eq_of_lt ht]
      show ({ p with arrival_time := (p.arrival_time + 0) % 2 ^ 32 } : PCB) = p
      rw [this]
    rw [e2, Nat.add_zero, Nat.mod_eq_of_lt ht]
  | succ k ih =>
    have ih2 := ih (fun w hw2 => ⟨by have := (hw w hw2).1; omega, (hw w hw2).2⟩)
    have hloop : loop_cond (deferred_by k s) = true := by
      unfold loop_cond
      show (!all_process_terminated s.job_list || _) = true
      rw [hjob]
      rfl
    rw [run_loop_succ, ih2, if_pos hloop, tick_RR_deferring (deferred_by k s) hr ?_ hrun ?_]
    · exact deferred_by_succ k s
    · intro w hw2
      obtain ⟨h1, h2⟩ := hw w hw2
      show io_done ((s.current_time + k) % 2 ^ 32) w = false
      unfold io_done
      rw [u32_sub_add _ _ _ ht (toUnsigned_lt _) (by omega)]
      exact decide_eq_false (by omega)
    · intro p2 hp2
      have hp3 : p2 ∈ s.list_processes.map (postpone k) := hp2
      obtain ⟨p, hp, hpe⟩ := List.mem_map.1 hp3
      obtain ⟨h1, h2⟩ := hl p hp
      rw [← hpe]
      refine ⟨?_, ?_⟩
      · show (p.arrival_time + k) % 2 ^ 32 = (s.current_time + k) % 2 ^ 32
        rw [h1]
      · show (assign_memory s.mem (postpone k p)).1 = false
        unfold assign_memory at h2 ⊢
        unfold postpone
        rw [assign_memory_loop_flag]
        exact h2

theorem late_quantum_AB : run_loop tick_RR 2147483620 late_quantum_A = late_quantum_B :=
  run_RR_deferring late_quantum_A (by decide) (by decide) (by decide) (by decide) 2147483620
    (by decide) (by decide)

theorem late_quantum_CD : run_loop tick_RR 2147483621 late_quantum_C = late_quantum_D :=
  run_RR_deferring late_quantum_C (by decide) (by decide) (by decide) (by decide) 2147483621
    (by decide) (by decide)

theorem late_quantum_run : run_loop tick_RR 4294967346 (init late_quantum) = late_quantum_E := by
  have e : (4294967346 : Nat) = 2 + (2147483620 + (1 + (2147483621 + 102))) := by norm_num
  rw [e, run_loop_add, run_loop_add, run_loop_add, run_loop_add]
  show run_loop tick_RR 102 (run_loop tick_RR 2147483621 (run_loop tick_RR 1
    (run_loop tick_RR 2147483620 late_quantum_A))) = late_quantum_E
  rw [late_quantum_AB]
  show run_loop tick_RR 102 (run_loop tick_RR 2147483621 late_quantum_C) = late_quantum_E
  rw [late_quantum_CD]
  rfl

set_option maxRecDepth 100000 in
theorem late_quantum_log :
    late_quantum_E.execution_status =
      [Event.mk 0 1 states.NEW states.READY,
       Event.mk 0 1 states.READY states.RUNNING,
       Event.mk 1 1 states.RUNNING states.WAITING,
       Event.mk 2147483622 1 states.WAITING states.READY,
       Event.mk 2147483622 1 states.READY states.RUNNING,
       Event.mk 2147483623 1 states.RUNNING states.WAITING,
       Event.mk 4294967244 1 states.WAITING states.READY,
       Event.mk 4294967244 1 states.READY states.RUNNING,
       Event.mk 4294967245 1 states.RUNNING states.TERMINATED,
       Event.mk 4294967245 2 states.NEW states.READY,
       Event.mk 4294967245 2 states.READY states.RUNNING,
       Event.mk 49 2 states.RUNNING states.READY,
       Event.mk 49 2 states.READY states.RUNNING] := by
  decide

/-- Counterexample to C19 as stated: on the input lines
`1, 40, 0, 3, 1, 2147483621` and `2, 40, 2, 150, 0, 0` process 2 is admitted
when process 1 terminates, at tick 4294967245, and is dispatched at once.  It
runs for a quantum, during which the clock wraps, and its row
RUNNING -> READY carries the tick 49, which is not `4294967245 + 100`. -/
theorem preempted_after_the_wrap :
    (run_loop tick_RR 4294967346 (init late_quantum)).execution_status =
      [Event.mk 0 1 states.NEW states.READY,
       Event.mk 0 1 states.READY states.RUNNING,
       Event.mk 1 1 states.RUNNING states.WAITING,
       Event.mk 2147483622 1 states.WAITING states.READY,
       Event.mk 2147483622 1 states.READY states.RUNNING,
       Event.mk 2147483623 1 states.RUNNING states.WAITING,
       Event.mk 4294967244 1 states.WAITING states.READY,
       Event.mk 4294967244 1 states.READY states.RUNNING,
       Event.mk 4294967245 1 states.RUNNING states.TERMINATED,
       Event.mk 4294967245 2 states.NEW states.READY,
       Event.mk 4294967245 2 states.READY states.RUNNING,
       Event.mk 49 2 states.RUNNING states.READY,
       Event.mk 49 2 states.READY states.RUNNING] ∧
    (late_quantum.map (fun p => p.PID)).Nodup ∧
    (49 : Nat) ≠ 4294967245 + 100 ∧
    ¬ preempted_after_quantum
      (rows_of 2 (run_loop tick_RR 4294967346 (init late_quantum)).execution_status) := by
  rw [late_quantum_run, late_quantum_log]
  refine ⟨rfl, by decide, by decide, fun hc => ?_⟩
  obtain ⟨a, -, h4, -, -, h7⟩ := hc 2 (Event.mk 49 2 states.RUNNING states.READY) rfl rfl rfl
  have h5 : some (Event.mk 4294967245 2 states.READY states.RUNNING) = some a := h4
  rw [← Option.some.inj h5] at h7
  exact absurd h7 (by decide)

/-! ## The order of the dispatches of the round-robin engine -/

theorem dispatch_RR_of_not_vacant (s : SimState) (h : ¬ vacant s) : dispatch_RR s = s := by
  unfold dispatch_RR
  rw [if_neg (fun hc => h hc.1)]

theorem at_dispatch_RR_ready (x : SimState) :
    ∃ added, (at_dispatch_RR x).ready_queue = x.ready_queue ++ added :=
  RR_before_dispatch_ready x

/-- One iteration, seen from the front `f` of the ready queue: the records the
sweeps and the quantum check insert go behind the queue; then either the slot
is not vacant and the queue stays, or the dispatch takes `f`. -/
theorem tick_RR_front (x : SimState) (f : PCB) (q : List PCB) (hq : x.ready_queue = f :: q) :
    ∃ added, (at_dispatch_RR x).ready_queue = f :: (q ++ added) ∧
      ((¬ vacant (at_dispatch_RR x) ∧ dispatch_RR (at_dispatch_RR x) = at_dispatch_RR x ∧
          (tick_RR x).ready_queue = f :: (q ++ added)) ∨
        (loop_cond x = true → dispatches_front x f (q ++ added))) := by
  obtain ⟨added, h⟩ := at_dispatch_RR_ready x
  rw [hq] at h
  have h2 : (at_dispatch_RR x).ready_queue = f :: (q ++ added) := h
  refine ⟨added, h2, ?_⟩
  by_cases hv : vacant (at_dispatch_RR x)
  · right
    intro hc
    have hfire := dispatch_RR_fires (at_dispatch_RR x) hv f (q ++ added) h2
    refine ⟨hc, hv, h2, hfire, RR_before_dispatch_time x, ?_⟩
    rw [tick_RR_ready]
    show (dispatch_RR (at_dispatch_RR x)).ready_queue = _
    rw [hfire]
  · left
    have hd := dispatch_RR_of_not_vacant _ hv
    refine ⟨hv, hd, ?_⟩
    rw [tick_RR_ready]
    show (dispatch_RR (at_dispatch_RR x)).ready_queue = _
    rw [hd, h2]

theorem run_loop_stop (tick : SimState → SimState) (s : SimState)
    (hc : loop_cond s = false) (k : Nat) : run_loop tick k s = s := by
  cases k with
  | zero => rfl
  | succ k =>
    rw [run_loop, if_neg (by rw [hc]; exact Bool.false_ne_true)]

/-- One iteration keeps `A` queued in front of `rest`, or dispatches it. -/
theorem queued_step (s : SimState) (l1 : List PCB) (A : PCB) (rest : List PCB) (k : Nat)
    (h : queued s l1 A rest k) :
    queued s l1 A rest (k + 1) ∨
    ∃ added, dispatches_front (run_loop tick_RR k s) A (rest ++ added) := by
  obtain ⟨l0, l1', added, hl, hk⟩ := h
  by_cases hc : loop_cond (run_loop tick_RR k s) = true
  · have hnext : run_loop tick_RR (k + 1) s = tick_RR (run_loop tick_RR k s) := by
      rw [run_loop_succ, if_pos hc]
    cases l1' with
    | nil =>
      have hk2 : (run_loop tick_RR k s).ready_queue = A :: (rest ++ added) := hk
      obtain ⟨add2, -, hcase⟩ := tick_RR_front _ A (rest ++ added) hk2
      rcases hcase with ⟨-, -, h3⟩ | h3
      · left
        refine ⟨l0, [], added ++ add2, hl, ?_⟩
        rw [hnext, h3, List.append_assoc]
        rfl
      · right
        refine ⟨added ++ add2, ?_⟩
        rw [← List.append_assoc]
        exact h3 hc
    | cons y ys =>
      have hk2 : (run_loop tick_RR k s).ready_queue = y :: (ys ++ A :: (rest ++ added)) := hk
      obtain ⟨add2, -, hcase⟩ := tick_RR_front _ y (ys ++ A :: (rest ++ added)) hk2
      left
      rcases hcase with ⟨-, -, h3⟩ | h3
      · refine ⟨l0, y :: ys, added ++ add2, hl, ?_⟩
        rw [hnext, h3]
        simp only [List.append_assoc, List.cons_append]
      · refine ⟨l0 ++ [y], ys, added ++ add2, by rw [hl]; simp, ?_⟩
        rw [hnext, (h3 hc).2.2.2.2.2]
        simp only [List.append_assoc, List.cons_append]
  · left
    have hc2 : loop_cond (run_loop tick_RR k s) = false := by
      cases h : loop_cond (run_loop tick_RR k s)
      · rfl
      · exact absurd h hc
    refine ⟨l0, l1', added, hl, ?_⟩
    rw [run_loop_succ, if_neg hc]
    exact hk

theorem queued_zero (s : SimState) (l1 : List PCB) (A : PCB) (rest : List PCB)
    (hq : s.ready_queue = l1 ++ A :: rest) : queued s l1 A rest 0 :=
  ⟨[], l1, [], rfl, by rw [List.append_nil]; exact hq⟩

/-- The order is kept in every state, reachable or not. -/
theorem fifo_kept_of (s : SimState) (l1 : List PCB) (A : PCB) (rest : List PCB)
    (hq : s.ready_queue = l1 ++ A :: rest) (k : Nat) : fifo_kept s l1 A rest k := by
  induction k with
  | zero =>
    left
    intro i hi
    have : i = 0 := by omega
    rw [this]
    exact queued_zero s l1 A rest hq
  | succ k ih =>
    rcases ih with h | ⟨j, added, hj, h1, h2⟩
    · rcases queued_step s l1 A rest k (h k (Nat.le_refl k)) with h3 | ⟨added, h3⟩
      · left
        intro i hi
        by_cases hik : i ≤ k
        · exact h i hik
        · have : i = k + 1 := by omega
          rw [this]
          exact h3
      · exact Or.inr ⟨k, added, Nat.lt_succ_self k, h, h3⟩
    · exact Or.inr ⟨j, added, Nat.lt_succ_of_lt hj, h1, h2⟩

theorem Slot_step {pg : SimState → Prop} {q : Bool} (s s2 : SimState) (hS : Slot s)
    (h : Step pg q s s2) : Slot s2 := by
  cases h with
  | woken a b p h hd => exact hS
  | arrived a b p h ha hok => exact hS
  | deferred a b p h ha hno => exact hS
  | reordered r hr => exact hS
  | preempted hr hg => exact Or.inr rfl
  | dispatched a b p c h hv hc => exact Or.inl rfl
  | finished c hr h0 hw => exact Or.inr rfl
  | blocked c hr h0 hio hw => exact Or.inr rfl
  | worked c hr h0 hio hw hc => exact Or.inl hr
  | idled hr hw => exact hS

theorem Slot_run (l : List PCB) (n : Nat) : Slot (run_loop tick_RR n (init l)) :=
  Steps_invariant Slot Slot_step (Or.inr rfl) (Steps_run_RR l n)

/-- While a process is ready the loop goes on, if the ids are pairwise
distinct. -/
theorem loop_goes_on (l : List PCB) (hl : (l.map (fun p => p.PID)).Nodup) (n : Nat)
    (f : PCB) (hf : f ∈ (run_loop tick_RR n (init l)).ready_queue) :
    loop_cond (run_loop tick_RR n (init l)) = true := by
  have hL : Life true (run_loop tick_RR n (init l)) :=
    Life_Steps true (Or.inl rfl) (Life_init true l hl) (Steps_run_RR l n)
  cases hc : loop_cond (run_loop tick_RR n (init l)) with
  | true => rfl
  | false =>
    exact absurd (List.mem_map_of_mem (fun p : PCB => p.PID) (mem_pool_ready hf))
      (Life_pool_end hL hc f.PID)

/-- When the slot is not vacant at the dispatch step, the process in it has
run for less than a quantum, and the iteration brings the end of its quantum
nearer. -/
theorem slot_left_lt (x : SimState) (hS : Slot x) (hv : ¬ vacant (at_dispatch_RR x)) :
    slot_left (tick_RR x) < slot_left x := by
  obtain ⟨-, -, h3, h4⟩ := sweeps_keep x
  have hpre : at_dispatch_RR x = admission (manage_wait_queue x) ∧
      x.running.state = states.RUNNING ∧ x.time_slice_counter < 100 := by
    rcases preempt_RR_cases (admission (manage_wait_queue x)) with h | ⟨-, -, h⟩
    · have hr : x.running.state = states.RUNNING := by
        rcases hS with hr | hr
        · exact hr
        · exfalso
          apply hv
          unfold at_dispatch_RR
          rw [h]
          left
          rw [h4]
          exact hr
      refine ⟨h, hr, ?_⟩
      by_contra hc
      have hfire := preempt_RR_fires (admission (manage_wait_queue x))
        (by rw [h4]; exact hr) (by rw [h3]; unfold TIME_QUANTUM; omega)
      have hq : (admission (manage_wait_queue x)).ready_queue =
          (admission (manage_wait_queue x)).ready_queue ++
            [to_ready (admission (manage_wait_queue x)).running] := by
        have := hfire.1
        rw [h] at this
        exact this
      have hlen := congrArg List.length hq
      rw [List.length_append, List.length_singleton] at hlen
      omega
    · exfalso
      apply hv
      unfold at_dispatch_RR
      rw [h]
      exact Or.inl rfl
  obtain ⟨hpre1, hr, hc⟩ := hpre
  have hd := dispatch_RR_of_not_vacant _ hv
  have hrun : (at_dispatch_RR x).running.state = states.RUNNING := by
    rw [hpre1, h4]
    exact hr
  have hcnt : (at_dispatch_RR x).time_slice_counter = x.time_slice_counter := by
    rw [hpre1, h3]
  have e1 : slot_left x = 101 - x.time_slice_counter := by
    unfold slot_left
    rw [if_pos hr]
  have hfields : (tick_RR x).running = (execute_RR (at_dispatch_RR x)).running ∧
      (tick_RR x).time_slice_counter = (execute_RR (at_dispatch_RR x)).time_slice_counter := by
    have : tick_RR x = { execute_RR (dispatch_RR (at_dispatch_RR x)) with
        current_time := (x.current_time + 1) % 2 ^ 32 } := rfl
    rw [this, hd]
    exact ⟨rfl, rfl⟩
  rw [e1]
  unfold slot_left
  rw [hfields.1, hfields.2]
  rcases execute_RR_cases (at_dispatch_RR x) with ⟨hn, -⟩ | ⟨-, -, h⟩ | ⟨-, -, -, h⟩ |
    ⟨-, -, -, h⟩
  · exact absurd hrun hn
  · have hst : (execute_RR (at_dispatch_RR x)).running.state ≠ states.RUNNING := by
      rw [h]
      exact idle_not_running
    rw [if_neg hst]
    omega
  · have hst : (execute_RR (at_dispatch_RR x)).running.state ≠ states.RUNNING := by
      rw [h]
      exact idle_not_running
    rw [if_neg hst]
    omega
  · have hst : (execute_RR (at_dispatch_RR x)).running.state = states.RUNNING := by
      rw [h]
      exact hrun
    have hct : (execute_RR (at_dispatch_RR x)).time_slice_counter =
        ((at_dispatch_RR x).time_slice_counter + 1) % 2 ^ 32 := by
      rw [h]
    rw [if_pos hst, hct, hcnt, Nat.mod_eq_of_lt (by omega)]
    omega

/-- The front of the ready queue is dispatched, at the latest when the quantum
of the running process ends. -/
theorem front_dispatched (l : List PCB) (hl : (l.map (fun p => p.PID)).Nodup) (c : Nat) :
    ∀ (n : Nat) (f : PCB) (q : List PCB),
      slot_left (run_loop tick_RR n (init l)) ≤ c →
      (run_loop tick_RR n (init l)).ready_queue = f :: q →
      ∃ j added,
        (∀ i, i ≤ j → ∃ a, (run_loop tick_RR (n + i) (init l)).ready_queue = f :: (q ++ a)) ∧
        dispatches_front (run_loop tick_RR (n + j) (init l)) f (q ++ added) := by
  induction c with
  | zero =>
    intro n f q hc hq
    have hloop := loop_goes_on l hl n f (by rw [hq]; exact List.mem_cons_self _ _)
    obtain ⟨added, -, hcase⟩ := tick_RR_front _ f q hq
    rcases hcase with ⟨hv, -, -⟩ | h3
    · have := slot_left_lt _ (Slot_run l n) hv
      omega
    · refine ⟨0, added, fun i hi => ⟨[], ?_⟩, h3 hloop⟩
      have : i = 0 := by omega
      rw [this, List.append_nil]
      exact hq
  | succ c ih =>
    intro n f q hc hq
    have hloop := loop_goes_on l hl n f (by rw [hq]; exact List.mem_cons_self _ _)
    obtain ⟨added, -, hcase⟩ := tick_RR_front _ f q hq
    rcases hcase with ⟨hv, -, h3⟩ | h3
    · have hlt := slot_left_lt _ (Slot_run l n) hv
      have hnext : run_loop tick_RR (n + 1) (init l) =
          tick_RR (run_loop tick_RR n (init l)) := by
        rw [run_loop_succ, if_pos hloop]
      obtain ⟨j, add2, h4, h5⟩ := ih (n + 1) f (q ++ added)
        (by rw [hnext]; omega) (by rw [hnext]; exact h3)
      refine ⟨j + 1, added ++ add2, fun i hi => ?_, ?_⟩
      · cases i with
        | zero => exact ⟨[], by rw [List.append_nil]; exact hq⟩
        | succ i =>
          obtain ⟨a, ha⟩ := h4 i (by omega)
          refine ⟨added ++ a, ?_⟩
          rw [← List.append_assoc, ← ha]
          congr 2
          omega
      · rw [← List.append_assoc]
        have e : n + (j + 1) = n + 1 + j := by omega
        rw [e]
        exact h5
    · refine ⟨0, added, fun i hi => ⟨[], ?_⟩, h3 hloop⟩
      have : i = 0 := by omega
      rw [this, List.append_nil]
      exact hq

/-- A record of the ready queue is dispatched from the front of the queue, and
until then it stays queued in front of the records behind it. -/
theorem queued_dispatched (l : List PCB) (hl : (l.map (fun p => p.PID)).Nodup) :
    ∀ (l1 : List PCB) (n : Nat) (A : PCB) (rest : List PCB),
      (run_loop tick_RR n (init l)).ready_queue = l1 ++ A :: rest →
      ∃ j added,
        (∀ i, i ≤ j → ∃ l0 l1' a, l1 = l0 ++ l1' ∧
          (run_loop tick_RR (n + i) (init l)).ready_queue = l1' ++ A :: (rest ++ a)) ∧
        dispatches_front (run_loop tick_RR (n + j) (init l)) A (rest ++ added) := by
  intro l1
  induction l1 with
  | nil =>
    intro n A rest hq
    obtain ⟨j, added, h4, h5⟩ := front_dispatched l hl _ n A rest (Nat.le_refl _) hq
    refine ⟨j, added, fun i hi => ?_, h5⟩
    obtain ⟨a, ha⟩ := h4 i hi
    exact ⟨[], [], a, rfl, ha⟩
  | cons y ys ih =>
    intro n A rest hq
    obtain ⟨j0, add0, h4, h5⟩ :=
      front_dispatched l hl _ n y (ys ++ A :: rest) (Nat.le_refl _) hq
    have hnext : run_loop tick_RR (n + j0 + 1) (init l) =
        tick_RR (run_loop tick_RR (n + j0) (init l)) := by
      rw [run_loop_succ, if_pos h5.1]
    have hq1 : (run_loop tick_RR (n + j0 + 1) (init l)).ready_queue =
        ys ++ A :: (rest ++ add0) := by
      rw [hnext, h5.2.2.2.2.2]
      simp only [List.append_assoc, List.cons_append]
    obtain ⟨j1, add1, h6, h7⟩ := ih (n + j0 + 1) A (rest ++ add0) hq1
    refine ⟨j0 + 1 + j1, add0 ++ add1, fun i hi => ?_, ?_⟩
    · by_cases hi0 : i ≤ j0
      · obtain ⟨a, ha⟩ := h4 i hi0
        refine ⟨[], y :: ys, a, rfl, ?_⟩
        rw [ha]
        simp only [List.append_assoc, List.cons_append]
      · obtain ⟨l0, l1', a, hl1, ha⟩ := h6 (i - (j0 + 1)) (by omega)
        refine ⟨y :: l0, l1', add0 ++ a, by rw [hl1]; rfl, ?_⟩
        have e : n + i = n + j0 + 1 + (i - (j0 + 1)) := by omega
        rw [e, ha, List.append_assoc]
    · have e : n + (j0 + 1 + j1) = n + j0 + 1 + j1 := by omega
      rw [e, ← List.append_assoc]
      exact h7

/-- In a run on an input with pairwise distinct ids, two records of the ready
queue are dispatched in the order in which they stand in the queue. -/
theorem dispatched_in_order_of (l : List PCB) (hl : (l.map (fun p => p.PID)).Nodup)
    (n : Nat) (l1 : List PCB) (A : PCB) (l2 : List PCB) (B : PCB) (l3 : List PCB)
    (hq : (run_loop tick_RR n (init l)).ready_queue = l1 ++ A :: (l2 ++ B :: l3)) :
    dispatched_in_order (run_loop tick_RR n (init l)) l1 A l2 B l3 := by
  obtain ⟨j, added, h1, h2⟩ := queued_dispatched l hl l1 n A (l2 ++ B :: l3) hq
  have hnext : run_loop tick_RR (n + j + 1) (init l) =
      tick_RR (run_loop tick_RR (n + j) (init l)) := by
    rw [run_loop_succ, if_pos h2.1]
  have hq1 : (run_loop tick_RR (n + j + 1) (init l)).ready_queue =
      l2 ++ B :: (l3 ++ added) := by
    rw [hnext, h2.2.2.2.2.2]
    simp only [List.append_assoc, List.cons_append]
  obtain ⟨j1, added1, h3, h4⟩ := queued_dispatched l hl l2 (n + j + 1) B (l3 ++ added) hq1
  refine ⟨j, j + 1 + j1, added, added ++ added1, by omega, fun i hi => ?_, ?_, fun i hi1 hi2 => ?_,
    ?_⟩
  · obtain ⟨l0, l1', a, hl1, ha⟩ := h1 i hi
    refine ⟨l0, l1', a, hl1, ?_⟩
    rw [← run_loop_add]
    exact ha
  · rw [← run_loop_add]
    exact h2
  · obtain ⟨l0, l2', a, hl2, ha⟩ := h3 (i - (j + 1)) (by omega)
    refine ⟨l0, l2', added ++ a, hl2, ?_⟩
    rw [← run_loop_add]
    have e : n + i = n + j + 1 + (i - (j + 1)) := by omega
    rw [e, ha, List.append_assoc]
  · rw [← run_loop_add, ← List.append_assoc]
    have e : n + (j + 1 + j1) = n + j + 1 + j1 := by omega
    rw [e]
    exact h4

/-- A record that is in the ready queue at the head of an iteration is in the
queue at the dispatch step of the iteration, which the loop runs. -/
theorem queued_at_of_start (l : List PCB) (hl : (l.map (fun p => p.PID)).Nodup) (n : Nat)
    (l1' : List PCB) (A : PCB) (q : List PCB)
    (hq : (run_loop tick_RR n (init l)).ready_queue = l1' ++ A :: q) :
    loop_cond (run_loop tick_RR n (init l)) = true ∧
    ∃ add, (at_dispatch_RR (run_loop tick_RR n (init l))).ready_queue =
      l1' ++ A :: (q ++ add) := by
  refine ⟨loop_goes_on l hl n A (by rw [hq]; exact mem_split_self l1' q A), ?_⟩
  obtain ⟨add, h⟩ := at_dispatch_RR_ready (run_loop tick_RR n (init l))
  refine ⟨add, ?_⟩
  rw [h, hq, List.append_assoc]
  rfl

theorem at_dispatch_fires (x : SimState) (f : PCB) (q : List PCB) (hc : loop_cond x = true)
    (hv : vacant (at_dispatch_RR x)) (hq : (at_dispatch_RR x).ready_queue = f :: q) :
    dispatches_front x f q := by
  have hfire := dispatch_RR_fires (at_dispatch_RR x) hv f q hq
  refine ⟨hc, hv, hq, hfire, RR_before_dispatch_time x, ?_⟩
  rw [tick_RR_ready]
  show (dispatch_RR (at_dispatch_RR x)).ready_queue = _
  rw [hfire]

/-- A record that is in the ready queue at the dispatch step of an iteration
is dispatched from the front of the queue, in this iteration or a later one,
and until then it is queued in front of the records behind it. -/
theorem queued_at_dispatched (l : List PCB) (hl : (l.map (fun p => p.PID)).Nodup)
    (n : Nat) (hc : loop_cond (run_loop tick_RR n (init l)) = true)
    (l1 : List PCB) (A : PCB) (rest : List PCB)
    (hq : (at_dispatch_RR (run_loop tick_RR n (init l))).ready_queue = l1 ++ A :: rest) :
    ∃ j added,
      (∀ i, i ≤ j → loop_cond (run_loop tick_RR (n + i) (init l)) = true ∧
        ∃ l0 l1' a, l1 = l0 ++ l1' ∧
          (at_dispatch_RR (run_loop tick_RR (n + i) (init l))).ready_queue =
            l1' ++ A :: (rest ++ a)) ∧
      dispatches_front (run_loop tick_RR (n + j) (init l)) A (rest ++ added) := by
  have hnext : run_loop tick_RR (n + 1) (init l) =
      tick_RR (run_loop tick_RR n (init l)) := by
    rw [run_loop_succ, if_pos hc]
  have hzero : loop_cond (run_loop tick_RR (n + 0) (init l)) = true ∧
      ∃ l0 l1' a, l1 = l0 ++ l1' ∧
        (at_dispatch_RR (run_loop tick_RR (n + 0) (init l))).ready_queue =
          l1' ++ A :: (rest ++ a) :=
    ⟨hc, [], l1, [], rfl, by rw [List.append_nil]; exact hq⟩
  -- the rest of the way, from the head of the next iteration
  have hlater : ∀ (l0 l1' : List PCB), l1 = l0 ++ l1' →
      (run_loop tick_RR (n + 1) (init l)).ready_queue = l1' ++ A :: rest →
      ∃ j added,
        (∀ i, i ≤ j → loop_cond (run_loop tick_RR (n + i) (init l)) = true ∧
          ∃ l0 l1' a, l1 = l0 ++ l1' ∧
            (at_dispatch_RR (run_loop tick_RR (n + i) (init l))).ready_queue =
              l1' ++ A :: (rest ++ a)) ∧
        dispatches_front (run_loop tick_RR (n + j) (init l)) A (rest ++ added) := by
    intro l0 l1' hl1 hq1
    obtain ⟨j1, added, h1, h2⟩ := queued_dispatched l hl l1' (n + 1) A rest hq1
    refine ⟨j1 + 1, added, fun i hi => ?_, ?_⟩
    · cases i with
      | zero => exact hzero
      | succ i =>
        obtain ⟨m0, m1, a, hm, ha⟩ := h1 i (by omega)
        have e : n + (i + 1) = n + 1 + i := by omega
        rw [e]
        obtain ⟨h3, add, h4⟩ := queued_at_of_start l hl (n + 1 + i) m1 A (rest ++ a) ha
        refine ⟨h3, l0 ++ m0, m1, a ++ add, by rw [hl1, hm, List.append_assoc], ?_⟩
        rw [h4, List.append_assoc]
    · have e : n + (j1 + 1) = n + 1 + j1 := by omega
      rw [e]
      exact h2
  by_cases hv : vacant (at_dispatch_RR (run_loop tick_RR n (init l)))
  · cases l1 with
    | nil =>
      refine ⟨0, [], fun i hi => ?_, ?_⟩
      · have : i = 0 := by omega
        rw [this]
        exact hzero
      · rw [List.append_nil]
        exact at_dispatch_fires _ A rest hc hv hq
    | cons y ys =>
      have hd := at_dispatch_fires _ y (ys ++ A :: rest) hc hv hq
      refine hlater [y] ys rfl ?_
      rw [hnext]
      exact hd.2.2.2.2.2
  · refine hlater [] l1 rfl ?_
    rw [hnext, tick_RR_ready]
    show (dispatch_RR (at_dispatch_RR (run_loop tick_RR n (init l)))).ready_queue = _
    rw [dispatch_RR_of_not_vacant _ hv]
    exact hq

/-- In a run on an input with pairwise distinct ids, two records that are in
the ready queue at the dispatch step of an iteration are dispatched in the
order in which they stand in the queue. -/
theorem dispatched_in_order_at_of (l : List PCB) (hl : (l.map (fun p => p.PID)).Nodup)
    (n : Nat) (hc : loop_cond (run_loop tick_RR n (init l)) = true)
    (l1 : List PCB) (A : PCB) (l2 : List PCB) (B : PCB) (l3 : List PCB)
    (hq : (at_dispatch_RR (run_loop tick_RR n (init l))).ready_queue =
      l1 ++ A :: (l2 ++ B :: l3)) :
    dispatched_in_order_at (run_loop tick_RR n (init l)) l1 A l2 B l3 := by
  obtain ⟨j, added, h1, h2⟩ := queued_at_dispatched l hl n hc l1 A (l2 ++ B :: l3) hq
  have hnext : run_loop tick_RR (n + j + 1) (init l) =
      tick_RR (run_loop tick_RR (n + j) (init l)) := by
    rw [run_loop_succ, if_pos h2.1]
  have hq1 : (run_loop tick_RR (n + j + 1) (init l)).ready_queue =
      l2 ++ B :: (l3 ++ added) := by
    rw [hnext, h2.2.2.2.2.2]
    simp only [List.append_assoc, List.cons_append]
  obtain ⟨j1, added1, h3, h4⟩ := queued_dispatched l hl l2 (n + j + 1) B (l3 ++ added) hq1
  refine ⟨j, j + 1 + j1, added, added ++ added1, by omega, fun i hi => ?_, ?_,
    fun i hi1 hi2 => ?_, ?_⟩
  · obtain ⟨h5, l0, l1', a, hl1, ha⟩ := h1 i hi
    refine ⟨?_, l0, l1', a, hl1, ?_⟩
    · rw [← run_loop_add]
      exact h5
    · rw [← run_loop_add]
      exact ha
  · rw [← run_loop_add]
    exact h2
  · obtain ⟨l0, l2', a, hl2, ha⟩ := h3 (i - (j + 1)) (by omega)
    have e : n + i = n + j + 1 + (i - (j + 1)) := by omega
    obtain ⟨h5, add, h6⟩ :=
      queued_at_of_start l hl (n + j + 1 + (i - (j + 1))) l2' B ((l3 ++ added) ++ a) ha
    refine ⟨?_, l0, l2', added ++ (a ++ add), hl2, ?_⟩
    · rw [← run_loop_add, e]
      exact h5
    · rw [← run_loop_add, e, h6]
      simp only [List.append_assoc]
  · rw [← run_loop_add, ← List.append_assoc]
    have e : n + (j + 1 + j1) = n + j + 1 + j1 := by omega
    rw [e]
    exact h4

/-- C9 (as amended): in the round-robin engine the ready queue is a strict
FIFO.  In every state, each of the three insertions (I/O completion,
admission, quantum preemption) appends at the back, the dispatch takes the
front and runs it whenever the slot is vacant and the queue is not empty, and
changes nothing otherwise, and the execution step leaves the queue alone.
Hence, from every state in which `A` stands before `B` in the ready queue,
after any number `k` of iterations either `A` is still queued in front of `B`
or an earlier iteration has dispatched `A` from the front while `B` was queued
behind it.  In a run on an input with pairwise distinct ids, if `A` stands
before `B` in the ready queue, at the head of an iteration or at its dispatch
step, then `A` is dispatched and, in a later iteration, `B` is dispatched. -/
theorem RR_ready_queue_fifo (s : SimState) :
    (manage_wait_queue s).ready_queue =
      s.ready_queue ++ (s.wait_queue.filter (fun p => io_done s.current_time p)).map wake ∧
    (admission s).ready_queue =
      s.ready_queue ++
        (admission_result s.current_time s.mem s.list_processes).1.map (fun x => x.1) ∧
    (s.running.state = states.RUNNING → s.time_slice_counter ≥ TIME_QUANTUM →
      (preempt_RR s).ready_queue = s.ready_queue ++ [to_ready s.running]) ∧
    (¬ (s.running.state = states.RUNNING ∧ s.time_slice_counter ≥ TIME_QUANTUM) →
      preempt_RR s = s) ∧
    (∀ (p : PCB) (rest : List PCB), vacant s → s.ready_queue = p :: rest →
      dispatch_RR s =
        { s with running := to_run s.current_time p,
                 ready_queue := rest,
                 job_list := sync_queue s.job_list (to_run s.current_time p),
                 time_slice_counter := 0,
                 execution_status := s.execution_status ++
                   [Event.mk s.current_time p.PID states.READY states.RUNNING] }) ∧
    (¬ vacant s ∨ s.ready_queue = [] → dispatch_RR s = s) ∧
    (execute_RR s).ready_queue = s.ready_queue ∧
    (∀ (l1 : List PCB) (A : PCB) (l2 : List PCB) (B : PCB) (l3 : List PCB),
      s.ready_queue = l1 ++ A :: (l2 ++ B :: l3) →
      ∀ k : Nat, fifo_kept s l1 A (l2 ++ B :: l3) k) ∧
    (∀ (l : List PCB) (n : Nat), (l.map (fun p => p.PID)).Nodup →
      s = run_loop tick_RR n (init l) →
      ∀ (l1 : List PCB) (A : PCB) (l2 : List PCB) (B : PCB) (l3 : List PCB),
        (s.ready_queue = l1 ++ A :: (l2 ++ B :: l3) →
          dispatched_in_order s l1 A l2 B l3) ∧
        (loop_cond s = true →
          (at_dispatch_RR s).ready_queue = l1 ++ A :: (l2 ++ B :: l3) →
          dispatched_in_order_at s l1 A l2 B l3)) := by
  refine ⟨?_, ?_, ?_, preempt_RR_idle s, ?_, ?_, execute_RR_ready s, ?_, ?_⟩
  · rw [manage_wait_queue_eq]
  · rw [admission_eq]
  · intro hr hc
    exact (preempt_RR_fires s hr hc).1
  · intro p rest hv hq
    exact dispatch_RR_fires s hv p rest hq
  · intro h
    rcases h with h | h
    · exact dispatch_RR_of_not_vacant s h
    · exact dispatch_RR_of_empty s h
  · intro l1 A l2 B l3 hq k
    exact fifo_kept_of s l1 A (l2 ++ B :: l3) hq k
  · intro l n hl hs l1 A l2 B l3
    rw [hs]
    exact ⟨dispatched_in_order_of l hl n l1 A l2 B l3,
      fun hc hq => dispatched_in_order_at_of l hl n hc l1 A l2 B l3 hq⟩

/-- Witness of `RR_ready_queue_fifo`: in the sample state, with 3, 1 and 2
ready in this order and the slot vacant, the dispatch takes process 3; and in
the run on the three input lines with the ids 3, 1 and 2, after the first
iteration, 1 stands before 2 in the ready queue, and 1 and then 2 are
dispatched; at the dispatch step of the first iteration 3 stands before 1, and
3 and then 1 are dispatched. -/
theorem RR_ready_queue_fifo_witness :
    vacant sample_ready_state ∧
    sample_ready_state.ready_queue = sample_p3 :: [sample_p1, sample_p2] ∧
    dispatch_RR sample_ready_state =
      { sample_ready_state with
        running := to_run sample_ready_state.current_time sample_p3,
        ready_queue := [sample_p1, sample_p2],
        job_list := sync_queue sample_ready_state.job_list
          (to_run sample_ready_state.current_time sample_p3),
        time_slice_counter := 0,
        execution_status := sample_ready_state.execution_status ++
          [Event.mk sample_ready_state.current_time sample_p3.PID
            states.READY states.RUNNING] } ∧
    ([add_process 3 5 0 4 0 0, add_process 1 9 0 4 0 0, add_process 2 1 0 4 0 0].map
      (fun p => p.PID)).Nodup ∧
    (run_loop tick_RR 1 (init [add_process 3 5 0 4 0 0, add_process 1 9 0 4 0 0,
      add_process 2 1 0 4 0 0])).ready_queue = [] ++ sample_p1 :: ([] ++ sample_p2 :: []) ∧
    dispatched_in_order
      (run_loop tick_RR 1 (init [add_process 3 5 0 4 0 0, add_process 1 9 0 4 0 0,
        add_process 2 1 0 4 0 0])) [] sample_p1 [] sample_p2 [] ∧
    (at_dispatch_RR (init [add_process 3 5 0 4 0 0, add_process 1 9 0 4 0 0,
      add_process 2 1 0 4 0 0])).ready_queue = [] ++ sample_p3 :: ([] ++ sample_p1 ::
        [sample_p2]) ∧
    dispatched_in_order_at
      (init [add_process 3 5 0 4 0 0, add_process 1 9 0 4 0 0, add_process 2 1 0 4 0 0])
      [] sample_p3 [] sample_p1 [sample_p2] :=
  ⟨Or.inl rfl, rfl,
   (RR_ready_queue_fifo sample_ready_state).2.2.2.2.1 sample_p3 [sample_p1, sample_p2]
     (Or.inl rfl) rfl,
   by decide, by decide,
   ((RR_ready_queue_fifo (run_loop tick_RR 1 (init [add_process 3 5 0 4 0 0,
      add_process 1 9 0 4 0 0, add_process 2 1 0 4 0 0]))).2.2.2.2.2.2.2.2
     [add_process 3 5 0 4 0 0, add_process 1 9 0 4 0 0, add_process 2 1 0 4 0 0] 1
     (by decide) rfl [] sample_p1 [] sample_p2 []).1 (by decide),
   by decide,
   ((RR_ready_queue_fifo (init [add_process 3 5 0 4 0 0,
      add_process 1 9 0 4 0 0, add_process 2 1 0 4 0 0])).2.2.2.2.2.2.2.2
     [add_process 3 5 0 4 0 0, add_process 1 9 0 4 0 0, add_process 2 1 0 4 0 0] 0
     (by decide) rfl [] sample_p3 [] sample_p1 [sample_p2]).2 (by decide) (by decide)⟩

/-- Counterexample to C9 as stated: the three input lines of `same_id` carry
the id 1.  All three are admitted at tick 0 and the first is dispatched; when
it terminates, `sync_queue` marks every job-list entry with the id 1 as
TERMINATED, and the loop ends after one iteration.  The second and the third
process are in the ready queue, in this order, and neither is ever
dispatched. -/
theorem same_id_never_dispatched :
    (run_loop tick_RR 1 (init same_id)).ready_queue =
      [] ++ { add_process 1 8 0 5 0 0 with state := states.READY, partition_number := 5 } ::
        ([] ++ { add_process 1 2 0 5 0 0 with state := states.READY, partition_number := 6 } ::
          []) ∧
    loop_cond (run_loop tick_RR 1 (init same_id)) = false ∧
    (∀ k, run_loop tick_RR k (run_loop tick_RR 1 (init same_id)) =
      run_loop tick_RR 1 (init same_id)) ∧
    (∀ k, (run_loop tick_RR k (run_loop tick_RR 1 (init same_id))).execution_status =
      [Event.mk 0 1 states.NEW states.READY, Event.mk 0 1 states.NEW states.READY,
       Event.mk 0 1 states.NEW states.READY, Event.mk 0 1 states.READY states.RUNNING,
       Event.mk 1 1 states.RUNNING states.TERMINATED]) ∧
    ¬ dispatched_in_order (run_loop tick_RR 1 (init same_id)) []
      { add_process 1 8 0 5 0 0 with state := states.READY, partition_number := 5 } []
      { add_process 1 2 0 5 0 0 with state := states.READY, partition_number := 6 } [] := by
  have hstop : ∀ k, run_loop tick_RR k (run_loop tick_RR 1 (init same_id)) =
      run_loop tick_RR 1 (init same_id) :=
    fun k => run_loop_stop tick_RR _ (by decide) k
  refine ⟨by decide, by decide, hstop, fun k => ?_, fun hc => ?_⟩
  · rw [hstop k]
    decide
  · obtain ⟨j, j2, a, a2, -, -, h, -, -⟩ := hc
    have h1 := h.1
    rw [hstop j] at h1
    exact absurd h1 (by decide)

end Sim
